import Mathlib

/-!
# Hash_DRBG random number library: embedding and verified properties

A shallow embedding of the C sources `src/entropy.c`, `src/random_hash.c` and
`src/random.c`, followed by theorems about the embedded functions.

Conventions of the embedding.

* C integers are `Nat` or `Int`; where a C variable has a fixed width the
  reduction `% 2 ^ w` is written at the assignment that can exceed it.
* A byte buffer that lives inside a struct is a `List Nat`.  The caller's
  output buffer and the entropy scratch buffer are memories `Mem`, maps from an
  address (resp. an offset) to the byte stored there, so that a store outside
  the intended range is visible.
* A pointer that may be `NULL` is an `Option`; a pointer/length pair
  `(ptr, len)` is an `Option (List Nat)` holding the `len` bytes at `ptr`.
* An out-parameter is passed as its value before the call and returned as its
  value after the call.
* Every C loop whose number of iterations is not bounded by the syntax takes
  a `fuel` argument; `none` means that the loop did not finish within `fuel`
  iterations.
-/

namespace Drbg

/-! ## Constants of `include/random.h`, `include/entropy.h`, `src/random_hash.h` -/

def RANDOM_ERR_NOT_FOUND : Int := 1
def RANDOM_ERR_PARAM_NULL : Int := 12
def RANDOM_ERR_ALLOC : Int := 20
def RANDOM_ERR_TIME : Int := 21
def RANDOM_ERR_ENTROPY : Int := 30
def RANDOM_ERR_RESEED : Int := 31

def RANDOM_METH_FLAG_SMALL : Nat := 0x01

def RANDOM_ID_HASH_DRBG_SHA1 : Nat := 1
def RANDOM_ID_HASH_DRBG_SHA224 : Nat := 2
def RANDOM_ID_HASH_DRBG_SHA256 : Nat := 3
def RANDOM_ID_HASH_DRBG_SHA384 : Nat := 4
def RANDOM_ID_HASH_DRBG_SHA512 : Nat := 5
def RANDOM_ID_HASH_DRBG_SHA512_224 : Nat := 6
def RANDOM_ID_HASH_DRBG_SHA512_256 : Nat := 7

def ENTROPY_FLAG_ONCE : Nat := 0x01
def ENTROPY_FLAG_NO_PREV : Nat := 0x02

def HASH_MAX_DIGEST_LEN : Nat := 64
def RANDOM_HASH_256_SEED_LEN : Nat := 440 / 8
def RANDOM_HASH_512_SEED_LEN : Nat := 888 / 8
def RANDOM_HASH_MAX_SEED_LEN : Nat := 888 / 8

/-! ## Memory and buffers -/

/-- A memory: the byte stored at each address. -/
abbrev Mem := Nat → Nat

/-- The C call `memcpy(dst, src, n)` into a memory, `src` being the `n` bytes copied. -/
def memcpy (m : Mem) (dst : Nat) (src : List Nat) : Mem :=
  fun a => if dst ≤ a ∧ a < dst + src.length then src.getD (a - dst) 0 else m a

/-- The C call `memset(dst, 0, n)` on a memory. -/
def memzero (m : Mem) (dst n : Nat) : Mem :=
  fun a => if dst ≤ a ∧ a < dst + n then 0 else m a

/-- The `n` bytes of a memory starting at address `p`. -/
def readMem (m : Mem) (p n : Nat) : List Nat :=
  (List.range n).map (fun j => m (p + j))

/-- The `n` bytes of a struct buffer starting at index `off`; an index past the
end of the buffer (undefined in C) reads as 0. -/
def bytesOf (buf : List Nat) (off n : Nat) : List Nat :=
  (List.range n).map (fun j => buf.getD (off + j) 0)

/-- Store `src` into a struct buffer from index `off` on; a store past the end of
the buffer (undefined in C) is dropped. -/
def writeAt : List Nat → Nat → List Nat → List Nat
  | buf, _, [] => buf
  | buf, off, b :: bs => writeAt (buf.set off b) (off + 1) bs

/-- The C call `memset(buf + off, 0, n)` on a struct buffer. -/
def zeroAt (buf : List Nat) (off n : Nat) : List Nat :=
  writeAt buf off (List.replicate n 0)

/-! ## The hash capability (`hash.h`, outside the repository) -/

/-- Modelled from the spec: the hash algorithm identifiers of `hash.h`
(`HASH_ID_SHA1` ... `HASH_ID_SHA512_256`), whose numeric values are not part of
the sources. -/
inductive HASH_ID where
  | SHA1 | SHA224 | SHA256 | SHA384 | SHA512 | SHA512_224 | SHA512_256
  deriving DecidableEq, Repr

/-- Modelled from the spec: the streaming hash capability of `hash.h`
(`HASH_new`, `HASH_get_len`, `HASH_init`, `HASH_update`, `HASH_final`), which
the engine only calls.  A value of `Option σ` is a `HASH *`: `none` is `NULL`,
`some s` points to a hash object in state `s`.  Every operation returns its
`int` status first. -/
structure HashCap (σ : Type) where
  /-- `HASH_new(id, flags, &hash)`: status and the pointer left in `hash`. -/
  new : HASH_ID → Int → Option σ → Int × Option σ
  /-- `HASH_get_len(hash, &len)`: status and the value left in `len`, given the
  value of `len` before the call. -/
  get_len : Option σ → Nat → Int × Nat
  /-- `HASH_init(hash)`. -/
  init : Option σ → Int × Option σ
  /-- `HASH_update(hash, data, len)`, the argument being the `len` bytes at `data`. -/
  update : Option σ → List Nat → Int × Option σ
  /-- `HASH_final(hash, out)`: status, hash object, and the bytes stored at `out`. -/
  final : Option σ → Int × Option σ × List Nat

/-! ## The Hash_DRBG engine (`src/random_hash.c`) -/

/-- The struct `RANDOM_HASH` of `src/random_hash.h`. -/
structure RANDOM_HASH (σ : Type) where
  /-- State element v, one extra leading byte for the tag: `1 + 111` bytes. -/
  v : List Nat
  /-- State element c: 111 bytes. -/
  c : List Nat
  /-- Temporary buffer: 111 bytes. -/
  t : List Nat
  /-- Count of generation operations (`uint64_t`). -/
  reseed_cnt : Nat
  /-- Hash object. -/
  hash : Option σ
  /-- Length of the digest output. -/
  hash_len : Nat
  /-- Length of seed for this implementation (`uint16_t`). -/
  seed_len : Nat

/-- A context as `memset(ctx, 0, sizeof(RANDOM_HASH))` leaves it. -/
def RANDOM_HASH_zero (σ : Type) : RANDOM_HASH σ :=
  { v := List.replicate (1 + RANDOM_HASH_MAX_SEED_LEN) 0
    c := List.replicate RANDOM_HASH_MAX_SEED_LEN 0
    t := List.replicate RANDOM_HASH_MAX_SEED_LEN 0
    reseed_cnt := 0
    hash := none
    hash_len := 0
    seed_len := 0 }

section Engine

variable {σ : Type}

/-- The function `hash_data`: hash an optional leading block `pre` and up to three
slots.  Slot 0 is always hashed, slots 1 and 2 when their pointer is non-null.
Returns the status, the hash object, and the digest bytes stored at `out`
(`none` when `HASH_final` was not reached). -/
def hash_data (H : HashCap σ) (hash : Option σ) (pre : Option (List Nat))
    (d0 : List Nat) (d1 d2 : Option (List Nat)) : Int × Option σ × Option (List Nat) :=
  let r0 := H.init hash
  if r0.1 ≠ 0 then (r0.1, r0.2, none) else
  let r1 : Int × Option σ := match pre with
    | some p => H.update r0.2 p
    | none => (r0.1, r0.2)
  if r1.1 ≠ 0 then (r1.1, r1.2, none) else
  let r2 := H.update r1.2 d0
  let r3 := match d1 with
    | some d => H.update r2.2 d
    | none => r2
  if r3.1 ≠ 0 then (r3.1, r3.2, none) else
  let r4 := match d2 with
    | some d => H.update r3.2 d
    | none => r3
  if r4.1 ≠ 0 then (r4.1, r4.2, none) else
  let r5 := H.final r4.2
  (r5.1, r5.2.1, some r5.2.2)

/-- The four bytes `pre[1..4]` of `hash_df`: `(olen * 8) >> (24 - i*8)` for
`i = 0..3`, the product taken in `uint32_t`, each stored in a `uint8_t`. -/
def hash_df_len_bytes (olen : Nat) : List Nat :=
  (List.range 4).map (fun i => (((olen * 8) % 2 ^ 32) >>> (24 - i * 8)) % 256)

/-- The loop `for (i=olen; i>0; i-=hlen,pre[0]++)` of `hash_df`.  `ctr` is
`pre[0]`, `t` the local digest buffer, `out` the bytes stored so far through
the advancing pointer `out`. -/
def hash_df_loop (H : HashCap σ) (hlen : Nat) (lenb : List Nat)
    (d0 : List Nat) (d1 d2 : Option (List Nat)) :
    Nat → Option σ → Nat → List Nat → Int → List Nat → Option (Int × Option σ × List Nat)
  | 0, _, _, _, _, _ => none
  | fuel + 1, hash, ctr, t, i, out =>
    if i > 0 then
      let r := hash_data H hash (some (ctr :: lenb)) d0 d1 d2
      let t1 := match r.2.2 with
        | some d => writeAt t 0 d
        | none => t
      if r.1 ≠ 0 then some (r.1, r.2.1, out) else
      let ol := if (hlen : Int) < i then hlen else i.toNat
      hash_df_loop H hlen lenb d0 d1 d2 fuel r.2.1 ((ctr + 1) % 256) t1 (i - hlen)
        (out ++ bytesOf t1 0 ol)
    else some (0, hash, out)

/-- The function `hash_df`: returns the status, the hash object and the bytes
stored at `out`, in order.  The local buffer `t` is uninitialised in C; it is
taken as zero here and is read only where a digest was stored, whenever the
digest has at least `hlen` bytes. -/
def hash_df (H : HashCap σ) (fuel : Nat) (hash : Option σ) (hlen : Nat)
    (d0 : List Nat) (d1 d2 : Option (List Nat)) (olen : Nat) :
    Option (Int × Option σ × List Nat) :=
  hash_df_loop H hlen (hash_df_len_bytes olen) d0 d1 d2 fuel hash 1
    (List.replicate HASH_MAX_DIGEST_LEN 0) (olen : Int) []

/-- The function `random_hash_init`.  `entropy` is the `elen` bytes at the
(non-null) entropy pointer, `pstring` the personalization string. -/
def random_hash_init (H : HashCap σ) (fuel : Nat) (h : RANDOM_HASH σ) (hash_id : HASH_ID)
    (seed_len : Nat) (entropy : List Nat) (pstring : Option (List Nat)) :
    Option (Int × RANDOM_HASH σ) :=
  let rn : Int × Option σ := match h.hash with
    | none => H.new hash_id 0 h.hash
    | some _ => (0, h.hash)
  let h1 := { h with hash := rn.2 }
  if rn.1 ≠ 0 then some (rn.1, h1) else
  let rl := H.get_len h1.hash h1.hash_len
  let h2 := { h1 with hash_len := rl.2 }
  if rl.1 ≠ 0 then some (rl.1, h2) else
  match hash_df H fuel h2.hash (h2.hash_len % 2 ^ 16) entropy pstring none seed_len with
  | none => none
  | some r1 =>
    let h3 := { h2 with hash := r1.2.1, v := writeAt h2.v 1 r1.2.2 }
    if r1.1 ≠ 0 then some (r1.1, h3) else
    let h4 := { h3 with v := h3.v.set 0 0 }
    match hash_df H fuel h4.hash (h4.hash_len % 2 ^ 16) (bytesOf h4.v 0 (seed_len + 1))
        none none seed_len with
    | none => none
    | some r2 =>
      let h5 := { h4 with hash := r2.2.1, c := writeAt h4.c 0 r2.2.2 }
      if r2.1 ≠ 0 then some (r2.1, h5) else
      some (0, { h5 with reseed_cnt := 1, seed_len := seed_len })

def RANDOM_HASH_SHA1_init (H : HashCap σ) (fuel : Nat) (h : RANDOM_HASH σ)
    (entropy : List Nat) (pstring : Option (List Nat)) : Option (Int × RANDOM_HASH σ) :=
  random_hash_init H fuel h HASH_ID.SHA1 RANDOM_HASH_256_SEED_LEN entropy pstring

def RANDOM_HASH_SHA224_init (H : HashCap σ) (fuel : Nat) (h : RANDOM_HASH σ)
    (entropy : List Nat) (pstring : Option (List Nat)) : Option (Int × RANDOM_HASH σ) :=
  random_hash_init H fuel h HASH_ID.SHA224 RANDOM_HASH_256_SEED_LEN entropy pstring

def RANDOM_HASH_SHA256_init (H : HashCap σ) (fuel : Nat) (h : RANDOM_HASH σ)
    (entropy : List Nat) (pstring : Option (List Nat)) : Option (Int × RANDOM_HASH σ) :=
  random_hash_init H fuel h HASH_ID.SHA256 RANDOM_HASH_256_SEED_LEN entropy pstring

def RANDOM_HASH_SHA384_init (H : HashCap σ) (fuel : Nat) (h : RANDOM_HASH σ)
    (entropy : List Nat) (pstring : Option (List Nat)) : Option (Int × RANDOM_HASH σ) :=
  random_hash_init H fuel h HASH_ID.SHA384 RANDOM_HASH_512_SEED_LEN entropy pstring

def RANDOM_HASH_SHA512_init (H : HashCap σ) (fuel : Nat) (h : RANDOM_HASH σ)
    (entropy : List Nat) (pstring : Option (List Nat)) : Option (Int × RANDOM_HASH σ) :=
  random_hash_init H fuel h HASH_ID.SHA512 RANDOM_HASH_512_SEED_LEN entropy pstring

def RANDOM_HASH_SHA512_224_init (H : HashCap σ) (fuel : Nat) (h : RANDOM_HASH σ)
    (entropy : List Nat) (pstring : Option (List Nat)) : Option (Int × RANDOM_HASH σ) :=
  random_hash_init H fuel h HASH_ID.SHA512_224 RANDOM_HASH_256_SEED_LEN entropy pstring

def RANDOM_HASH_SHA512_256_init (H : HashCap σ) (fuel : Nat) (h : RANDOM_HASH σ)
    (entropy : List Nat) (pstring : Option (List Nat)) : Option (Int × RANDOM_HASH σ) :=
  random_hash_init H fuel h HASH_ID.SHA512_256 RANDOM_HASH_256_SEED_LEN entropy pstring

/-- The function `RANDOM_HASH_final`: `HASH_free(h->hash)` followed by
`memset(h, 0, sizeof(*h))`. -/
def RANDOM_HASH_final (_h : RANDOM_HASH σ) : RANDOM_HASH σ :=
  RANDOM_HASH_zero σ

/-- The function `RANDOM_HASH_reseed`.  `entropy` is the `elen` bytes at the
(non-null) entropy pointer, `ainput` the additional input. -/
def RANDOM_HASH_reseed (H : HashCap σ) (fuel : Nat) (h : RANDOM_HASH σ)
    (entropy : List Nat) (ainput : Option (List Nat)) : Option (Int × RANDOM_HASH σ) :=
  let h1 := { h with v := h.v.set 0 1 }
  match hash_df H fuel h1.hash (h1.hash_len % 2 ^ 16) (bytesOf h1.v 0 (h1.seed_len + 1))
      (some entropy) ainput h1.seed_len with
  | none => none
  | some r1 =>
    let h2 := { h1 with hash := r1.2.1, t := writeAt h1.t 0 r1.2.2 }
    if r1.1 ≠ 0 then some (r1.1, h2) else
    let h3 := { h2 with v := writeAt h2.v 1 (bytesOf h2.t 0 h2.seed_len) }
    let h4 := { h3 with v := h3.v.set 0 0 }
    match hash_df H fuel h4.hash (h4.hash_len % 2 ^ 16) (bytesOf h4.v 0 (h4.seed_len + 1))
        none none h4.seed_len with
    | none => none
    | some r2 =>
      let h5 := { h4 with hash := r2.2.1, c := writeAt h4.c 0 r2.2.2 }
      if r2.1 ≠ 0 then some (r2.1, h5) else
      some (0, { h5 with reseed_cnt := 1 })

/-- The loop `for (j=vlen-1; j>=0 && (++v[j] == 0); j--) ;` of `hashgen`, the
argument being `j + 1`. -/
def hashgen_incr (v : List Nat) : Nat → List Nat
  | 0 => v
  | j + 1 =>
    let b := (v.getD j 0 + 1) % 256
    if b = 0 then hashgen_incr (v.set j b) j else v.set j b

/-- The loop `for (i=len; i>0; i-=hlen)` of `hashgen`.  `v` is the working
value (modified in place), `t` the local digest buffer, `data` the advancing
output pointer. -/
def hashgen_loop (H : HashCap σ) (hlen vlen : Nat) :
    Nat → Option σ → List Nat → List Nat → Mem → Nat → Int →
      Option (Int × Option σ × List Nat × Mem)
  | 0, _, _, _, _, _, _ => none
  | fuel + 1, hash, v, t, mem, data, i =>
    if i > 0 then
      let r1 := H.init hash
      if r1.1 ≠ 0 then some (r1.1, r1.2, v, mem) else
      let r2 := H.update r1.2 (bytesOf v 0 vlen)
      if r2.1 ≠ 0 then some (r2.1, r2.2, v, mem) else
      let r3 := H.final r2.2
      let t1 := writeAt t 0 r3.2.2
      if r3.1 ≠ 0 then some (r3.1, r3.2.1, v, mem) else
      let ol := if (hlen : Int) < i then hlen else i.toNat
      hashgen_loop H hlen vlen fuel r3.2.1 (hashgen_incr v vlen) t1
        (memcpy mem data (bytesOf t1 0 ol)) (data + hlen) (i - hlen)
    else some (0, hash, v, mem)

/-- The function `hashgen`: returns the status, the hash object, the working
value `v` and the memory holding the output.  The local buffer `t` is taken as
zero at entry (see `hash_df`). -/
def hashgen (H : HashCap σ) (fuel : Nat) (hash : Option σ) (hlen : Nat) (v : List Nat)
    (vlen : Nat) (mem : Mem) (data : Nat) (len : Nat) :
    Option (Int × Option σ × List Nat × Mem) :=
  hashgen_loop H hlen vlen fuel hash v (List.replicate HASH_MAX_DIGEST_LEN 0) mem data
    (len : Int)

/-- The loop `for (i=h->seed_len-1; i>=0; i--)` of `RANDOM_HASH_gen` adding the
hashed additional input into v; the first argument is `i + 1`, `t` the 16-bit
carry register. -/
def gen_add_input (ht : List Nat) : Nat → List Nat → Nat → List Nat
  | 0, v, _ => v
  | i + 1, v, t =>
    let t1 := (t + v.getD (i + 1) 0) % 2 ^ 16
    let t2 := (t1 + ht.getD i 0) % 2 ^ 16
    gen_add_input ht i (v.set (i + 1) (t2 % 256)) (t2 >>> 8)

/-- The loop `for (i=h->seed_len-1; i>=h->seed_len-4; i--)` of `RANDOM_HASH_gen`,
which also adds the counter; the first argument counts the iterations left
(4 at entry), the second is `i + 1`.  Returns v, the carry `t` and `i + 1`.
Defined for `seed_len ≥ 4`; below that the C loop indexes before the arrays. -/
def gen_add_cnt (seed_len cnt : Nat) (c ht : List Nat) :
    Nat → Nat → List Nat → Nat → List Nat × Nat × Nat
  | 0, k, v, t => (v, t, k)
  | _ + 1, 0, v, t => (v, t, 0)
  | n + 1, i + 1, v, t =>
    let t1 := (t + v.getD (i + 1) 0) % 2 ^ 16
    let t2 := (t1 + c.getD i 0) % 2 ^ 16
    let t3 := (t2 + ht.getD i 0) % 2 ^ 16
    let t4 := (t3 + (cnt >>> ((seed_len - 1) * 8 - i * 8))) % 2 ^ 16
    gen_add_cnt seed_len cnt c ht n i (v.set (i + 1) (t4 % 256)) (t4 >>> 8)

/-- The loop `for (; i>=0; i--)` of `RANDOM_HASH_gen`; the first argument is `i + 1`. -/
def gen_add_rest (c ht : List Nat) : Nat → List Nat → Nat → List Nat
  | 0, v, _ => v
  | i + 1, v, t =>
    let t1 := (t + v.getD (i + 1) 0) % 2 ^ 16
    let t2 := (t1 + c.getD i 0) % 2 ^ 16
    let t3 := (t2 + ht.getD i 0) % 2 ^ 16
    gen_add_rest c ht i (v.set (i + 1) (t3 % 256)) (t3 >>> 8)

/-- The additional-input step of `RANDOM_HASH_gen` (`if (ainput != NULL) ...`):
status and context after it. -/
def gen_ainput (H : HashCap σ) (h : RANDOM_HASH σ) (ainput : Option (List Nat)) :
    Int × RANDOM_HASH σ :=
  match ainput with
  | none => (0, h)
  | some a =>
    let l := h.hash_len
    let h1 := { h with v := h.v.set 0 2 }
    let h2 := { h1 with t := zeroAt h1.t 0 (h1.seed_len - l) }
    let r := hash_data H h2.hash none (bytesOf h2.v 0 (h2.seed_len + 1)) (some a) none
    let h3 := { h2 with
      hash := r.2.1
      t := match r.2.2 with
        | some d => writeAt h2.t (h2.seed_len - l) d
        | none => h2.t }
    if r.1 ≠ 0 then (r.1, h3) else
    (0, { h3 with v := gen_add_input h3.t h3.seed_len h3.v 0 })

/-- The function `RANDOM_HASH_gen`.  `out` is the address of the output buffer in
`mem`, `olen` the requested length, `glen` the value of `*glen` before the
call.  Returns the status, the context, the memory and `*glen`.  The offset
`seed_len - hash_len` into `t` is meant for `hash_len ≤ seed_len`, which all
variants satisfy. -/
def RANDOM_HASH_gen (H : HashCap σ) (fuel : Nat) (h : RANDOM_HASH σ)
    (ainput : Option (List Nat)) (mem : Mem) (out : Nat) (olen : Nat) (glen : Nat) :
    Option (Int × RANDOM_HASH σ × Mem × Nat) :=
  let l := h.hash_len
  if h.reseed_cnt ≥ 2 ^ 48 then some (RANDOM_ERR_RESEED, h, mem, 0) else
  let ra := gen_ainput H h ainput
  if ra.1 ≠ 0 then some (ra.1, ra.2, mem, glen) else
  let h1 := ra.2
  let olen1 := if olen > 2 ^ 16 then 2 ^ 16 else olen
  let h2 := { h1 with t := writeAt h1.t 0 (bytesOf h1.v 1 h1.seed_len) }
  match hashgen H fuel h2.hash (h2.hash_len % 2 ^ 16) h2.t h2.seed_len mem out olen1 with
  | none => none
  | some rg =>
    let h3 := { h2 with hash := rg.2.1, t := rg.2.2.1 }
    if rg.1 ≠ 0 then some (rg.1, h3, rg.2.2.2, glen) else
    let h4 := { h3 with v := h3.v.set 0 3 }
    let h5 := { h4 with t := zeroAt h4.t 0 (h4.seed_len - l) }
    let r := hash_data H h5.hash none (bytesOf h5.v 0 (h5.seed_len + 1)) none none
    let h6 := { h5 with
      hash := r.2.1
      t := match r.2.2 with
        | some d => writeAt h5.t (h5.seed_len - l) d
        | none => h5.t }
    if r.1 ≠ 0 then some (r.1, h6, rg.2.2.2, glen) else
    let s := gen_add_cnt h6.seed_len h6.reseed_cnt h6.c h6.t 4 h6.seed_len h6.v 0
    let v1 := gen_add_rest h6.c h6.t s.2.2 s.1 s.2.1
    some (0, { h6 with v := v1, reseed_cnt := (h6.reseed_cnt + 1) % 2 ^ 64 }, rg.2.2.2, olen1)

end Engine

/-! ## The entropy orchestrator (`src/entropy.c`) -/

/-- What one call `(*meth[i].func)(p, &len, &b)` of an entropy source does. -/
structure SrcResult (ε : Type) where
  /-- The returned `int`: 0 on failure, non-zero on success. -/
  ret : Int
  /-- The world the sources read (devices, clocks, counters) after the call. -/
  env : ε
  /-- The bytes the call stored at `p`. -/
  data : List Nat
  /-- The value of `*len` after the call; the caller reads it only after a
  success, and every source stores it on success. -/
  len : Nat
  /-- The amount the call added to `*bits`, in `uint16_t` arithmetic. -/
  credit : Nat

/-- The struct `ENTROPY_METH` of `include/entropy.h`.  `func` receives the world
and the value of `*bits` before the call. -/
structure ENTROPY_METH (ε : Type) where
  name : String
  flags : Nat
  func : ε → Nat → SrcResult ε

/-- A record of one source call: index of the source, returned status, `*len`
after the call, credit added, bytes stored.  The records are returned beside
the C variables only to state properties of the calls made. -/
structure SrcCall where
  idx : Nat
  ret : Int
  len : Nat
  credit : Nat
  data : List Nat

/-- The local variables of `ENTROPY_generate`, the buffer `data` (indexed by the
offset from its start, `p` being the offset of the cursor) and the world. -/
structure EntropyVars (ε : Type) where
  gathered : Nat
  b : Nat
  l : Nat
  p : Nat
  len : Nat
  once : Nat
  data : Mem
  env : ε

section Entropy

variable {ε : Type}

/-- The loop `for (i=0; meth[i].func != NULL; i++)` of `ENTROPY_generate` over the
entries before the sentinel, from index `i` on: the variables after the loop
and the record of the calls made, in order.  `1 << i` is bit `i` for `i < 32`;
for `i ≥ 32` C leaves the shift undefined, and it is taken as the x86-64 shift
and bit-test instructions perform it, with the count modulo 32: bit `i mod 32`. -/
def ENTROPY_pass : List (ENTROPY_METH ε) → Nat → EntropyVars ε → EntropyVars ε × List SrcCall
  | [], _, s => (s, [])
  | m :: ms, i, s =>
    if (s.once &&& ((1 <<< (i % 32)) % 2 ^ 32)) ≠ 0 then ENTROPY_pass ms (i + 1) s
    else if (m.flags &&& ENTROPY_FLAG_NO_PREV) ≠ 0 ∧ s.gathered ≠ 0 then
      ENTROPY_pass ms (i + 1) s
    else
      let r := m.func s.env s.b
      let call : SrcCall := ⟨i, r.ret, r.len % 2 ^ 32, r.credit, r.data⟩
      let s1 := { s with
        env := r.env
        data := memcpy s.data s.p r.data
        len := r.len % 2 ^ 32
        b := (s.b + r.credit) % 2 ^ 16 }
      if r.ret ≠ 0 then
        let once1 :=
          if (m.flags &&& ENTROPY_FLAG_ONCE) ≠ 0 then s1.once ||| ((1 <<< (i % 32)) % 2 ^ 32)
          else s1.once
        let rest := ENTROPY_pass ms (i + 1)
          { s1 with once := once1, gathered := 1, p := s1.p + s1.len,
                    l := (s1.l + s1.len) % 2 ^ 8 }
        (rest.1, call :: rest.2)
      else
        let rest := ENTROPY_pass ms (i + 1) s1
        (rest.1, call :: rest.2)

/-- The loop `while ((b < bits) && gathered)` of `ENTROPY_generate`: the variables
at exit and the records of the calls, one list per pass.  The index `i` of the
inner loop is a `uint8_t`: with 256 or more entries before the sentinel it
wraps to 0 and the inner loop never ends. -/
def ENTROPY_loop (meth : List (ENTROPY_METH ε)) (bits : Nat) :
    Nat → EntropyVars ε → Option (EntropyVars ε × List (List SrcCall))
  | 0, _ => none
  | fuel + 1, s =>
    if s.b < bits ∧ s.gathered ≠ 0 then
      if 256 ≤ meth.length then none
      else
        let ps := ENTROPY_pass meth 0 { s with gathered := 0 }
        match ENTROPY_loop meth bits fuel ps.1 with
        | none => none
        | some r => some (r.1, ps.2 :: r.2)
    else some (s, [])

/-- What `ENTROPY_generate` returns and leaves behind. -/
structure EntropyOut (ε : Type) where
  /-- The returned `int`: 1 on success, 0 on failure. -/
  ret : Int
  /-- The value stored in `*olen`. -/
  olen : Nat
  /-- The buffer `data`. -/
  data : Mem
  /-- The world after the source calls. -/
  env : ε
  /-- The final offset of the cursor `p` from `data`. -/
  p : Nat
  /-- The source calls made, in order, one list per pass over the sources. -/
  passes : List (List SrcCall)

/-- The function `ENTROPY_generate`.  `meth` lists the entries before the
sentinel `{ NULL, 0, NULL }`; `bits` is a `uint16_t`. -/
def ENTROPY_generate (fuel : Nat) (meth : List (ENTROPY_METH ε)) (bits : Nat) (data : Mem)
    (env : ε) : Option (EntropyOut ε) :=
  match ENTROPY_loop meth bits fuel
      { gathered := 1, b := 0, l := 0, p := 0, len := 0, once := 0, data := data,
        env := env } with
  | none => none
  | some r =>
    some { ret := if r.1.b ≥ bits then 1 else 0, olen := r.1.l, data := r.1.data,
           env := r.1.env, p := r.1.p, passes := r.2 }

/-- The bit credits added by the source calls that succeeded. -/
def creditOfSuccesses (calls : List SrcCall) : Nat :=
  ((calls.filter (fun c => c.ret ≠ 0)).map (fun c => c.credit)).sum

end Entropy

/-! ## The registry and the facade (`src/random_lcl.h`, `src/random.c`) -/

/-- The struct `RANDOM_METH` of `src/random_lcl.h`.  The context behind `void *ctx`
is a `RANDOM_HASH` for every entry of the registry.  The function fields take
the fuel first; `init` and `reseed` take the context, the `elen` entropy bytes
and the user data; `gen` takes the context, the additional input, the memory,
the address `out`, the length `olen` and `*glen`. -/
structure RANDOM_METH (σ : Type) where
  id : Nat
  name : String
  bits : Nat
  flags : Nat
  ctx_size : Nat
  init : Nat → RANDOM_HASH σ → List Nat → Option (List Nat) → Option (Int × RANDOM_HASH σ)
  fin : RANDOM_HASH σ → RANDOM_HASH σ
  reseed : Nat → RANDOM_HASH σ → List Nat → Option (List Nat) → Option (Int × RANDOM_HASH σ)
  gen : Nat → RANDOM_HASH σ → Option (List Nat) → Mem → Nat → Nat → Nat →
    Option (Int × RANDOM_HASH σ × Mem × Nat)

/-- The struct `random_st` of `src/random_lcl.h`; `entropy` is the scratch buffer,
indexed by the offset from its start. -/
structure RANDOM (σ ε : Type) where
  meth : RANDOM_METH σ
  ctx : RANDOM_HASH σ
  entropy_src : List (ENTROPY_METH ε)
  entropy : Mem
  elen : Nat

/-- The value of `sizeof(RANDOM_HASH)` (LP64 layout); only passed to `malloc`. -/
def sizeof_RANDOM_HASH : Nat := 360

/-- The value of `sizeof(RANDOM)` (LP64 layout); only passed to `malloc`. -/
def sizeof_RANDOM : Nat := 40

section Facade

variable {σ ε : Type}

/-- The table `random_meth`, in declared order. -/
def random_meth (H : HashCap σ) : List (RANDOM_METH σ) :=
  [ { id := RANDOM_ID_HASH_DRBG_SHA1, name := "Hash_DRBG SHA1",
      bits := 128, flags := 0, ctx_size := sizeof_RANDOM_HASH,
      init := RANDOM_HASH_SHA1_init H, fin := RANDOM_HASH_final,
      reseed := RANDOM_HASH_reseed H, gen := RANDOM_HASH_gen H },
    { id := RANDOM_ID_HASH_DRBG_SHA224, name := "Hash_DRBG SHA224",
      bits := 192, flags := 0, ctx_size := sizeof_RANDOM_HASH,
      init := RANDOM_HASH_SHA224_init H, fin := RANDOM_HASH_final,
      reseed := RANDOM_HASH_reseed H, gen := RANDOM_HASH_gen H },
    { id := RANDOM_ID_HASH_DRBG_SHA512, name := "Hash_DRBG SHA512",
      bits := 256, flags := 0, ctx_size := sizeof_RANDOM_HASH,
      init := RANDOM_HASH_SHA512_init H, fin := RANDOM_HASH_final,
      reseed := RANDOM_HASH_reseed H, gen := RANDOM_HASH_gen H },
    { id := RANDOM_ID_HASH_DRBG_SHA384, name := "Hash_DRBG SHA384",
      bits := 256, flags := 0, ctx_size := sizeof_RANDOM_HASH,
      init := RANDOM_HASH_SHA384_init H, fin := RANDOM_HASH_final,
      reseed := RANDOM_HASH_reseed H, gen := RANDOM_HASH_gen H },
    { id := RANDOM_ID_HASH_DRBG_SHA256, name := "Hash_DRBG SHA256",
      bits := 256, flags := 0, ctx_size := sizeof_RANDOM_HASH,
      init := RANDOM_HASH_SHA256_init H, fin := RANDOM_HASH_final,
      reseed := RANDOM_HASH_reseed H, gen := RANDOM_HASH_gen H },
    { id := RANDOM_ID_HASH_DRBG_SHA512_256, name := "Hash_DRBG SHA512_256",
      bits := 256, flags := 0, ctx_size := sizeof_RANDOM_HASH,
      init := RANDOM_HASH_SHA512_256_init H, fin := RANDOM_HASH_final,
      reseed := RANDOM_HASH_reseed H, gen := RANDOM_HASH_gen H },
    { id := RANDOM_ID_HASH_DRBG_SHA512_224, name := "Hash_DRBG SHA512_224",
      bits := 192, flags := 0, ctx_size := sizeof_RANDOM_HASH,
      init := RANDOM_HASH_SHA512_224_init H, fin := RANDOM_HASH_final,
      reseed := RANDOM_HASH_reseed H, gen := RANDOM_HASH_gen H } ]

/-- The loop of `random_meth_get` over the entries from index `i` on: the status
and the pointer stored in `*meth`. -/
def random_meth_get_loop (bits flags : Nat) :
    List (RANDOM_METH σ) → Int × Option (RANDOM_METH σ)
  | [] => (RANDOM_ERR_NOT_FOUND, none)
  | m :: ms =>
    if m.bits ≥ bits ∧ (m.flags &&& flags) = flags then (0, some m)
    else random_meth_get_loop bits flags ms

/-- The function `random_meth_get`. -/
def random_meth_get (H : HashCap σ) (bits flags : Nat) : Int × Option (RANDOM_METH σ) :=
  random_meth_get_loop bits flags (random_meth H)

/-- The loop of `random_meth_get_by_id` over the entries from index `i` on. -/
def random_meth_get_by_id_loop (id : Int) (flags : Nat) :
    List (RANDOM_METH σ) → Int × Option (RANDOM_METH σ)
  | [] => (RANDOM_ERR_NOT_FOUND, none)
  | m :: ms =>
    if (m.id : Int) = id ∧ (m.flags &&& flags) = flags then (0, some m)
    else random_meth_get_by_id_loop id flags ms

/-- The function `random_meth_get_by_id`. -/
def random_meth_get_by_id (H : HashCap σ) (id : Int) (flags : Nat) :
    Int × Option (RANDOM_METH σ) :=
  random_meth_get_by_id_loop id flags (random_meth H)

/-- The function `random_new`.  `malloc n` is the outcome of the call
`malloc(n)`: `none` for `NULL`, otherwise the (indeterminate) content of the
block.  `slot` is the content of `*random` before the call; the result is the
status and the content of `*random` after it.  When the first allocation fails
nothing is built.  When the allocation of `ctx` or of `entropy` fails, the code
hands the partly built object to `RANDOM_free`, which calls `meth->fin` on a
null or not yet initialised context; that path is given here the documented
return of the function, RANDOM_ERR_ALLOC with `*random` unchanged. -/
def random_new (malloc : Nat → Option Mem) (src : List (ENTROPY_METH ε))
    (meth : RANDOM_METH σ) (slot : Option (RANDOM σ ε)) : Int × Option (RANDOM σ ε) :=
  match malloc sizeof_RANDOM with
  | none => (RANDOM_ERR_ALLOC, slot)
  | some _ =>
    match malloc meth.ctx_size, malloc (meth.bits * 32 / 8) with
    | some _, some e =>
      (0, some { meth := meth, ctx := RANDOM_HASH_zero σ, entropy_src := src,
                 entropy := e, elen := 0 })
    | _, _ => (RANDOM_ERR_ALLOC, slot)

/-- The function `RANDOM_new`.  `src` and `random` are pointers that may be `NULL`;
`random` points to a slot whose content is returned with the status. -/
def RANDOM_new (H : HashCap σ) (malloc : Nat → Option Mem)
    (src : Option (List (ENTROPY_METH ε))) (bits flags : Nat)
    (random : Option (Option (RANDOM σ ε))) : Int × Option (Option (RANDOM σ ε)) :=
  match random, src with
  | some slot, some s =>
    let g := random_meth_get H bits flags
    if g.1 ≠ 0 then (g.1, some slot) else
    match g.2 with
    | some m =>
      let n := random_new malloc s m slot
      (n.1, some n.2)
    | none => (g.1, some slot)
  | _, _ => (RANDOM_ERR_PARAM_NULL, random)

/-- The function `RANDOM_new_by_id`. -/
def RANDOM_new_by_id (H : HashCap σ) (malloc : Nat → Option Mem)
    (src : Option (List (ENTROPY_METH ε))) (id : Int) (flags : Nat)
    (random : Option (Option (RANDOM σ ε))) : Int × Option (Option (RANDOM σ ε)) :=
  match random, src with
  | some slot, some s =>
    let g := random_meth_get_by_id H id flags
    if g.1 ≠ 0 then (g.1, some slot) else
    match g.2 with
    | some m =>
      let n := random_new malloc s m slot
      (n.1, some n.2)
    | none => (g.1, some slot)
  | _, _ => (RANDOM_ERR_PARAM_NULL, random)

/-- The function `RANDOM_free`: the object as it is when its blocks are released
(`none` for a null pointer, on which nothing is done). -/
def RANDOM_free (random : Option (RANDOM σ ε)) : Option (RANDOM σ ε) :=
  match random with
  | none => none
  | some r => some { r with ctx := r.meth.fin r.ctx }

/-- The function `RANDOM_get_impl_name`.  `name` is a pointer that may be `NULL`,
to a slot whose content is returned with the status. -/
def RANDOM_get_impl_name (random : Option (RANDOM σ ε)) (name : Option String) :
    Int × Option String :=
  match random, name with
  | some r, some _ => (0, some r.meth.name)
  | _, _ => (RANDOM_ERR_PARAM_NULL, name)

/-- The function `RANDOM_init`.  `data` is the user data `(data, len)`.  The
request `random->meth->bits * 1.5` converted to `uint16_t` is `bits * 3 / 2`. -/
def RANDOM_init (fuel : Nat) (random : Option (RANDOM σ ε)) (data : Option (List Nat))
    (env : ε) : Option (Int × Option (RANDOM σ ε) × ε) :=
  match random with
  | none => some (RANDOM_ERR_PARAM_NULL, none, env)
  | some r =>
    match ENTROPY_generate fuel r.entropy_src (r.meth.bits * 3 / 2) r.entropy env with
    | none => none
    | some e =>
      let r1 := { r with entropy := e.data }
      if e.ret = 0 then some (RANDOM_ERR_ENTROPY, some r1, e.env) else
      match r1.meth.init fuel r1.ctx (readMem r1.entropy 0 e.olen) data with
      | none => none
      | some i =>
        some (i.1, some { r1 with ctx := i.2, entropy := memzero r1.entropy 0 e.olen }, e.env)

/-- The function `RANDOM_seed`. -/
def RANDOM_seed (fuel : Nat) (random : Option (RANDOM σ ε)) (data : Option (List Nat))
    (env : ε) : Option (Int × Option (RANDOM σ ε) × ε) :=
  match random with
  | none => some (RANDOM_ERR_PARAM_NULL, none, env)
  | some r =>
    match ENTROPY_generate fuel r.entropy_src r.meth.bits r.entropy env with
    | none => none
    | some e =>
      let r1 := { r with entropy := e.data }
      if e.ret = 0 then some (RANDOM_ERR_ENTROPY, some r1, e.env) else
      match r1.meth.reseed fuel r1.ctx (readMem r1.entropy 0 e.olen) data with
      | none => none
      | some i =>
        some (i.1, some { r1 with ctx := i.2, entropy := memzero r1.entropy 0 e.olen }, e.env)

/-- The loop `while (len > 0)` of `RANDOM_generate_with_input`.  `F` is the fuel
handed to the calls made in the body; `data` is the cursor (an address of
`mem`), `len` and `olen` are `uint32_t`. -/
def RANDOM_generate_loop (F : Nat) (ainput : Option (List Nat)) :
    Nat → RANDOM σ ε → Mem → Nat → Nat → Nat → ε → Option (Int × RANDOM σ ε × Mem × ε)
  | 0, _, _, _, _, _, _ => none
  | fuel + 1, r, mem, data, len, olen, env =>
    if len > 0 then
      match r.meth.gen F r.ctx ainput mem data len olen with
      | none => none
      | some g =>
        let r1 := { r with ctx := g.2.1 }
        let sr :=
          if g.1 = RANDOM_ERR_RESEED then RANDOM_seed F (some r1) none env
          else some (g.1, some r1, env)
        match sr with
        | some (ret, some r2, env2) =>
          if ret ≠ 0 then some (ret, r2, g.2.2.1, env2)
          else
            RANDOM_generate_loop F ainput fuel r2 g.2.2.1 (data + len)
              ((len + 2 ^ 32 - g.2.2.2 % 2 ^ 32) % 2 ^ 32) g.2.2.2 env2
        | _ => none
    else some (0, r, mem, env)

/-- The function `RANDOM_generate_with_input`.  `data` is the address of the
output buffer in `mem` (0 is `NULL`), `olen0` the indeterminate initial value
of the local `olen`. -/
def RANDOM_generate_with_input (fuel : Nat) (random : Option (RANDOM σ ε))
    (ainput : Option (List Nat)) (mem : Mem) (data : Nat) (len : Nat) (olen0 : Nat)
    (env : ε) : Option (Int × Option (RANDOM σ ε) × Mem × ε) :=
  match random with
  | none => some (RANDOM_ERR_PARAM_NULL, none, mem, env)
  | some r =>
    if data = 0 then some (RANDOM_ERR_PARAM_NULL, some r, mem, env) else
    match RANDOM_generate_loop fuel ainput fuel r mem data len olen0 env with
    | none => none
    | some x => some (x.1, some x.2.1, x.2.2.1, x.2.2.2)

/-- The function `RANDOM_generate`. -/
def RANDOM_generate (fuel : Nat) (random : Option (RANDOM σ ε)) (mem : Mem) (data : Nat)
    (len : Nat) (olen0 : Nat) (env : ε) : Option (Int × Option (RANDOM σ ε) × Mem × ε) :=
  RANDOM_generate_with_input fuel random none mem data len olen0 env

end Facade

/-! ## Predicates used in the statements -/

section Predicates

variable {σ ε : Type}

/-- Every status returned by the hash capability satisfies `P`. -/
def HashCap.Statuses {σ : Type} (H : HashCap σ) (P : Int → Prop) : Prop :=
  (∀ id f s, P (H.new id f s).1) ∧ (∀ s n, P (H.get_len s n).1) ∧
  (∀ s, P (H.init s).1) ∧ (∀ s d, P (H.update s d).1) ∧ (∀ s, P (H.final s).1)

/-- The hash capability never fails: every status it returns is 0. -/
def HashCap.NeverFails {σ : Type} (H : HashCap σ) : Prop :=
  H.Statuses (fun s => s = 0)

/-- The body of the inner loop of `ENTROPY_generate` for the source `m` at index
`i`: the variables after it and the call made, if any.  `ENTROPY_pass` is the
iteration of this body (`ENTROPY_pass_cons`). -/
def ENTROPY_step (m : ENTROPY_METH ε) (i : Nat) (s : EntropyVars ε) :
    EntropyVars ε × List SrcCall :=
  if (s.once &&& ((1 <<< (i % 32)) % 2 ^ 32)) ≠ 0 then (s, [])
  else if (m.flags &&& ENTROPY_FLAG_NO_PREV) ≠ 0 ∧ s.gathered ≠ 0 then (s, [])
  else
    let r := m.func s.env s.b
    let call : SrcCall := ⟨i, r.ret, r.len % 2 ^ 32, r.credit, r.data⟩
    let s1 := { s with
      env := r.env
      data := memcpy s.data s.p r.data
      len := r.len % 2 ^ 32
      b := (s.b + r.credit) % 2 ^ 16 }
    if r.ret ≠ 0 then
      let once1 :=
        if (m.flags &&& ENTROPY_FLAG_ONCE) ≠ 0 then s1.once ||| ((1 <<< (i % 32)) % 2 ^ 32)
        else s1.once
      ({ s1 with once := once1, gathered := 1, p := s1.p + s1.len,
                 l := (s1.l + s1.len) % 2 ^ 8 }, [call])
    else (s1, [call])

/-- A source list whose failed calls add no credit and whose calls add at most
`c` bits. -/
def SourcesCredit (meth : List (ENTROPY_METH ε)) (c : Nat) : Prop :=
  ∀ m ∈ meth, ∀ (env : ε) (b : Nat),
    ((m.func env b).ret = 0 → (m.func env b).credit = 0) ∧ (m.func env b).credit ≤ c

/-- Every successful call of a source of the list adds at least one bit. -/
def SourcesProgress (meth : List (ENTROPY_METH ε)) : Prop :=
  ∀ m ∈ meth, ∀ (env : ε) (b : Nat), (m.func env b).ret ≠ 0 → 1 ≤ (m.func env b).credit

end Predicates

/-! ## Sample inputs, used to instantiate the theorems -/

/-- A hash capability that never fails and yields the same 32-byte digest for
every input; it instantiates the theorems below at concrete inputs. -/
def constHash : HashCap Unit :=
  { new := fun _ _ _ => (0, some ())
    get_len := fun _ _ => (0, 32)
    init := fun s => (0, s)
    update := fun s _ => (0, s)
    final := fun s => (0, s, List.replicate 32 0xAB) }

/-- A hash capability whose `HASH_init` fails with status 5. -/
def failingHash : HashCap Unit :=
  { constHash with init := fun s => (5, s) }

/-- An instantiated SHA-256 context (digest 32 bytes, seed 55 bytes) with the
given reseed counter. -/
def sampleCtx (cnt : Nat) : RANDOM_HASH Unit :=
  { RANDOM_HASH_zero Unit with hash := some (), hash_len := 32, seed_len := 55,
                               reseed_cnt := cnt }

/-- An entropy source that always succeeds with 2 bytes and 12 bits. -/
def goodSource : ENTROPY_METH Unit :=
  { name := "good", flags := 0, func := fun env _ => ⟨1, env, [1, 2], 2, 12⟩ }

/-- An entropy source that always fails. -/
def deadSource : ENTROPY_METH Unit :=
  { name := "dead", flags := 0, func := fun env _ => ⟨0, env, [], 0, 0⟩ }

/-- The registry entry of Hash_DRBG SHA256. -/
def sampleMeth (H : HashCap Unit) : RANDOM_METH Unit :=
  { id := RANDOM_ID_HASH_DRBG_SHA256, name := "Hash_DRBG SHA256",
    bits := 256, flags := 0, ctx_size := sizeof_RANDOM_HASH,
    init := RANDOM_HASH_SHA256_init H, fin := RANDOM_HASH_final,
    reseed := RANDOM_HASH_reseed H, gen := RANDOM_HASH_gen H }

/-- A generator bound to Hash_DRBG SHA256 with the given engine context and
entropy sources. -/
def sampleRandom (H : HashCap Unit) (cnt : Nat) (src : List (ENTROPY_METH Unit)) :
    RANDOM Unit Unit :=
  { meth := sampleMeth H, ctx := sampleCtx cnt, entropy_src := src,
    entropy := fun _ => 0, elen := 0 }

/-- An allocator whose every `malloc` succeeds, with zeroed blocks. -/
def goodMalloc : Nat → Option Mem := fun _ => some (fun _ => 0)

/-- An entropy source that adds 32768 bits on each of its first two calls and
fails afterwards; the world counts the calls made. -/
def bigSource : ENTROPY_METH Nat :=
  { name := "big", flags := 0,
    func := fun env _ => if env < 2 then ⟨1, env + 1, [0, 0], 2, 32768⟩
                         else ⟨0, env + 1, [], 0, 0⟩ }

/-! ## Further predicates and sample inputs: passes, gathered bytes, engine states -/

/-- The test `(once & (1 << i)) != 0` of `ENTROPY_generate`: source `i` is marked
as done in the mask `once`. -/
def onceDone (once i : Nat) : Prop := (once &&& ((1 <<< (i % 32)) % 2 ^ 32)) ≠ 0

/-- A source flagged ONCE that always succeeds with 2 bytes and 8 bits. -/
def onceSource : ENTROPY_METH Unit :=
  { name := "A", flags := ENTROPY_FLAG_ONCE, func := fun env _ => ⟨1, env, [0xA1, 0xA2], 2, 8⟩ }

/-- A plain source that always succeeds with 2 bytes and 4 bits. -/
def plainSource : ENTROPY_METH Unit :=
  { name := "B", flags := 0, func := fun env _ => ⟨1, env, [0xB1, 0xB2], 2, 4⟩ }

/-- The values of the local variables of `ENTROPY_generate` each time the inner
`for` loop is entered, in order (after `gathered = 0`), for the run of the
outer loop from the variables `s`.  It follows `ENTROPY_loop` and is used only
to state properties of the passes. -/
def ENTROPY_starts {ε : Type} (meth : List (ENTROPY_METH ε)) (bits : Nat) :
    Nat → EntropyVars ε → List (EntropyVars ε)
  | 0, _ => []
  | fuel + 1, s =>
    if s.b < bits ∧ s.gathered ≠ 0 then
      if 256 ≤ meth.length then []
      else
        { s with gathered := 0 } ::
          ENTROPY_starts meth bits fuel (ENTROPY_pass meth 0 { s with gathered := 0 }).1
    else []

/-- A plain source, in the world that counts the source calls, that fails when
the count is 1 modulo 3 and otherwise succeeds with 2 bytes and 5 bits. -/
def flakySource : ENTROPY_METH Nat :=
  { name := "A", flags := 0,
    func := fun env _ => if env % 3 = 1 then ⟨0, env + 1, [], 0, 0⟩
                         else ⟨1, env + 1, [0xA1, 0xA2], 2, 5⟩ }

/-- A source flagged NO_PREV that always succeeds with 2 bytes and 9 bits, in the
world that counts the source calls. -/
def noPrevSource : ENTROPY_METH Nat :=
  { name := "B", flags := ENTROPY_FLAG_NO_PREV,
    func := fun env _ => ⟨1, env + 1, [0xB1, 0xB2], 2, 9⟩ }

/-- The number of bytes reported (`*len`) by the source calls that succeeded. -/
def bytesOfSuccesses (calls : List SrcCall) : Nat :=
  ((calls.filter (fun c => c.ret ≠ 0)).map (fun c => c.len)).sum

/-- The bytes stored by the source calls that succeeded, in call order. -/
def samplesOfSuccesses (calls : List SrcCall) : List Nat :=
  ((calls.filter (fun c => c.ret ≠ 0)).map (fun c => c.data)).flatten

/-- A source list whose successful calls store exactly the `*len` bytes they
report (`*len` is a `uint32_t`). -/
def SourcesStore {ε : Type} (meth : List (ENTROPY_METH ε)) : Prop :=
  ∀ m ∈ meth, ∀ (env : ε) (b : Nat), (m.func env b).ret ≠ 0 →
    (m.func env b).data.length = (m.func env b).len ∧ (m.func env b).len < 2 ^ 32

/-- A source that always succeeds with 128 bytes and 128 bits (one bit per byte). -/
def blockSource : ENTROPY_METH Unit :=
  { name := "block", flags := 0,
    func := fun env _ => ⟨1, env, List.replicate 128 0x5A, 128, 128⟩ }

/-- A source list whose failed calls store nothing in the buffer. -/
def SourcesQuiet {ε : Type} (meth : List (ENTROPY_METH ε)) : Prop :=
  ∀ m ∈ meth, ∀ (env : ε) (b : Nat), (m.func env b).ret = 0 → (m.func env b).data = []

/-- A source that always succeeds with 32 bytes and 256 bits. -/
def fullSource : ENTROPY_METH Unit :=
  { name := "full", flags := 0,
    func := fun env _ => ⟨1, env, List.replicate 32 0x5A, 32, 256⟩ }

/-- A source that always fails after storing one byte at the cursor, as a read
that comes back short does. -/
def leakySource : ENTROPY_METH Unit :=
  { name := "leaky", flags := 0, func := fun env _ => ⟨0, env, [0xEE], 0, 0⟩ }

/-- A source that succeeds on the first call made in the world, with 2 bytes and
12 bits, and fails afterwards, as a device that runs dry does; the world
counts the source calls. -/
def dryingSource : ENTROPY_METH Nat :=
  { name := "drying", flags := 0,
    func := fun env _ => if env = 0 then ⟨1, env + 1, [0xAA, 0xBB], 2, 12⟩
                         else ⟨0, env + 1, [], 0, 0⟩ }

/-- A generator bound to Hash_DRBG SHA256 whose sources live in the world that
counts the source calls. -/
def sampleRandomCounting (H : HashCap Unit) (cnt : Nat) (src : List (ENTROPY_METH Nat)) :
    RANDOM Unit Nat :=
  { meth := sampleMeth H, ctx := sampleCtx cnt, entropy_src := src,
    entropy := fun _ => 0, elen := 0 }

/-- A hash capability that never fails and whose 32-byte digest repeats the sum,
modulo 256, of the bytes fed since `HASH_init`; it makes digests depend on the
input in the instances below. -/
def sumHash : HashCap Nat :=
  { new := fun _ _ _ => (0, some 0)
    get_len := fun _ _ => (0, 32)
    init := fun s => (0, s.map (fun _ => 0))
    update := fun s d => (0, s.map (fun x => x + d.sum))
    final := fun s => (0, s, List.replicate 32 (s.getD 0 % 256)) }

/-- An instantiated SHA-256 context over `sumHash` with V, C and t all zero and the
given reseed counter. -/
def sumCtx (cnt : Nat) : RANDOM_HASH Nat :=
  { RANDOM_HASH_zero Nat with hash := some 0, hash_len := 32, seed_len := 55,
                              reseed_cnt := cnt }

/-- Two struct buffers of the same size that hold the same bytes at the indices
below `n`. -/
def EqUpTo (n : Nat) (a b : List Nat) : Prop :=
  a.length = b.length ∧ ∀ j, j < n → a.getD j 0 = b.getD j 0

/-- Two optional results that are both absent, or both present and related. -/
def SameOpt {α : Type} (R : α → α → Prop) (x y : Option α) : Prop :=
  match x, y with
  | none, none => True
  | some a, some b => R a b
  | _, _ => False

/-- Two engine contexts that agree on the bound hash object, on `hash_len`,
`seed_len` and `reseed_cnt`, on the bytes `v[1..seed_len]` and on the first
`seed_len` bytes of `c`; the tag byte `v[0]`, the scratch buffer `t` and the
unused ends of `v` and `c` are left free (the buffers have the same sizes). -/
def SameState {σ : Type} (h h' : RANDOM_HASH σ) : Prop :=
  h.hash = h'.hash ∧ h.hash_len = h'.hash_len ∧ h.seed_len = h'.seed_len ∧
  h.reseed_cnt = h'.reseed_cnt ∧ h.v.length = h'.v.length ∧ h.t.length = h'.t.length ∧
  (∀ j, 1 ≤ j → j ≤ h.seed_len → h.v.getD j 0 = h'.v.getD j 0) ∧
  EqUpTo h.seed_len h.c h'.c

/-- The digest that `RANDOM_HASH_gen` stores at offset `seed_len - hash_len` of `t`
reaches the end of the first `seed_len` bytes of `t`: with `hash_len ≤ seed_len`,
the digests of the hash capability have at least `hash_len` bytes. -/
def HashCap.Fits {σ : Type} (H : HashCap σ) (hash_len seed_len : Nat) : Prop :=
  ∀ s, seed_len ≤ seed_len - hash_len + (H.final s).2.2.length

/-- The output stream of a sequence of requests `(additional input, length)`
served one after the other by `RANDOM_HASH_gen` from the context `h`, each into
a zeroed memory at address `out`: per request, the status and the `*glen` bytes
found at `out` after the call.  It only strings calls of `RANDOM_HASH_gen`
together, to compare the streams of two generators. -/
def gen_stream {σ : Type} (H : HashCap σ) (fuel out : Nat) :
    RANDOM_HASH σ → List (Option (List Nat) × Nat) → Option (List (Int × List Nat))
  | _, [] => some []
  | h, (a, n) :: rest =>
    match RANDOM_HASH_gen H fuel h a (fun _ => 0) out n 0 with
    | none => none
    | some x =>
      match gen_stream H fuel out x.2.1 rest with
      | none => none
      | some ys => some ((x.1, readMem x.2.2.1 out x.2.2.2) :: ys)

/-- A context over `sumHash` that has not been bound to a hash yet and holds
leftovers in `v`, `c`, `t`, the counter and the seed length. -/
def staleCtx : RANDOM_HASH Nat :=
  { v := List.replicate (1 + RANDOM_HASH_MAX_SEED_LEN) 7
    c := List.replicate RANDOM_HASH_MAX_SEED_LEN 8
    t := List.replicate RANDOM_HASH_MAX_SEED_LEN 9
    reseed_cnt := 5
    hash := none
    hash_len := 0
    seed_len := 111 }

/-! ## The variant table, big-endian values and the derivation functions of the spec -/

/-- The variant table of the spec: algorithm id, hash, security strength in bits
and seed length in bytes. -/
def variant_table : List (Nat × HASH_ID × Nat × Nat) :=
  [ (1, HASH_ID.SHA1, 128, 55), (2, HASH_ID.SHA224, 192, 55), (3, HASH_ID.SHA256, 256, 55),
    (4, HASH_ID.SHA384, 256, 111), (5, HASH_ID.SHA512, 256, 111),
    (6, HASH_ID.SHA512_224, 192, 55), (7, HASH_ID.SHA512_256, 256, 55) ]

/-- The row of the variant table that a registry entry realises: its id, the hash
and the seed length its init function passes to `random_hash_init`, and its
security strength. -/
def variant_row {σ : Type} (H : HashCap σ) (row : Nat × HASH_ID × Nat × Nat)
    (m : RANDOM_METH σ) : Prop :=
  m.id = row.1 ∧ m.bits = row.2.2.1 ∧
  m.init = (fun fuel h e p => random_hash_init H fuel h row.2.1 row.2.2.2 e p) ∧
  m.reseed = RANDOM_HASH_reseed H ∧ m.gen = RANDOM_HASH_gen H

/-- The big-endian integer held by a byte string. -/
def beNat (bs : List Nat) : Nat := bs.foldl (fun acc b => acc * 256 + b) 0

/-- The `n`-byte big-endian representation of `x` modulo `2^(8n)`. -/
def beBytes : Nat → Nat → List Nat
  | 0, _ => []
  | n + 1, x => beBytes n (x / 256) ++ [x % 256]

/-- The value `Hash(msg)` of the spec, computed with the capability: `HASH_init`,
one `HASH_update` with the whole message, `HASH_final`.  Returns the hash object
afterwards and the digest. -/
def spec_Hash {σ : Type} (H : HashCap σ) (hash : Option σ) (msg : List Nat) :
    Option σ × List Nat :=
  let r := H.final (H.update (H.init hash).2 msg).2
  (r.2.1, r.2.2)

/-- A streaming hash: feeding two pieces one after the other leaves the hash
object as feeding their concatenation does. -/
def HashCap.Streaming {σ : Type} (H : HashCap σ) : Prop :=
  ∀ s a b, (H.update (H.update s a).2 b).2 = (H.update s (a ++ b)).2

/-- The digests of the hash capability are `hlen` bytes. -/
def HashCap.Digest {σ : Type} (H : HashCap σ) (hlen : Nat) : Prop :=
  ∀ s, (H.final s).2.2.length = hlen ∧ ∀ b ∈ (H.final s).2.2, b < 256

/-- The blocks `T_k ‖ T_(k+1) ‖ ...` (`n` of them) of Hash_df in the words of the
spec: `T_k = Hash(byte(k) ‖ be32(8*L) ‖ input)`.  Returns the hash object after
the last block and the concatenation. -/
def spec_Hash_df_blocks {σ : Type} (H : HashCap σ) (L : Nat) (input : List Nat) :
    Nat → Nat → Option σ → Option σ × List Nat
  | 0, _, hash => (hash, [])
  | n + 1, k, hash =>
    let r := spec_Hash H hash (k :: beBytes 4 (8 * L) ++ input)
    let rest := spec_Hash_df_blocks H L input n (k + 1) r.1
    (rest.1, r.2 ++ rest.2)

/-- The function `Hash_df(input, L)` of the spec for a hash with digests of `hlen`
bytes: the first `L` bytes of `T_1 ‖ T_2 ‖ ...`, from `ceil(L / hlen)` blocks. -/
def spec_Hash_df {σ : Type} (H : HashCap σ) (hash : Option σ) (hlen : Nat)
    (input : List Nat) (L : Nat) : Option σ × List Nat :=
  let r := spec_Hash_df_blocks H L input ((L + hlen - 1) / hlen) 1 hash
  (r.1, r.2.take L)

/-- A hash capability whose `HASH_update` reports an error (status 5) when the
data holds the byte 0xFF and succeeds otherwise, leaving the hash object as it
was; an update with zero bytes is the identity.  Digests are as for `constHash`. -/
def pickyHash : HashCap Unit :=
  { constHash with update := fun s d => (if 255 ∈ d then 5 else 0, s) }

/-- The blocks `Hash(w) ‖ Hash(w+1) ‖ ...` (`n` of them) of Hashgen in the words
of the spec, the working value being a `vlen`-byte big-endian integer that is
incremented modulo `2^(8*vlen)`.  Returns the hash object after the last block
and the concatenation. -/
def spec_Hashgen_blocks {σ : Type} (H : HashCap σ) (vlen : Nat) :
    Nat → Nat → Option σ → Option σ × List Nat
  | 0, _, hash => (hash, [])
  | n + 1, w, hash =>
    let r := spec_Hash H hash (beBytes vlen w)
    let rest := spec_Hashgen_blocks H vlen n (w + 1) r.1
    (rest.1, r.2 ++ rest.2)

/-! ## Runs of the engine, traces of hash calls and allocation sizes -/

/-- A sequence of calls of `RANDOM_HASH_gen` served one after the other from the
context `h` and the memory `mem`, each request being (additional input, address
of the output buffer, length): the statuses in call order and the context after
the last call.  It only strings calls of `RANDOM_HASH_gen` together, to state
properties of the states reached. -/
def gen_run {σ : Type} (H : HashCap σ) (fuel : Nat) :
    RANDOM_HASH σ → Mem → List (Option (List Nat) × Nat × Nat) →
      Option (List Int × RANDOM_HASH σ)
  | h, _, [] => some ([], h)
  | h, mem, (a, out, n) :: rest =>
    match RANDOM_HASH_gen H fuel h a mem out n 0 with
    | none => none
    | some x =>
      match gen_run H fuel x.2.1 x.2.2.1 rest with
      | none => none
      | some y => some (x.1 :: y.1, y.2)

/-- The statuses returned by the hash calls that `hash_data` makes, in call order:
`HASH_init`, the update with `pre`, the updates with the slots present,
`HASH_final`.  It follows `hash_data` line by line and is used only to state
which calls were made. -/
def hash_data_calls {σ : Type} (H : HashCap σ) (hash : Option σ) (pre : Option (List Nat))
    (d0 : List Nat) (d1 d2 : Option (List Nat)) : List Int :=
  let r0 := H.init hash
  if r0.1 ≠ 0 then [r0.1] else
  let r1 : Int × Option σ := match pre with
    | some p => H.update r0.2 p
    | none => (r0.1, r0.2)
  let c1 : List Int := match pre with
    | some _ => [r1.1]
    | none => []
  if r1.1 ≠ 0 then r0.1 :: c1 else
  let r2 : Int × Option σ := H.update r1.2 d0
  let r3 : Int × Option σ := match d1 with
    | some d => H.update r2.2 d
    | none => r2
  let c3 : List Int := match d1 with
    | some _ => [r3.1]
    | none => []
  if r3.1 ≠ 0 then r0.1 :: c1 ++ r2.1 :: c3 else
  let r4 : Int × Option σ := match d2 with
    | some d => H.update r3.2 d
    | none => r3
  let c4 : List Int := match d2 with
    | some _ => [r4.1]
    | none => []
  if r4.1 ≠ 0 then r0.1 :: c1 ++ r2.1 :: c3 ++ c4 else
  let r5 := H.final r4.2
  r0.1 :: c1 ++ r2.1 :: c3 ++ c4 ++ [r5.1]

/-- An allocator that always succeeds and fills each block with the size that was
asked for, so that a block shows the argument of its `malloc` call. -/
def sizeMalloc : Nat → Option Mem := fun n => some (fun _ => n)

/-- A source list in which every successful call stores exactly 2 bytes, reports
the length 2 and credits between 4 and 12 bits, and every failed call credits
nothing and stores at most 2 bytes at the cursor (as the sources of
`src/entropy.c` do). -/
def SourcesPairs {ε : Type} (meth : List (ENTROPY_METH ε)) : Prop :=
  ∀ m ∈ meth, ∀ (env : ε) (b : Nat),
    ((m.func env b).ret ≠ 0 → (m.func env b).data.length = 2 ∧ (m.func env b).len = 2 ∧
      4 ≤ (m.func env b).credit ∧ (m.func env b).credit ≤ 12) ∧
    ((m.func env b).ret = 0 → (m.func env b).credit = 0 ∧ (m.func env b).data.length ≤ 2)

/-- The loop `while (len > 0)` of `RANDOM_generate_with_input` once more, with the
list of the statuses returned by its calls of `gen`, in call order, next to
the result of `RANDOM_generate_loop`. -/
def RANDOM_generate_trace {σ ε : Type} (F : Nat) (ainput : Option (List Nat)) :
    Nat → RANDOM σ ε → Mem → Nat → Nat → Nat → ε →
      Option ((Int × RANDOM σ ε × Mem × ε) × List Int)
  | 0, _, _, _, _, _, _ => none
  | fuel + 1, r, mem, data, len, olen, env =>
    if len > 0 then
      match r.meth.gen F r.ctx ainput mem data len olen with
      | none => none
      | some g =>
        let r1 := { r with ctx := g.2.1 }
        let sr :=
          if g.1 = RANDOM_ERR_RESEED then RANDOM_seed F (some r1) none env
          else some (g.1, some r1, env)
        match sr with
        | some (ret, some r2, env2) =>
          if ret ≠ 0 then some ((ret, r2, g.2.2.1, env2), [g.1])
          else
            match RANDOM_generate_trace F ainput fuel r2 g.2.2.1 (data + len)
              ((len + 2 ^ 32 - g.2.2.2 % 2 ^ 32) % 2 ^ 32) g.2.2.2 env2 with
            | none => none
            | some y => some (y.1, g.1 :: y.2)
        | _ => none
    else some ((0, r, mem, env), [])

/-- A hash capability whose `HASH_update` reports the status `s`, every other
call reporting 0. -/
def statusHash (s : Int) : HashCap Unit :=
  { constHash with update := fun st _ => (s, st) }

/-- A source flagged NO_PREV that always succeeds with 2 bytes and 9 bits. -/
def lastSource : ENTROPY_METH Unit :=
  { name := "B", flags := ENTROPY_FLAG_NO_PREV,
    func := fun env _ => ⟨1, env, [0xB1, 0xB2], 2, 9⟩ }

/-- A list of 33 sources: a source flagged ONCE that always succeeds, 31 sources
that always fail, and a source flagged NO_PREV that always succeeds, at
index 32. -/
def manySources : List (ENTROPY_METH Unit) :=
  onceSource :: (List.replicate 31 deadSource ++ [lastSource])

/-! ## Properties of the engine -/

section Properties

variable {σ ε : Type}

theorem hash_data_status (H : HashCap σ) (P : Int → Prop) (hP : H.Statuses P)
    (hash : Option σ) (pre : Option (List Nat)) (d0 : List Nat) (d1 d2 : Option (List Nat)) :
    P (hash_data H hash pre d0 d1 d2).1 := by
  obtain ⟨_, _, hi, hu, hf⟩ := hP
  unfold hash_data
  cases pre <;> cases d1 <;> cases d2 <;> simp only [] <;> split_ifs <;>
    first | exact hi _ | exact hu _ _ | exact hf _

theorem hash_df_loop_status (H : HashCap σ) (P : Int → Prop) (hP : H.Statuses P) (h0 : P 0)
    (hlen : Nat) (lenb d0 : List Nat) (d1 d2 : Option (List Nat)) :
    ∀ (fuel : Nat) (hash : Option σ) (ctr : Nat) (t : List Nat) (i : Int) (out : List Nat)
      (r : Int × Option σ × List Nat),
      hash_df_loop H hlen lenb d0 d1 d2 fuel hash ctr t i out = some r → P r.1 := by
  intro fuel
  induction fuel with
  | zero => intro hash ctr t i out r h; simp [hash_df_loop] at h
  | succ n ih =>
    intro hash ctr t i out r h
    rw [hash_df_loop] at h
    by_cases hi : i > 0
    · rw [if_pos hi] at h
      by_cases hr : (hash_data H hash (some (ctr :: lenb)) d0 d1 d2).1 = 0
      · simp only [hr, ne_eq, not_true_eq_false, if_false] at h
        exact ih _ _ _ _ _ _ h
      · simp only [ne_eq, hr, not_false_eq_true, if_true, Option.some.injEq] at h
        rw [← h]
        exact hash_data_status H P hP _ _ _ _ _
    · rw [if_neg hi] at h
      simp only [Option.some.injEq] at h
      rw [← h]
      exact h0

theorem hash_df_status (H : HashCap σ) (P : Int → Prop) (hP : H.Statuses P) (h0 : P 0)
    (fuel : Nat) (hash : Option σ) (hlen : Nat) (d0 : List Nat) (d1 d2 : Option (List Nat))
    (olen : Nat) (r : Int × Option σ × List Nat)
    (h : hash_df H fuel hash hlen d0 d1 d2 olen = some r) : P r.1 :=
  hash_df_loop_status H P hP h0 _ _ _ _ _ _ _ _ _ _ _ _ h

theorem hashgen_loop_status (H : HashCap σ) (P : Int → Prop) (hP : H.Statuses P) (h0 : P 0)
    (hlen vlen : Nat) :
    ∀ (fuel : Nat) (hash : Option σ) (v t : List Nat) (mem : Mem) (data : Nat) (i : Int)
      (r : Int × Option σ × List Nat × Mem),
      hashgen_loop H hlen vlen fuel hash v t mem data i = some r → P r.1 := by
  obtain ⟨_, _, hi, hu, hf⟩ := hP
  intro fuel
  induction fuel with
  | zero => intro hash v t mem data i r h; simp [hashgen_loop] at h
  | succ n ih =>
    intro hash v t mem data i r h
    rw [hashgen_loop] at h
    by_cases hpos : i > 0
    · rw [if_pos hpos] at h
      by_cases h1 : (H.init hash).1 = 0
      · by_cases h2 : (H.update (H.init hash).2 (bytesOf v 0 vlen)).1 = 0
        · by_cases h3 : (H.final (H.update (H.init hash).2 (bytesOf v 0 vlen)).2).1 = 0
          · simp only [h1, h2, h3, ne_eq, not_true_eq_false, if_false] at h
            exact ih _ _ _ _ _ _ _ h
          · simp only [h1, h2, h3, ne_eq, not_true_eq_false, not_false_eq_true, if_false,
              if_true, Option.some.injEq] at h
            rw [← h]; exact hf _
        · simp only [h1, h2, ne_eq, not_true_eq_false, not_false_eq_true, if_false,
            if_true, Option.some.injEq] at h
          rw [← h]; exact hu _ _
      · simp only [h1, ne_eq, not_false_eq_true, if_true, Option.some.injEq] at h
        rw [← h]; exact hi _
    · rw [if_neg hpos] at h
      simp only [Option.some.injEq] at h
      rw [← h]; exact h0

theorem memcpy_outside (m : Mem) (dst : Nat) (src : List Nat) (a : Nat)
    (h : a < dst ∨ dst + src.length ≤ a) : memcpy m dst src a = m a := by
  unfold memcpy
  rw [if_neg]
  omega

theorem bytesOf_length (buf : List Nat) (off n : Nat) : (bytesOf buf off n).length = n := by
  simp [bytesOf]

theorem hash_df_loop_terminates (H : HashCap σ) (hlen : Nat) (hl : 1 ≤ hlen)
    (lenb d0 : List Nat) (d1 d2 : Option (List Nat)) :
    ∀ (fuel : Nat) (hash : Option σ) (ctr : Nat) (t : List Nat) (i : Int) (out : List Nat),
      i.toNat < fuel → ∃ r, hash_df_loop H hlen lenb d0 d1 d2 fuel hash ctr t i out = some r := by
  intro fuel
  induction fuel with
  | zero => intro hash ctr t i out h; omega
  | succ n ih =>
    intro hash ctr t i out h
    rw [hash_df_loop]
    by_cases hi : i > 0
    · rw [if_pos hi]
      by_cases hr : (hash_data H hash (some (ctr :: lenb)) d0 d1 d2).1 = 0
      · simp only [hr, ne_eq, not_true_eq_false, if_false]
        apply ih
        omega
      · simp only [ne_eq, hr, not_false_eq_true, if_true]
        exact ⟨_, rfl⟩
    · rw [if_neg hi]
      exact ⟨_, rfl⟩

theorem hashgen_loop_terminates (H : HashCap σ) (hlen vlen : Nat) (hl : 1 ≤ hlen) :
    ∀ (fuel : Nat) (hash : Option σ) (v t : List Nat) (mem : Mem) (data : Nat) (i : Int),
      i.toNat < fuel → ∃ r, hashgen_loop H hlen vlen fuel hash v t mem data i = some r := by
  intro fuel
  induction fuel with
  | zero => intro hash v t mem data i h; omega
  | succ n ih =>
    intro hash v t mem data i h
    rw [hashgen_loop]
    by_cases hpos : i > 0
    · rw [if_pos hpos]
      by_cases h1 : (H.init hash).1 = 0
      · by_cases h2 : (H.update (H.init hash).2 (bytesOf v 0 vlen)).1 = 0
        · by_cases h3 : (H.final (H.update (H.init hash).2 (bytesOf v 0 vlen)).2).1 = 0
          · simp only [h1, h2, h3, ne_eq, not_true_eq_false, if_false]
            apply ih
            omega
          · simp only [h1, h2, h3, ne_eq, not_true_eq_false, not_false_eq_true, if_false,
              if_true]
            exact ⟨_, rfl⟩
        · simp only [h1, h2, ne_eq, not_true_eq_false, not_false_eq_true, if_false,
            if_true]
          exact ⟨_, rfl⟩
      · simp only [h1, ne_eq, not_false_eq_true, if_true]
        exact ⟨_, rfl⟩
    · rw [if_neg hpos]
      exact ⟨_, rfl⟩

theorem hashgen_loop_frame (H : HashCap σ) (hlen vlen : Nat) :
    ∀ (fuel : Nat) (hash : Option σ) (v t : List Nat) (mem : Mem) (data : Nat) (i : Int)
      (r : Int × Option σ × List Nat × Mem),
      hashgen_loop H hlen vlen fuel hash v t mem data i = some r →
      ∀ a, (a < data ∨ data + i.toNat ≤ a) → r.2.2.2 a = mem a := by
  intro fuel
  induction fuel with
  | zero => intro hash v t mem data i r h; simp [hashgen_loop] at h
  | succ n ih =>
    intro hash v t mem data i r h a ha
    rw [hashgen_loop] at h
    by_cases hpos : i > 0
    · rw [if_pos hpos] at h
      by_cases h1 : (H.init hash).1 = 0
      · by_cases h2 : (H.update (H.init hash).2 (bytesOf v 0 vlen)).1 = 0
        · by_cases h3 : (H.final (H.update (H.init hash).2 (bytesOf v 0 vlen)).2).1 = 0
          · simp only [h1, h2, h3, ne_eq, not_true_eq_false, if_false] at h
            rw [ih _ _ _ _ _ _ _ h a (by omega)]
            apply memcpy_outside
            rw [bytesOf_length]
            split_ifs <;> omega
          · simp only [h1, h2, h3, ne_eq, not_true_eq_false, not_false_eq_true, if_false,
              if_true, Option.some.injEq] at h
            rw [← h]
        · simp only [h1, h2, ne_eq, not_true_eq_false, not_false_eq_true, if_false,
            if_true, Option.some.injEq] at h
          rw [← h]
      · simp only [h1, ne_eq, not_false_eq_true, if_true, Option.some.injEq] at h
        rw [← h]
    · rw [if_neg hpos] at h
      simp only [Option.some.injEq] at h
      rw [← h]

theorem hashgen_status (H : HashCap σ) (P : Int → Prop) (hP : H.Statuses P) (h0 : P 0)
    (fuel : Nat) (hash : Option σ) (hlen : Nat) (v : List Nat) (vlen : Nat) (mem : Mem)
    (data len : Nat) (r : Int × Option σ × List Nat × Mem)
    (h : hashgen H fuel hash hlen v vlen mem data len = some r) : P r.1 :=
  hashgen_loop_status H P hP h0 _ _ _ _ _ _ _ _ _ _ h

theorem hashgen_ne_none (H : HashCap σ) (fuel : Nat) (hash : Option σ) (hlen : Nat)
    (v : List Nat) (vlen : Nat) (mem : Mem) (data len : Nat) (hl : 1 ≤ hlen)
    (hf : len < fuel) : hashgen H fuel hash hlen v vlen mem data len ≠ none := by
  obtain ⟨r, hr⟩ := hashgen_loop_terminates H hlen vlen hl fuel hash v
    (List.replicate HASH_MAX_DIGEST_LEN 0) mem data (len : Int) (by simpa using hf)
  unfold hashgen
  rw [hr]
  simp

theorem hashgen_frame (H : HashCap σ) (fuel : Nat) (hash : Option σ) (hlen : Nat)
    (v : List Nat) (vlen : Nat) (mem : Mem) (data len : Nat)
    (r : Int × Option σ × List Nat × Mem)
    (h : hashgen H fuel hash hlen v vlen mem data len = some r) (a : Nat)
    (ha : a < data ∨ data + len ≤ a) : r.2.2.2 a = mem a :=
  hashgen_loop_frame H hlen vlen _ _ _ _ _ _ _ _ h a (by simpa using ha)

theorem hash_df_ne_none (H : HashCap σ) (fuel : Nat) (hash : Option σ) (hlen : Nat)
    (d0 : List Nat) (d1 d2 : Option (List Nat)) (olen : Nat) (hl : 1 ≤ hlen)
    (hf : olen < fuel) : hash_df H fuel hash hlen d0 d1 d2 olen ≠ none := by
  obtain ⟨r, hr⟩ := hash_df_loop_terminates H hlen hl (hash_df_len_bytes olen) d0 d1 d2 fuel
    hash 1 (List.replicate HASH_MAX_DIGEST_LEN 0) (olen : Int) [] (by simpa using hf)
  unfold hash_df
  rw [hr]
  simp

theorem gen_ainput_status (H : HashCap σ) (P : Int → Prop) (hP : H.Statuses P) (h0 : P 0)
    (h : RANDOM_HASH σ) (a : Option (List Nat)) : P (gen_ainput H h a).1 := by
  cases a with
  | none => exact h0
  | some a =>
    simp only [gen_ainput]
    split_ifs
    · exact hash_data_status H P hP _ _ _ _ _
    · exact h0

theorem gen_ainput_fields (H : HashCap σ) (h : RANDOM_HASH σ) (a : Option (List Nat)) :
    (gen_ainput H h a).2.hash_len = h.hash_len ∧ (gen_ainput H h a).2.seed_len = h.seed_len ∧
    (gen_ainput H h a).2.reseed_cnt = h.reseed_cnt ∧ (gen_ainput H h a).2.c = h.c := by
  cases a with
  | none => simp [gen_ainput]
  | some a =>
    simp only [gen_ainput]
    split_ifs <;> simp

/-- What a call of `RANDOM_HASH_gen` does when the hash never fails and the counter
is below the reseed limit: status 0, `*glen = min(olen, 2^16)`, counter
incremented, lengths and `c` kept, nothing stored outside
`[out, out + min(olen, 2^16))`. -/
theorem RANDOM_HASH_gen_ok (H : HashCap σ) (hnf : H.NeverFails) (fuel : Nat)
    (h : RANDOM_HASH σ) (ainput : Option (List Nat)) (mem : Mem) (out olen glen : Nat)
    (hc : h.reseed_cnt < 2 ^ 48) (hl : 1 ≤ h.hash_len % 2 ^ 16)
    (hf : min olen (2 ^ 16) < fuel) :
    ∃ h' mem', RANDOM_HASH_gen H fuel h ainput mem out olen glen
        = some (0, h', mem', min olen (2 ^ 16)) ∧
      h'.reseed_cnt = h.reseed_cnt + 1 ∧ h'.hash_len = h.hash_len ∧
      h'.seed_len = h.seed_len ∧ h'.c = h.c ∧
      ∀ a, (a < out ∨ out + min olen (2 ^ 16) ≤ a) → mem' a = mem a := by
  have ha : (gen_ainput H h ainput).1 = 0 := gen_ainput_status H _ hnf rfl h ainput
  obtain ⟨hf1, hf2, hf3, hf4⟩ := gen_ainput_fields H h ainput
  have hmin : (if olen > 2 ^ 16 then 2 ^ 16 else olen) = min olen (2 ^ 16) := by
    split_ifs <;> omega
  unfold RANDOM_HASH_gen
  simp only [ge_iff_le, not_le.mpr hc, if_false, ha, ne_eq, not_true_eq_false, hmin]
  split
  · rename_i heq
    exact absurd heq (hashgen_ne_none H _ _ _ _ _ _ _ _ (by rw [hf1]; exact hl) hf)
  · rename_i rg heq
    have hrg : rg.1 = 0 := hashgen_status H _ hnf rfl _ _ _ _ _ _ _ _ _ heq
    have hfr := hashgen_frame H _ _ _ _ _ _ _ _ _ heq
    have hd : ∀ hash d0, (hash_data H hash none d0 none none).1 = 0 :=
      fun hash d0 => hash_data_status H _ hnf _ _ _ _ _
    simp only [hrg, hd, ne_eq, not_true_eq_false, if_false]
    refine ⟨_, _, rfl, ?_, hf1, hf2, hf4, hfr⟩
    simp only [hf3]
    omega

theorem RANDOM_HASH_gen_reseed (H : HashCap σ) (fuel : Nat) (h : RANDOM_HASH σ)
    (ainput : Option (List Nat)) (mem : Mem) (out olen glen : Nat)
    (hc : 2 ^ 48 ≤ h.reseed_cnt) :
    RANDOM_HASH_gen H fuel h ainput mem out olen glen = some (RANDOM_ERR_RESEED, h, mem, 0) := by
  unfold RANDOM_HASH_gen
  simp only [ge_iff_le, hc, if_true]

theorem RANDOM_HASH_gen_status (H : HashCap σ) (P : Int → Prop) (hP : H.Statuses P)
    (h0 : P 0) (fuel : Nat) (h : RANDOM_HASH σ) (ainput : Option (List Nat)) (mem : Mem)
    (out olen glen : Nat) (r : Int × RANDOM_HASH σ × Mem × Nat)
    (hr : RANDOM_HASH_gen H fuel h ainput mem out olen glen = some r) :
    P r.1 ∨ r.1 = RANDOM_ERR_RESEED := by
  unfold RANDOM_HASH_gen at hr
  simp only [] at hr
  split at hr
  · simp only [Option.some.injEq] at hr
    right; rw [← hr]
  · left
    split at hr
    · simp only [Option.some.injEq] at hr
      rw [← hr]; exact gen_ainput_status H P hP h0 _ _
    · split at hr
      · simp at hr
      · rename_i rg heq
        split at hr
        · simp only [Option.some.injEq] at hr
          rw [← hr]; exact hashgen_status H P hP h0 _ _ _ _ _ _ _ _ _ heq
        · split at hr
          · simp only [Option.some.injEq] at hr
            rw [← hr]; exact hash_data_status H P hP _ _ _ _ _
          · simp only [Option.some.injEq] at hr
            rw [← hr]; exact h0

theorem RANDOM_HASH_reseed_status (H : HashCap σ) (P : Int → Prop) (hP : H.Statuses P)
    (h0 : P 0) (fuel : Nat) (h : RANDOM_HASH σ) (entropy : List Nat)
    (ainput : Option (List Nat)) (r : Int × RANDOM_HASH σ)
    (hr : RANDOM_HASH_reseed H fuel h entropy ainput = some r) : P r.1 := by
  unfold RANDOM_HASH_reseed at hr
  simp only [] at hr
  split at hr
  · simp at hr
  · rename_i r1 heq1
    split at hr
    · simp only [Option.some.injEq] at hr
      rw [← hr]; exact hash_df_status H P hP h0 _ _ _ _ _ _ _ _ heq1
    · split at hr
      · simp at hr
      · rename_i r2 heq2
        split at hr
        · simp only [Option.some.injEq] at hr
          rw [← hr]; exact hash_df_status H P hP h0 _ _ _ _ _ _ _ _ heq2
        · simp only [Option.some.injEq] at hr
          rw [← hr]; exact h0

/-- What a call of `RANDOM_HASH_reseed` does when the hash never fails: status 0,
counter back to 1, lengths kept. -/
theorem RANDOM_HASH_reseed_ok (H : HashCap σ) (hnf : H.NeverFails) (fuel : Nat)
    (h : RANDOM_HASH σ) (entropy : List Nat) (ainput : Option (List Nat))
    (hl : 1 ≤ h.hash_len % 2 ^ 16) (hf : h.seed_len < fuel) :
    ∃ h', RANDOM_HASH_reseed H fuel h entropy ainput = some (0, h') ∧
      h'.reseed_cnt = 1 ∧ h'.hash_len = h.hash_len ∧ h'.seed_len = h.seed_len := by
  unfold RANDOM_HASH_reseed
  simp only []
  split
  · rename_i heq
    exact absurd heq (hash_df_ne_none H _ _ _ _ _ _ _ hl hf)
  · rename_i r1 heq1
    have h1 : r1.1 = 0 := hash_df_status H _ hnf rfl _ _ _ _ _ _ _ _ heq1
    simp only [h1, ne_eq, not_true_eq_false, if_false]
    split
    · rename_i heq
      exact absurd heq (hash_df_ne_none H _ _ _ _ _ _ _ hl hf)
    · rename_i r2 heq2
      have h2 : r2.1 = 0 := hash_df_status H _ hnf rfl _ _ _ _ _ _ _ _ heq2
      simp only [h2, ne_eq, not_true_eq_false, if_false]
      exact ⟨_, rfl, rfl, rfl, rfl⟩

theorem random_hash_init_status (H : HashCap σ) (P : Int → Prop) (hP : H.Statuses P)
    (h0 : P 0) (fuel : Nat) (h : RANDOM_HASH σ) (id : HASH_ID) (seed_len : Nat)
    (entropy : List Nat) (pstring : Option (List Nat)) (r : Int × RANDOM_HASH σ)
    (hr : random_hash_init H fuel h id seed_len entropy pstring = some r) : P r.1 := by
  have hnew : P (match h.hash with
      | none => H.new id 0 h.hash
      | some _ => ((0 : Int), h.hash)).1 := by
    cases h.hash with
    | none => exact hP.1 _ _ _
    | some s => exact h0
  unfold random_hash_init at hr
  simp only [] at hr
  split at hr
  · simp only [Option.some.injEq] at hr
    rw [← hr]; exact hnew
  · split at hr
    · simp only [Option.some.injEq] at hr
      rw [← hr]; exact hP.2.1 _ _
    · split at hr
      · simp at hr
      · rename_i r1 heq1
        split at hr
        · simp only [Option.some.injEq] at hr
          rw [← hr]; exact hash_df_status H P hP h0 _ _ _ _ _ _ _ _ heq1
        · split at hr
          · simp at hr
          · rename_i r2 heq2
            split at hr
            · simp only [Option.some.injEq] at hr
              rw [← hr]; exact hash_df_status H P hP h0 _ _ _ _ _ _ _ _ heq2
            · simp only [Option.some.injEq] at hr
              rw [← hr]; exact h0

/-- Every entry of the registry dispatches to the Hash_DRBG engine. -/
theorem random_meth_engine (H : HashCap σ) (m : RANDOM_METH σ) (hm : m ∈ random_meth H) :
    m.gen = RANDOM_HASH_gen H ∧ m.reseed = RANDOM_HASH_reseed H ∧
    m.fin = RANDOM_HASH_final ∧ m.flags = 0 ∧
    (m.bits = 128 ∨ m.bits = 192 ∨ m.bits = 256) ∧
    ∃ id seed_len, m.init = fun fuel h e p => random_hash_init H fuel h id seed_len e p := by
  simp only [random_meth, List.mem_cons, List.mem_singleton, List.not_mem_nil, or_false] at hm
  rcases hm with h | h | h | h | h | h | h <;> subst h <;>
    exact ⟨rfl, rfl, rfl, rfl, by simp, _, _, rfl⟩

theorem memcpy_inside (m : Mem) (dst : Nat) (src : List Nat) (a : Nat)
    (h1 : dst ≤ a) (h2 : a < dst + src.length) : memcpy m dst src a = src.getD (a - dst) 0 := by
  unfold memcpy
  rw [if_pos ⟨h1, h2⟩]

/-- Two runs of the loop of `hashgen` that differ only in the memory they start
from end with the same status, hash object and working value, and, when the
status is 0, with the same bytes in `[data, data + i)`: these bytes are
stored by the loop. -/
theorem hashgen_loop_written (H : HashCap σ) (hlen vlen : Nat) :
    ∀ (fuel : Nat) (hash : Option σ) (v t : List Nat) (memA memB : Mem) (data : Nat) (i : Int)
      (rA rB : Int × Option σ × List Nat × Mem),
      hashgen_loop H hlen vlen fuel hash v t memA data i = some rA →
      hashgen_loop H hlen vlen fuel hash v t memB data i = some rB →
      rA.1 = rB.1 ∧ rA.2.1 = rB.2.1 ∧ rA.2.2.1 = rB.2.2.1 ∧
      (rA.1 = 0 → ∀ a, data ≤ a → a < data + i.toNat → rA.2.2.2 a = rB.2.2.2 a) := by
  intro fuel
  induction fuel with
  | zero => intro hash v t memA memB data i rA rB h; simp [hashgen_loop] at h
  | succ n ih =>
    intro hash v t memA memB data i rA rB hA hB
    rw [hashgen_loop] at hA hB
    by_cases hpos : i > 0
    · rw [if_pos hpos] at hA hB
      by_cases h1 : (H.init hash).1 = 0
      · by_cases h2 : (H.update (H.init hash).2 (bytesOf v 0 vlen)).1 = 0
        · by_cases h3 : (H.final (H.update (H.init hash).2 (bytesOf v 0 vlen)).2).1 = 0
          · simp only [h1, h2, h3, ne_eq, not_true_eq_false, if_false] at hA hB
            obtain ⟨e1, e2, e3, e4⟩ := ih _ _ _ _ _ _ _ _ _ hA hB
            refine ⟨e1, e2, e3, fun h0 a ha1 ha2 => ?_⟩
            by_cases hlt : a < data + hlen
            · rw [hashgen_loop_frame H hlen vlen _ _ _ _ _ _ _ _ hA a (Or.inl hlt),
                hashgen_loop_frame H hlen vlen _ _ _ _ _ _ _ _ hB a (Or.inl hlt),
                memcpy_inside _ _ _ _ ha1 (by rw [bytesOf_length]; split_ifs <;> omega),
                memcpy_inside _ _ _ _ ha1 (by rw [bytesOf_length]; split_ifs <;> omega)]
            · exact e4 h0 a (by omega) (by omega)
          · simp only [h1, h2, h3, ne_eq, not_true_eq_false, not_false_eq_true, if_false,
              if_true, Option.some.injEq] at hA hB
            rw [← hA, ← hB]
            exact ⟨rfl, rfl, rfl, fun h0 => absurd h0 h3⟩
        · simp only [h1, h2, ne_eq, not_true_eq_false, not_false_eq_true, if_false,
            if_true, Option.some.injEq] at hA hB
          rw [← hA, ← hB]
          exact ⟨rfl, rfl, rfl, fun h0 => absurd h0 h2⟩
      · simp only [h1, ne_eq, not_false_eq_true, if_true, Option.some.injEq] at hA hB
        rw [← hA, ← hB]
        exact ⟨rfl, rfl, rfl, fun h0 => absurd h0 h1⟩
    · rw [if_neg hpos] at hA hB
      simp only [Option.some.injEq] at hA hB
      rw [← hA, ← hB]
      refine ⟨rfl, rfl, rfl, fun _ a ha1 ha2 => ?_⟩
      have : i.toNat = 0 := by omega
      omega

/-- Two successful calls of `RANDOM_HASH_gen` that differ only in the memory they
start from leave the same context and the same bytes in
`[out, out + min(olen, 2^16))`: the call stores these bytes. -/
theorem RANDOM_HASH_gen_written (H : HashCap σ) (fuel : Nat) (h : RANDOM_HASH σ)
    (ainput : Option (List Nat)) (memA memB : Mem) (out olen glen : Nat)
    (hA hB : RANDOM_HASH σ) (mA mB : Mem) (gA gB : Nat)
    (eA : RANDOM_HASH_gen H fuel h ainput memA out olen glen = some (0, hA, mA, gA))
    (eB : RANDOM_HASH_gen H fuel h ainput memB out olen glen = some (0, hB, mB, gB)) :
    hA = hB ∧ ∀ a, out ≤ a → a < out + min olen (2 ^ 16) → mA a = mB a := by
  have hmin : (if olen > 2 ^ 16 then 2 ^ 16 else olen) = min olen (2 ^ 16) := by
    split_ifs <;> omega
  unfold RANDOM_HASH_gen at eA eB
  simp only [hmin] at eA eB
  by_cases hc : h.reseed_cnt ≥ 2 ^ 48
  · rw [if_pos hc] at eA
    simp [RANDOM_ERR_RESEED] at eA
  · rw [if_neg hc] at eA eB
    by_cases ha : (gen_ainput H h ainput).1 = 0
    · simp only [ha, ne_eq, not_true_eq_false, if_false] at eA eB
      cases hgA : hashgen H fuel (gen_ainput H h ainput).2.hash
          ((gen_ainput H h ainput).2.hash_len % 2 ^ 16)
          (writeAt (gen_ainput H h ainput).2.t 0
            (bytesOf (gen_ainput H h ainput).2.v 1 (gen_ainput H h ainput).2.seed_len))
          (gen_ainput H h ainput).2.seed_len memA out (min olen (2 ^ 16)) with
      | none => rw [hgA] at eA; simp at eA
      | some rgA =>
        cases hgB : hashgen H fuel (gen_ainput H h ainput).2.hash
            ((gen_ainput H h ainput).2.hash_len % 2 ^ 16)
            (writeAt (gen_ainput H h ainput).2.t 0
              (bytesOf (gen_ainput H h ainput).2.v 1 (gen_ainput H h ainput).2.seed_len))
            (gen_ainput H h ainput).2.seed_len memB out (min olen (2 ^ 16)) with
        | none => rw [hgB] at eB; simp at eB
        | some rgB =>
          rw [hgA] at eA
          rw [hgB] at eB
          obtain ⟨e1, e2, e3, e4⟩ := hashgen_loop_written H _ _ _ _ _ _ _ _ _ _ _ _ hgA hgB
          simp only [] at eA eB
          rw [← e1, ← e2, ← e3] at eB
          by_cases hr : rgA.1 = 0
          · simp only [hr, ne_eq, not_true_eq_false, if_false] at eA eB
            split at eA
            · simp at eA
              rename_i hne
              rw [if_pos hne] at eB
              exact absurd eA.1 hne
            · rename_i hne
              rw [if_neg hne] at eB
              simp only [Option.some.injEq, Prod.mk.injEq, true_and] at eA eB
              refine ⟨eA.1.symm.trans eB.1, fun a ha1 ha2 => ?_⟩
              rw [← eA.2.1, ← eB.2.1]
              exact e4 hr a ha1 (by rw [Int.toNat_ofNat]; exact ha2)
          · simp only [ne_eq, hr, not_false_eq_true, if_true, Option.some.injEq,
              Prod.mk.injEq] at eA
            exact eA.1.elim
    · simp only [ne_eq, ha, not_false_eq_true, if_true, Option.some.injEq,
        Prod.mk.injEq] at eA
      exact eA.1.elim

/-! ## Properties of the entropy orchestrator -/

theorem ENTROPY_pass_cons (m : ENTROPY_METH ε) (ms : List (ENTROPY_METH ε)) (i : Nat)
    (s : EntropyVars ε) :
    ENTROPY_pass (m :: ms) i s
      = ((ENTROPY_pass ms (i + 1) (ENTROPY_step m i s).1).1,
         (ENTROPY_step m i s).2 ++ (ENTROPY_pass ms (i + 1) (ENTROPY_step m i s).1).2) := by
  rw [ENTROPY_pass]
  unfold ENTROPY_step
  by_cases h1 : (s.once &&& ((1 <<< (i % 32)) % 2 ^ 32)) ≠ 0
  · rw [if_pos h1, if_pos h1]; rfl
  · rw [if_neg h1, if_neg h1]
    by_cases h2 : (m.flags &&& ENTROPY_FLAG_NO_PREV) ≠ 0 ∧ s.gathered ≠ 0
    · rw [if_pos h2, if_pos h2]; rfl
    · rw [if_neg h2, if_neg h2]
      by_cases h3 : (m.func s.env s.b).ret ≠ 0
      · simp only [if_pos h3]; rfl
      · simp only [if_neg h3]; rfl

theorem creditOfSuccesses_nil : creditOfSuccesses [] = 0 := rfl

theorem creditOfSuccesses_cons (x : SrcCall) (xs : List SrcCall) :
    creditOfSuccesses (x :: xs)
      = (if x.ret ≠ 0 then x.credit else 0) + creditOfSuccesses xs := by
  unfold creditOfSuccesses
  by_cases h : x.ret = 0 <;> simp [List.filter_cons, h]

theorem creditOfSuccesses_append (xs ys : List SrcCall) :
    creditOfSuccesses (xs ++ ys) = creditOfSuccesses xs + creditOfSuccesses ys := by
  unfold creditOfSuccesses
  simp [List.filter_append, List.map_append, List.sum_append]

theorem ENTROPY_step_spec (c : Nat) (m : ENTROPY_METH ε) (i : Nat) (s : EntropyVars ε)
    (hm : ∀ (env : ε) (b : Nat),
      ((m.func env b).ret = 0 → (m.func env b).credit = 0) ∧ (m.func env b).credit ≤ c)
    (hb : s.b + c < 2 ^ 16) :
    (ENTROPY_step m i s).1.b = s.b + creditOfSuccesses (ENTROPY_step m i s).2 ∧
    (ENTROPY_step m i s).1.b ≤ s.b + c ∧
    ((ENTROPY_step m i s).1.gathered = 0 ↔
      s.gathered = 0 ∧ ∀ x ∈ (ENTROPY_step m i s).2, x.ret = 0) := by
  have hm' := hm s.env s.b
  unfold ENTROPY_step
  by_cases h1 : (s.once &&& ((1 <<< (i % 32)) % 2 ^ 32)) ≠ 0
  · rw [if_pos h1]; simp [creditOfSuccesses_nil]
  · rw [if_neg h1]
    by_cases h2 : (m.flags &&& ENTROPY_FLAG_NO_PREV) ≠ 0 ∧ s.gathered ≠ 0
    · rw [if_pos h2]; simp [creditOfSuccesses_nil]
    · rw [if_neg h2]
      by_cases h3 : (m.func s.env s.b).ret = 0
      · have hmod : (s.b + (m.func s.env s.b).credit) % 2 ^ 16 = s.b := by
          rw [hm'.1 h3]; exact Nat.mod_eq_of_lt (by omega)
        have hmod' : (s.b + (m.func s.env s.b).credit) % 65536 = s.b := hmod
        simp [h3, hmod', creditOfSuccesses_cons, creditOfSuccesses_nil]
      · have hmod : (s.b + (m.func s.env s.b).credit) % 2 ^ 16
            = s.b + (m.func s.env s.b).credit := Nat.mod_eq_of_lt (by omega)
        simp only [ne_eq, h3, not_false_eq_true, if_true, hmod, creditOfSuccesses_cons,
          creditOfSuccesses_nil, Nat.add_zero, one_ne_zero, List.mem_singleton, forall_eq,
          and_false, true_and]
        exact ⟨by omega, trivial⟩

theorem ENTROPY_pass_spec (c : Nat) :
    ∀ (ms : List (ENTROPY_METH ε)) (i : Nat) (s : EntropyVars ε),
      SourcesCredit ms c → s.b + ms.length * c < 2 ^ 16 →
      (ENTROPY_pass ms i s).1.b = s.b + creditOfSuccesses (ENTROPY_pass ms i s).2 ∧
      (ENTROPY_pass ms i s).1.b ≤ s.b + ms.length * c ∧
      ((ENTROPY_pass ms i s).1.gathered = 0 ↔
        s.gathered = 0 ∧ ∀ x ∈ (ENTROPY_pass ms i s).2, x.ret = 0) := by
  intro ms
  induction ms with
  | nil => intro i s _ _; simp [ENTROPY_pass, creditOfSuccesses_nil]
  | cons m ms ih =>
    intro i s hsrc hb
    have hsrc' : SourcesCredit ms c := fun m' hm' => hsrc m' (List.mem_cons_of_mem _ hm')
    simp only [List.length_cons, Nat.add_mul, Nat.one_mul] at hb ⊢
    obtain ⟨sb, sle, sg⟩ := ENTROPY_step_spec c m i s (hsrc m (List.mem_cons_self _ _))
      (by omega)
    obtain ⟨pb, ple, pg⟩ := ih (i + 1) (ENTROPY_step m i s).1 hsrc' (by omega)
    rw [ENTROPY_pass_cons]
    simp only []
    refine ⟨?_, ?_, ?_⟩
    · rw [pb, sb, creditOfSuccesses_append]; omega
    · omega
    · rw [pg, sg]
      simp only [List.mem_append]
      constructor
      · rintro ⟨⟨h1, h2⟩, h3⟩
        exact ⟨h1, fun x hx => hx.elim (h2 x) (h3 x)⟩
      · rintro ⟨h1, h2⟩
        exact ⟨⟨h1, fun x hx => h2 x (Or.inl hx)⟩, fun x hx => h2 x (Or.inr hx)⟩

theorem ENTROPY_step_progress (m : ENTROPY_METH ε) (i : Nat) (s : EntropyVars ε)
    (hp : ∀ (env : ε) (b : Nat), (m.func env b).ret ≠ 0 → 1 ≤ (m.func env b).credit) :
    (∃ x ∈ (ENTROPY_step m i s).2, x.ret ≠ 0) →
      1 ≤ creditOfSuccesses (ENTROPY_step m i s).2 := by
  unfold ENTROPY_step
  by_cases h1 : (s.once &&& ((1 <<< (i % 32)) % 2 ^ 32)) ≠ 0
  · rw [if_pos h1]; simp
  · rw [if_neg h1]
    by_cases h2 : (m.flags &&& ENTROPY_FLAG_NO_PREV) ≠ 0 ∧ s.gathered ≠ 0
    · rw [if_pos h2]; simp
    · rw [if_neg h2]
      by_cases h3 : (m.func s.env s.b).ret = 0
      · simp [h3]
      · have := hp s.env s.b h3
        simp [h3, creditOfSuccesses_cons, creditOfSuccesses_nil, this]

theorem ENTROPY_pass_progress :
    ∀ (ms : List (ENTROPY_METH ε)) (i : Nat) (s : EntropyVars ε),
      SourcesProgress ms → (∃ x ∈ (ENTROPY_pass ms i s).2, x.ret ≠ 0) →
      1 ≤ creditOfSuccesses (ENTROPY_pass ms i s).2 := by
  intro ms
  induction ms with
  | nil => intro i s _ h; simp [ENTROPY_pass] at h
  | cons m ms ih =>
    intro i s hp h
    rw [ENTROPY_pass_cons] at h ⊢
    simp only [List.mem_append] at h
    rw [creditOfSuccesses_append]
    obtain ⟨x, hx | hx, hx0⟩ := h
    · have := ENTROPY_step_progress m i s (hp m (List.mem_cons_self _ _)) ⟨x, hx, hx0⟩
      omega
    · have := ih (i + 1) _ (fun m' hm' => hp m' (List.mem_cons_of_mem _ hm')) ⟨x, hx, hx0⟩
      omega

theorem ENTROPY_loop_spec (c : Nat) (meth : List (ENTROPY_METH ε)) (bits : Nat)
    (hsrc : SourcesCredit meth c) (hw : bits + meth.length * c ≤ 2 ^ 16) :
    ∀ (fuel : Nat) (s : EntropyVars ε) (r : EntropyVars ε × List (List SrcCall)),
      ENTROPY_loop meth bits fuel s = some r →
      r.1.b = s.b + creditOfSuccesses r.2.flatten ∧
      ¬(r.1.b < bits ∧ r.1.gathered ≠ 0) ∧
      (r.2 = [] → r.1 = s) ∧
      (∀ last, r.2.getLast? = some last → (r.1.gathered = 0 ↔ ∀ x ∈ last, x.ret = 0)) := by
  intro fuel
  induction fuel with
  | zero => intro s r h; simp [ENTROPY_loop] at h
  | succ n ih =>
    intro s r h
    rw [ENTROPY_loop] at h
    by_cases hc : s.b < bits ∧ s.gathered ≠ 0
    · rw [if_pos hc] at h
      by_cases h256 : 256 ≤ meth.length
      · rw [if_pos h256] at h; simp at h
      · rw [if_neg h256] at h
        simp only [] at h
        obtain ⟨pb, _, pg⟩ := ENTROPY_pass_spec c meth 0 { s with gathered := 0 } hsrc
          (by simp only []; omega)
        cases hl : ENTROPY_loop meth bits n (ENTROPY_pass meth 0 { s with gathered := 0 }).1 with
        | none => rw [hl] at h; simp at h
        | some r' =>
          rw [hl] at h
          simp only [Option.some.injEq] at h
          obtain ⟨ib, ic, ie, il⟩ := ih _ _ hl
          subst h
          simp only [List.flatten_cons, creditOfSuccesses_append] at *
          refine ⟨by omega, ic, by simp, ?_⟩
          intro last hlast
          cases hr2 : r'.2 with
          | nil =>
            rw [hr2] at hlast
            simp only [List.getLast?_singleton, Option.some.injEq] at hlast
            rw [ie hr2, pg, ← hlast]
            simp
          | cons y ys =>
            rw [hr2] at hlast
            rw [List.getLast?_cons_cons] at hlast
            exact il last (by rw [hr2]; exact hlast)
    · rw [if_neg hc] at h
      simp only [Option.some.injEq] at h
      subst h
      simp [creditOfSuccesses_nil, hc]

theorem ENTROPY_loop_terminates (c : Nat) (meth : List (ENTROPY_METH ε)) (bits : Nat)
    (hsrc : SourcesCredit meth c) (hw : bits + meth.length * c ≤ 2 ^ 16)
    (h256 : meth.length < 256) (hp : SourcesProgress meth) :
    ∀ (fuel : Nat) (s : EntropyVars ε), bits - s.b < fuel →
      ∃ r, ENTROPY_loop meth bits fuel s = some r := by
  intro fuel
  induction fuel with
  | zero => intro s h; omega
  | succ n ih =>
    intro s h
    rw [ENTROPY_loop]
    by_cases hc : s.b < bits ∧ s.gathered ≠ 0
    · rw [if_pos hc, if_neg (by omega)]
      simp only []
      obtain ⟨pb, _, pg⟩ := ENTROPY_pass_spec c meth 0 { s with gathered := 0 } hsrc
        (by simp only []; omega)
      simp only [true_and] at pg pb
      have hrec : ∃ r', ENTROPY_loop meth bits n
          (ENTROPY_pass meth 0 { s with gathered := 0 }).1 = some r' := by
        by_cases hg : (ENTROPY_pass meth 0 { s with gathered := 0 }).1.gathered = 0
        · cases n with
          | zero => omega
          | succ k =>
            rw [ENTROPY_loop, if_neg (by simp [hg])]
            exact ⟨_, rfl⟩
        · have hex : ∃ x ∈ (ENTROPY_pass meth 0 { s with gathered := 0 }).2, x.ret ≠ 0 := by
            by_contra hne
            push_neg at hne
            exact hg (pg.mpr hne)
          have := ENTROPY_pass_progress meth 0 { s with gathered := 0 } hp hex
          apply ih
          omega
      obtain ⟨r', hr'⟩ := hrec
      rw [hr']
      exact ⟨_, rfl⟩
    · rw [if_neg hc]
      exact ⟨_, rfl⟩

/-- C10 (amended): for a list of `n` sources whose failed calls add no credit and
whose calls add at most `c` bits each, and a bit target with
`bits + n * c ≤ 2^16`, so that the 16-bit accumulator cannot wrap, every result
of `ENTROPY_generate` is success (1) exactly when the credits added by the
successful calls sum to at least `bits`, and failure (0) exactly when that sum
is below `bits` and the last pass over the sources had no successful call; and
with fewer than 256 sources, each success adding at least one bit, the function
does return, within `bits` passes. -/
theorem ENTROPY_generate_success_iff (c : Nat) (meth : List (ENTROPY_METH ε)) (bits : Nat)
    (data : Mem) (env : ε) (hsrc : SourcesCredit meth c)
    (hw : bits + meth.length * c ≤ 2 ^ 16) :
    (∀ fuel e, ENTROPY_generate fuel meth bits data env = some e →
      (e.ret = 1 ↔ bits ≤ creditOfSuccesses e.passes.flatten) ∧
      (e.ret = 0 ↔ creditOfSuccesses e.passes.flatten < bits ∧
        ∃ last, e.passes.getLast? = some last ∧ ∀ x ∈ last, x.ret = 0) ∧
      (e.ret = 0 ∨ e.ret = 1)) ∧
    (meth.length < 256 → SourcesProgress meth → ∀ fuel, bits < fuel →
      ∃ e, ENTROPY_generate fuel meth bits data env = some e) := by
  constructor
  · intro fuel e he
    unfold ENTROPY_generate at he
    cases hl : ENTROPY_loop meth bits fuel
        { gathered := 1, b := 0, l := 0, p := 0, len := 0, once := 0, data := data,
          env := env } with
    | none => rw [hl] at he; simp at he
    | some r =>
      rw [hl] at he
      simp only [Option.some.injEq] at he
      obtain ⟨hb, hex, hnil, hlast⟩ := ENTROPY_loop_spec c meth bits hsrc hw _ _ _ hl
      simp only [Nat.zero_add] at hb
      subst he
      simp only [ge_iff_le]
      rw [← hb]
      by_cases hge : bits ≤ r.1.b
      · simp only [hge, if_true, true_iff, one_ne_zero, false_iff, not_and, or_true, and_true]
        refine ⟨trivial, fun hlt => ?_⟩
        omega
      · simp only [hge, if_false, zero_ne_one, false_iff, true_iff, not_false_eq_true,
          true_or, and_true, true_and]
        refine ⟨by omega, ?_⟩
        have hg : r.1.gathered = 0 := by
          by_contra hg
          exact hex ⟨by omega, hg⟩
        cases hr2 : r.2 with
        | nil =>
          have := hnil hr2
          rw [this] at hg
          simp at hg
        | cons y ys =>
          obtain ⟨last, hl'⟩ : ∃ last, (y :: ys).getLast? = some last :=
            ⟨(y :: ys).getLast (by simp), List.getLast?_eq_getLast _ _⟩
          exact ⟨last, hl', (hlast last (by rw [hr2]; exact hl')).mp hg⟩
  · intro h256 hp fuel hf
    obtain ⟨r, hr⟩ := ENTROPY_loop_terminates c meth bits hsrc hw h256 hp fuel
      { gathered := 1, b := 0, l := 0, p := 0, len := 0, once := 0, data := data,
        env := env } (by simpa using hf)
    unfold ENTROPY_generate
    rw [hr]
    exact ⟨_, rfl⟩

/-! ## Properties of the facade -/

theorem sub32_of_le (len g : Nat) (hg : g ≤ len) (hlen : len < 2 ^ 32) :
    (len + 2 ^ 32 - g % 2 ^ 32) % 2 ^ 32 = len - g := by
  have h1 : g % 2 ^ 32 = g := Nat.mod_eq_of_lt (by omega)
  rw [h1]
  have h2 : len + 2 ^ 32 - g = (len - g) + 2 ^ 32 := by omega
  rw [h2, Nat.add_mod_right]
  exact Nat.mod_eq_of_lt (by omega)

/-- One iteration of the loop of `RANDOM_generate_with_input` in which the engine
returned 0. -/
theorem RANDOM_generate_loop_step (F : Nat) (ainput : Option (List Nat)) (fuel : Nat)
    (r : RANDOM σ ε) (mem : Mem) (data len olen : Nat) (env : ε) (h' : RANDOM_HASH σ)
    (mem' : Mem) (g : Nat) (hlen : 0 < len)
    (hgen : r.meth.gen F r.ctx ainput mem data len olen = some (0, h', mem', g)) :
    RANDOM_generate_loop F ainput (fuel + 1) r mem data len olen env
      = RANDOM_generate_loop F ainput fuel { r with ctx := h' } mem' (data + len)
          ((len + 2 ^ 32 - g % 2 ^ 32) % 2 ^ 32) g env := by
  rw [RANDOM_generate_loop, if_pos hlen, hgen]
  simp [RANDOM_ERR_RESEED]

/-- From any point of the loop on, with the hash never failing and the counter
far enough from the reseed limit, the loop returns 0 and stores nothing below
its cursor. -/
theorem RANDOM_generate_loop_below (H : HashCap σ) (hnf : H.NeverFails) (F : Nat)
    (hF : 2 ^ 16 < F) (ainput : Option (List Nat)) :
    ∀ (fuel k : Nat) (r : RANDOM σ ε) (mem : Mem) (data len olen : Nat) (env : ε),
      r.meth ∈ random_meth H → 1 ≤ r.ctx.hash_len % 2 ^ 16 → len < 2 ^ 32 →
      len ≤ 2 ^ 16 * k → k < fuel → r.ctx.reseed_cnt + k ≤ 2 ^ 48 →
      ∃ r' mem', RANDOM_generate_loop F ainput fuel r mem data len olen env
          = some (0, r', mem', env) ∧ ∀ a, a < data → mem' a = mem a := by
  intro fuel
  induction fuel with
  | zero => intro k r mem data len olen env _ _ _ _ hk; omega
  | succ n ih =>
    intro k r mem data len olen env hm hl hlen hk hkf hc
    by_cases h0 : len = 0
    · subst h0
      rw [RANDOM_generate_loop, if_neg (by omega)]
      exact ⟨r, mem, rfl, fun _ _ => rfl⟩
    · have hpos : 0 < len := Nat.pos_of_ne_zero h0
      have hk1 : 1 ≤ k := by
        rcases Nat.eq_zero_or_pos k with hk0 | hk0
        · subst hk0; omega
        · exact hk0
      obtain ⟨h', mem1, hgen, hcnt, hhl, _, _, hfr⟩ :=
        RANDOM_HASH_gen_ok H hnf F r.ctx ainput mem data len olen (by omega) hl
          (lt_of_le_of_lt (Nat.min_le_right _ _) hF)
      have hgen' : r.meth.gen F r.ctx ainput mem data len olen
          = some (0, h', mem1, min len (2 ^ 16)) := by
        rw [(random_meth_engine H r.meth hm).1]; exact hgen
      rw [RANDOM_generate_loop_step F ainput n r mem data len olen env h' mem1 _ hpos hgen',
        sub32_of_le len _ (Nat.min_le_left _ _) hlen]
      obtain ⟨r', mem', hres, hbelow⟩ := ih (k - 1) { r with ctx := h' } mem1 (data + len)
        (len - min len (2 ^ 16)) (min len (2 ^ 16)) env hm (by simp only []; rw [hhl]; exact hl)
        (by omega) (by omega) (by omega) (by simp only []; omega)
      refine ⟨r', mem', hres, fun a ha => ?_⟩
      rw [hbelow a (by omega)]
      exact hfr a (Or.inl ha)

/-! ### Requests of at most 2^16 bytes, and the cursor of the chunking loop -/

theorem constHash_neverFails : constHash.NeverFails :=
  ⟨fun _ _ _ => rfl, fun _ _ => rfl, fun _ => rfl, fun _ _ => rfl, fun _ => rfl⟩

theorem sampleMeth_mem (H : HashCap Unit) : sampleMeth H ∈ random_meth H := by
  simp [sampleMeth, random_meth]

theorem RANDOM_generate_eq_loop (fuel : Nat) (r : RANDOM σ ε) (ainput : Option (List Nat))
    (mem : Mem) (data len olen0 : Nat) (env : ε) (hd : data ≠ 0)
    (x : Int × RANDOM σ ε × Mem × ε)
    (hx : RANDOM_generate_loop fuel ainput fuel r mem data len olen0 env = some x) :
    RANDOM_generate_with_input fuel (some r) ainput mem data len olen0 env
      = some (x.1, some x.2.1, x.2.2.1, x.2.2.2) := by
  unfold RANDOM_generate_with_input
  simp only [hd, if_false, hx]

/-- C2: for an instantiated generator of the registry with reseed counter below
2^48 and a hash that never fails, `RANDOM_generate` of `n` bytes, 1 ≤ n ≤ 65536,
returns 0 after exactly one engine call and no reseed: the generator afterwards
is the one left by that single `gen` call (counter incremented once, entropy
buffer and world untouched), the memory is the one that call left, and nothing
outside `out[0..n)` is changed; for `n = 0` it returns 0 and leaves generator
and memory as they were, without an engine call. -/
theorem RANDOM_generate_single_call (H : HashCap σ) (hnf : H.NeverFails) (r : RANDOM σ ε)
    (hm : r.meth ∈ random_meth H) (hl : 1 ≤ r.ctx.hash_len % 2 ^ 16)
    (hc : r.ctx.reseed_cnt < 2 ^ 48) (mem : Mem) (data : Nat) (hd : data ≠ 0)
    (olen0 : Nat) (env : ε) (fuel : Nat) (hf : 2 ^ 16 < fuel) :
    (∀ n, 1 ≤ n → n ≤ 2 ^ 16 →
      ∃ h' mem', r.meth.gen fuel r.ctx none mem data n olen0 = some (0, h', mem', n) ∧
        RANDOM_generate fuel (some r) mem data n olen0 env
          = some (0, some { r with ctx := h' }, mem', env) ∧
        h'.reseed_cnt = r.ctx.reseed_cnt + 1 ∧
        ∀ a, (a < data ∨ data + n ≤ a) → mem' a = mem a) ∧
    RANDOM_generate fuel (some r) mem data 0 olen0 env = some (0, some r, mem, env) := by
  obtain ⟨k, rfl⟩ : ∃ k, fuel = k + 2 := ⟨fuel - 2, by omega⟩
  constructor
  · intro n hn1 hn2
    obtain ⟨h', mem', hgen, hcnt, _, _, _, hfr⟩ :=
      RANDOM_HASH_gen_ok H hnf (k + 2) r.ctx none mem data n olen0 hc hl
        (lt_of_le_of_lt (Nat.min_le_right _ _) hf)
    have hmin : min n (2 ^ 16) = n := Nat.min_eq_left hn2
    rw [hmin] at hgen hfr
    have hgen' : r.meth.gen (k + 2) r.ctx none mem data n olen0 = some (0, h', mem', n) := by
      rw [(random_meth_engine H r.meth hm).1]; exact hgen
    refine ⟨h', mem', hgen', ?_, hcnt, hfr⟩
    have hloop : RANDOM_generate_loop (k + 2) none (k + 2) r mem data n olen0 env
        = some (0, { r with ctx := h' }, mem', env) := by
      rw [RANDOM_generate_loop_step (k + 2) none (k + 1) r mem data n olen0 env h' mem' n
        (by omega) hgen', sub32_of_le n n (le_refl _) (by omega), Nat.sub_self,
        RANDOM_generate_loop, if_neg (by omega)]
    exact RANDOM_generate_eq_loop (k + 2) r none mem data n olen0 env hd _ hloop
  · have hloop : RANDOM_generate_loop (k + 2) none (k + 2) r mem data 0 olen0 env
        = some (0, r, mem, env) := by
      rw [RANDOM_generate_loop, if_neg (by omega)]
    exact RANDOM_generate_eq_loop (k + 2) r none mem data 0 olen0 env hd _ hloop

/-- Instance of C2: a Hash_DRBG SHA256 generator with counter 1 and the constant
hash, asked for 64 bytes at address 1000. -/
theorem RANDOM_generate_single_call_witness :
    ∃ h' mem', (sampleRandom constHash 1 [goodSource]).meth.gen 65537
        (sampleRandom constHash 1 [goodSource]).ctx none (fun _ => 0) 1000 64 0
          = some (0, h', mem', 64) ∧
      RANDOM_generate 65537 (some (sampleRandom constHash 1 [goodSource])) (fun _ => 0)
          1000 64 0 ()
        = some (0, some { sampleRandom constHash 1 [goodSource] with ctx := h' }, mem', ()) ∧
      h'.reseed_cnt = (sampleRandom constHash 1 [goodSource]).ctx.reseed_cnt + 1 ∧
      ∀ a, (a < 1000 ∨ 1000 + 64 ≤ a) → mem' a = (fun _ => 0) a :=
  (RANDOM_generate_single_call constHash constHash_neverFails
    (sampleRandom constHash 1 [goodSource]) (sampleMeth_mem constHash) (by decide)
    (by decide) (fun _ => 0) 1000 (by decide) 0 () 65537 (by decide)).1 64 (by decide)
    (by decide)

/-- Bounds on what is left of a request of at most 2^24 bytes after two engine
calls. -/
theorem chunk_rest_bound (n : Nat) (hn1 : 2 ^ 16 < n) (hn2 : n ≤ 2 ^ 24) :
    n - 2 ^ 16 - min (n - 2 ^ 16) (2 ^ 16) < 2 ^ 32 ∧
    n - 2 ^ 16 - min (n - 2 ^ 16) (2 ^ 16) ≤ 2 ^ 16 * 254 := by
  constructor <;> omega

/-- The run of `RANDOM_generate` on a request of more than 2^16 bytes, engine call
by engine call: the first call stores 2^16 bytes at `out`, the second is made
at `out + n` with `n - 2^16` bytes left, and the rest of the loop stores
nothing below `out + n + (n - 2^16)`. -/
theorem RANDOM_generate_chunk_run (H : HashCap σ) (hnf : H.NeverFails) (r : RANDOM σ ε)
    (hm : r.meth ∈ random_meth H) (hl : 1 ≤ r.ctx.hash_len % 2 ^ 16)
    (hc : r.ctx.reseed_cnt + 256 ≤ 2 ^ 48) (mem : Mem) (data : Nat) (hd : data ≠ 0)
    (n : Nat) (hn1 : 2 ^ 16 < n) (hn2 : n ≤ 2 ^ 24) (olen0 : Nat) (env : ε) (fuel : Nat)
    (hf : 2 ^ 16 < fuel) :
    ∃ h1 mem1 h2 mem2 r' mem',
      RANDOM_HASH_gen H fuel r.ctx none mem data n olen0 = some (0, h1, mem1, 2 ^ 16) ∧
      RANDOM_HASH_gen H fuel h1 none mem1 (data + n) (n - 2 ^ 16) (2 ^ 16)
        = some (0, h2, mem2, min (n - 2 ^ 16) (2 ^ 16)) ∧
      RANDOM_generate_loop fuel none fuel r mem data n olen0 env
        = RANDOM_generate_loop fuel none (fuel - 1) { r with ctx := h1 } mem1 (data + n)
            (n - 2 ^ 16) (2 ^ 16) env ∧
      RANDOM_generate fuel (some r) mem data n olen0 env = some (0, some r', mem', env) ∧
      (∀ a, data + 2 ^ 16 ≤ a → a < data + n → mem' a = mem a) ∧
      (∀ a, a < data + n + (n - 2 ^ 16) → mem' a = mem2 a) := by
  obtain ⟨k, rfl⟩ : ∃ k, fuel = k + 2 := ⟨fuel - 2, by omega⟩
  have hg := (random_meth_engine H r.meth hm).1
  obtain ⟨h1, mem1, hgen, hcnt, hhl, _, _, hfr⟩ :=
    RANDOM_HASH_gen_ok H hnf (k + 2) r.ctx none mem data n olen0 (by omega) hl
      (lt_of_le_of_lt (Nat.min_le_right _ _) hf)
  have hmin : min n (2 ^ 16) = 2 ^ 16 := Nat.min_eq_right (le_of_lt hn1)
  rw [hmin] at hgen hfr
  have hgen' : r.meth.gen (k + 2) r.ctx none mem data n olen0
      = some (0, h1, mem1, 2 ^ 16) := by
    rw [hg]; exact hgen
  have hstep : RANDOM_generate_loop (k + 2) none (k + 2) r mem data n olen0 env
      = RANDOM_generate_loop (k + 2) none (k + 1) { r with ctx := h1 } mem1 (data + n)
          (n - 2 ^ 16) (2 ^ 16) env := by
    rw [RANDOM_generate_loop_step (k + 2) none (k + 1) r mem data n olen0 env h1 mem1
      (2 ^ 16) (by omega) hgen', sub32_of_le n (2 ^ 16) (le_of_lt hn1) (by omega)]
  obtain ⟨h2, mem2, hgen2, hcnt2, hhl2, _, _, hfr2⟩ :=
    RANDOM_HASH_gen_ok H hnf (k + 2) h1 none mem1 (data + n) (n - 2 ^ 16) (2 ^ 16)
      (by omega) (by rw [hhl]; exact hl) (lt_of_le_of_lt (Nat.min_le_right _ _) hf)
  have hgen2' : ({ r with ctx := h1 } : RANDOM σ ε).meth.gen (k + 2) h1 none mem1 (data + n)
      (n - 2 ^ 16) (2 ^ 16) = some (0, h2, mem2, min (n - 2 ^ 16) (2 ^ 16)) := by
    simp only []; rw [hg]; exact hgen2
  have hstep2 : RANDOM_generate_loop (k + 2) none (k + 1) { r with ctx := h1 } mem1
      (data + n) (n - 2 ^ 16) (2 ^ 16) env
      = RANDOM_generate_loop (k + 2) none k { r with ctx := h2 } mem2
          (data + n + (n - 2 ^ 16)) (n - 2 ^ 16 - min (n - 2 ^ 16) (2 ^ 16))
          (min (n - 2 ^ 16) (2 ^ 16)) env := by
    rw [RANDOM_generate_loop_step (k + 2) none k { r with ctx := h1 } mem1 (data + n)
      (n - 2 ^ 16) (2 ^ 16) env h2 mem2 _ (by omega) hgen2',
      sub32_of_le (n - 2 ^ 16) _ (Nat.min_le_left _ _) (by omega)]
  obtain ⟨r', mem', hres, hbelow⟩ := RANDOM_generate_loop_below H hnf (k + 2) hf none k 254
    { r with ctx := h2 } mem2 (data + n + (n - 2 ^ 16))
    (n - 2 ^ 16 - min (n - 2 ^ 16) (2 ^ 16)) (min (n - 2 ^ 16) (2 ^ 16)) env hm
    (by simp only []; rw [hhl2, hhl]; exact hl) (chunk_rest_bound n hn1 hn2).1
    (chunk_rest_bound n hn1 hn2).2 (by omega) (by simp only []; omega)
  refine ⟨h1, mem1, h2, mem2, r', mem', hgen, hgen2, hstep, ?_, fun a ha1 ha2 => ?_, hbelow⟩
  · exact RANDOM_generate_eq_loop (k + 2) r none mem data n olen0 env hd _
      ((hstep.trans hstep2).trans hres)
  · rw [hbelow a (by omega), hfr2 a (Or.inl ha2)]
    exact hfr a (Or.inr ha1)

/-- C1 (the code departs from the claim): for an instantiated generator of the
registry, a hash that never fails and a request of `n` bytes with
65536 < n ≤ 2^24, `RANDOM_generate` returns 0, but after the first engine call
(which produces 65536 bytes at `out`) the cursor is advanced by the remaining
length `n` instead of the produced length: the loop continues at address
`out + n` with `n - 65536` bytes left.  The bytes `out[65536..n)` are never
stored, and the second chunk is stored past the end of the buffer, in
`[out + n, out + n + min(n - 65536, 65536))`: what these addresses hold after
the call does not depend on the memory before it. -/
theorem RANDOM_generate_chunk_cursor (H : HashCap σ) (hnf : H.NeverFails) (r : RANDOM σ ε)
    (hm : r.meth ∈ random_meth H) (hl : 1 ≤ r.ctx.hash_len % 2 ^ 16)
    (hc : r.ctx.reseed_cnt + 256 ≤ 2 ^ 48) (mem : Mem) (data : Nat) (hd : data ≠ 0)
    (n : Nat) (hn1 : 2 ^ 16 < n) (hn2 : n ≤ 2 ^ 24) (olen0 : Nat) (env : ε) (fuel : Nat)
    (hf : 2 ^ 16 < fuel) :
    ∃ h1 mem1 r' mem',
      r.meth.gen fuel r.ctx none mem data n olen0 = some (0, h1, mem1, 2 ^ 16) ∧
      RANDOM_generate_loop fuel none fuel r mem data n olen0 env
        = RANDOM_generate_loop fuel none (fuel - 1) { r with ctx := h1 } mem1 (data + n)
            (n - 2 ^ 16) (2 ^ 16) env ∧
      RANDOM_generate fuel (some r) mem data n olen0 env = some (0, some r', mem', env) ∧
      (∀ a, data + 2 ^ 16 ≤ a → a < data + n → mem' a = mem a) ∧
      (∀ memB : Mem, ∃ rB memB',
        RANDOM_generate fuel (some r) memB data n olen0 env = some (0, some rB, memB', env) ∧
        ∀ a, data + n ≤ a → a < data + n + min (n - 2 ^ 16) (2 ^ 16) → memB' a = mem' a) := by
  obtain ⟨h1, mem1, h2, mem2, r', mem', g1, g2, hstep, hres, hun, hbel⟩ :=
    RANDOM_generate_chunk_run H hnf r hm hl hc mem data hd n hn1 hn2 olen0 env fuel hf
  refine ⟨h1, mem1, r', mem', by rw [(random_meth_engine H r.meth hm).1]; exact g1, hstep,
    hres, hun, fun memB => ?_⟩
  obtain ⟨h1B, mem1B, h2B, mem2B, rB, memB', g1B, g2B, _, hresB, _, hbelB⟩ :=
    RANDOM_generate_chunk_run H hnf r hm hl hc memB data hd n hn1 hn2 olen0 env fuel hf
  refine ⟨rB, memB', hresB, fun a ha1 ha2 => ?_⟩
  obtain ⟨e1, _⟩ := RANDOM_HASH_gen_written H fuel r.ctx none mem memB data n olen0
    h1 h1B mem1 mem1B _ _ g1 g1B
  subst e1
  obtain ⟨_, e2⟩ := RANDOM_HASH_gen_written H fuel h1 none mem1 mem1B (data + n) (n - 2 ^ 16)
    (2 ^ 16) h2 h2B mem2 mem2B _ _ g2 g2B
  have hmin : min (n - 2 ^ 16) (2 ^ 16) ≤ n - 2 ^ 16 := Nat.min_le_left _ _
  have hmm : min (min (n - 2 ^ 16) (2 ^ 16)) (2 ^ 16) = min (n - 2 ^ 16) (2 ^ 16) :=
    Nat.min_eq_left (Nat.min_le_right _ _)
  rw [hbelB a (by omega), hbel a (by omega)]
  exact (e2 a ha1 ha2).symm

/-- Instance of C1: a Hash_DRBG SHA256 generator with counter 1 and the constant
hash, asked for 65537 bytes at address 1000. -/
theorem RANDOM_generate_chunk_cursor_witness :
    ∃ h1 mem1 r' mem',
      (sampleRandom constHash 1 [goodSource]).meth.gen 65537
          (sampleRandom constHash 1 [goodSource]).ctx none (fun _ => 0) 1000 65537 0
        = some (0, h1, mem1, 2 ^ 16) ∧
      RANDOM_generate_loop 65537 none 65537 (sampleRandom constHash 1 [goodSource])
          (fun _ => 0) 1000 65537 0 ()
        = RANDOM_generate_loop 65537 none (65537 - 1)
            { sampleRandom constHash 1 [goodSource] with ctx := h1 } mem1 (1000 + 65537)
            (65537 - 2 ^ 16) (2 ^ 16) () ∧
      RANDOM_generate 65537 (some (sampleRandom constHash 1 [goodSource])) (fun _ => 0)
          1000 65537 0 () = some (0, some r', mem', ()) ∧
      (∀ a, 1000 + 2 ^ 16 ≤ a → a < 1000 + 65537 → mem' a = (fun _ => 0) a) ∧
      (∀ memB : Mem, ∃ rB memB',
        RANDOM_generate 65537 (some (sampleRandom constHash 1 [goodSource])) memB
          1000 65537 0 () = some (0, some rB, memB', ()) ∧
        ∀ a, 1000 + 65537 ≤ a → a < 1000 + 65537 + min (65537 - 2 ^ 16) (2 ^ 16) →
          memB' a = mem' a) :=
  RANDOM_generate_chunk_cursor constHash constHash_neverFails
    (sampleRandom constHash 1 [goodSource]) (sampleMeth_mem constHash) (by decide)
    (by decide) (fun _ => 0) 1000 (by decide) 65537 (by decide) (by decide) 0 () 65537
    (by decide)

/-! ### Reseeding inside the chunking loop -/

/-- A successful draw followed by a successful engine reseed, as `RANDOM_seed`
performs them for a generator of the registry when the hash never fails. -/
theorem RANDOM_seed_ok (H : HashCap σ) (hnf : H.NeverFails) (r : RANDOM σ ε)
    (hm : r.meth ∈ random_meth H) (hl : 1 ≤ r.ctx.hash_len % 2 ^ 16)
    (data : Option (List Nat)) (env : ε) (fuel : Nat) (hf : r.ctx.seed_len < fuel)
    (e : EntropyOut ε)
    (hdraw : ENTROPY_generate fuel r.entropy_src r.meth.bits r.entropy env = some e)
    (hok : e.ret ≠ 0) :
    ∃ h2, RANDOM_seed fuel (some r) data env
        = some (0, some { r with ctx := h2, entropy := memzero e.data 0 e.olen }, e.env) ∧
      h2.reseed_cnt = 1 ∧ h2.hash_len = r.ctx.hash_len ∧ h2.seed_len = r.ctx.seed_len := by
  obtain ⟨h2, hre, hcnt, hhl, hsl⟩ := RANDOM_HASH_reseed_ok H hnf fuel r.ctx
    (readMem e.data 0 e.olen) data hl hf
  refine ⟨h2, ?_, hcnt, hhl, hsl⟩
  unfold RANDOM_seed
  simp only [hdraw, hok, if_false, (random_meth_engine H r.meth hm).2.1, hre]

/-- The run of `RANDOM_generate_with_input` when the first engine call asks for a
reseed and the draw succeeds: the reseed is done and the next engine call is
made at `out + n`. -/
theorem RANDOM_generate_reseed_run (H : HashCap σ) (hnf : H.NeverFails) (r : RANDOM σ ε)
    (hm : r.meth ∈ random_meth H) (hl : 1 ≤ r.ctx.hash_len % 2 ^ 16)
    (hc : 2 ^ 48 ≤ r.ctx.reseed_cnt) (ainput : Option (List Nat)) (mem : Mem) (data : Nat)
    (hd : data ≠ 0) (n : Nat) (hn1 : 1 ≤ n) (hn2 : n ≤ 2 ^ 16) (olen0 : Nat) (env : ε)
    (fuel : Nat) (hf1 : n < fuel) (hf2 : r.ctx.seed_len < fuel) (hf3 : 3 ≤ fuel)
    (e : EntropyOut ε)
    (hdraw : ENTROPY_generate fuel r.entropy_src r.meth.bits r.entropy env = some e)
    (hok : e.ret ≠ 0) :
    ∃ r2 h' mem',
      RANDOM_HASH_gen H fuel r.ctx ainput mem data n olen0
        = some (RANDOM_ERR_RESEED, r.ctx, mem, 0) ∧
      RANDOM_seed fuel (some r) none env = some (0, some r2, e.env) ∧
      r2.ctx.reseed_cnt = 1 ∧ r2.meth = r.meth ∧
      RANDOM_HASH_gen H fuel r2.ctx ainput mem (data + n) n 0 = some (0, h', mem', n) ∧
      RANDOM_generate_with_input fuel (some r) ainput mem data n olen0 env
        = some (0, some { r2 with ctx := h' }, mem', e.env) ∧
      ∀ a, a < data + n → mem' a = mem a := by
  obtain ⟨k, rfl⟩ : ∃ k, fuel = k + 3 := ⟨fuel - 3, by omega⟩
  have hg := (random_meth_engine H r.meth hm).1
  have hgen1 := RANDOM_HASH_gen_reseed H (k + 3) r.ctx ainput mem data n olen0 hc
  have hgen1' : r.meth.gen (k + 3) r.ctx ainput mem data n olen0
      = some (RANDOM_ERR_RESEED, r.ctx, mem, 0) := by
    rw [hg]; exact hgen1
  obtain ⟨h2, hseed, hcnt, hhl, _⟩ := RANDOM_seed_ok H hnf r hm hl none env (k + 3) hf2 e
    hdraw hok
  obtain ⟨h', mem', hgen2, _, _, _, _, hfr⟩ :=
    RANDOM_HASH_gen_ok H hnf (k + 3) h2 ainput mem (data + n) n 0 (by omega)
      (by rw [hhl]; exact hl) (lt_of_le_of_lt (Nat.min_le_left _ _) hf1)
  have hmin : min n (2 ^ 16) = n := Nat.min_eq_left hn2
  rw [hmin] at hgen2 hfr
  have hgen2' : ({ r with ctx := h2, entropy := memzero e.data 0 e.olen } : RANDOM σ ε).meth.gen
      (k + 3) h2 ainput mem (data + n) n 0 = some (0, h', mem', n) := by
    simp only []; rw [hg]; exact hgen2
  refine ⟨{ r with ctx := h2, entropy := memzero e.data 0 e.olen }, h', mem', hgen1, hseed,
    hcnt, rfl, hgen2, ?_, fun a ha => hfr a (Or.inl ha)⟩
  have hloop : RANDOM_generate_loop (k + 3) ainput (k + 3) r mem data n olen0 env
      = some (0, { r with ctx := h', entropy := memzero e.data 0 e.olen }, mem', e.env) := by
    rw [RANDOM_generate_loop, if_pos (by omega), hgen1']
    simp only [if_true]
    have hr : ({ r with ctx := r.ctx } : RANDOM σ ε) = r := rfl
    rw [hr, hseed]
    simp only [ne_eq, not_true_eq_false, if_false, Nat.mod_self, Nat.zero_mod, Nat.sub_zero,
      Nat.add_mod_right]
    rw [Nat.mod_eq_of_lt (by omega : n < 2 ^ 32),
      RANDOM_generate_loop_step (k + 3) ainput (k + 1) _ mem (data + n) n 0 e.env h' mem' n
        (by omega) hgen2', sub32_of_le n n (le_refl _) (by omega), Nat.sub_self,
      RANDOM_generate_loop, if_neg (by omega)]
  exact RANDOM_generate_eq_loop (k + 3) r ainput mem data n olen0 env hd _ hloop

/-- C3 (the code departs from the claim): when the engine call inside
`RANDOM_generate_with_input` returns RESEED_REQUIRED (counter ≥ 2^48) and the
entropy draw succeeds, the facade calls `RANDOM_seed` with null additional
input and the overall call returns 0, but the retried engine call does not
receive the same cursor: it receives `out + n`.  No byte of `out[0..n)` is
stored, and the reseeded generator's output is stored past the end of the
buffer, in `[out + n, out + 2n)`: what these addresses hold after the call
does not depend on the memory before it. -/
theorem RANDOM_generate_reseed_cursor (H : HashCap σ) (hnf : H.NeverFails) (r : RANDOM σ ε)
    (hm : r.meth ∈ random_meth H) (hl : 1 ≤ r.ctx.hash_len % 2 ^ 16)
    (hc : 2 ^ 48 ≤ r.ctx.reseed_cnt) (ainput : Option (List Nat)) (mem : Mem) (data : Nat)
    (hd : data ≠ 0) (n : Nat) (hn1 : 1 ≤ n) (hn2 : n ≤ 2 ^ 16) (olen0 : Nat) (env : ε)
    (fuel : Nat) (hf1 : n < fuel) (hf2 : r.ctx.seed_len < fuel) (hf3 : 3 ≤ fuel)
    (e : EntropyOut ε)
    (hdraw : ENTROPY_generate fuel r.entropy_src r.meth.bits r.entropy env = some e)
    (hok : e.ret ≠ 0) :
    ∃ r2 h' mem',
      r.meth.gen fuel r.ctx ainput mem data n olen0 = some (RANDOM_ERR_RESEED, r.ctx, mem, 0) ∧
      RANDOM_seed fuel (some r) none env = some (0, some r2, e.env) ∧
      r2.ctx.reseed_cnt = 1 ∧
      r2.meth.gen fuel r2.ctx ainput mem (data + n) n 0 = some (0, h', mem', n) ∧
      RANDOM_generate_with_input fuel (some r) ainput mem data n olen0 env
        = some (0, some { r2 with ctx := h' }, mem', e.env) ∧
      (∀ a, a < data + n → mem' a = mem a) ∧
      (∀ memB : Mem, ∃ rB memB',
        RANDOM_generate_with_input fuel (some r) ainput memB data n olen0 env
          = some (0, some rB, memB', e.env) ∧
        ∀ a, data + n ≤ a → a < data + n + n → memB' a = mem' a) := by
  have hg := (random_meth_engine H r.meth hm).1
  obtain ⟨r2, h', mem', g1, hseed, hcnt, hm2, g2, hres, hun⟩ :=
    RANDOM_generate_reseed_run H hnf r hm hl hc ainput mem data hd n hn1 hn2 olen0 env fuel
      hf1 hf2 hf3 e hdraw hok
  refine ⟨r2, h', mem', by rw [hg]; exact g1, hseed, hcnt, by rw [hm2, hg]; exact g2, hres,
    hun, fun memB => ?_⟩
  obtain ⟨r2B, hB', memB', _, hseedB, _, _, g2B, hresB, _⟩ :=
    RANDOM_generate_reseed_run H hnf r hm hl hc ainput memB data hd n hn1 hn2 olen0 env fuel
      hf1 hf2 hf3 e hdraw hok
  have hr2 : r2B = r2 := by
    have := hseedB.symm.trans hseed
    simp only [Option.some.injEq, Prod.mk.injEq, true_and, and_true] at this
    exact this
  subst hr2
  obtain ⟨_, e2⟩ := RANDOM_HASH_gen_written H fuel r2B.ctx ainput mem memB (data + n) n 0
    h' hB' mem' memB' _ _ g2 g2B
  refine ⟨_, memB', hresB, fun a ha1 ha2 => ?_⟩
  have hmin : min n (2 ^ 16) = n := Nat.min_eq_left hn2
  rw [hmin] at e2
  exact (e2 a ha1 ha2).symm

/-- Instance of C3: a Hash_DRBG SHA256 generator whose counter is 2^48, the
constant hash, a source that always succeeds, and a request of 1 byte at
address 1000. -/
theorem RANDOM_generate_reseed_cursor_witness :
    ∃ r2 h' mem',
      (sampleRandom constHash (2 ^ 48) [goodSource]).meth.gen 100
          (sampleRandom constHash (2 ^ 48) [goodSource]).ctx none (fun _ => 0) 1000 1 0
        = some (RANDOM_ERR_RESEED, (sampleRandom constHash (2 ^ 48) [goodSource]).ctx,
            (fun _ => 0), 0) ∧
      RANDOM_seed 100 (some (sampleRandom constHash (2 ^ 48) [goodSource])) none ()
        = some (0, some r2, ()) ∧
      r2.ctx.reseed_cnt = 1 ∧
      r2.meth.gen 100 r2.ctx none (fun _ => 0) (1000 + 1) 1 0 = some (0, h', mem', 1) ∧
      RANDOM_generate_with_input 100 (some (sampleRandom constHash (2 ^ 48) [goodSource]))
          none (fun _ => 0) 1000 1 0 ()
        = some (0, some { r2 with ctx := h' }, mem', ()) ∧
      (∀ a, a < 1000 + 1 → mem' a = (fun _ => 0) a) ∧
      (∀ memB : Mem, ∃ rB memB',
        RANDOM_generate_with_input 100 (some (sampleRandom constHash (2 ^ 48) [goodSource]))
          none memB 1000 1 0 () = some (0, some rB, memB', ()) ∧
        ∀ a, 1000 + 1 ≤ a → a < 1000 + 1 + 1 → memB' a = mem' a) :=
  RANDOM_generate_reseed_cursor constHash constHash_neverFails
    (sampleRandom constHash (2 ^ 48) [goodSource]) (sampleMeth_mem constHash) (by decide)
    (by decide) none (fun _ => 0) 1000 (by decide) 1 (by decide) (by decide) 0 () 100
    (by decide) (by decide) (by decide) _ rfl (by decide)

/-- The outcomes of `RANDOM_seed` on a non-null generator: it does not return, or
it returns the generator with the same method table and a status that is
either RANDOM_ERR_ENTROPY or the status of the engine reseed. -/
theorem RANDOM_seed_cases (fuel : Nat) (r : RANDOM σ ε) (data : Option (List Nat)) (env : ε) :
    RANDOM_seed fuel (some r) data env = none ∨
    ∃ s r2 env2, RANDOM_seed fuel (some r) data env = some (s, some r2, env2) ∧
      r2.meth = r.meth ∧
      (s = RANDOM_ERR_ENTROPY ∨
        ∃ F h e d x, r.meth.reseed F h e d = some x ∧ x.1 = s) := by
  unfold RANDOM_seed
  simp only []
  cases ENTROPY_generate fuel r.entropy_src r.meth.bits r.entropy env with
  | none => left; rfl
  | some e =>
    simp only []
    by_cases he : e.ret = 0
    · right
      rw [if_pos he]
      exact ⟨_, _, _, rfl, rfl, Or.inl rfl⟩
    · rw [if_neg he]
      cases hre : r.meth.reseed fuel r.ctx (readMem e.data 0 e.olen) data with
      | none => left; rfl
      | some i =>
        right
        exact ⟨_, _, _, rfl, rfl, Or.inr ⟨_, _, _, _, _, hre, rfl⟩⟩

/-- Every status returned by the loop of `RANDOM_generate_with_input` satisfies
`P`, when 0 and RANDOM_ERR_ENTROPY do, every status of the engine `gen` does or
is RANDOM_ERR_RESEED, and every status of the engine `reseed` does. -/
theorem RANDOM_generate_loop_status (P : Int → Prop) (h0 : P 0) (h30 : P RANDOM_ERR_ENTROPY)
    (meth : RANDOM_METH σ)
    (hgen : ∀ F h a m d l o x, meth.gen F h a m d l o = some x →
      P x.1 ∨ x.1 = RANDOM_ERR_RESEED)
    (hre : ∀ F h e d x, meth.reseed F h e d = some x → P x.1)
    (F : Nat) (ainput : Option (List Nat)) :
    ∀ (fuel : Nat) (r : RANDOM σ ε) (mem : Mem) (data len olen : Nat) (env : ε)
      (x : Int × RANDOM σ ε × Mem × ε), r.meth = meth →
      RANDOM_generate_loop F ainput fuel r mem data len olen env = some x → P x.1 := by
  intro fuel
  induction fuel with
  | zero => intro r mem data len olen env x _ h; simp [RANDOM_generate_loop] at h
  | succ n ih =>
    intro r mem data len olen env x hm h
    rw [RANDOM_generate_loop] at h
    by_cases hlen : len > 0
    · rw [if_pos hlen] at h
      cases hg : r.meth.gen F r.ctx ainput mem data len olen with
      | none => rw [hg] at h; simp at h
      | some g =>
        rw [hg] at h
        simp only [] at h
        by_cases h31 : g.1 = RANDOM_ERR_RESEED
        · rw [if_pos h31] at h
          rcases RANDOM_seed_cases F { r with ctx := g.2.1 } none env with hs | hs
          · rw [hs] at h; simp at h
          · obtain ⟨s, r2, env2, hs, hm2, hst⟩ := hs
            rw [hs] at h
            simp only [] at h
            by_cases hs0 : s = 0
            · rw [if_neg (by simpa using hs0)] at h
              refine ih _ _ _ _ _ _ _ ?_ h
              exact hm2.trans hm
            · rw [if_pos hs0] at h
              simp only [Option.some.injEq] at h
              rw [← h]
              rcases hst with hst | ⟨F', h', e', d', x', hx', hx1⟩
              · rw [hst]; exact h30
              · rw [← hx1]
                exact hre F' h' e' d' x' (by rw [← hm]; exact hx')
        · rw [if_neg h31] at h
          simp only [] at h
          have hPg : P g.1 := by
            rcases hgen F r.ctx ainput mem data len olen g (by rw [← hm]; exact hg) with hp | hp
            · exact hp
            · exact absurd hp h31
          by_cases hg0 : g.1 = 0
          · rw [if_neg (by simpa using hg0)] at h
            refine ih _ _ _ _ _ _ _ ?_ h
            exact hm
          · rw [if_pos hg0] at h
            simp only [Option.some.injEq] at h
            rw [← h]
            exact hPg
    · rw [if_neg hlen] at h
      simp only [Option.some.injEq] at h
      rw [← h]
      exact h0

/-- C4: `RANDOM_generate_with_input` recovers only from the engine status
RESEED_REQUIRED (31).  In an iteration whose engine call returned `g`: if the
status is non-zero and not 31 the loop returns it at once, with the generator
and memory the engine call left and the world untouched (no `RANDOM_seed`, no
further engine call); if the status is 31 and `RANDOM_seed` returns a non-zero
status `s`, the loop returns `s`; if `RANDOM_seed` returns 0 the loop does not
return there but goes on.  And the whole call never returns 31, unless the
engine reseed itself can report 31. -/
theorem RANDOM_generate_recovers_only_reseed (F : Nat) (ainput : Option (List Nat))
    (fuel : Nat) (r : RANDOM σ ε) (mem : Mem) (data len olen : Nat) (env : ε)
    (g : Int × RANDOM_HASH σ × Mem × Nat) (hlen : 0 < len)
    (hgen : r.meth.gen F r.ctx ainput mem data len olen = some g) :
    (g.1 ≠ 0 → g.1 ≠ RANDOM_ERR_RESEED →
      RANDOM_generate_loop F ainput (fuel + 1) r mem data len olen env
        = some (g.1, { r with ctx := g.2.1 }, g.2.2.1, env)) ∧
    (g.1 = RANDOM_ERR_RESEED → ∀ s r2 env2,
      RANDOM_seed F (some { r with ctx := g.2.1 }) none env = some (s, some r2, env2) →
      (s ≠ 0 → RANDOM_generate_loop F ainput (fuel + 1) r mem data len olen env
        = some (s, r2, g.2.2.1, env2)) ∧
      (s = 0 → RANDOM_generate_loop F ainput (fuel + 1) r mem data len olen env
        = RANDOM_generate_loop F ainput fuel r2 g.2.2.1 (data + len)
            ((len + 2 ^ 32 - g.2.2.2 % 2 ^ 32) % 2 ^ 32) g.2.2.2 env2)) ∧
    ((∀ F' h e d x, r.meth.reseed F' h e d = some x → x.1 ≠ RANDOM_ERR_RESEED) →
      ∀ fuel' mem' data' len' olen' env' x,
        RANDOM_generate_with_input fuel' (some r) ainput mem' data' len' olen' env' = some x →
        x.1 ≠ RANDOM_ERR_RESEED) := by
  refine ⟨fun h0 h31 => ?_, fun h31 s r2 env2 hs => ⟨fun hs0 => ?_, fun hs0 => ?_⟩,
    fun hre fuel' mem' data' len' olen' env' x hx => ?_⟩
  · rw [RANDOM_generate_loop, if_pos hlen, hgen]
    simp only [if_neg h31, if_pos h0]
  · rw [RANDOM_generate_loop, if_pos hlen, hgen]
    simp only [if_pos h31, hs, if_pos hs0]
  · rw [RANDOM_generate_loop, if_pos hlen, hgen]
    simp only [if_pos h31, hs, hs0, ne_eq, not_true_eq_false, if_false]
  · unfold RANDOM_generate_with_input at hx
    simp only [] at hx
    by_cases hd : data' = 0
    · rw [if_pos hd] at hx
      simp only [Option.some.injEq] at hx
      rw [← hx]; simp [RANDOM_ERR_PARAM_NULL, RANDOM_ERR_RESEED]
    · rw [if_neg hd] at hx
      cases hl : RANDOM_generate_loop fuel' ainput fuel' r mem' data' len' olen' env' with
      | none => rw [hl] at hx; simp at hx
      | some y =>
        rw [hl] at hx
        simp only [Option.some.injEq] at hx
        rw [← hx]
        exact RANDOM_generate_loop_status (fun s => s ≠ RANDOM_ERR_RESEED) (by decide)
          (by decide) r.meth (fun _ _ _ _ _ _ _ x _ => Classical.em _ |>.symm)
          hre fuel' ainput fuel' r mem' data' len' olen' env' y rfl hl

/-- Instances of C4: with a hash whose `HASH_init` fails with status 5 the loop
returns 5; with the counter at 2^48 and a source that always fails, the reseed
fails with RANDOM_ERR_ENTROPY and the loop returns 30. -/
theorem RANDOM_generate_recovers_only_reseed_witness :
    (RANDOM_generate_loop 100 none 1 (sampleRandom failingHash 1 [goodSource]) (fun _ => 0)
        1000 4 0 ()).map (fun x => x.1) = some 5 ∧
    (RANDOM_generate_loop 100 none 1 (sampleRandom constHash (2 ^ 48) [deadSource])
        (fun _ => 0) 1000 4 0 ()).map (fun x => x.1) = some 30 := by
  refine ⟨?_, ?_⟩
  · rw [(RANDOM_generate_recovers_only_reseed 100 none 0
      (sampleRandom failingHash 1 [goodSource]) (fun _ => 0) 1000 4 0 () _ (by decide) rfl).1
      (by decide) (by decide)]
    rfl
  · have hg : (sampleRandom constHash (2 ^ 48) [deadSource]).meth.gen 100
        (sampleRandom constHash (2 ^ 48) [deadSource]).ctx none (fun _ => 0) 1000 4 0
        = some (RANDOM_ERR_RESEED, sampleCtx (2 ^ 48), fun _ => 0, 0) :=
      RANDOM_HASH_gen_reseed constHash 100 (sampleCtx (2 ^ 48)) none (fun _ => 0) 1000 4 0
        (le_refl _)
    have h1 := (RANDOM_generate_recovers_only_reseed 100 none 0
      (sampleRandom constHash (2 ^ 48) [deadSource]) (fun _ => 0) 1000 4 0 ()
      (RANDOM_ERR_RESEED, sampleCtx (2 ^ 48), fun _ => 0, 0) (by decide) hg).2.1 rfl
    have hs : ∃ r2,
        RANDOM_seed 100 (some (sampleRandom constHash (2 ^ 48) [deadSource])) none ()
          = some (30, some r2, ()) := ⟨_, rfl⟩
    obtain ⟨r2, hs⟩ := hs
    rw [(h1 30 r2 () hs).1 (by decide)]
    rfl

/-! ### The registry lookups -/

theorem random_meth_get_loop_spec (bits flags : Nat) :
    ∀ (ms : List (RANDOM_METH σ)),
      ((random_meth_get_loop bits flags ms).1 = RANDOM_ERR_NOT_FOUND ↔
        ∀ m ∈ ms, ¬(bits ≤ m.bits ∧ (m.flags &&& flags) = flags)) ∧
      ((random_meth_get_loop bits flags ms).1 = 0 ∨
        (random_meth_get_loop bits flags ms).1 = RANDOM_ERR_NOT_FOUND) ∧
      ((random_meth_get_loop bits flags ms).1 = 0 →
        ∃ m i, (random_meth_get_loop bits flags ms).2 = some m ∧ ms[i]? = some m ∧
          (bits ≤ m.bits ∧ (m.flags &&& flags) = flags) ∧
          ∀ (j : Nat) (m' : RANDOM_METH σ), j < i → ms[j]? = some m' →
            ¬(bits ≤ m'.bits ∧ (m'.flags &&& flags) = flags)) := by
  intro ms
  induction ms with
  | nil => simp [random_meth_get_loop, RANDOM_ERR_NOT_FOUND]
  | cons m ms ih =>
    rw [random_meth_get_loop]
    by_cases hc : m.bits ≥ bits ∧ (m.flags &&& flags) = flags
    · rw [if_pos hc]
      refine ⟨?_, Or.inl rfl, fun _ => ⟨m, 0, rfl, by simp, hc, fun j m' hj => by omega⟩⟩
      simp only [RANDOM_ERR_NOT_FOUND, List.mem_cons, forall_eq_or_imp]
      constructor
      · intro h; exact absurd h (by decide)
      · intro h; exact absurd hc h.1
    · rw [if_neg hc]
      obtain ⟨ih1, ih2, ih3⟩ := ih
      refine ⟨?_, ih2, fun h0 => ?_⟩
      · rw [ih1]
        simp only [List.mem_cons, forall_eq_or_imp]
        constructor
        · intro h; exact ⟨hc, h⟩
        · intro h; exact h.2
      · obtain ⟨m1, i, h1, h2, h3, h4⟩ := ih3 h0
        refine ⟨m1, i + 1, h1, by simpa using h2, h3, fun j m' hj hm' => ?_⟩
        cases j with
        | zero =>
          simp only [List.getElem?_cons_zero, Option.some.injEq] at hm'
          rw [← hm']; exact hc
        | succ j =>
          simp only [List.getElem?_cons_succ] at hm'
          exact h4 j m' (by omega) hm'

/-- When every allocation succeeds `random_new` returns 0 and an object bound to
the given method table. -/
theorem random_new_ok (malloc : Nat → Option Mem) (hmalloc : ∀ n, (malloc n).isSome)
    (src : List (ENTROPY_METH ε)) (m : RANDOM_METH σ) (slot : Option (RANDOM σ ε)) :
    ∃ r, random_new malloc src m slot = (0, some r) ∧ r.meth = m ∧ r.entropy_src = src ∧
      r.ctx = RANDOM_HASH_zero σ := by
  unfold random_new
  obtain ⟨x, hx⟩ := Option.isSome_iff_exists.mp (hmalloc sizeof_RANDOM)
  obtain ⟨y, hy⟩ := Option.isSome_iff_exists.mp (hmalloc m.ctx_size)
  obtain ⟨z, hz⟩ := Option.isSome_iff_exists.mp (hmalloc (m.bits * 32 / 8))
  rw [hx, hy, hz]
  exact ⟨_, rfl, rfl, rfl, rfl⟩

/-- The status of `random_new` is 0 or RANDOM_ERR_ALLOC, and on 0 the slot holds
an object bound to the given method table. -/
theorem random_new_cases (malloc : Nat → Option Mem) (src : List (ENTROPY_METH ε))
    (m : RANDOM_METH σ) (slot : Option (RANDOM σ ε)) :
    ((random_new malloc src m slot).1 = RANDOM_ERR_ALLOC ∧
      (random_new malloc src m slot).2 = slot) ∨
    ((random_new malloc src m slot).1 = 0 ∧
      ∃ r, (random_new malloc src m slot).2 = some r ∧ r.meth = m) := by
  unfold random_new
  cases malloc sizeof_RANDOM with
  | none => left; exact ⟨rfl, rfl⟩
  | some x =>
    cases malloc m.ctx_size with
    | none => left; exact ⟨rfl, rfl⟩
    | some y =>
      cases malloc (m.bits * 32 / 8) with
      | none => left; exact ⟨rfl, rfl⟩
      | some z => right; exact ⟨rfl, _, rfl, rfl⟩

/-- C5: for non-null arguments `RANDOM_new(src, b, f)` returns
RANDOM_ERR_NOT_FOUND (1) if and only if no entry of `random_meth` has
`bits ≥ b` and `(flags & f) == f`; whenever it returns 0 the object is bound to
the lowest-index entry (in declared order) satisfying both conditions, which in
particular has `bits ≥ b`; and when some entry satisfies both and the
allocations succeed it does return 0. -/
theorem RANDOM_new_selects_first_match (H : HashCap σ) (malloc : Nat → Option Mem)
    (src : List (ENTROPY_METH ε)) (bits flags : Nat) (slot : Option (RANDOM σ ε)) :
    ((RANDOM_new H malloc (some src) bits flags (some slot)).1 = RANDOM_ERR_NOT_FOUND ↔
      ∀ m ∈ random_meth H, ¬(bits ≤ m.bits ∧ (m.flags &&& flags) = flags)) ∧
    ((RANDOM_new H malloc (some src) bits flags (some slot)).1 = 0 →
      ∃ r i, (RANDOM_new H malloc (some src) bits flags (some slot)).2 = some (some r) ∧
        (random_meth H)[i]? = some r.meth ∧
        bits ≤ r.meth.bits ∧ (r.meth.flags &&& flags) = flags ∧
        ∀ (j : Nat) (m' : RANDOM_METH σ), j < i → (random_meth H)[j]? = some m' →
          ¬(bits ≤ m'.bits ∧ (m'.flags &&& flags) = flags)) ∧
    ((∃ m ∈ random_meth H, bits ≤ m.bits ∧ (m.flags &&& flags) = flags) →
      (∀ n, (malloc n).isSome) →
      (RANDOM_new H malloc (some src) bits flags (some slot)).1 = 0) := by
  obtain ⟨h1, h2, h3⟩ := random_meth_get_loop_spec bits flags (random_meth H)
  have hnf1 : RANDOM_ERR_NOT_FOUND ≠ (0 : Int) := by decide
  unfold RANDOM_new
  simp only []
  rcases h2 with h0 | hnf
  · obtain ⟨m, i, hm2, hi, hc, hlow⟩ := h3 h0
    have hg1 : (random_meth_get H bits flags).1 = 0 := h0
    have hg2 : (random_meth_get H bits flags).2 = some m := hm2
    simp only [hg1, hg2, ne_eq, not_true_eq_false, if_false]
    have hex : ¬ ∀ m ∈ random_meth H, ¬(bits ≤ m.bits ∧ (m.flags &&& flags) = flags) := by
      intro hall
      have := h1.mpr hall
      rw [h0] at this
      exact hnf1 this.symm
    rcases random_new_cases malloc src m slot with ⟨ha, _⟩ | ⟨hz, r, hr, hrm⟩
    · refine ⟨?_, ?_, ?_⟩
      · rw [ha]
        constructor
        · intro h; exact absurd h (by decide)
        · intro h; exact absurd h hex
      · intro h; rw [ha] at h; exact absurd h (by decide)
      · intro _ hmalloc
        obtain ⟨r, hr, _⟩ := random_new_ok malloc hmalloc src m slot
        rw [hr]
    · refine ⟨?_, ?_, ?_⟩
      · rw [hz]
        constructor
        · intro h; exact absurd h.symm hnf1
        · intro h; exact absurd h hex
      · intro _
        refine ⟨r, i, by rw [hr], by rw [hrm]; exact hi, by rw [hrm]; exact hc.1,
          by rw [hrm]; exact hc.2, hlow⟩
      · intro _ _; exact hz
  · have hg1 : (random_meth_get H bits flags).1 = RANDOM_ERR_NOT_FOUND := hnf
    simp only [hg1, ne_eq, hnf1, not_false_eq_true, if_true]
    refine ⟨?_, ?_, ?_⟩
    · simp only [true_iff]
      exact h1.mp hnf
    · intro h; exact h.elim
    · rintro ⟨m, hm, hc⟩ _
      exact absurd hc (h1.mp hnf m hm)

theorem random_meth_get_by_id_loop_spec (id : Int) (flags : Nat) :
    ∀ (ms : List (RANDOM_METH σ)),
      ((random_meth_get_by_id_loop id flags ms).1 = 0 ∨
        (random_meth_get_by_id_loop id flags ms).1 = RANDOM_ERR_NOT_FOUND) ∧
      ((random_meth_get_by_id_loop id flags ms).1 = 0 →
        ∃ m, (random_meth_get_by_id_loop id flags ms).2 = some m ∧ m ∈ ms ∧
          (m.id : Int) = id ∧ (m.flags &&& flags) = flags) ∧
      ((∀ m ∈ ms, (m.id : Int) ≠ id) →
        random_meth_get_by_id_loop id flags ms = (RANDOM_ERR_NOT_FOUND, none)) := by
  intro ms
  induction ms with
  | nil => simp [random_meth_get_by_id_loop, RANDOM_ERR_NOT_FOUND]
  | cons m ms ih =>
    rw [random_meth_get_by_id_loop]
    by_cases hc : (m.id : Int) = id ∧ (m.flags &&& flags) = flags
    · rw [if_pos hc]
      refine ⟨Or.inl rfl, fun _ => ⟨m, rfl, List.mem_cons_self _ _, hc.1, hc.2⟩, fun h => ?_⟩
      exact absurd hc.1 (h m (List.mem_cons_self _ _))
    · rw [if_neg hc]
      obtain ⟨ih1, ih2, ih3⟩ := ih
      refine ⟨ih1, fun h0 => ?_, fun h => ih3 (fun m' hm' => h m' (List.mem_cons_of_mem _ hm'))⟩
      obtain ⟨m1, h1, h2, h3⟩ := ih2 h0
      exact ⟨m1, h1, List.mem_cons_of_mem _ h2, h3⟩

theorem random_meth_get_by_id_loop_found (id : Int) (flags : Nat) :
    ∀ (ms : List (RANDOM_METH σ)),
      (∃ m ∈ ms, (m.id : Int) = id ∧ (m.flags &&& flags) = flags) →
      (random_meth_get_by_id_loop id flags ms).1 = 0 := by
  intro ms
  induction ms with
  | nil => simp
  | cons m ms ih =>
    intro h
    rw [random_meth_get_by_id_loop]
    by_cases hc : (m.id : Int) = id ∧ (m.flags &&& flags) = flags
    · rw [if_pos hc]
    · rw [if_neg hc]
      obtain ⟨m', hm', hc'⟩ := h
      rcases List.mem_cons.mp hm' with h1 | h1
      · subst h1; exact absurd hc' hc
      · exact ih ⟨m', h1, hc'⟩

/-- The registry holds an entry for each id 1..7. -/
theorem random_meth_has_id (H : HashCap σ) (id : Int) (h1 : 1 ≤ id) (h7 : id ≤ 7) :
    ∃ m ∈ random_meth H, (m.id : Int) = id := by
  interval_cases id
  · exact ⟨_, List.Mem.head _, rfl⟩
  · exact ⟨_, List.Mem.tail _ (List.Mem.head _), rfl⟩
  · exact ⟨_, List.Mem.tail _ (List.Mem.tail _ (List.Mem.tail _ (List.Mem.tail _
      (List.Mem.head _)))), rfl⟩
  · exact ⟨_, List.Mem.tail _ (List.Mem.tail _ (List.Mem.tail _ (List.Mem.head _))), rfl⟩
  · exact ⟨_, List.Mem.tail _ (List.Mem.tail _ (List.Mem.head _)), rfl⟩
  · exact ⟨_, List.Mem.tail _ (List.Mem.tail _ (List.Mem.tail _ (List.Mem.tail _
      (List.Mem.tail _ (List.Mem.tail _ (List.Mem.head _)))))), rfl⟩
  · exact ⟨_, List.Mem.tail _ (List.Mem.tail _ (List.Mem.tail _ (List.Mem.tail _
      (List.Mem.tail _ (List.Mem.head _))))), rfl⟩

/-- The ids of the registry are pairwise distinct and lie in 1..7, and each id
has the name the table gives it. -/
theorem random_meth_ids (H : HashCap σ) (m : RANDOM_METH σ) (hm : m ∈ random_meth H) :
    (1 ≤ m.id ∧ m.id ≤ 7) ∧
    (∀ m' ∈ random_meth H, m'.id = m.id → m' = m) ∧
    (m.id = 1 → m.name = "Hash_DRBG SHA1") ∧ (m.id = 2 → m.name = "Hash_DRBG SHA224") ∧
    (m.id = 3 → m.name = "Hash_DRBG SHA256") ∧ (m.id = 4 → m.name = "Hash_DRBG SHA384") ∧
    (m.id = 5 → m.name = "Hash_DRBG SHA512") ∧ (m.id = 6 → m.name = "Hash_DRBG SHA512_224") ∧
    (m.id = 7 → m.name = "Hash_DRBG SHA512_256") := by
  simp only [random_meth, List.mem_cons, List.mem_singleton, List.not_mem_nil, or_false]
    at hm
  rcases hm with h | h | h | h | h | h | h <;> subst h <;>
    refine ⟨by simp only []; decide, ?_, ?_⟩
  all_goals first
    | (intro m' hm' hid
       simp only [random_meth, List.mem_cons, List.mem_singleton, List.not_mem_nil,
         or_false] at hm'
       rcases hm' with h | h | h | h | h | h | h <;> subst h <;>
         first | rfl | (simp only [] at hid; exact absurd hid (by decide)))
    | (refine ⟨?_, ?_, ?_, ?_, ?_, ?_, ?_⟩ <;> intro h <;>
        first | rfl | (simp only [] at h; exact absurd h (by decide)))

/-- C6: with every allocation succeeding, `RANDOM_new_by_id` with flags 0
succeeds for every id in 1..7 and binds the unique registry entry whose id is
the requested one, and `RANDOM_get_impl_name` then returns 0 with that entry's
name (id 3 gives "Hash_DRBG SHA256"); for every integer id outside 1..7 it
returns RANDOM_ERR_NOT_FOUND (1) and leaves the slot as it was. -/
theorem RANDOM_new_by_id_binds_entry (H : HashCap σ) (malloc : Nat → Option Mem)
    (hmalloc : ∀ n, (malloc n).isSome) (src : List (ENTROPY_METH ε))
    (slot : Option (RANDOM σ ε)) (nm : String) :
    (∀ id : Int, 1 ≤ id → id ≤ 7 →
      ∃ r, RANDOM_new_by_id H malloc (some src) id 0 (some slot) = (0, some (some r)) ∧
        r.meth ∈ random_meth H ∧ (r.meth.id : Int) = id ∧
        (∀ m' ∈ random_meth H, (m'.id : Int) = id → m' = r.meth) ∧
        RANDOM_get_impl_name (some r) (some nm) = (0, some r.meth.name) ∧
        (id = 1 → r.meth.name = "Hash_DRBG SHA1") ∧
        (id = 2 → r.meth.name = "Hash_DRBG SHA224") ∧
        (id = 3 → r.meth.name = "Hash_DRBG SHA256") ∧
        (id = 4 → r.meth.name = "Hash_DRBG SHA384") ∧
        (id = 5 → r.meth.name = "Hash_DRBG SHA512") ∧
        (id = 6 → r.meth.name = "Hash_DRBG SHA512_224") ∧
        (id = 7 → r.meth.name = "Hash_DRBG SHA512_256")) ∧
    (∀ (id : Int) (flags : Nat), (id < 1 ∨ 7 < id) →
      RANDOM_new_by_id H malloc (some src) id flags (some slot)
        = (RANDOM_ERR_NOT_FOUND, some slot)) := by
  constructor
  · intro id h1 h7
    obtain ⟨m0, hm0, hid0⟩ := random_meth_has_id H id h1 h7
    have hfl0 : (m0.flags &&& 0) = 0 := by simp
    have hst : (random_meth_get_by_id H id 0).1 = 0 :=
      random_meth_get_by_id_loop_found id 0 (random_meth H) ⟨m0, hm0, hid0, hfl0⟩
    obtain ⟨m, hm2, hmem, hid, _⟩ :=
      (random_meth_get_by_id_loop_spec id 0 (random_meth H)).2.1 hst
    have hm2' : (random_meth_get_by_id H id 0).2 = some m := hm2
    obtain ⟨r, hr, hrm, _, _⟩ := random_new_ok malloc hmalloc src m slot
    obtain ⟨_, huniq, hn1, hn2, hn3, hn4, hn5, hn6, hn7⟩ := random_meth_ids H m hmem
    refine ⟨r, ?_, by rw [hrm]; exact hmem, by rw [hrm]; exact hid, ?_, rfl, ?_⟩
    · unfold RANDOM_new_by_id
      simp only [hst, hm2', ne_eq, not_true_eq_false, if_false, hr]
    · intro m' hm' hid'
      rw [hrm]
      exact huniq m' hm' (by exact_mod_cast hid'.trans hid.symm)
    · rw [hrm]
      refine ⟨fun h => hn1 ?_, fun h => hn2 ?_, fun h => hn3 ?_, fun h => hn4 ?_,
        fun h => hn5 ?_, fun h => hn6 ?_, fun h => hn7 ?_⟩ <;>
        (rw [h] at hid; exact_mod_cast hid)
  · intro id flags hout
    have hne : ∀ m ∈ random_meth H, (m.id : Int) ≠ id := by
      intro m hm hid
      obtain ⟨⟨h1, h7⟩, _⟩ := random_meth_ids H m hm
      omega
    have hg : random_meth_get_by_id H id flags = (RANDOM_ERR_NOT_FOUND, none) :=
      (random_meth_get_by_id_loop_spec id flags (random_meth H)).2.2 hne
    unfold RANDOM_new_by_id
    simp only [hg, RANDOM_ERR_NOT_FOUND, ne_eq, one_ne_zero, not_false_eq_true, if_true]

/-- Instance of C6: id 3 with an allocator that always succeeds. -/
theorem RANDOM_new_by_id_binds_entry_witness :
    ∃ r : RANDOM Unit Unit,
      RANDOM_new_by_id constHash goodMalloc (some [goodSource]) 3 0 (some none)
        = (0, some (some r)) ∧
      r.meth ∈ random_meth constHash ∧ (r.meth.id : Int) = 3 ∧
      RANDOM_get_impl_name (some r) (some "") = (0, some r.meth.name) ∧
      r.meth.name = "Hash_DRBG SHA256" := by
  obtain ⟨r, h1, h2, h3, _, h5, _, _, h8, _⟩ :=
    (RANDOM_new_by_id_binds_entry constHash goodMalloc (fun _ => rfl) [goodSource] none "").1
      3 (by decide) (by decide)
  exact ⟨r, h1, h2, h3, h5, h8 rfl⟩

/-! ### Null arguments and status codes -/

theorem random_meth_get_status (H : HashCap σ) (bits flags : Nat) :
    (random_meth_get H bits flags).1 = 0 ∨
      (random_meth_get H bits flags).1 = RANDOM_ERR_NOT_FOUND :=
  (random_meth_get_loop_spec bits flags (random_meth H)).2.1

theorem random_meth_get_by_id_status (H : HashCap σ) (id : Int) (flags : Nat) :
    (random_meth_get_by_id H id flags).1 = 0 ∨
      (random_meth_get_by_id H id flags).1 = RANDOM_ERR_NOT_FOUND :=
  (random_meth_get_by_id_loop_spec id flags (random_meth H)).1

/-- The status of `RANDOM_init` on a generator of the registry satisfies `P`,
when 0 and RANDOM_ERR_ENTROPY do and every status of the hash does. -/
theorem RANDOM_init_status (H : HashCap σ) (P : Int → Prop) (hP : H.Statuses P) (h0 : P 0)
    (h30 : P RANDOM_ERR_ENTROPY) (fuel : Nat) (r : RANDOM σ ε) (hm : r.meth ∈ random_meth H)
    (data : Option (List Nat)) (env : ε) (x : Int × Option (RANDOM σ ε) × ε)
    (hx : RANDOM_init fuel (some r) data env = some x) : P x.1 := by
  obtain ⟨_, _, _, _, _, id, sl, hinit⟩ := random_meth_engine H r.meth hm
  unfold RANDOM_init at hx
  simp only [] at hx
  cases he : ENTROPY_generate fuel r.entropy_src (r.meth.bits * 3 / 2) r.entropy env with
  | none => rw [he] at hx; simp at hx
  | some e =>
    rw [he] at hx
    simp only [] at hx
    by_cases hz : e.ret = 0
    · rw [if_pos hz] at hx
      simp only [Option.some.injEq] at hx
      rw [← hx]; exact h30
    · rw [if_neg hz] at hx
      cases hi : r.meth.init fuel r.ctx (readMem e.data 0 e.olen) data with
      | none => rw [hi] at hx; simp at hx
      | some i =>
        rw [hi] at hx
        simp only [Option.some.injEq] at hx
        rw [← hx]
        rw [hinit] at hi
        exact random_hash_init_status H P hP h0 _ _ _ _ _ _ _ hi

/-- The status of `RANDOM_seed` on a generator of the registry satisfies `P`,
when 0 and RANDOM_ERR_ENTROPY do and every status of the hash does. -/
theorem RANDOM_seed_status (H : HashCap σ) (P : Int → Prop) (hP : H.Statuses P) (h0 : P 0)
    (h30 : P RANDOM_ERR_ENTROPY) (fuel : Nat) (r : RANDOM σ ε) (hm : r.meth ∈ random_meth H)
    (data : Option (List Nat)) (env : ε) (x : Int × Option (RANDOM σ ε) × ε)
    (hx : RANDOM_seed fuel (some r) data env = some x) : P x.1 := by
  rcases RANDOM_seed_cases fuel r data env with hs | ⟨s, r2, env2, hs, _, hst⟩
  · rw [hs] at hx; simp at hx
  · rw [hs] at hx
    simp only [Option.some.injEq] at hx
    rw [← hx]
    rcases hst with hst | ⟨F', h', e', d', x', hx', hx1⟩
    · rw [hst]; exact h30
    · rw [← hx1]
      rw [(random_meth_engine H r.meth hm).2.1] at hx'
      exact RANDOM_HASH_reseed_status H P hP h0 _ _ _ _ _ hx'

/-- The status of `RANDOM_generate_with_input` on a generator of the registry
and a non-null buffer satisfies `P`, when 0 and RANDOM_ERR_ENTROPY do and every
status of the hash does. -/
theorem RANDOM_generate_status (H : HashCap σ) (P : Int → Prop) (hP : H.Statuses P)
    (h0 : P 0) (h30 : P RANDOM_ERR_ENTROPY) (fuel : Nat) (r : RANDOM σ ε)
    (hm : r.meth ∈ random_meth H) (ainput : Option (List Nat)) (mem : Mem)
    (data len olen0 : Nat) (env : ε) (hd : data ≠ 0)
    (x : Int × Option (RANDOM σ ε) × Mem × ε)
    (hx : RANDOM_generate_with_input fuel (some r) ainput mem data len olen0 env = some x) :
    P x.1 := by
  obtain ⟨hg, hre, _⟩ := random_meth_engine H r.meth hm
  unfold RANDOM_generate_with_input at hx
  simp only [hd, if_false] at hx
  cases hl : RANDOM_generate_loop fuel ainput fuel r mem data len olen0 env with
  | none => rw [hl] at hx; simp at hx
  | some y =>
    rw [hl] at hx
    simp only [Option.some.injEq] at hx
    rw [← hx]
    refine RANDOM_generate_loop_status P h0 h30 r.meth ?_ ?_ fuel ainput fuel r mem data len
      olen0 env y rfl hl
    · intro F h a m d l o x hx
      rw [hg] at hx
      exact RANDOM_HASH_gen_status H P hP h0 _ _ _ _ _ _ _ _ hx
    · intro F h e d x hx
      rw [hre] at hx
      exact RANDOM_HASH_reseed_status H P hP h0 _ _ _ _ _ hx

/-- C7: every facade operation returns RANDOM_ERR_PARAM_NULL (12) exactly when a
required argument is null, before anything else is done (the slot, the
generator, the memory and the world are left as they were): `RANDOM_new` and
`RANDOM_new_by_id` when `src` or the output pointer is null, whatever the
lookup would give; `RANDOM_get_impl_name` when the generator or the name
pointer is null; `RANDOM_init` and `RANDOM_seed` when the generator is null;
`RANDOM_generate_with_input` when the generator or the output buffer is null,
also for `len = 0`.  With non-null required arguments `RANDOM_new`,
`RANDOM_new_by_id` and `RANDOM_get_impl_name` never return 12; `RANDOM_init`,
`RANDOM_seed` and `RANDOM_generate_with_input`, which hand back the status of
the engine, return 12 for a generator of the registry only if a call of the
hash capability can report 12: over a hash that never reports 12 they never
return 12, whether the personalization or additional input is null or not. -/
theorem facade_param_null (H : HashCap σ) :
    (∀ (malloc : Nat → Option Mem) (src : Option (List (ENTROPY_METH ε))) (bits flags : Nat)
        (random : Option (Option (RANDOM σ ε))),
      ((RANDOM_new H malloc src bits flags random).1 = RANDOM_ERR_PARAM_NULL ↔
        (src = none ∨ random = none)) ∧
      ((src = none ∨ random = none) →
        (RANDOM_new H malloc src bits flags random).2 = random)) ∧
    (∀ (malloc : Nat → Option Mem) (src : Option (List (ENTROPY_METH ε))) (id : Int)
        (flags : Nat) (random : Option (Option (RANDOM σ ε))),
      ((RANDOM_new_by_id H malloc src id flags random).1 = RANDOM_ERR_PARAM_NULL ↔
        (src = none ∨ random = none)) ∧
      ((src = none ∨ random = none) →
        (RANDOM_new_by_id H malloc src id flags random).2 = random)) ∧
    (∀ (random : Option (RANDOM σ ε)) (name : Option String),
      ((RANDOM_get_impl_name random name).1 = RANDOM_ERR_PARAM_NULL ↔
        (random = none ∨ name = none)) ∧
      ((random = none ∨ name = none) → (RANDOM_get_impl_name random name).2 = name)) ∧
    (∀ (fuel : Nat) (data : Option (List Nat)) (env : ε),
      RANDOM_init fuel (none : Option (RANDOM σ ε)) data env
        = some (RANDOM_ERR_PARAM_NULL, none, env) ∧
      ∀ r : RANDOM σ ε, r.meth ∈ random_meth H →
        H.Statuses (fun s => s ≠ RANDOM_ERR_PARAM_NULL) → ∀ x,
        RANDOM_init fuel (some r) data env = some x → x.1 ≠ RANDOM_ERR_PARAM_NULL) ∧
    (∀ (fuel : Nat) (data : Option (List Nat)) (env : ε),
      RANDOM_seed fuel (none : Option (RANDOM σ ε)) data env
        = some (RANDOM_ERR_PARAM_NULL, none, env) ∧
      ∀ r : RANDOM σ ε, r.meth ∈ random_meth H →
        H.Statuses (fun s => s ≠ RANDOM_ERR_PARAM_NULL) → ∀ x,
        RANDOM_seed fuel (some r) data env = some x → x.1 ≠ RANDOM_ERR_PARAM_NULL) ∧
    (∀ (fuel : Nat) (random : Option (RANDOM σ ε)) (ainput : Option (List Nat)) (mem : Mem)
        (data len olen0 : Nat) (env : ε),
      ((random = none ∨ data = 0) →
        RANDOM_generate_with_input fuel random ainput mem data len olen0 env
          = some (RANDOM_ERR_PARAM_NULL, random, mem, env)) ∧
      ∀ r : RANDOM σ ε, random = some r → r.meth ∈ random_meth H →
        H.Statuses (fun s => s ≠ RANDOM_ERR_PARAM_NULL) → data ≠ 0 → ∀ x,
        RANDOM_generate_with_input fuel random ainput mem data len olen0 env = some x →
        x.1 ≠ RANDOM_ERR_PARAM_NULL) := by
  have hnf12 : RANDOM_ERR_NOT_FOUND ≠ RANDOM_ERR_PARAM_NULL := by decide
  have h012 : (0 : Int) ≠ RANDOM_ERR_PARAM_NULL := by decide
  have ha12 : RANDOM_ERR_ALLOC ≠ RANDOM_ERR_PARAM_NULL := by decide
  have h3012 : RANDOM_ERR_ENTROPY ≠ RANDOM_ERR_PARAM_NULL := by decide
  refine ⟨?_, ?_, ?_, ?_, ?_, ?_⟩
  · intro malloc src bits flags random
    cases random with
    | none => simp [RANDOM_new]
    | some slot =>
      cases src with
      | none => simp [RANDOM_new]
      | some s =>
        simp only [reduceCtorEq, or_self, false_implies, and_true, iff_false]
        unfold RANDOM_new
        simp only []
        rcases random_meth_get_status H bits flags with hg | hg
        · rw [if_neg (by simp [hg])]
          cases hm : (random_meth_get H bits flags).2 with
          | none => simp only []; rw [hg]; exact h012
          | some m =>
            simp only []
            rcases random_new_cases malloc s m slot with ⟨ha, _⟩ | ⟨hz, _⟩
            · rw [ha]; exact ha12
            · rw [hz]; exact h012
        · rw [if_pos (by rw [hg]; decide)]
          simp only []
          rw [hg]; exact hnf12
  · intro malloc src id flags random
    cases random with
    | none => simp [RANDOM_new_by_id]
    | some slot =>
      cases src with
      | none => simp [RANDOM_new_by_id]
      | some s =>
        simp only [reduceCtorEq, or_self, false_implies, and_true, iff_false]
        unfold RANDOM_new_by_id
        simp only []
        rcases random_meth_get_by_id_status H id flags with hg | hg
        · rw [if_neg (by simp [hg])]
          cases hm : (random_meth_get_by_id H id flags).2 with
          | none => simp only []; rw [hg]; exact h012
          | some m =>
            simp only []
            rcases random_new_cases malloc s m slot with ⟨ha, _⟩ | ⟨hz, _⟩
            · rw [ha]; exact ha12
            · rw [hz]; exact h012
        · rw [if_pos (by rw [hg]; decide)]
          simp only []
          rw [hg]; exact hnf12
  · intro random name
    cases random <;> cases name <;> simp [RANDOM_get_impl_name, RANDOM_ERR_PARAM_NULL]
  · intro fuel data env
    refine ⟨rfl, fun r hm h12 x hx => ?_⟩
    exact RANDOM_init_status H _ h12 h012 h3012 fuel r hm data env x hx
  · intro fuel data env
    refine ⟨rfl, fun r hm h12 x hx => ?_⟩
    exact RANDOM_seed_status H _ h12 h012 h3012 fuel r hm data env x hx
  · intro fuel random ainput mem data len olen0 env
    refine ⟨fun hnull => ?_, fun r hr hm h12 hd x hx => ?_⟩
    · cases random with
      | none => rfl
      | some r =>
        rcases hnull with h | h
        · exact absurd h (by simp)
        · unfold RANDOM_generate_with_input
          simp only [h, if_true]
    · subst hr
      exact RANDOM_generate_status H _ h12 h012 h3012 fuel r hm ainput mem data len olen0 env
        hd x hx

theorem constHash_statuses (P : Int → Prop) (h0 : P 0) : constHash.Statuses P :=
  ⟨fun _ _ _ => h0, fun _ _ => h0, fun _ => h0, fun _ _ => h0, fun _ => h0⟩

/-- Instance of C7: over the constant hash, `RANDOM_generate_with_input` with a
null output buffer and length 0 returns 12, and with a null generator too; with
both non-null, a call that returns does not return 12. -/
theorem facade_param_null_witness :
    RANDOM_generate_with_input 0 (some (sampleRandom constHash 1 [goodSource])) none
        (fun _ => 0) 0 0 0 ()
      = some (RANDOM_ERR_PARAM_NULL, some (sampleRandom constHash 1 [goodSource]),
          (fun _ => 0), ()) ∧
    RANDOM_generate_with_input 0 (none : Option (RANDOM Unit Unit)) (some [1]) (fun _ => 0)
        1000 4 0 ()
      = some (RANDOM_ERR_PARAM_NULL, none, (fun _ => 0), ()) ∧
    (∀ x, RANDOM_generate_with_input 100 (some (sampleRandom constHash 1 [goodSource])) none
        (fun _ => 0) 1000 4 0 () = some x → x.1 ≠ RANDOM_ERR_PARAM_NULL) :=
  ⟨((facade_param_null constHash).2.2.2.2.2 0
      (some (sampleRandom constHash 1 [goodSource])) none (fun _ => 0) 0 0 0 ()).1
      (Or.inr rfl),
   ((facade_param_null constHash).2.2.2.2.2 0
      (none : Option (RANDOM Unit Unit)) (some [1]) (fun _ => 0) 1000 4 0 ()).1 (Or.inl rfl),
   ((facade_param_null constHash).2.2.2.2.2 100
      (some (sampleRandom constHash 1 [goodSource])) none (fun _ => 0) 1000 4 0 ()).2
      (sampleRandom constHash 1 [goodSource]) rfl (sampleMeth_mem constHash)
      (constHash_statuses _ (by decide)) (by decide)⟩

/-- C7 (counterexample): over a hash whose `HASH_update` reports the status 12,
`RANDOM_init`, `RANDOM_seed` and `RANDOM_generate_with_input` return 12 although
the generator and the output buffer are non-null: the status of the hash call
is handed back unchanged. -/
theorem facade_param_null_counterexample :
    (∃ x, RANDOM_init 100 (some (sampleRandom (statusHash 12) 1 [goodSource])) none ()
        = some x ∧ x.1 = RANDOM_ERR_PARAM_NULL) ∧
    (∃ x, RANDOM_seed 100 (some (sampleRandom (statusHash 12) 1 [goodSource])) none ()
        = some x ∧ x.1 = RANDOM_ERR_PARAM_NULL) ∧
    (∃ x, RANDOM_generate_with_input 100 (some (sampleRandom (statusHash 12) 1 [goodSource]))
        none (fun _ => 0) 1000 4 0 () = some x ∧ x.1 = RANDOM_ERR_PARAM_NULL) :=
  ⟨⟨_, rfl, by decide⟩, ⟨_, rfl, by decide⟩, ⟨_, rfl, by decide⟩⟩

/-! ### The entropy draws of `RANDOM_init` and `RANDOM_seed` -/

/-- C8: for a generator of the registry, `RANDOM_init` asks the orchestrator for
exactly `3 * bits / 2` bits (192, 288, 384 for security bits 128, 192, 256) and,
the draw having succeeded, returns what the engine init returns on the context,
the drawn bytes (the first `*olen` bytes of the scratch buffer) and the
caller's personalization; `RANDOM_seed` asks for exactly `bits` bits and
returns what the engine reseed returns on the context, the drawn bytes and the
caller's additional input.  The engine functions are those of Hash_DRBG. -/
theorem RANDOM_init_seed_draw (H : HashCap σ) (r : RANDOM σ ε) (hm : r.meth ∈ random_meth H)
    (fuel : Nat) (data : Option (List Nat)) (env : ε) :
    ((r.meth.bits = 128 ∧ r.meth.bits * 3 / 2 = 192) ∨
      (r.meth.bits = 192 ∧ r.meth.bits * 3 / 2 = 288) ∨
      (r.meth.bits = 256 ∧ r.meth.bits * 3 / 2 = 384)) ∧
    (∀ e, ENTROPY_generate fuel r.entropy_src (r.meth.bits * 3 / 2) r.entropy env = some e →
      e.ret ≠ 0 →
      RANDOM_init fuel (some r) data env
        = (r.meth.init fuel r.ctx (readMem e.data 0 e.olen) data).map
            (fun i => (i.1, some { r with ctx := i.2, entropy := memzero e.data 0 e.olen },
              e.env))) ∧
    (∀ e, ENTROPY_generate fuel r.entropy_src r.meth.bits r.entropy env = some e →
      e.ret ≠ 0 →
      RANDOM_seed fuel (some r) data env
        = (r.meth.reseed fuel r.ctx (readMem e.data 0 e.olen) data).map
            (fun i => (i.1, some { r with ctx := i.2, entropy := memzero e.data 0 e.olen },
              e.env))) ∧
    (∃ id seed_len, r.meth.init = fun f h e p => random_hash_init H f h id seed_len e p) ∧
    r.meth.reseed = RANDOM_HASH_reseed H := by
  obtain ⟨_, hre, _, _, hbits, hinit⟩ := random_meth_engine H r.meth hm
  refine ⟨?_, ?_, ?_, hinit, hre⟩
  · rcases hbits with h | h | h <;> rw [h] <;> simp
  · intro e he hok
    unfold RANDOM_init
    simp only [he, hok, if_false]
    cases r.meth.init fuel r.ctx (readMem e.data 0 e.olen) data <;> rfl
  · intro e he hok
    unfold RANDOM_seed
    simp only [he, hok, if_false]
    cases r.meth.reseed fuel r.ctx (readMem e.data 0 e.olen) data <;> rfl

/-- Instance of C8: the Hash_DRBG SHA256 generator with one source of 2 bytes and
12 bits per call.  `RANDOM_init` draws for the target 384: the draw succeeds with
64 bytes, and the call returns what the engine init returns on these 64 bytes
and the personalization "TLS"; `RANDOM_seed` draws for the target 256: the draw
succeeds with 44 bytes, and the call returns what the engine reseed returns on
these 44 bytes and the additional input. -/
theorem RANDOM_init_seed_draw_witness :
    (sampleRandom constHash 1 [goodSource]).meth.bits = 256 ∧
    (sampleRandom constHash 1 [goodSource]).meth.bits * 3 / 2 = 384 ∧
    (∃ e, ENTROPY_generate 100 [goodSource] 384 (fun _ => 0) () = some e ∧ e.ret = 1 ∧
      e.olen = 64 ∧ (readMem e.data 0 e.olen).length = 64 ∧
      RANDOM_init 100 (some (sampleRandom constHash 1 [goodSource])) (some [84, 76, 83]) ()
        = ((sampleRandom constHash 1 [goodSource]).meth.init 100
              (sampleRandom constHash 1 [goodSource]).ctx (readMem e.data 0 e.olen)
              (some [84, 76, 83])).map
            (fun i => (i.1, some { sampleRandom constHash 1 [goodSource] with
              ctx := i.2, entropy := memzero e.data 0 e.olen }, e.env))) ∧
    (∃ e, ENTROPY_generate 100 [goodSource] 256 (fun _ => 0) () = some e ∧ e.ret = 1 ∧
      e.olen = 44 ∧ (readMem e.data 0 e.olen).length = 44 ∧
      RANDOM_seed 100 (some (sampleRandom constHash 1 [goodSource])) (some [7, 8]) ()
        = ((sampleRandom constHash 1 [goodSource]).meth.reseed 100
              (sampleRandom constHash 1 [goodSource]).ctx (readMem e.data 0 e.olen)
              (some [7, 8])).map
            (fun i => (i.1, some { sampleRandom constHash 1 [goodSource] with
              ctx := i.2, entropy := memzero e.data 0 e.olen }, e.env))) ∧
    (sampleRandom constHash 1 [goodSource]).meth.reseed = RANDOM_HASH_reseed constHash :=
  ⟨rfl, rfl,
   ⟨_, rfl, by decide, by decide, by decide,
    (RANDOM_init_seed_draw constHash (sampleRandom constHash 1 [goodSource])
      (sampleMeth_mem constHash) 100 (some [84, 76, 83]) ()).2.1 _ rfl (by decide)⟩,
   ⟨_, rfl, by decide, by decide, by decide,
    (RANDOM_init_seed_draw constHash (sampleRandom constHash 1 [goodSource])
      (sampleMeth_mem constHash) 100 (some [7, 8]) ()).2.2.1 _ rfl (by decide)⟩,
   (RANDOM_init_seed_draw constHash (sampleRandom constHash 1 [goodSource])
      (sampleMeth_mem constHash) 100 none ()).2.2.2.2⟩

/-- C9 (amended): for a non-null generator of the registry, `RANDOM_init` (resp.
`RANDOM_seed`) returns RANDOM_ERR_ENTROPY (30) whenever the orchestrator's draw
fails; it then returns at once with the engine context as it was, only the
scratch buffer and the world being those the draw left: the engine init (resp.
reseed) is not invoked.  When the draw succeeds the status returned is the one
of the engine init (resp. reseed), which hands back the status of the hash
calls; so over a hash capability that never reports status 30 the function
returns 30 if and only if the draw fails. -/
theorem RANDOM_init_seed_entropy_error (H : HashCap σ) (r : RANDOM σ ε)
    (hm : r.meth ∈ random_meth H) (fuel : Nat) (data : Option (List Nat)) (env : ε) :
    (∀ e, ENTROPY_generate fuel r.entropy_src (r.meth.bits * 3 / 2) r.entropy env = some e →
      (e.ret = 0 → RANDOM_init fuel (some r) data env
        = some (RANDOM_ERR_ENTROPY, some { r with entropy := e.data }, e.env)) ∧
      (e.ret ≠ 0 → ∀ x, RANDOM_init fuel (some r) data env = some x →
        ∃ i, r.meth.init fuel r.ctx (readMem e.data 0 e.olen) data = some i ∧ x.1 = i.1) ∧
      (H.Statuses (fun s => s ≠ RANDOM_ERR_ENTROPY) →
        ∀ x, RANDOM_init fuel (some r) data env = some x →
          (x.1 = RANDOM_ERR_ENTROPY ↔ e.ret = 0))) ∧
    (∀ e, ENTROPY_generate fuel r.entropy_src r.meth.bits r.entropy env = some e →
      (e.ret = 0 → RANDOM_seed fuel (some r) data env
        = some (RANDOM_ERR_ENTROPY, some { r with entropy := e.data }, e.env)) ∧
      (e.ret ≠ 0 → ∀ x, RANDOM_seed fuel (some r) data env = some x →
        ∃ i, r.meth.reseed fuel r.ctx (readMem e.data 0 e.olen) data = some i ∧ x.1 = i.1) ∧
      (H.Statuses (fun s => s ≠ RANDOM_ERR_ENTROPY) →
        ∀ x, RANDOM_seed fuel (some r) data env = some x →
          (x.1 = RANDOM_ERR_ENTROPY ↔ e.ret = 0))) := by
  obtain ⟨_, hre, _, _, _, id, sl, hinit⟩ := random_meth_engine H r.meth hm
  have h0 : (0 : Int) ≠ RANDOM_ERR_ENTROPY := by decide
  constructor
  · intro e he
    have hfail : e.ret = 0 → RANDOM_init fuel (some r) data env
        = some (RANDOM_ERR_ENTROPY, some { r with entropy := e.data }, e.env) := by
      intro hz
      unfold RANDOM_init
      simp only [he, hz, if_true]
    have hok : e.ret ≠ 0 → ∀ x, RANDOM_init fuel (some r) data env = some x →
        ∃ i, r.meth.init fuel r.ctx (readMem e.data 0 e.olen) data = some i ∧ x.1 = i.1 := by
      intro hz x hx
      unfold RANDOM_init at hx
      simp only [he, hz, if_false] at hx
      cases hi : r.meth.init fuel r.ctx (readMem e.data 0 e.olen) data with
      | none => rw [hi] at hx; simp at hx
      | some i =>
        rw [hi] at hx
        simp only [Option.some.injEq] at hx
        exact ⟨i, rfl, by rw [← hx]⟩
    refine ⟨hfail, hok, fun h30 x hx => ⟨fun h => ?_, fun hz => ?_⟩⟩
    · by_contra hz
      obtain ⟨i, hi, hxi⟩ := hok hz x hx
      rw [hinit] at hi
      rw [hxi] at h
      exact random_hash_init_status H _ h30 h0 _ _ _ _ _ _ _ hi h
    · rw [hfail hz] at hx
      simp only [Option.some.injEq] at hx
      rw [← hx]
  · intro e he
    have hfail : e.ret = 0 → RANDOM_seed fuel (some r) data env
        = some (RANDOM_ERR_ENTROPY, some { r with entropy := e.data }, e.env) := by
      intro hz
      unfold RANDOM_seed
      simp only [he, hz, if_true]
    have hok : e.ret ≠ 0 → ∀ x, RANDOM_seed fuel (some r) data env = some x →
        ∃ i, r.meth.reseed fuel r.ctx (readMem e.data 0 e.olen) data = some i ∧ x.1 = i.1 := by
      intro hz x hx
      unfold RANDOM_seed at hx
      simp only [he, hz, if_false] at hx
      cases hi : r.meth.reseed fuel r.ctx (readMem e.data 0 e.olen) data with
      | none => rw [hi] at hx; simp at hx
      | some i =>
        rw [hi] at hx
        simp only [Option.some.injEq] at hx
        exact ⟨i, rfl, by rw [← hx]⟩
    refine ⟨hfail, hok, fun h30 x hx => ⟨fun h => ?_, fun hz => ?_⟩⟩
    · by_contra hz
      obtain ⟨i, hi, hxi⟩ := hok hz x hx
      rw [hre] at hi
      rw [hxi] at h
      exact RANDOM_HASH_reseed_status H _ h30 h0 _ _ _ _ _ hi h
    · rw [hfail hz] at hx
      simp only [Option.some.injEq] at hx
      rw [← hx]

/-- Instance of C9 (amended): over the constant hash and a source that always
fails, `RANDOM_init` of the Hash_DRBG SHA256 generator returns 30 and keeps the
engine context; over the constant hash, which never reports 30, a call that
returns has status 30 exactly when the draw failed. -/
theorem RANDOM_init_seed_entropy_error_witness :
    ∃ e, ENTROPY_generate 100 [deadSource] (256 * 3 / 2) (fun _ => 0) () = some e ∧
      e.ret = 0 ∧
      RANDOM_init 100 (some (sampleRandom constHash 1 [deadSource])) (some [84, 76, 83]) ()
        = some (RANDOM_ERR_ENTROPY,
            some { sampleRandom constHash 1 [deadSource] with entropy := e.data }, e.env) ∧
      ∀ x, RANDOM_init 100 (some (sampleRandom constHash 1 [deadSource]))
          (some [84, 76, 83]) () = some x → (x.1 = RANDOM_ERR_ENTROPY ↔ e.ret = 0) := by
  have he : ∃ e, ENTROPY_generate 100 [deadSource] (256 * 3 / 2) (fun _ => 0) () = some e ∧
      e.ret = 0 := ⟨_, rfl, rfl⟩
  obtain ⟨e, he, hz⟩ := he
  exact ⟨e, he, hz, ((RANDOM_init_seed_entropy_error constHash
    (sampleRandom constHash 1 [deadSource])
    (sampleMeth_mem constHash) 100 (some [84, 76, 83]) ()).1 e he).1 hz,
    ((RANDOM_init_seed_entropy_error constHash
    (sampleRandom constHash 1 [deadSource])
    (sampleMeth_mem constHash) 100 (some [84, 76, 83]) ()).1 e he).2.2
      (constHash_statuses _ (by decide))⟩

/-- C9 (counterexample): over a hash whose `HASH_update` reports the status 30 and
a source that always succeeds, the draws of `RANDOM_init` and `RANDOM_seed`
succeed, and both functions return 30: the status of the engine, which hands
back the status of the hash call. -/
theorem RANDOM_init_seed_entropy_error_counterexample :
    (∃ e x, ENTROPY_generate 100 [goodSource] (256 * 3 / 2) (fun _ => 0) () = some e ∧
      e.ret = 1 ∧
      RANDOM_init 100 (some (sampleRandom (statusHash 30) 1 [goodSource])) none ()
        = some x ∧ x.1 = RANDOM_ERR_ENTROPY) ∧
    (∃ e x, ENTROPY_generate 100 [goodSource] 256 (fun _ => 0) () = some e ∧
      e.ret = 1 ∧
      RANDOM_seed 100 (some (sampleRandom (statusHash 30) 1 [goodSource])) none ()
        = some x ∧ x.1 = RANDOM_ERR_ENTROPY) :=
  ⟨⟨_, _, rfl, by decide, rfl, by decide⟩, ⟨_, _, rfl, by decide, rfl, by decide⟩⟩

/-! ### The success criterion of `ENTROPY_generate` at the edge of the accumulator -/

/-- C10 (counterexample): with the bit target 65535 and one source that adds
32768 bits on each of two successful calls and then fails, the credits added
by the successful calls sum to 65536 ≥ 65535, yet `ENTROPY_generate` returns
failure: the 16-bit accumulator has wrapped to 0. -/
theorem ENTROPY_generate_wrap_counterexample :
    ∃ e, ENTROPY_generate 4 [bigSource] 65535 (fun _ => 0) 0 = some e ∧ e.ret = 0 ∧
      creditOfSuccesses e.passes.flatten = 65536 :=
  ⟨_, rfl, by decide, by decide⟩

theorem goodSource_credit : SourcesCredit [goodSource] 12 := by
  intro m hm env b
  simp only [List.mem_singleton] at hm
  subst hm
  exact ⟨fun h => absurd h (by simp [goodSource]), by simp [goodSource]⟩

theorem goodSource_progress : SourcesProgress [goodSource] := by
  intro m hm env b _
  simp only [List.mem_singleton] at hm
  subst hm
  simp [goodSource]

/-- Instance of C10 (amended): one source that always succeeds with 12 bits and
the target 256. -/
theorem ENTROPY_generate_success_iff_witness :
    SourcesCredit [goodSource] 12 ∧
    ∃ e, ENTROPY_generate 257 [goodSource] 256 (fun _ => 0) () = some e ∧
      (e.ret = 1 ↔ 256 ≤ creditOfSuccesses e.passes.flatten) := by
  have h := ENTROPY_generate_success_iff 12 [goodSource] 256 (fun _ => 0) ()
    goodSource_credit (by decide)
  obtain ⟨e, he⟩ := h.2 (by decide) goodSource_progress 257 (by decide)
  exact ⟨goodSource_credit, e, he, (h.1 257 e he).1⟩

/-! ## The once mask and the calls of a pass -/

theorem shift_mask_mod (i : Nat) : (1 <<< (i % 32)) % 2 ^ 32 = 2 ^ (i % 32) := by
  rw [Nat.one_shiftLeft]
  exact Nat.mod_eq_of_lt (Nat.pow_lt_pow_right (by decide) (Nat.mod_lt _ (by decide)))

theorem onceDone_iff_testBit (once i : Nat) :
    onceDone once i ↔ once.testBit (i % 32) = true := by
  unfold onceDone
  rw [shift_mask_mod, Nat.and_two_pow]
  cases hb : once.testBit (i % 32) <;> simp

/-- Setting the bit of source `j` marks the sources whose index is `j` modulo 32
and no other. -/
theorem onceDone_or (once i j : Nat) :
    onceDone (once ||| ((1 <<< (j % 32)) % 2 ^ 32)) i ↔ (onceDone once i ∨ i % 32 = j % 32) := by
  rw [onceDone_iff_testBit, onceDone_iff_testBit, shift_mask_mod, Nat.testBit_or,
    Nat.testBit_two_pow]
  by_cases hij : i % 32 = j % 32
  · simp [hij]
  · have hji : ¬ j % 32 = i % 32 := fun h => hij h.symm
    simp [hij, hji]

/-- What one iteration of the inner loop does to the once mask and to
`gathered`, and when it calls its source. -/
theorem ENTROPY_step_calls (m : ENTROPY_METH ε) (i : Nat) (s : EntropyVars ε) :
    (∀ c ∈ (ENTROPY_step m i s).2, c.idx = i) ∧
    (ENTROPY_step m i s).2.length ≤ 1 ∧
    ((∃ c, c ∈ (ENTROPY_step m i s).2) ↔
      (¬ onceDone s.once i ∧
        ¬ ((m.flags &&& ENTROPY_FLAG_NO_PREV) ≠ 0 ∧ s.gathered ≠ 0))) ∧
    (∀ j, onceDone (ENTROPY_step m i s).1.once j ↔
      (onceDone s.once j ∨
        (j % 32 = i % 32 ∧ (m.flags &&& ENTROPY_FLAG_ONCE) ≠ 0 ∧
          ∃ c ∈ (ENTROPY_step m i s).2, c.ret ≠ 0))) ∧
    ((ENTROPY_step m i s).1.gathered ≠ 0 ↔
      (s.gathered ≠ 0 ∨ ∃ c ∈ (ENTROPY_step m i s).2, c.ret ≠ 0)) := by
  unfold ENTROPY_step
  by_cases h1 : (s.once &&& ((1 <<< (i % 32)) % 2 ^ 32)) ≠ 0
  · have h1' : onceDone s.once i := h1
    rw [if_pos h1]
    simp [h1']
  · have h1' : ¬ onceDone s.once i := h1
    rw [if_neg h1]
    by_cases h2 : (m.flags &&& ENTROPY_FLAG_NO_PREV) ≠ 0 ∧ s.gathered ≠ 0
    · rw [if_pos h2]
      refine ⟨by simp, by simp, ?_, by simp, by simp⟩
      simp only [List.not_mem_nil, exists_false, false_iff]
      exact fun h => h.2 h2
    · rw [if_neg h2]
      by_cases h3 : (m.func s.env s.b).ret ≠ 0
      · simp only [if_pos h3]
        refine ⟨by simp, by simp, by simp [h1', h2], fun j => ?_, by simp [h3]⟩
        by_cases h4 : (m.flags &&& ENTROPY_FLAG_ONCE) ≠ 0
        · simp only [if_pos h4]
          rw [onceDone_or]
          simp [h4, h3]
        · simp only [if_neg h4]
          simp [h4]
      · simp only [if_neg h3]
        refine ⟨by simp, by simp, by simp [h1', h2], fun j => ?_, ?_⟩
        · simp only [ne_eq, not_not] at h3
          simp [h3]
        · simp only [ne_eq, not_not] at h3
          simp [h3]

theorem ENTROPY_pass_drop (meth : List (ENTROPY_METH ε)) (i : Nat) (s : EntropyVars ε)
    (hi : i < meth.length) :
    ENTROPY_pass (meth.drop i) i s
      = ((ENTROPY_pass (meth.drop (i + 1)) (i + 1) (ENTROPY_step (meth.get ⟨i, hi⟩) i s).1).1,
         (ENTROPY_step (meth.get ⟨i, hi⟩) i s).2 ++
           (ENTROPY_pass (meth.drop (i + 1)) (i + 1) (ENTROPY_step (meth.get ⟨i, hi⟩) i s).1).2) := by
  rw [List.drop_eq_getElem_cons hi, ENTROPY_pass_cons]
  rfl

theorem ENTROPY_pass_drop_nil (meth : List (ENTROPY_METH ε)) (i : Nat) (s : EntropyVars ε)
    (hi : meth.length ≤ i) : ENTROPY_pass (meth.drop i) i s = (s, []) := by
  rw [List.drop_eq_nil_of_le hi]
  rfl

/-- The calls of a pass are made in increasing order of index, each source at
most once. -/
theorem ENTROPY_pass_idx (meth : List (ENTROPY_METH ε)) :
    ∀ (n i : Nat) (s : EntropyVars ε), meth.length - i = n →
      (ENTROPY_pass (meth.drop i) i s).2.Pairwise (fun c d => c.idx < d.idx) ∧
      ∀ c ∈ (ENTROPY_pass (meth.drop i) i s).2, i ≤ c.idx ∧ c.idx < meth.length := by
  intro n
  induction n with
  | zero =>
    intro i s hn
    rw [ENTROPY_pass_drop_nil meth i s (by omega)]
    simp
  | succ n ih =>
    intro i s hn
    have hi : i < meth.length := by omega
    have hn' : meth.length - (i + 1) = n := by omega
    rw [ENTROPY_pass_drop meth i s hi]
    obtain ⟨sidx, slen, -, -, -⟩ := ENTROPY_step_calls (meth.get ⟨i, hi⟩) i s
    obtain ⟨pp, pidx⟩ := ih (i + 1) (ENTROPY_step (meth.get ⟨i, hi⟩) i s).1 hn'
    simp only []
    refine ⟨?_, ?_⟩
    · rw [List.pairwise_append]
      refine ⟨?_, pp, ?_⟩
      · cases hs : (ENTROPY_step (meth.get ⟨i, hi⟩) i s).2 with
        | nil => exact List.Pairwise.nil
        | cons c cs =>
          rw [hs] at slen
          cases cs with
          | nil => exact List.pairwise_singleton _ _
          | cons d ds => simp at slen
      · intro a ha b hb
        have h1 := sidx a ha
        have h2 := (pidx b hb).1
        omega
    · intro c hc
      rcases List.mem_append.1 hc with h | h
      · have h1 := sidx c h
        omega
      · have h2 := pidx c h
        omega

theorem ENTROPY_pass_gathered (meth : List (ENTROPY_METH ε)) :
    ∀ (n i : Nat) (s : EntropyVars ε), meth.length - i = n →
      ((ENTROPY_pass (meth.drop i) i s).1.gathered ≠ 0 ↔
        (s.gathered ≠ 0 ∨ ∃ c ∈ (ENTROPY_pass (meth.drop i) i s).2, c.ret ≠ 0)) := by
  intro n
  induction n with
  | zero =>
    intro i s hn
    rw [ENTROPY_pass_drop_nil meth i s (by omega)]
    simp
  | succ n ih =>
    intro i s hn
    have hi : i < meth.length := by omega
    have hn' : meth.length - (i + 1) = n := by omega
    rw [ENTROPY_pass_drop meth i s hi]
    obtain ⟨-, -, -, -, sg⟩ := ENTROPY_step_calls (meth.get ⟨i, hi⟩) i s
    have pg := ih (i + 1) (ENTROPY_step (meth.get ⟨i, hi⟩) i s).1 hn'
    simp only []
    rw [pg, sg]
    simp only [List.mem_append]
    constructor
    · rintro ((h | ⟨c, hc, hr⟩) | ⟨c, hc, hr⟩)
      · exact Or.inl h
      · exact Or.inr ⟨c, Or.inl hc, hr⟩
      · exact Or.inr ⟨c, Or.inr hc, hr⟩
    · rintro (h | ⟨c, hc | hc, hr⟩)
      · exact Or.inl (Or.inl h)
      · exact Or.inl (Or.inr ⟨c, hc, hr⟩)
      · exact Or.inr ⟨c, hc, hr⟩

/-- After a pass, the sources marked as done are those marked before it and
those whose index is, modulo 32, the index of a source flagged ONCE that the
pass called with success. -/
theorem ENTROPY_pass_once (meth : List (ENTROPY_METH ε)) :
    ∀ (n i : Nat) (s : EntropyVars ε), meth.length - i = n → ∀ j,
      (onceDone (ENTROPY_pass (meth.drop i) i s).1.once j ↔
        (onceDone s.once j ∨
          ∃ k m, k % 32 = j % 32 ∧ meth[k]? = some m ∧ (m.flags &&& ENTROPY_FLAG_ONCE) ≠ 0 ∧
            ∃ c ∈ (ENTROPY_pass (meth.drop i) i s).2, c.idx = k ∧ c.ret ≠ 0)) := by
  intro n
  induction n with
  | zero =>
    intro i s hn j
    rw [ENTROPY_pass_drop_nil meth i s (by omega)]
    simp
  | succ n ih =>
    intro i s hn j
    have hi : i < meth.length := by omega
    have hn' : meth.length - (i + 1) = n := by omega
    rw [ENTROPY_pass_drop meth i s hi]
    obtain ⟨sidx, -, -, sonce, -⟩ := ENTROPY_step_calls (meth.get ⟨i, hi⟩) i s
    have po := ih (i + 1) (ENTROPY_step (meth.get ⟨i, hi⟩) i s).1 hn' j
    have hget : meth[i]? = some (meth.get ⟨i, hi⟩) := List.getElem?_eq_getElem hi
    simp only []
    rw [po, sonce j]
    simp only [List.mem_append]
    constructor
    · rintro ((h | ⟨hji, hf, c, hc, hr⟩) | ⟨k, m, hk, hm, hf, c, hc, hck, hr⟩)
      · exact Or.inl h
      · exact Or.inr ⟨i, _, hji.symm, hget, hf, c, Or.inl hc, sidx c hc, hr⟩
      · exact Or.inr ⟨k, m, hk, hm, hf, c, Or.inr hc, hck, hr⟩
    · rintro (h | ⟨k, m, hk, hm, hf, c, hc | hc, hck, hr⟩)
      · exact Or.inl (Or.inl h)
      · have hki : k = i := by rw [← hck]; exact sidx c hc
        subst hki
        rw [hget] at hm
        simp only [Option.some.injEq] at hm
        subst hm
        exact Or.inl (Or.inr ⟨hk.symm, hf, c, hc, hr⟩)
      · exact Or.inr ⟨k, m, hk, hm, hf, c, hc, hck, hr⟩

/-- A pass over at most 32 sources calls the source of index `j` exactly when it
is not marked as done at the start of the pass and, if it is flagged NO_PREV,
`gathered` was 0 at the start and no call made earlier in the pass succeeded. -/
theorem ENTROPY_pass_called (meth : List (ENTROPY_METH ε)) (hlen : meth.length ≤ 32) :
    ∀ (n i : Nat) (s : EntropyVars ε), meth.length - i = n → ∀ j m, i ≤ j →
      meth[j]? = some m →
      ((∃ c ∈ (ENTROPY_pass (meth.drop i) i s).2, c.idx = j) ↔
        (¬ onceDone s.once j ∧
          ¬ ((m.flags &&& ENTROPY_FLAG_NO_PREV) ≠ 0 ∧
            (s.gathered ≠ 0 ∨
              ∃ c ∈ (ENTROPY_pass (meth.drop i) i s).2, c.idx < j ∧ c.ret ≠ 0)))) := by
  intro n
  induction n with
  | zero =>
    intro i s hn j m hij hm
    have hlt : j < meth.length := (List.getElem?_eq_some.1 hm).1
    omega
  | succ n ih =>
    intro i s hn j m hij hm
    have hi : i < meth.length := by omega
    have hn' : meth.length - (i + 1) = n := by omega
    rw [ENTROPY_pass_drop meth i s hi]
    obtain ⟨sidx, -, scall, sonce, sg⟩ := ENTROPY_step_calls (meth.get ⟨i, hi⟩) i s
    have pidx := (ENTROPY_pass_idx meth n (i + 1) (ENTROPY_step (meth.get ⟨i, hi⟩) i s).1 hn').2
    have hget : meth[i]? = some (meth.get ⟨i, hi⟩) := List.getElem?_eq_getElem hi
    simp only [List.mem_append]
    by_cases hji : j = i
    · subst hji
      rw [hget] at hm
      simp only [Option.some.injEq] at hm
      subst hm
      have hno : ¬ ∃ c, (c ∈ (ENTROPY_step (meth.get ⟨j, hi⟩) j s).2 ∨
          c ∈ (ENTROPY_pass (meth.drop (j + 1)) (j + 1)
            (ENTROPY_step (meth.get ⟨j, hi⟩) j s).1).2) ∧ c.idx < j ∧ c.ret ≠ 0 := by
        rintro ⟨c, hc | hc, hlt, -⟩
        · have := sidx c hc; omega
        · have := (pidx c hc).1; omega
      have hex : (∃ c, (c ∈ (ENTROPY_step (meth.get ⟨j, hi⟩) j s).2 ∨
          c ∈ (ENTROPY_pass (meth.drop (j + 1)) (j + 1)
            (ENTROPY_step (meth.get ⟨j, hi⟩) j s).1).2) ∧ c.idx = j) ↔
          ∃ c, c ∈ (ENTROPY_step (meth.get ⟨j, hi⟩) j s).2 := by
        constructor
        · rintro ⟨c, hc | hc, hcj⟩
          · exact ⟨c, hc⟩
          · have := (pidx c hc).1; omega
        · rintro ⟨c, hc⟩
          exact ⟨c, Or.inl hc, sidx c hc⟩
      rw [hex, scall]
      simp only [hno, or_false]
    · have hlt : i + 1 ≤ j := by omega
      have ihj := ih (i + 1) (ENTROPY_step (meth.get ⟨i, hi⟩) i s).1 hn' j m hlt hm
      have hex : (∃ c, (c ∈ (ENTROPY_step (meth.get ⟨i, hi⟩) i s).2 ∨
          c ∈ (ENTROPY_pass (meth.drop (i + 1)) (i + 1)
            (ENTROPY_step (meth.get ⟨i, hi⟩) i s).1).2) ∧ c.idx = j) ↔
          ∃ c ∈ (ENTROPY_pass (meth.drop (i + 1)) (i + 1)
            (ENTROPY_step (meth.get ⟨i, hi⟩) i s).1).2, c.idx = j := by
        constructor
        · rintro ⟨c, hc | hc, hcj⟩
          · have := sidx c hc; omega
          · exact ⟨c, hc, hcj⟩
        · rintro ⟨c, hc, hcj⟩
          exact ⟨c, Or.inr hc, hcj⟩
      have hon : onceDone (ENTROPY_step (meth.get ⟨i, hi⟩) i s).1.once j ↔ onceDone s.once j := by
        have hjl : j < meth.length := (List.getElem?_eq_some.1 hm).1
        rw [sonce j]
        constructor
        · rintro (h | ⟨h, -⟩)
          · exact h
          · omega
        · exact fun h => Or.inl h
      rw [hex, ihj, hon, sg]
      have hprev : ((s.gathered ≠ 0 ∨ ∃ c ∈ (ENTROPY_step (meth.get ⟨i, hi⟩) i s).2, c.ret ≠ 0) ∨
          ∃ c ∈ (ENTROPY_pass (meth.drop (i + 1)) (i + 1)
            (ENTROPY_step (meth.get ⟨i, hi⟩) i s).1).2, c.idx < j ∧ c.ret ≠ 0) ↔
          (s.gathered ≠ 0 ∨ ∃ c, (c ∈ (ENTROPY_step (meth.get ⟨i, hi⟩) i s).2 ∨
            c ∈ (ENTROPY_pass (meth.drop (i + 1)) (i + 1)
              (ENTROPY_step (meth.get ⟨i, hi⟩) i s).1).2) ∧ c.idx < j ∧ c.ret ≠ 0) := by
        constructor
        · rintro ((h | ⟨c, hc, hr⟩) | ⟨c, hc, hcj, hr⟩)
          · exact Or.inl h
          · exact Or.inr ⟨c, Or.inl hc, by have := sidx c hc; omega, hr⟩
          · exact Or.inr ⟨c, Or.inr hc, hcj, hr⟩
        · rintro (h | ⟨c, hc | hc, hcj, hr⟩)
          · exact Or.inl (Or.inl h)
          · exact Or.inl (Or.inr ⟨c, hc, hr⟩)
          · exact Or.inr ⟨c, hc, hcj, hr⟩
      rw [hprev]

/-! ## Sources flagged ONCE -/

/-- Within one run of the outer loop over at most 32 sources, no call is made to
a source marked as done at the start, and once a call to a source flagged ONCE
has succeeded, no later call is made to that source. -/
theorem ENTROPY_loop_once (meth : List (ENTROPY_METH ε)) (bits : Nat)
    (hlen : meth.length ≤ 32) :
    ∀ (fuel : Nat) (s : EntropyVars ε) (r : EntropyVars ε × List (List SrcCall)),
      ENTROPY_loop meth bits fuel s = some r →
      (∀ c ∈ r.2.flatten, ¬ onceDone s.once c.idx) ∧
      r.2.flatten.Pairwise (fun c d =>
        (c.ret ≠ 0 ∧ ∃ m, meth[c.idx]? = some m ∧ (m.flags &&& ENTROPY_FLAG_ONCE) ≠ 0) →
          d.idx ≠ c.idx) := by
  intro fuel
  induction fuel with
  | zero => intro s r h; simp [ENTROPY_loop] at h
  | succ n ih =>
    intro s r h
    rw [ENTROPY_loop] at h
    by_cases hc : s.b < bits ∧ s.gathered ≠ 0
    · rw [if_pos hc] at h
      by_cases h256 : 256 ≤ meth.length
      · rw [if_pos h256] at h; simp at h
      · rw [if_neg h256] at h
        simp only [] at h
        have hd : meth.drop 0 = meth := rfl
        have pidx := ENTROPY_pass_idx meth meth.length 0 { s with gathered := 0 } rfl
        have ponce := ENTROPY_pass_once meth meth.length 0 { s with gathered := 0 } rfl
        have pcall := ENTROPY_pass_called meth hlen meth.length 0 { s with gathered := 0 } rfl
        rw [hd] at pidx ponce pcall
        cases hl : ENTROPY_loop meth bits n (ENTROPY_pass meth 0 { s with gathered := 0 }).1 with
        | none => rw [hl] at h; simp at h
        | some r' =>
          rw [hl] at h
          simp only [Option.some.injEq] at h
          obtain ⟨iun, ipw⟩ := ih _ _ hl
          subst h
          simp only [List.flatten_cons]
          have hfirst : ∀ c ∈ (ENTROPY_pass meth 0 { s with gathered := 0 }).2,
              ¬ onceDone s.once c.idx := by
            intro c hc'
            have hlt := (pidx.2 c hc').2
            exact ((pcall c.idx (meth.get ⟨c.idx, hlt⟩) (Nat.zero_le _)
              (List.getElem?_eq_getElem hlt)).1 ⟨c, hc', rfl⟩).1
          refine ⟨?_, ?_⟩
          · intro c hc'
            rcases List.mem_append.1 hc' with h1 | h1
            · exact hfirst c h1
            · exact fun hdone => iun c h1 ((ponce c.idx).2 (Or.inl hdone))
          · rw [List.pairwise_append]
            refine ⟨pidx.1.imp (fun hlt _ => by omega), ipw, ?_⟩
            intro a ha b hb ⟨hret, m, hm, hf⟩ heq
            have halt := (pidx.2 a ha).2
            have hdone : onceDone (ENTROPY_pass meth 0 { s with gathered := 0 }).1.once a.idx :=
              (ponce a.idx).2 (Or.inr ⟨a.idx, m, rfl, hm, hf, a, ha, rfl, hret⟩)
            rw [← heq] at hdone
            exact iun b hb hdone
    · rw [if_neg hc] at h
      simp only [Option.some.injEq] at h
      subst h
      simp

theorem ENTROPY_generate_loop (fuel : Nat) (meth : List (ENTROPY_METH ε)) (bits : Nat)
    (data : Mem) (env : ε) (e : EntropyOut ε)
    (h : ENTROPY_generate fuel meth bits data env = some e) :
    ∃ r, ENTROPY_loop meth bits fuel
        { gathered := 1, b := 0, l := 0, p := 0, len := 0, once := 0, data := data,
          env := env } = some r ∧
      e = { ret := if r.1.b ≥ bits then 1 else 0, olen := r.1.l, data := r.1.data,
            env := r.1.env, p := r.1.p, passes := r.2 } := by
  unfold ENTROPY_generate at h
  cases hl : ENTROPY_loop meth bits fuel
      { gathered := 1, b := 0, l := 0, p := 0, len := 0, once := 0, data := data,
        env := env } with
  | none => rw [hl] at h; simp at h
  | some r =>
    rw [hl] at h
    simp only [Option.some.injEq] at h
    exact ⟨r, rfl, h.symm⟩

/-- In a list of calls in which no call follows a successful call to the same
source, that source has at most one successful call. -/
theorem countP_success_le_one (i : Nat) :
    ∀ (l : List SrcCall),
      l.Pairwise (fun c d => (c.ret ≠ 0 ∧ c.idx = i) → d.idx ≠ c.idx) →
      l.countP (fun c => decide (c.idx = i ∧ c.ret ≠ 0)) ≤ 1 := by
  intro l
  induction l with
  | nil => intro _; simp
  | cons c l ih =>
    intro hp
    rw [List.pairwise_cons] at hp
    by_cases hc : c.idx = i ∧ c.ret ≠ 0
    · have hz : l.countP (fun c => decide (c.idx = i ∧ c.ret ≠ 0)) = 0 := by
        rw [List.countP_eq_zero]
        intro d hd
        have := hp.1 d hd ⟨hc.2, hc.1⟩
        simp only [decide_eq_true_eq, not_and]
        intro hdi
        exact absurd (hdi.trans hc.1.symm) this
      rw [List.countP_cons_of_pos _ _ (by simpa using hc), hz]
    · rw [List.countP_cons_of_neg _ _ (by simpa using hc)]
      exact ih hp.2

/-- C11: for every list of fewer than 32 sources, a source flagged ONCE has at
most one successful call within one `ENTROPY_generate` call; and with a source
A flagged ONCE and a plain source B that always succeed, crediting 8 and 4
bits, and the target 32, `ENTROPY_generate` returns success after six passes
in which A is called exactly once and B exactly six times, A before B in the
first pass. -/
theorem ENTROPY_generate_once_source (data : Mem) (env : ε) (fuel : Nat) :
    (∀ (meth : List (ENTROPY_METH ε)) (bits : Nat) (e : EntropyOut ε),
      meth.length < 32 → ENTROPY_generate fuel meth bits data env = some e →
      ∀ i m, meth[i]? = some m → (m.flags &&& ENTROPY_FLAG_ONCE) ≠ 0 →
        e.passes.flatten.countP (fun c => decide (c.idx = i ∧ c.ret ≠ 0)) ≤ 1) ∧
    (∀ (A B : ENTROPY_METH ε), A.flags = ENTROPY_FLAG_ONCE → B.flags = 0 →
      (∀ env b, (A.func env b).ret ≠ 0 ∧ (A.func env b).credit = 8) →
      (∀ env b, (B.func env b).ret ≠ 0 ∧ (B.func env b).credit = 4) → 7 ≤ fuel →
      ∃ e, ENTROPY_generate fuel [A, B] 32 data env = some e ∧ e.ret = 1 ∧
        e.passes.map (fun p => p.map (fun c => c.idx)) = [[0, 1], [1], [1], [1], [1], [1]]) := by
  constructor
  · intro meth bits e hlen h i m hm hf
    obtain ⟨r, hr, rfl⟩ := ENTROPY_generate_loop fuel meth bits data env e h
    have hp := (ENTROPY_loop_once meth bits (by omega) fuel _ r hr).2
    apply countP_success_le_one
    refine hp.imp ?_
    rintro c d hcd ⟨hret, hci⟩
    exact hcd ⟨hret, m, by rw [hci]; exact hm, hf⟩
  · intro A B hA hB hAs hBs hf
    obtain ⟨k, rfl⟩ : ∃ k, fuel = k + 7 := ⟨fuel - 7, by omega⟩
    have hAr : ∀ env b, ((A.func env b).ret = 0) = False := fun env b => eq_false (hAs env b).1
    have hBr : ∀ env b, ((B.func env b).ret = 0) = False := fun env b => eq_false (hBs env b).1
    have hAc : ∀ env b, (A.func env b).credit = 8 := fun env b => (hAs env b).2
    have hBc : ∀ env b, (B.func env b).credit = 4 := fun env b => (hBs env b).2
    simp [ENTROPY_generate, ENTROPY_loop, ENTROPY_pass, hA, hB, hAr, hBr, hAc, hBc,
      ENTROPY_FLAG_ONCE, ENTROPY_FLAG_NO_PREV]

/-- Instance of C11: the sources A (ONCE, 8 bits) and B (plain, 4 bits) of the
scenario, target 32. -/
theorem ENTROPY_generate_once_source_witness :
    ∃ e, ENTROPY_generate 7 [onceSource, plainSource] 32 (fun _ => 0) () = some e ∧ e.ret = 1 ∧
      e.passes.map (fun p => p.map (fun c => c.idx)) = [[0, 1], [1], [1], [1], [1], [1]] ∧
      e.passes.flatten.countP (fun c => decide (c.idx = 0 ∧ c.ret ≠ 0)) ≤ 1 := by
  have h := @ENTROPY_generate_once_source Unit (fun _ => 0) () 7
  obtain ⟨e, he, hret, hp⟩ := h.2 onceSource plainSource rfl rfl
    (fun _ _ => ⟨by simp [onceSource], rfl⟩) (fun _ _ => ⟨by simp [plainSource], rfl⟩)
    (by decide)
  exact ⟨e, he, hret, hp,
    h.1 [onceSource, plainSource] 32 e (by decide) he 0 onceSource rfl (by decide)⟩

/-- The record of passes returned by `ENTROPY_loop` lists, pass by pass, the calls
of `ENTROPY_pass` from the variables with which the pass started. -/
theorem ENTROPY_loop_starts (meth : List (ENTROPY_METH ε)) (bits : Nat) :
    ∀ (fuel : Nat) (s : EntropyVars ε) (r : EntropyVars ε × List (List SrcCall)),
      ENTROPY_loop meth bits fuel s = some r →
      r.2 = (ENTROPY_starts meth bits fuel s).map (fun x => (ENTROPY_pass meth 0 x).2) := by
  intro fuel
  induction fuel with
  | zero => intro s r h; simp [ENTROPY_loop] at h
  | succ n ih =>
    intro s r h
    rw [ENTROPY_loop] at h
    rw [ENTROPY_starts]
    by_cases hc : s.b < bits ∧ s.gathered ≠ 0
    · rw [if_pos hc] at h
      rw [if_pos hc]
      by_cases h256 : 256 ≤ meth.length
      · rw [if_pos h256] at h; simp at h
      · rw [if_neg h256] at h
        rw [if_neg h256]
        simp only [] at h
        cases hl : ENTROPY_loop meth bits n (ENTROPY_pass meth 0 { s with gathered := 0 }).1 with
        | none => rw [hl] at h; simp at h
        | some r' =>
          rw [hl] at h
          simp only [Option.some.injEq] at h
          subst h
          simp only [List.map_cons]
          rw [ih _ _ hl]
    · rw [if_neg hc] at h
      rw [if_neg hc]
      simp only [Option.some.injEq] at h
      subst h
      rfl

/-- Every pass starts with `gathered = 0`, and a source is marked as done at the
start of a pass only if it was marked when the outer loop was entered or its
index is, modulo 32, the index of a source flagged ONCE. -/
theorem ENTROPY_starts_spec (meth : List (ENTROPY_METH ε)) (bits : Nat) :
    ∀ (fuel : Nat) (s : EntropyVars ε), ∀ x ∈ ENTROPY_starts meth bits fuel s,
      x.gathered = 0 ∧
      ∀ j, onceDone x.once j →
        (onceDone s.once j ∨
          ∃ k m, k % 32 = j % 32 ∧ meth[k]? = some m ∧
            (m.flags &&& ENTROPY_FLAG_ONCE) ≠ 0) := by
  intro fuel
  induction fuel with
  | zero => intro s x hx; simp [ENTROPY_starts] at hx
  | succ n ih =>
    intro s x hx
    rw [ENTROPY_starts] at hx
    by_cases hc : s.b < bits ∧ s.gathered ≠ 0
    · rw [if_pos hc] at hx
      by_cases h256 : 256 ≤ meth.length
      · rw [if_pos h256] at hx; simp at hx
      · rw [if_neg h256] at hx
        rcases List.mem_cons.1 hx with h1 | h1
        · subst h1
          exact ⟨rfl, fun j hj => Or.inl hj⟩
        · obtain ⟨hg, ho⟩ := ih _ x h1
          refine ⟨hg, fun j hj => ?_⟩
          have ponce := ENTROPY_pass_once meth meth.length 0 { s with gathered := 0 } rfl j
          have hd : meth.drop 0 = meth := rfl
          rw [hd] at ponce
          rcases ho j hj with h2 | h2
          · rcases ponce.1 h2 with h3 | ⟨k, m, hk, hm, hf, -⟩
            · exact Or.inl h3
            · exact Or.inr ⟨k, m, hk, hm, hf⟩
          · exact Or.inr h2
    · rw [if_neg hc] at hx
      simp at hx

/-- A pass over a plain source A followed by a source B flagged NO_PREV (and not
ONCE), neither marked as done: A is called; B is called exactly when the call
to A failed. -/
theorem ENTROPY_pass_pair (A B : ENTROPY_METH ε) (hA : A.flags = 0)
    (hB : B.flags = ENTROPY_FLAG_NO_PREV) (s : EntropyVars ε) (hg : s.gathered = 0)
    (h0 : ¬ onceDone s.once 0) (h1 : ¬ onceDone s.once 1) :
    ∃ a, a.idx = 0 ∧
      ((a.ret ≠ 0 ∧ (ENTROPY_pass [A, B] 0 s).2 = [a]) ∨
       (a.ret = 0 ∧ ∃ b, b.idx = 1 ∧ (ENTROPY_pass [A, B] 0 s).2 = [a, b])) := by
  unfold onceDone at h0 h1
  have h0' : ¬ s.once % 2 = 1 := by simpa using h0
  have h1' : s.once &&& 2 = 0 := by simpa using h1
  by_cases hr : (A.func s.env s.b).ret = 0
  · refine ⟨⟨0, (A.func s.env s.b).ret, (A.func s.env s.b).len % 2 ^ 32,
      (A.func s.env s.b).credit, (A.func s.env s.b).data⟩, rfl, Or.inr ⟨hr, ?_⟩⟩
    simp [ENTROPY_pass, h0', h1', hA, hB, hg, hr, ENTROPY_FLAG_ONCE, ENTROPY_FLAG_NO_PREV]
    split <;> exact ⟨_, by rfl, rfl⟩
  · refine ⟨⟨0, (A.func s.env s.b).ret, (A.func s.env s.b).len % 2 ^ 32,
      (A.func s.env s.b).credit, (A.func s.env s.b).data⟩, rfl, Or.inl ⟨hr, ?_⟩⟩
    simp [ENTROPY_pass, h0', h1', hA, hB, hg, hr, ENTROPY_FLAG_ONCE, ENTROPY_FLAG_NO_PREV]

/-- C13 (amended): for a list of at most 32 sources, the passes of
`ENTROPY_generate` are the runs of the inner loop from the variables listed by
`ENTROPY_starts`, each with `gathered = 0`; in every such pass a source flagged
NO_PREV is called if and only if it is not marked as done in the once mask and
no call made earlier in that pass (to a source of lower index) succeeded,
whatever happened in previous passes.  With a plain
source A before a source B flagged NO_PREV, and any bit target (27 in
particular), every pass calls A, and calls B exactly when the call to A
failed. -/
theorem ENTROPY_generate_no_prev (meth : List (ENTROPY_METH ε))
    (hlen : meth.length ≤ 32) (bits : Nat) (data : Mem)
    (env : ε) (fuel : Nat) (e : EntropyOut ε)
    (h : ENTROPY_generate fuel meth bits data env = some e) :
    e.passes = (ENTROPY_starts meth bits fuel
        { gathered := 1, b := 0, l := 0, p := 0, len := 0, once := 0, data := data,
          env := env }).map (fun x => (ENTROPY_pass meth 0 x).2) ∧
    (∀ x ∈ ENTROPY_starts meth bits fuel
        { gathered := 1, b := 0, l := 0, p := 0, len := 0, once := 0, data := data,
          env := env },
      x.gathered = 0 ∧
      ∀ i m, meth[i]? = some m → (m.flags &&& ENTROPY_FLAG_NO_PREV) ≠ 0 →
        ((∃ c ∈ (ENTROPY_pass meth 0 x).2, c.idx = i) ↔
          (¬ onceDone x.once i ∧ ∀ c ∈ (ENTROPY_pass meth 0 x).2, c.idx < i → c.ret = 0))) ∧
    (∀ A B, meth = [A, B] → A.flags = 0 → B.flags = ENTROPY_FLAG_NO_PREV →
      ∀ pass ∈ e.passes, ∃ a, a.idx = 0 ∧
        ((a.ret ≠ 0 ∧ pass = [a]) ∨ (a.ret = 0 ∧ ∃ b, b.idx = 1 ∧ pass = [a, b]))) := by
  obtain ⟨r, hr, rfl⟩ := ENTROPY_generate_loop fuel meth bits data env e h
  have hst := ENTROPY_loop_starts meth bits fuel _ r hr
  refine ⟨hst, ?_, ?_⟩
  · intro x hx
    obtain ⟨hg, -⟩ := ENTROPY_starts_spec meth bits fuel _ x hx
    refine ⟨hg, fun i m hm hf => ?_⟩
    have pcall := ENTROPY_pass_called meth hlen meth.length 0 x rfl i m (Nat.zero_le _) hm
    have hd : meth.drop 0 = meth := rfl
    rw [hd] at pcall
    rw [pcall]
    constructor
    · rintro ⟨h1, h2⟩
      refine ⟨h1, fun c hc hlt => ?_⟩
      by_contra hret
      exact h2 ⟨hf, Or.inr ⟨c, hc, hlt, hret⟩⟩
    · rintro ⟨h1, h2⟩
      refine ⟨h1, ?_⟩
      rintro ⟨-, hgx | ⟨c, hc, hlt, hret⟩⟩
      · exact hgx hg
      · exact hret (h2 c hc hlt)
  · intro A B hAB hA hB pass hpass
    subst hAB
    simp only [] at hpass
    rw [hst, List.mem_map] at hpass
    obtain ⟨x, hx, rfl⟩ := hpass
    obtain ⟨hg, ho⟩ := ENTROPY_starts_spec [A, B] bits fuel _ x hx
    have hnone : ∀ j, ¬ onceDone x.once j := by
      intro j hj
      rcases ho j hj with h0 | ⟨k, m, hk, hm, hf⟩
      · simp [onceDone] at h0
      · have hmem : m ∈ [A, B] := List.getElem?_mem hm
        simp only [List.mem_cons, List.mem_singleton, List.not_mem_nil, or_false] at hmem
        rcases hmem with rfl | rfl
        · rw [hA] at hf; simp at hf
        · rw [hB] at hf; simp [ENTROPY_FLAG_NO_PREV, ENTROPY_FLAG_ONCE] at hf
    exact ENTROPY_pass_pair A B hA hB x hg (hnone 0) (hnone 1)

/-- Instance of C13: A (plain, 5 bits) fails on some calls, B (NO_PREV, 9 bits)
always succeeds, target 27: B is skipped in the passes where A succeeded and
called in the passes where A failed. -/
theorem ENTROPY_generate_no_prev_witness :
    ∃ e, ENTROPY_generate 6 [flakySource, noPrevSource] 27 (fun _ => 0) 0 = some e ∧
      e.ret = 1 ∧
      e.passes.map (fun p => p.map (fun c => (c.idx, c.ret)))
        = [[(0, 1)], [(0, 0), (1, 1)], [(0, 1)], [(0, 0), (1, 1)]] ∧
      ∀ pass ∈ e.passes, ∃ a, a.idx = 0 ∧
        ((a.ret ≠ 0 ∧ pass = [a]) ∨ (a.ret = 0 ∧ ∃ b, b.idx = 1 ∧ pass = [a, b])) :=
  ⟨_, rfl, by decide, by decide,
    (ENTROPY_generate_no_prev [flakySource, noPrevSource] (by decide) 27 (fun _ => 0) 0 6 _
      rfl).2.2
      flakySource noPrevSource rfl rfl rfl⟩

/-- C13 (counterexample): with 33 sources, the first flagged ONCE and always
succeeding, the next 31 always failing and the last, at index 32, flagged
NO_PREV (and not ONCE) and always succeeding, and the bit target 27,
`ENTROPY_generate` makes two passes and fails.  In the second pass no call
succeeds and the source at index 32 has never been called, hence never
succeeded; yet it is not called: `1 << 32` tests the bit of source 0, which the
first pass has set. -/
theorem ENTROPY_generate_no_prev_counterexample :
    manySources.length = 33 ∧
    (∃ m, manySources[32]? = some m ∧ m.flags = ENTROPY_FLAG_NO_PREV) ∧
    ∃ e, ENTROPY_generate 5 manySources 27 (fun _ => 0) () = some e ∧ e.ret = 0 ∧
      e.passes.map (fun p => p.map (fun c => (c.idx, c.ret)))
        = [(0, 1) :: (List.range' 1 31).map (fun i => (i, 0)),
           (List.range' 1 31).map (fun i => (i, 0))] ∧
      (∀ c ∈ e.passes.flatten, c.idx ≠ 32) ∧
      (∀ c ∈ e.passes.getD 1 [], c.ret = 0) :=
  ⟨by decide, ⟨_, rfl, rfl⟩, _, rfl, by decide, by decide, by decide, by decide⟩

/-! ## The bytes gathered by the orchestrator -/

theorem bytesOfSuccesses_nil : bytesOfSuccesses [] = 0 := rfl

theorem bytesOfSuccesses_append (xs ys : List SrcCall) :
    bytesOfSuccesses (xs ++ ys) = bytesOfSuccesses xs + bytesOfSuccesses ys := by
  unfold bytesOfSuccesses
  simp [List.filter_append, List.map_append, List.sum_append]

theorem samplesOfSuccesses_nil : samplesOfSuccesses [] = [] := rfl

theorem samplesOfSuccesses_append (xs ys : List SrcCall) :
    samplesOfSuccesses (xs ++ ys) = samplesOfSuccesses xs ++ samplesOfSuccesses ys := by
  unfold samplesOfSuccesses
  simp [List.filter_append, List.map_append, List.flatten_append]

theorem readMem_length (m : Mem) (p n : Nat) : (readMem m p n).length = n := by
  simp [readMem]

theorem readMem_congr (m1 m2 : Mem) (p n : Nat) (h : ∀ a, p ≤ a → a < p + n → m1 a = m2 a) :
    readMem m1 p n = readMem m2 p n := by
  unfold readMem
  apply List.map_congr_left
  intro j hj
  rw [List.mem_range] at hj
  exact h (p + j) (by omega) (by omega)

theorem readMem_add (m : Mem) (p n k : Nat) :
    readMem m p (n + k) = readMem m p n ++ readMem m (p + n) k := by
  unfold readMem
  rw [List.range_add, List.map_append, List.map_map]
  congr 1
  apply List.map_congr_left
  intro j _
  simp [Nat.add_assoc]

theorem readMem_memcpy (m : Mem) (p : Nat) (d : List Nat) :
    readMem (memcpy m p d) p d.length = d := by
  apply List.ext_getElem
  · rw [readMem_length]
  · intro j h1 h2
    simp only [readMem, List.getElem_map, List.getElem_range]
    rw [memcpy_inside m p d (p + j) (by omega) (by omega)]
    simp [List.getD_eq_getElem?_getD, h2]

theorem readMem_memcpy_below (m : Mem) (p : Nat) (d : List Nat) :
    readMem (memcpy m p d) 0 p = readMem m 0 p :=
  readMem_congr _ _ 0 p (fun a _ h => memcpy_outside m p d a (Or.inl (by omega)))

theorem readMem_memcpy_append (m : Mem) (p : Nat) (d : List Nat) :
    readMem (memcpy m p d) 0 (p + d.length) = readMem m 0 p ++ d := by
  rw [readMem_add, readMem_memcpy_below, Nat.zero_add, readMem_memcpy]

/-- What one iteration of the inner loop does to the cursor, to the byte count
`l` and to the buffer below the cursor, for a source that stores exactly the
bytes it reports when it succeeds. -/
theorem ENTROPY_step_bytes (m : ENTROPY_METH ε) (i : Nat) (s : EntropyVars ε)
    (hm : ∀ (env : ε) (b : Nat), (m.func env b).ret ≠ 0 →
      (m.func env b).data.length = (m.func env b).len ∧ (m.func env b).len < 2 ^ 32) :
    (ENTROPY_step m i s).1.p = s.p + bytesOfSuccesses (ENTROPY_step m i s).2 ∧
    (s.l = s.p % 2 ^ 8 → (ENTROPY_step m i s).1.l = (ENTROPY_step m i s).1.p % 2 ^ 8) ∧
    readMem (ENTROPY_step m i s).1.data 0 (ENTROPY_step m i s).1.p
      = readMem s.data 0 s.p ++ samplesOfSuccesses (ENTROPY_step m i s).2 := by
  unfold ENTROPY_step
  by_cases h1 : (s.once &&& ((1 <<< (i % 32)) % 2 ^ 32)) ≠ 0
  · rw [if_pos h1]
    simp [bytesOfSuccesses_nil, samplesOfSuccesses_nil]
  · rw [if_neg h1]
    by_cases h2 : (m.flags &&& ENTROPY_FLAG_NO_PREV) ≠ 0 ∧ s.gathered ≠ 0
    · rw [if_pos h2]
      simp [bytesOfSuccesses_nil, samplesOfSuccesses_nil]
    · rw [if_neg h2]
      by_cases h3 : (m.func s.env s.b).ret ≠ 0
      · obtain ⟨hlen, hlt⟩ := hm s.env s.b h3
        have hmod : (m.func s.env s.b).len % 2 ^ 32 = (m.func s.env s.b).len :=
          Nat.mod_eq_of_lt hlt
        simp only [if_pos h3, hmod]
        refine ⟨?_, ?_, ?_⟩
        · simp [bytesOfSuccesses, h3]
        · intro hl
          rw [hl, Nat.add_mod, Nat.mod_mod, ← Nat.add_mod]
        · rw [← hlen, readMem_memcpy_append]
          simp [samplesOfSuccesses, h3]
      · simp only [if_neg h3]
        simp only [ne_eq, not_not] at h3
        refine ⟨?_, fun hl => hl, ?_⟩
        · simp [bytesOfSuccesses, h3]
        · rw [readMem_memcpy_below]
          simp [samplesOfSuccesses, h3]

theorem ENTROPY_pass_bytes :
    ∀ (ms : List (ENTROPY_METH ε)) (i : Nat) (s : EntropyVars ε), SourcesStore ms →
      (ENTROPY_pass ms i s).1.p = s.p + bytesOfSuccesses (ENTROPY_pass ms i s).2 ∧
      (s.l = s.p % 2 ^ 8 → (ENTROPY_pass ms i s).1.l = (ENTROPY_pass ms i s).1.p % 2 ^ 8) ∧
      readMem (ENTROPY_pass ms i s).1.data 0 (ENTROPY_pass ms i s).1.p
        = readMem s.data 0 s.p ++ samplesOfSuccesses (ENTROPY_pass ms i s).2 := by
  intro ms
  induction ms with
  | nil =>
    intro i s _
    simp [ENTROPY_pass, bytesOfSuccesses_nil, samplesOfSuccesses_nil]
  | cons m ms ih =>
    intro i s hst
    have hst' : SourcesStore ms := fun m' hm' => hst m' (List.mem_cons_of_mem _ hm')
    obtain ⟨sp, sl, sd⟩ := ENTROPY_step_bytes m i s (hst m (List.mem_cons_self _ _))
    obtain ⟨pp, pl, pd⟩ := ih (i + 1) (ENTROPY_step m i s).1 hst'
    rw [ENTROPY_pass_cons]
    simp only []
    refine ⟨?_, fun hl => pl (sl hl), ?_⟩
    · rw [pp, sp, bytesOfSuccesses_append, Nat.add_assoc]
    · rw [pd, sd, samplesOfSuccesses_append, List.append_assoc]

theorem ENTROPY_loop_bytes (meth : List (ENTROPY_METH ε)) (bits : Nat)
    (hst : SourcesStore meth) :
    ∀ (fuel : Nat) (s : EntropyVars ε) (r : EntropyVars ε × List (List SrcCall)),
      ENTROPY_loop meth bits fuel s = some r →
      r.1.p = s.p + bytesOfSuccesses r.2.flatten ∧
      (s.l = s.p % 2 ^ 8 → r.1.l = r.1.p % 2 ^ 8) ∧
      readMem r.1.data 0 r.1.p = readMem s.data 0 s.p ++ samplesOfSuccesses r.2.flatten := by
  intro fuel
  induction fuel with
  | zero => intro s r h; simp [ENTROPY_loop] at h
  | succ n ih =>
    intro s r h
    rw [ENTROPY_loop] at h
    by_cases hc : s.b < bits ∧ s.gathered ≠ 0
    · rw [if_pos hc] at h
      by_cases h256 : 256 ≤ meth.length
      · rw [if_pos h256] at h; simp at h
      · rw [if_neg h256] at h
        simp only [] at h
        obtain ⟨pp, pl, pd⟩ := ENTROPY_pass_bytes meth 0 { s with gathered := 0 } hst
        cases hl : ENTROPY_loop meth bits n (ENTROPY_pass meth 0 { s with gathered := 0 }).1 with
        | none => rw [hl] at h; simp at h
        | some r' =>
          rw [hl] at h
          simp only [Option.some.injEq] at h
          obtain ⟨ip, il, id⟩ := ih _ _ hl
          subst h
          simp only [List.flatten_cons]
          refine ⟨?_, fun hl0 => il (pl hl0), ?_⟩
          · rw [ip, pp, bytesOfSuccesses_append, Nat.add_assoc]
          · rw [id, pd, samplesOfSuccesses_append, List.append_assoc]
    · rw [if_neg hc] at h
      simp only [Option.some.injEq] at h
      subst h
      simp [bytesOfSuccesses_nil, samplesOfSuccesses_nil]

/-- C14 (the code departs from the claim): for every list of sources that store
exactly the bytes they report when they succeed, and every bit target, the
buffer holds, from its start, the concatenation in call order of the samples of
the successful calls, and the cursor ends after them; but the length stored in
`*olen` is the total number of those bytes reduced modulo 256, the byte count
`l` being a `uint8_t`: it is the number of bytes written only while that number
is below 256. -/
theorem ENTROPY_generate_olen (meth : List (ENTROPY_METH ε)) (hst : SourcesStore meth)
    (bits : Nat) (data : Mem) (env : ε) (fuel : Nat) (e : EntropyOut ε)
    (h : ENTROPY_generate fuel meth bits data env = some e) :
    e.olen = bytesOfSuccesses e.passes.flatten % 2 ^ 8 ∧
    e.p = bytesOfSuccesses e.passes.flatten ∧
    readMem e.data 0 (bytesOfSuccesses e.passes.flatten)
      = samplesOfSuccesses e.passes.flatten := by
  obtain ⟨r, hr, rfl⟩ := ENTROPY_generate_loop fuel meth bits data env e h
  obtain ⟨hp, hl, hd⟩ := ENTROPY_loop_bytes meth bits hst fuel _ r hr
  simp only [Nat.zero_add] at hp hl hd
  have hl' := hl rfl
  simp only [] 
  refine ⟨by rw [hl', hp], hp, ?_⟩
  rw [← hp, hd]
  simp [readMem]

theorem blockSource_store : SourcesStore [blockSource] := by
  intro m hm env b _
  simp only [List.mem_singleton] at hm
  subst hm
  simp [blockSource]

/-- Instance of C14, at the failing input: one source that stores 128 bytes and
credits 128 bits per call, target 256.  Two calls succeed and store 256 bytes,
and the length reported in `*olen` is 0. -/
theorem ENTROPY_generate_olen_witness :
    SourcesStore [blockSource] ∧
    ∃ e, ENTROPY_generate 3 [blockSource] 256 (fun _ => 0) () = some e ∧ e.ret = 1 ∧
      bytesOfSuccesses e.passes.flatten = 256 ∧ e.olen = 0 := by
  refine ⟨blockSource_store, _, rfl, by decide, by decide, ?_⟩
  exact (ENTROPY_generate_olen [blockSource] blockSource_store 256 (fun _ => 0) () 3 _
    rfl).1.trans (by decide)

/-! ## The number of bytes gathered and the bit target -/

/-- C15 (the code departs from the claim): with two sources that always succeed,
each storing 2 bytes and crediting at least one bit per byte (12 and 8 bits),
and the bit target 3, `ENTROPY_generate` calls both sources in its first pass
and generates 4 bytes, more than the target of 3: the target is tested only
between passes. -/
theorem ENTROPY_generate_bytes_exceed_bits :
    (∀ m ∈ [goodSource, onceSource], ∀ (env : Unit) (b : Nat), (m.func env b).ret ≠ 0 →
      (m.func env b).data.length = (m.func env b).len ∧
      (m.func env b).len ≤ (m.func env b).credit) ∧
    ∃ e, ENTROPY_generate 2 [goodSource, onceSource] 3 (fun _ => 0) () = some e ∧
      e.ret = 1 ∧ e.passes.map (fun p => p.map (fun c => (c.idx, c.ret, c.len)))
        = [[(0, 1, 2), (1, 1, 2)]] ∧
      e.olen = 4 ∧ e.p = 4 ∧ ¬ (e.olen ≤ 3) := by
  refine ⟨?_, _, rfl, by decide, by decide, by decide, by decide, by decide⟩
  intro m hm env b _
  simp only [List.mem_cons, List.mem_singleton, List.not_mem_nil, or_false] at hm
  rcases hm with rfl | rfl
  · simp [goodSource]
  · simp [onceSource]

/-! ## Zeroization of the entropy scratch buffer -/

/-- One iteration of the inner loop, for a source that stores exactly the bytes
it reports when it succeeds and nothing when it fails, stores nothing at or
beyond the cursor it leaves. -/
theorem ENTROPY_step_frame (m : ENTROPY_METH ε) (i : Nat) (s : EntropyVars ε)
    (hm : ∀ (env : ε) (b : Nat), (m.func env b).ret ≠ 0 →
      (m.func env b).data.length = (m.func env b).len ∧ (m.func env b).len < 2 ^ 32)
    (hq : ∀ (env : ε) (b : Nat), (m.func env b).ret = 0 → (m.func env b).data = []) :
    s.p ≤ (ENTROPY_step m i s).1.p ∧
    ∀ a, (ENTROPY_step m i s).1.p ≤ a → (ENTROPY_step m i s).1.data a = s.data a := by
  unfold ENTROPY_step
  by_cases h1 : (s.once &&& ((1 <<< (i % 32)) % 2 ^ 32)) ≠ 0
  · rw [if_pos h1]
    exact ⟨Nat.le_refl _, fun _ _ => rfl⟩
  · rw [if_neg h1]
    by_cases h2 : (m.flags &&& ENTROPY_FLAG_NO_PREV) ≠ 0 ∧ s.gathered ≠ 0
    · rw [if_pos h2]
      exact ⟨Nat.le_refl _, fun _ _ => rfl⟩
    · rw [if_neg h2]
      by_cases h3 : (m.func s.env s.b).ret ≠ 0
      · obtain ⟨hlen, hlt⟩ := hm s.env s.b h3
        have hmod : (m.func s.env s.b).len % 2 ^ 32 = (m.func s.env s.b).len :=
          Nat.mod_eq_of_lt hlt
        simp only [if_pos h3, hmod]
        refine ⟨Nat.le_add_right _ _, fun a ha => ?_⟩
        exact memcpy_outside _ _ _ a (Or.inr (by omega))
      · simp only [if_neg h3]
        simp only [ne_eq, not_not] at h3
        refine ⟨Nat.le_refl _, fun a ha => ?_⟩
        rw [hq s.env s.b h3]
        exact memcpy_outside _ _ _ a (Or.inr (by simpa using ha))

theorem ENTROPY_pass_frame :
    ∀ (ms : List (ENTROPY_METH ε)) (i : Nat) (s : EntropyVars ε), SourcesStore ms →
      SourcesQuiet ms →
      s.p ≤ (ENTROPY_pass ms i s).1.p ∧
      ∀ a, (ENTROPY_pass ms i s).1.p ≤ a → (ENTROPY_pass ms i s).1.data a = s.data a := by
  intro ms
  induction ms with
  | nil =>
    intro i s _ _
    exact ⟨Nat.le_refl _, fun _ _ => rfl⟩
  | cons m ms ih =>
    intro i s hst hq
    have hst' : SourcesStore ms := fun m' hm' => hst m' (List.mem_cons_of_mem _ hm')
    have hq' : SourcesQuiet ms := fun m' hm' => hq m' (List.mem_cons_of_mem _ hm')
    obtain ⟨sp, sd⟩ := ENTROPY_step_frame m i s (hst m (List.mem_cons_self _ _))
      (hq m (List.mem_cons_self _ _))
    obtain ⟨pp, pd⟩ := ih (i + 1) (ENTROPY_step m i s).1 hst' hq'
    rw [ENTROPY_pass_cons]
    simp only []
    exact ⟨Nat.le_trans sp pp, fun a ha => (pd a ha).trans (sd a (Nat.le_trans pp ha))⟩

theorem ENTROPY_loop_frame (meth : List (ENTROPY_METH ε)) (bits : Nat)
    (hst : SourcesStore meth) (hq : SourcesQuiet meth) :
    ∀ (fuel : Nat) (s : EntropyVars ε) (r : EntropyVars ε × List (List SrcCall)),
      ENTROPY_loop meth bits fuel s = some r →
      s.p ≤ r.1.p ∧ ∀ a, r.1.p ≤ a → r.1.data a = s.data a := by
  intro fuel
  induction fuel with
  | zero => intro s r h; simp [ENTROPY_loop] at h
  | succ n ih =>
    intro s r h
    rw [ENTROPY_loop] at h
    by_cases hc : s.b < bits ∧ s.gathered ≠ 0
    · rw [if_pos hc] at h
      by_cases h256 : 256 ≤ meth.length
      · rw [if_pos h256] at h; simp at h
      · rw [if_neg h256] at h
        simp only [] at h
        obtain ⟨pp, pd⟩ := ENTROPY_pass_frame meth 0 { s with gathered := 0 } hst hq
        cases hl : ENTROPY_loop meth bits n (ENTROPY_pass meth 0 { s with gathered := 0 }).1 with
        | none => rw [hl] at h; simp at h
        | some r' =>
          rw [hl] at h
          simp only [Option.some.injEq] at h
          obtain ⟨ip, id⟩ := ih _ _ hl
          subst h
          exact ⟨Nat.le_trans pp ip, fun a ha => (id a ha).trans (pd a (Nat.le_trans ip ha))⟩
    · rw [if_neg hc] at h
      simp only [Option.some.injEq] at h
      subst h
      exact ⟨Nat.le_refl _, fun _ _ => rfl⟩

/-- Where the cursor of `ENTROPY_generate` ends and what the reported length is,
for sources that store exactly the bytes they report when they succeed; when
they also store nothing on failure, nothing is stored at or beyond the final
cursor. -/
theorem ENTROPY_generate_cursor (meth : List (ENTROPY_METH ε)) (hst : SourcesStore meth)
    (bits : Nat) (data : Mem) (env : ε) (fuel : Nat) (e : EntropyOut ε)
    (h : ENTROPY_generate fuel meth bits data env = some e) :
    e.p = bytesOfSuccesses e.passes.flatten ∧ e.olen = e.p % 2 ^ 8 ∧
    (SourcesQuiet meth → ∀ a, e.p ≤ a → e.data a = data a) := by
  obtain ⟨r, hr, rfl⟩ := ENTROPY_generate_loop fuel meth bits data env e h
  obtain ⟨hp, hl, -⟩ := ENTROPY_loop_bytes meth bits hst fuel _ r hr
  simp only [Nat.zero_add] at hp hl
  exact ⟨hp, hl rfl, fun hq => (ENTROPY_loop_frame meth bits hst hq fuel _ r hr).2⟩

theorem memzero_inside (m : Mem) (n a : Nat) (h : a < n) : memzero m 0 n a = 0 := by
  unfold memzero
  rw [if_pos ⟨Nat.zero_le _, by omega⟩]

theorem memzero_outside (m : Mem) (n a : Nat) (h : n ≤ a) : memzero m 0 n a = m a := by
  unfold memzero
  rw [if_neg (by omega)]

/-- C16 (amended): after `RANDOM_init` or `RANDOM_seed` has drawn entropy with
success and called the engine, whatever status the engine returns, the call
returns that status, the first `elen` bytes of the scratch buffer are zero,
`elen` being the length the draw reported, and the bytes from offset `elen` on
are as the draw left them.  When the sources store exactly the bytes they
report on success and nothing on failure, and the successful calls of the draw
reported fewer than 256 bytes in total, the draw stored only below that total
and every byte below it is zero afterwards. -/
theorem RANDOM_init_seed_zeroize (r : RANDOM σ ε) (data : Option (List Nat)) (env : ε)
    (fuel : Nat) (e : EntropyOut ε) (hok : e.ret ≠ 0) :
    (ENTROPY_generate fuel r.entropy_src (r.meth.bits * 3 / 2) r.entropy env = some e →
      ∀ i, r.meth.init fuel r.ctx (readMem e.data 0 e.olen) data = some i →
      ∃ r', RANDOM_init fuel (some r) data env = some (i.1, some r', e.env) ∧
        (∀ a, a < e.olen → r'.entropy a = 0) ∧
        (∀ a, e.olen ≤ a → r'.entropy a = e.data a) ∧
        (SourcesStore r.entropy_src → SourcesQuiet r.entropy_src →
          bytesOfSuccesses e.passes.flatten < 256 →
          (∀ a, a < bytesOfSuccesses e.passes.flatten → r'.entropy a = 0) ∧
          (∀ a, bytesOfSuccesses e.passes.flatten ≤ a → r'.entropy a = r.entropy a))) ∧
    (ENTROPY_generate fuel r.entropy_src r.meth.bits r.entropy env = some e →
      ∀ i, r.meth.reseed fuel r.ctx (readMem e.data 0 e.olen) data = some i →
      ∃ r', RANDOM_seed fuel (some r) data env = some (i.1, some r', e.env) ∧
        (∀ a, a < e.olen → r'.entropy a = 0) ∧
        (∀ a, e.olen ≤ a → r'.entropy a = e.data a) ∧
        (SourcesStore r.entropy_src → SourcesQuiet r.entropy_src →
          bytesOfSuccesses e.passes.flatten < 256 →
          (∀ a, a < bytesOfSuccesses e.passes.flatten → r'.entropy a = 0) ∧
          (∀ a, bytesOfSuccesses e.passes.flatten ≤ a → r'.entropy a = r.entropy a))) := by
  have key : ∀ bits, ENTROPY_generate fuel r.entropy_src bits r.entropy env = some e →
      (∀ a, a < e.olen → memzero e.data 0 e.olen a = 0) ∧
      (∀ a, e.olen ≤ a → memzero e.data 0 e.olen a = e.data a) ∧
      (SourcesStore r.entropy_src → SourcesQuiet r.entropy_src →
        bytesOfSuccesses e.passes.flatten < 256 →
        (∀ a, a < bytesOfSuccesses e.passes.flatten → memzero e.data 0 e.olen a = 0) ∧
        (∀ a, bytesOfSuccesses e.passes.flatten ≤ a →
          memzero e.data 0 e.olen a = r.entropy a)) := by
    intro bits hdraw
    refine ⟨fun a ha => memzero_inside _ _ a ha, fun a ha => memzero_outside _ _ a ha, ?_⟩
    intro hst hq hlt
    obtain ⟨hp, hl, hfr⟩ := ENTROPY_generate_cursor r.entropy_src hst bits r.entropy env fuel e
      hdraw
    have hol : e.olen = bytesOfSuccesses e.passes.flatten := by
      rw [hl, hp]; exact Nat.mod_eq_of_lt hlt
    rw [hol]
    refine ⟨fun a ha => memzero_inside _ _ a ha, fun a ha => ?_⟩
    rw [memzero_outside _ _ a ha]
    exact hfr hq a (by omega)
  constructor
  · intro hdraw i hi
    refine ⟨{ r with ctx := i.2, entropy := memzero e.data 0 e.olen }, ?_, key _ hdraw⟩
    unfold RANDOM_init
    simp only [hdraw, hok, if_false, hi]
  · intro hdraw i hi
    refine ⟨{ r with ctx := i.2, entropy := memzero e.data 0 e.olen }, ?_, key _ hdraw⟩
    unfold RANDOM_seed
    simp only [hdraw, hok, if_false, hi]

theorem fullSource_store : SourcesStore [fullSource] := by
  intro m hm env b _
  simp only [List.mem_singleton] at hm
  subst hm
  simp [fullSource]

theorem fullSource_quiet : SourcesQuiet [fullSource] := by
  intro m hm env b h
  simp only [List.mem_singleton] at hm
  subst hm
  simp [fullSource] at h

/-- Instance of C16 (amended): `RANDOM_seed` on a Hash_DRBG SHA256 generator with
the constant hash and one source that stores 32 bytes and credits 256 bits. -/
theorem RANDOM_init_seed_zeroize_witness :
    ∃ e r', ENTROPY_generate 60 [fullSource] 256 (fun _ => 0) () = some e ∧
      RANDOM_seed 60 (some (sampleRandom constHash 1 [fullSource])) none ()
        = some (0, some r', ()) ∧
      bytesOfSuccesses e.passes.flatten = 32 ∧
      (∀ a, a < bytesOfSuccesses e.passes.flatten → r'.entropy a = 0) ∧
      (∀ a, bytesOfSuccesses e.passes.flatten ≤ a → r'.entropy a = 0) := by
  have hdraw : ENTROPY_generate 60 [fullSource] 256 (fun _ => 0) ()
      = some ⟨1, 32, memcpy (fun _ => 0) 0 (List.replicate 32 0x5A), (), 32,
          [[⟨0, 1, 32, 256, List.replicate 32 0x5A⟩]]⟩ := rfl
  obtain ⟨h', hre, -⟩ := RANDOM_HASH_reseed_ok constHash constHash_neverFails 60 (sampleCtx 1)
    (readMem (memcpy (fun _ => 0) 0 (List.replicate 32 0x5A)) 0 32) none (by decide)
    (by decide)
  obtain ⟨r', hr', -, -, hall⟩ := (RANDOM_init_seed_zeroize
    (sampleRandom constHash 1 [fullSource]) none () 60 _ (by decide)).2 hdraw (0, h') hre
  obtain ⟨hz, hfr⟩ := hall fullSource_store fullSource_quiet (by decide)
  exact ⟨_, r', hdraw, hr', by decide, hz, hfr⟩

/-- C16 (counterexample): a Hash_DRBG SHA256 generator with the constant hash and
two sources, the first storing 32 bytes for 256 bits, the second failing after
it has stored one byte at the cursor.  `RANDOM_seed` draws with success, calls
the engine and returns 0; the draw has stored the byte 0xEE at offset 32 of the
scratch buffer, which held 0 before, and that byte is still there afterwards. -/
theorem RANDOM_seed_failed_store_counterexample :
    ∃ e r', ENTROPY_generate 60 [fullSource, leakySource] 256 (fun _ => 0) () = some e ∧
      e.ret = 1 ∧ e.olen = 32 ∧
      RANDOM_seed 60 (some (sampleRandom constHash 1 [fullSource, leakySource])) none ()
        = some (0, some r', ()) ∧
      (sampleRandom constHash 1 [fullSource, leakySource]).entropy 32 = 0 ∧
      e.data 32 = 0xEE ∧ r'.entropy 32 = 0xEE := by
  have hdraw : ENTROPY_generate 60 [fullSource, leakySource] 256 (fun _ => 0) ()
      = some ⟨1, 32, memcpy (memcpy (fun _ => 0) 0 (List.replicate 32 0x5A)) 32 [0xEE], (), 32,
          [[⟨0, 1, 32, 256, List.replicate 32 0x5A⟩, ⟨1, 0, 0, 0, [0xEE]⟩]]⟩ := rfl
  obtain ⟨h2, hs, -⟩ := RANDOM_seed_ok constHash constHash_neverFails
    (sampleRandom constHash 1 [fullSource, leakySource]) (sampleMeth_mem constHash) (by decide)
    none () 60 (by decide) _ hdraw (by decide)
  exact ⟨_, _, hdraw, by decide, by decide, hs, rfl, by decide, rfl⟩

/-! ## Teardown -/

/-- C17: `RANDOM_free(NULL)` does nothing; on a non-null generator `RANDOM_free`
calls the engine `fin` on the context, and for every entry of the registry
that is `RANDOM_HASH_final`, after which every byte of `v` (the leading tag
byte included), `c` and `t` is zero, `reseed_cnt`, `seed_len` and `hash_len`
are zero and the hash pointer is null, whatever the context held before. -/
theorem RANDOM_free_zeroizes (H : HashCap σ) (r : RANDOM σ ε) (hm : r.meth ∈ random_meth H) :
    RANDOM_free (none : Option (RANDOM σ ε)) = none ∧
    ∃ r', RANDOM_free (some r) = some r' ∧ r'.ctx = r.meth.fin r.ctx ∧
      r.meth.fin = RANDOM_HASH_final ∧
      r'.ctx.v = List.replicate (1 + RANDOM_HASH_MAX_SEED_LEN) 0 ∧
      r'.ctx.c = List.replicate RANDOM_HASH_MAX_SEED_LEN 0 ∧
      r'.ctx.t = List.replicate RANDOM_HASH_MAX_SEED_LEN 0 ∧
      r'.ctx.reseed_cnt = 0 ∧ r'.ctx.seed_len = 0 ∧ r'.ctx.hash_len = 0 ∧
      r'.ctx.hash = none := by
  have hfin := (random_meth_engine H r.meth hm).2.2.1
  refine ⟨rfl, { r with ctx := r.meth.fin r.ctx }, rfl, rfl, hfin, ?_⟩
  rw [hfin]
  exact ⟨rfl, rfl, rfl, rfl, rfl, rfl, rfl⟩

/-- Instance of C17: a Hash_DRBG SHA256 generator with counter 5. -/
theorem RANDOM_free_zeroizes_witness :
    RANDOM_free (none : Option (RANDOM Unit Unit)) = none ∧
    ∃ r', RANDOM_free (some (sampleRandom constHash 5 [goodSource])) = some r' ∧
      r'.ctx = (sampleRandom constHash 5 [goodSource]).meth.fin
        (sampleRandom constHash 5 [goodSource]).ctx ∧
      (sampleRandom constHash 5 [goodSource]).meth.fin = RANDOM_HASH_final ∧
      r'.ctx.v = List.replicate (1 + RANDOM_HASH_MAX_SEED_LEN) 0 ∧
      r'.ctx.c = List.replicate RANDOM_HASH_MAX_SEED_LEN 0 ∧
      r'.ctx.t = List.replicate RANDOM_HASH_MAX_SEED_LEN 0 ∧
      r'.ctx.reseed_cnt = 0 ∧ r'.ctx.seed_len = 0 ∧ r'.ctx.hash_len = 0 ∧
      r'.ctx.hash = none :=
  RANDOM_free_zeroizes constHash (sampleRandom constHash 5 [goodSource])
    (sampleMeth_mem constHash)

/-- C18 (the code departs from the claim): when the entropy draw of `RANDOM_init`
or of `RANDOM_seed` fails, the call returns RANDOM_ERR_ENTROPY without clearing
the scratch buffer, and `RANDOM_free` then leaves the buffer as the failed
draw left it: the bytes that draw stored are still in it when it is released. -/
theorem RANDOM_free_keeps_failed_draw (r : RANDOM σ ε) (data : Option (List Nat)) (env : ε)
    (fuel : Nat) (e : EntropyOut ε) (hfail : e.ret = 0) :
    (ENTROPY_generate fuel r.entropy_src (r.meth.bits * 3 / 2) r.entropy env = some e →
      ∃ r1 r2, RANDOM_init fuel (some r) data env = some (RANDOM_ERR_ENTROPY, some r1, e.env) ∧
        RANDOM_free (some r1) = some r2 ∧ r2.entropy = e.data) ∧
    (ENTROPY_generate fuel r.entropy_src r.meth.bits r.entropy env = some e →
      ∃ r1 r2, RANDOM_seed fuel (some r) data env = some (RANDOM_ERR_ENTROPY, some r1, e.env) ∧
        RANDOM_free (some r1) = some r2 ∧ r2.entropy = e.data) := by
  constructor
  · intro hdraw
    refine ⟨{ r with entropy := e.data }, _, ?_, rfl, rfl⟩
    unfold RANDOM_init
    simp only [hdraw, hfail, if_true]
  · intro hdraw
    refine ⟨{ r with entropy := e.data }, _, ?_, rfl, rfl⟩
    unfold RANDOM_seed
    simp only [hdraw, hfail, if_true]

/-- Instance of C18, at the failing input: a Hash_DRBG SHA256 generator whose only
source succeeds once, storing the bytes 0xAA 0xBB, and then runs dry.
`RANDOM_init` returns RANDOM_ERR_ENTROPY (30), and after `RANDOM_free` the two
bytes are still at the start of the scratch buffer. -/
theorem RANDOM_free_keeps_failed_draw_witness :
    ∃ r1 r2, RANDOM_init 5 (some (sampleRandomCounting constHash 0 [dryingSource])) none 0
        = some (30, some r1, 2) ∧
      RANDOM_free (some r1) = some r2 ∧ r2.entropy 0 = 0xAA ∧ r2.entropy 1 = 0xBB := by
  have hdraw : ENTROPY_generate 5 [dryingSource] (256 * 3 / 2) (fun _ => 0) 0
      = some ⟨0, 2, memcpy (memcpy (fun _ => 0) 0 [0xAA, 0xBB]) 2 [], 2, 2,
          [[⟨0, 1, 2, 12, [0xAA, 0xBB]⟩], [⟨0, 0, 0, 0, []⟩]]⟩ := rfl
  obtain ⟨r1, r2, h1, h2, h3⟩ := (RANDOM_free_keeps_failed_draw
    (sampleRandomCounting constHash 0 [dryingSource]) none 0 5 _ rfl).1 hdraw
  exact ⟨r1, r2, h1, h2, by rw [h3]; rfl, by rw [h3]; rfl⟩

/-! ## Additional input of length 0 -/

theorem sumHash_neverFails : sumHash.NeverFails :=
  ⟨fun _ _ _ => rfl, fun _ _ => rfl, fun _ => rfl, fun _ _ => rfl, fun _ => rfl⟩

/-- C20 (amended): `RANDOM_HASH_gen` leaves out the additional-input step only
when the pointer `ainput` is null.  For every engine state with counter below
2^48 and every request length, with a hash that never fails, a call with a
non-null additional input of length 0 returns what a call with a null
additional input returns from the state left by the additional-input step on
the empty string (V replaced by V + Hash(0x02 ∥ V)); both calls return 0 with
the same produced length, the same reseed counter, seed length and C. -/
theorem RANDOM_HASH_gen_empty_ainput (H : HashCap σ) (hnf : H.NeverFails) (fuel : Nat)
    (h : RANDOM_HASH σ) (mem : Mem) (out olen glen : Nat)
    (hc : h.reseed_cnt < 2 ^ 48) (hl : 1 ≤ h.hash_len % 2 ^ 16)
    (hf : min olen (2 ^ 16) < fuel) :
    RANDOM_HASH_gen H fuel h (some []) mem out olen glen
      = RANDOM_HASH_gen H fuel (gen_ainput H h (some [])).2 none mem out olen glen ∧
    ∃ hA mA hB mB,
      RANDOM_HASH_gen H fuel h (some []) mem out olen glen
        = some (0, hA, mA, min olen (2 ^ 16)) ∧
      RANDOM_HASH_gen H fuel h none mem out olen glen = some (0, hB, mB, min olen (2 ^ 16)) ∧
      hA.reseed_cnt = hB.reseed_cnt ∧ hA.seed_len = hB.seed_len ∧ hA.c = hB.c := by
  have hst : (gen_ainput H h (some [])).1 = 0 := gen_ainput_status H _ hnf rfl h _
  obtain ⟨hfl, -, hcnt, -⟩ := gen_ainput_fields H h (some [])
  constructor
  · unfold RANDOM_HASH_gen
    generalize gen_ainput H h (some []) = ra at hst hfl hcnt
    have hc' : ¬ ra.2.reseed_cnt ≥ 2 ^ 48 := by rw [hcnt]; omega
    have hc'' : ¬ h.reseed_cnt ≥ 2 ^ 48 := by omega
    simp only [gen_ainput, if_neg hc', if_neg hc'', hst, hfl, ne_eq, not_true_eq_false,
      if_false]
  · obtain ⟨hA, mA, eA, cA, -, sA, ccA, -⟩ := RANDOM_HASH_gen_ok H hnf fuel h (some []) mem out
      olen glen hc hl hf
    obtain ⟨hB, mB, eB, cB, -, sB, ccB, -⟩ := RANDOM_HASH_gen_ok H hnf fuel h none mem out
      olen glen hc hl hf
    exact ⟨hA, mA, hB, mB, eA, eB, by rw [cA, cB], by rw [sA, sB], by rw [ccA, ccB]⟩

set_option maxRecDepth 8000 in
/-- C20 (counterexample): on the context with V = C = 0 and counter 1, with the
hash whose digest repeats the byte sum of its input, a request of one byte
with a non-null additional input of length 0 produces the byte 64 and one with
a null additional input produces the byte 0, and the two calls leave different
values of V. -/
theorem RANDOM_HASH_gen_empty_ainput_counterexample :
    ∃ xA xB,
      RANDOM_HASH_gen sumHash 3 (sumCtx 1) (some []) (fun _ => 0) 1000 1 0 = some xA ∧
      RANDOM_HASH_gen sumHash 3 (sumCtx 1) none (fun _ => 0) 1000 1 0 = some xB ∧
      xA.1 = 0 ∧ xB.1 = 0 ∧ xA.2.2.1 1000 = 64 ∧ xB.2.2.1 1000 = 0 ∧
      xA.2.1.v ≠ xB.2.1.v :=
  ⟨_, _, rfl, rfl, by decide, by decide, by decide, by decide, by decide⟩

/-- Instance of C20 (amended): the two calls of the counterexample. -/
theorem RANDOM_HASH_gen_empty_ainput_witness :
    RANDOM_HASH_gen sumHash 3 (sumCtx 1) (some []) (fun _ => 0) 1000 1 0
      = RANDOM_HASH_gen sumHash 3 (gen_ainput sumHash (sumCtx 1) (some [])).2 none
          (fun _ => 0) 1000 1 0 ∧
    ∃ hA mA hB mB,
      RANDOM_HASH_gen sumHash 3 (sumCtx 1) (some []) (fun _ => 0) 1000 1 0
        = some (0, hA, mA, min 1 (2 ^ 16)) ∧
      RANDOM_HASH_gen sumHash 3 (sumCtx 1) none (fun _ => 0) 1000 1 0
        = some (0, hB, mB, min 1 (2 ^ 16)) ∧
      hA.reseed_cnt = hB.reseed_cnt ∧ hA.seed_len = hB.seed_len ∧ hA.c = hB.c :=
  RANDOM_HASH_gen_empty_ainput sumHash sumHash_neverFails 3 (sumCtx 1) (fun _ => 0) 1000 1 0
    (by decide) (by decide) (by decide)

/-! ## Determinism of the engine -/

theorem getD_set_eq (a : List Nat) (k x j : Nat) :
    (a.set k x).getD j 0 = if j = k ∧ k < a.length then x else a.getD j 0 := by
  simp only [List.getD_eq_getElem?_getD, List.getElem?_set]
  by_cases hjk : k = j
  · subst hjk
    by_cases hk : k < a.length
    · simp [hk]
    · simp [hk, List.getElem?_eq_none (Nat.le_of_not_lt hk)]
  · have : ¬ j = k := fun h => hjk h.symm
    simp [hjk, this]

theorem EqUpTo.refl (n : Nat) (a : List Nat) : EqUpTo n a a := ⟨rfl, fun _ _ => rfl⟩

theorem EqUpTo.mono {n m : Nat} {a b : List Nat} (h : EqUpTo n a b) (hm : m ≤ n) :
    EqUpTo m a b := ⟨h.1, fun j hj => h.2 j (by omega)⟩

theorem EqUpTo.set {n : Nat} {a b : List Nat} (h : EqUpTo n a b) (k x : Nat) :
    EqUpTo n (a.set k x) (b.set k x) := by
  refine ⟨by simp [h.1], fun j hj => ?_⟩
  rw [getD_set_eq, getD_set_eq, h.1, h.2 j hj]

theorem EqUpTo.bytesOf {n : Nat} {a b : List Nat} (h : EqUpTo n a b) (off m : Nat)
    (hm : off + m ≤ n) : bytesOf a off m = bytesOf b off m := by
  unfold Drbg.bytesOf
  apply List.map_congr_left
  intro j hj
  rw [List.mem_range] at hj
  exact h.2 (off + j) (by omega)

theorem writeAt_length : ∀ (d a : List Nat) (off : Nat), (writeAt a off d).length = a.length := by
  intro d
  induction d with
  | nil => intro a off; rfl
  | cons x xs ih => intro a off; rw [writeAt, ih]; simp

/-- Storing the same bytes at the same place in two buffers of the same size makes
them agree wherever they agreed outside the stored range. -/
theorem writeAt_same (n : Nat) :
    ∀ (d a b : List Nat) (off : Nat), a.length = b.length →
      (∀ j, j < n → (j < off ∨ off + d.length ≤ j) → a.getD j 0 = b.getD j 0) →
      EqUpTo n (writeAt a off d) (writeAt b off d) := by
  intro d
  induction d with
  | nil =>
    intro a b off hl h
    refine ⟨hl, fun j hj => h j hj ?_⟩
    simp only [List.length_nil]
    omega
  | cons x xs ih =>
    intro a b off hl h
    rw [writeAt, writeAt]
    apply ih
    · simp [hl]
    · intro j hj hout
      rw [getD_set_eq, getD_set_eq, hl]
      by_cases hjo : j = off
      · subst hjo
        by_cases hlt : j < b.length
        · simp [hlt]
        · simp only [hlt, and_false, if_false]
          rw [List.getD_eq_default _ _ (by omega), List.getD_eq_default _ _ (by omega)]
      · simp only [hjo, false_and, if_false]
        apply h j hj
        simp only [List.length_cons]
        omega

theorem gen_add_input_same (N : Nat) (ht ht' : List Nat) :
    ∀ (i : Nat) (v v' : List Nat) (t : Nat), EqUpTo N v v' → i < N →
      (∀ j, j < i → ht.getD j 0 = ht'.getD j 0) →
      EqUpTo N (gen_add_input ht i v t) (gen_add_input ht' i v' t) := by
  intro i
  induction i with
  | zero => intro v v' t hv _ _; exact hv
  | succ i ih =>
    intro v v' t hv hi ht
    rw [gen_add_input, gen_add_input]
    rw [hv.2 (i + 1) hi, ht i (Nat.lt_succ_self i)]
    exact ih _ _ _ (hv.set _ _) (by omega) (fun j hj => ht j (by omega))

theorem gen_add_rest_same (N : Nat) (c c' ht ht' : List Nat) :
    ∀ (i : Nat) (v v' : List Nat) (t : Nat), EqUpTo N v v' → i < N →
      (∀ j, j < i → c.getD j 0 = c'.getD j 0) →
      (∀ j, j < i → ht.getD j 0 = ht'.getD j 0) →
      EqUpTo N (gen_add_rest c ht i v t) (gen_add_rest c' ht' i v' t) := by
  intro i
  induction i with
  | zero => intro v v' t hv _ _ _; exact hv
  | succ i ih =>
    intro v v' t hv hi hc ht
    rw [gen_add_rest, gen_add_rest]
    rw [hv.2 (i + 1) hi, hc i (Nat.lt_succ_self i), ht i (Nat.lt_succ_self i)]
    exact ih _ _ _ (hv.set _ _) (by omega) (fun j hj => hc j (by omega))
      (fun j hj => ht j (by omega))

theorem gen_add_cnt_same (N seed_len cnt : Nat) (c c' ht ht' : List Nat) :
    ∀ (n i : Nat) (v v' : List Nat) (t : Nat), EqUpTo N v v' → i < N →
      (∀ j, j < i → c.getD j 0 = c'.getD j 0) →
      (∀ j, j < i → ht.getD j 0 = ht'.getD j 0) →
      EqUpTo N (gen_add_cnt seed_len cnt c ht n i v t).1
        (gen_add_cnt seed_len cnt c' ht' n i v' t).1 ∧
      (gen_add_cnt seed_len cnt c ht n i v t).2
        = (gen_add_cnt seed_len cnt c' ht' n i v' t).2 := by
  intro n
  induction n with
  | zero => intro i v v' t hv _ _ _; exact ⟨hv, rfl⟩
  | succ n ih =>
    intro i v v' t hv hi hc ht
    cases i with
    | zero => exact ⟨hv, rfl⟩
    | succ i =>
      rw [gen_add_cnt, gen_add_cnt]
      rw [hv.2 (i + 1) hi, hc i (Nat.lt_succ_self i), ht i (Nat.lt_succ_self i)]
      exact ih _ _ _ _ (hv.set _ _) (by omega) (fun j hj => hc j (by omega))
        (fun j hj => ht j (by omega))

theorem hashgen_incr_same (N : Nat) :
    ∀ (j : Nat) (v v' : List Nat), EqUpTo N v v' → j ≤ N →
      EqUpTo N (hashgen_incr v j) (hashgen_incr v' j) := by
  intro j
  induction j with
  | zero => intro v v' hv _; exact hv
  | succ j ih =>
    intro v v' hv hj
    rw [hashgen_incr, hashgen_incr]
    rw [hv.2 j (by omega)]
    by_cases hb : (v'.getD j 0 + 1) % 256 = 0
    · rw [if_pos hb, if_pos hb]
      exact ih _ _ (hv.set _ _) (by omega)
    · rw [if_neg hb, if_neg hb]
      exact hv.set _ _

/-- Two runs of the loop of `hashgen` whose working values agree on their first
`vlen` bytes end alike: same status, hash object and memory, and working
values that still agree. -/
theorem hashgen_loop_same (H : HashCap σ) (hlen vlen : Nat) :
    ∀ (fuel : Nat) (hash : Option σ) (v v' t : List Nat) (mem : Mem) (data : Nat) (i : Int),
      EqUpTo vlen v v' →
      SameOpt (fun r r' : Int × Option σ × List Nat × Mem =>
          r.1 = r'.1 ∧ r.2.1 = r'.2.1 ∧ EqUpTo vlen r.2.2.1 r'.2.2.1 ∧ r.2.2.2 = r'.2.2.2)
        (hashgen_loop H hlen vlen fuel hash v t mem data i)
        (hashgen_loop H hlen vlen fuel hash v' t mem data i) := by
  intro fuel
  induction fuel with
  | zero => intro hash v v' t mem data i _; exact trivial
  | succ n ih =>
    intro hash v v' t mem data i hv
    rw [hashgen_loop, hashgen_loop, hv.bytesOf 0 vlen (by omega)]
    by_cases hpos : i > 0
    · rw [if_pos hpos, if_pos hpos]
      by_cases h1 : (H.init hash).1 ≠ 0
      · simp only [if_pos h1]
        exact ⟨rfl, rfl, hv, rfl⟩
      · simp only [if_neg h1]
        by_cases h2 : (H.update (H.init hash).2 (bytesOf v' 0 vlen)).1 ≠ 0
        · simp only [if_pos h2]
          exact ⟨rfl, rfl, hv, rfl⟩
        · simp only [if_neg h2]
          by_cases h3 : (H.final (H.update (H.init hash).2 (bytesOf v' 0 vlen)).2).1 ≠ 0
          · simp only [if_pos h3]
            exact ⟨rfl, rfl, hv, rfl⟩
          · simp only [if_neg h3]
            exact ih _ _ _ _ _ _ _ (hashgen_incr_same vlen vlen v v' hv (Nat.le_refl _))
    · rw [if_neg hpos, if_neg hpos]
      exact ⟨rfl, rfl, hv, rfl⟩

/-- A run of the loop of `hash_df` that ends with status 0 has appended exactly
the bytes still to derive. -/
theorem hash_df_loop_length (H : HashCap σ) (hlen : Nat) (lenb d0 : List Nat)
    (d1 d2 : Option (List Nat)) :
    ∀ (fuel : Nat) (hash : Option σ) (ctr : Nat) (t : List Nat) (i : Int) (out : List Nat)
      (r : Int × Option σ × List Nat), 0 ≤ i →
      hash_df_loop H hlen lenb d0 d1 d2 fuel hash ctr t i out = some r → r.1 = 0 →
      r.2.2.length = out.length + i.toNat := by
  intro fuel
  induction fuel with
  | zero => intro hash ctr t i out r _ h; simp [hash_df_loop] at h
  | succ n ih =>
    intro hash ctr t i out r hi0 h hr
    rw [hash_df_loop] at h
    by_cases hi : i > 0
    · rw [if_pos hi] at h
      by_cases hs : (hash_data H hash (some (ctr :: lenb)) d0 d1 d2).1 ≠ 0
      · simp only [if_pos hs, Option.some.injEq] at h
        rw [← h] at hr
        exact absurd hr hs
      · simp only [if_neg hs] at h
        by_cases hlt : (hlen : Int) < i
        · simp only [if_pos hlt] at h
          have := ih _ _ _ _ _ _ (by omega) h hr
          rw [this, List.length_append, bytesOf_length]
          omega
        · simp only [if_neg hlt] at h
          have hneg : i - (hlen : Int) ≤ 0 := by omega
          cases n with
          | zero => simp [hash_df_loop] at h
          | succ n' =>
            rw [hash_df_loop, if_neg (by omega)] at h
            simp only [Option.some.injEq] at h
            rw [← h]
            simp only [List.length_append, bytesOf_length]
    · rw [if_neg hi] at h
      simp only [Option.some.injEq] at h
      rw [← h]
      have : i.toNat = 0 := by omega
      simp [this]

theorem hash_df_length (H : HashCap σ) (fuel : Nat) (hash : Option σ) (hlen : Nat)
    (d0 : List Nat) (d1 d2 : Option (List Nat)) (olen : Nat) (r : Int × Option σ × List Nat)
    (h : hash_df H fuel hash hlen d0 d1 d2 olen = some r) (hr : r.1 = 0) :
    r.2.2.length = olen := by
  have := hash_df_loop_length H hlen _ d0 d1 d2 fuel hash 1 _ (olen : Int) [] r
    (Int.ofNat_nonneg _) h hr
  simpa using this

theorem set_tag_same (n : Nat) (v v' : List Nat) (hl : v.length = v'.length)
    (hv : ∀ j, 1 ≤ j → j ≤ n → v.getD j 0 = v'.getD j 0) (x : Nat) :
    EqUpTo (n + 1) (v.set 0 x) (v'.set 0 x) := by
  refine ⟨by simp [hl], fun j hj => ?_⟩
  rw [getD_set_eq, getD_set_eq, hl]
  by_cases hj0 : j = 0
  · subst hj0
    by_cases hlt : 0 < v'.length
    · simp [hlt]
    · simp only [hlt, and_false, if_false]
      rw [List.getD_eq_default _ _ (by omega), List.getD_eq_default _ _ (by omega)]
  · simp only [hj0, false_and, if_false]
    exact hv j (by omega) (by omega)

theorem tail_bytes_same (n : Nat) (v v' : List Nat)
    (hv : ∀ j, 1 ≤ j → j ≤ n → v.getD j 0 = v'.getD j 0) :
    bytesOf v 1 n = bytesOf v' 1 n := by
  unfold bytesOf
  apply List.map_congr_left
  intro j hj
  rw [List.mem_range] at hj
  exact hv (1 + j) (by omega) (by omega)

/-- The scratch buffer after `memset(t, 0, n - l)` and a digest stored at offset
`n - l` that reaches index `n`: its first `n` bytes do not depend on what it
held before. -/
theorem scratch_same (n l : Nat) (t t' : List Nat) (hl : t.length = t'.length) (d : List Nat)
    (hfit : n ≤ n - l + d.length) :
    EqUpTo n (writeAt (zeroAt t 0 (n - l)) (n - l) d)
      (writeAt (zeroAt t' 0 (n - l)) (n - l) d) := by
  have hz : EqUpTo (n - l) (zeroAt t 0 (n - l)) (zeroAt t' 0 (n - l)) := by
    unfold zeroAt
    apply writeAt_same _ _ _ _ _ hl
    intro j hj hout
    simp only [List.length_replicate] at hout
    omega
  apply writeAt_same _ _ _ _ _ hz.1
  intro j hj hout
  rcases hout with h1 | h1
  · exact hz.2 j h1
  · omega

theorem hash_data_digest (H : HashCap σ) (hash : Option σ) (pre : Option (List Nat))
    (d0 : List Nat) (d1 d2 : Option (List Nat)) (d : List Nat)
    (h : (hash_data H hash pre d0 d1 d2).2.2 = some d) : ∃ s, d = (H.final s).2.2 := by
  unfold hash_data at h
  simp only [] at h
  split_ifs at h
  simp only [Option.some.injEq] at h
  exact ⟨_, h.symm⟩

/-- Two contexts with the same hash object, lengths and counter, whose `v` agree
on the first `seed_len + 1` bytes and whose `c` agree on the first `seed_len`
bytes, are in the same state. -/
theorem SameState.of_fields (v v' c c' t t' : List Nat) (cnt : Nat) (hash : Option σ)
    (hl sl : Nat) (hv : EqUpTo (sl + 1) v v') (hc : EqUpTo sl c c')
    (ht : t.length = t'.length) :
    SameState (⟨v, c, t, cnt, hash, hl, sl⟩ : RANDOM_HASH σ) ⟨v', c', t', cnt, hash, hl, sl⟩ :=
  ⟨rfl, rfl, rfl, rfl, hv.1, ht, fun j _ h2 => hv.2 j (Nat.lt_succ_of_le h2), hc⟩

theorem zeroAt_length (t : List Nat) (off n : Nat) : (zeroAt t off n).length = t.length := by
  unfold zeroAt
  exact writeAt_length _ _ _

theorem hash_data_none (H : HashCap σ) (hash : Option σ) (pre : Option (List Nat))
    (d0 : List Nat) (d1 d2 : Option (List Nat))
    (h : (hash_data H hash pre d0 d1 d2).2.2 = none) :
    (hash_data H hash pre d0 d1 d2).1 ≠ 0 := by
  unfold hash_data at h ⊢
  simp only [] at h ⊢
  split_ifs at h ⊢ <;> assumption

/-- The additional-input step of `RANDOM_HASH_gen` on two contexts in the same
state: same status, and contexts in the same state afterwards. -/
theorem gen_ainput_same (H : HashCap σ) (h h' : RANDOM_HASH σ) (hs : SameState h h')
    (hfit : H.Fits h.hash_len h.seed_len) (a : Option (List Nat)) :
    (gen_ainput H h a).1 = (gen_ainput H h' a).1 ∧
    SameState (gen_ainput H h a).2 (gen_ainput H h' a).2 := by
  cases a with
  | none => exact ⟨rfl, hs⟩
  | some a =>
    obtain ⟨v, c, t, cnt, hash, hl, sl⟩ := h
    obtain ⟨v', c', t', cnt', hash', hl', sl'⟩ := h'
    obtain ⟨e1, e2, e3, e4, hvl, htl, hv, hc⟩ := hs
    simp only [] at e1 e2 e3 e4 hvl htl hv hc hfit
    subst e1 e2 e3 e4
    have hset := set_tag_same sl v v' hvl hv 2
    simp only [gen_ainput]
    rw [hset.bytesOf 0 (sl + 1) (by omega)]
    generalize hr0 : hash_data H hash none (bytesOf (v'.set 0 2) 0 (sl + 1)) (some a) none = r
    by_cases hr : r.1 ≠ 0
    · rw [if_pos hr, if_pos hr]
      refine ⟨rfl, SameState.of_fields _ _ _ _ _ _ _ _ _ _ hset hc ?_⟩
      cases r.2.2 <;> simp [zeroAt_length, writeAt_length, htl]
    · rw [if_neg hr, if_neg hr]
      refine ⟨rfl, ?_⟩
      cases hd : r.2.2 with
      | none =>
        rw [← hr0] at hd hr
        exact absurd (hash_data_none H _ _ _ _ _ hd) hr
      | some d =>
        obtain ⟨s, hs⟩ := hash_data_digest H hash none _ (some a) none d (by rw [hr0]; exact hd)
        have hsc := scratch_same sl hl t t' htl d (by rw [hs]; exact hfit s)
        refine SameState.of_fields _ _ _ _ _ _ _ _ _ _ ?_ hc hsc.1
        exact gen_add_input_same (sl + 1) _ _ sl _ _ 0 hset (Nat.lt_succ_self _) hsc.2

theorem gen_add_cnt_idx (seed_len cnt : Nat) (c ht : List Nat) :
    ∀ (n i : Nat) (v : List Nat) (t : Nat), (gen_add_cnt seed_len cnt c ht n i v t).2.2 ≤ i := by
  intro n
  induction n with
  | zero => intro i v t; exact Nat.le_refl _
  | succ n ih =>
    intro i v t
    cases i with
    | zero => exact Nat.le_refl _
    | succ i =>
      rw [gen_add_cnt]
      exact Nat.le_succ_of_le (ih _ _ _)

/-- `RANDOM_HASH_gen` on two contexts in the same state: both calls return alike,
with the same status, the same memory, the same `*glen`, and contexts in the
same state. -/
theorem RANDOM_HASH_gen_same (H : HashCap σ) (fuel : Nat) (h h' : RANDOM_HASH σ)
    (hs : SameState h h') (hfit : H.Fits h.hash_len h.seed_len) (ainput : Option (List Nat))
    (mem : Mem) (out olen glen : Nat) :
    SameOpt (fun x y : Int × RANDOM_HASH σ × Mem × Nat =>
        x.1 = y.1 ∧ SameState x.2.1 y.2.1 ∧ x.2.2.1 = y.2.2.1 ∧ x.2.2.2 = y.2.2.2)
      (RANDOM_HASH_gen H fuel h ainput mem out olen glen)
      (RANDOM_HASH_gen H fuel h' ainput mem out olen glen) := by
  obtain ⟨ha1, ha2⟩ := gen_ainput_same H h h' hs hfit ainput
  obtain ⟨fhl, fsl, -, -⟩ := gen_ainput_fields H h ainput
  have hcnt : h.reseed_cnt = h'.reseed_cnt := hs.2.2.2.1
  have hhl : h.hash_len = h'.hash_len := hs.2.1
  unfold RANDOM_HASH_gen
  simp only []
  rw [← hcnt, ← hhl, ← ha1]
  by_cases hc : h.reseed_cnt ≥ 2 ^ 48
  · rw [if_pos hc, if_pos hc]
    exact ⟨rfl, hs, rfl, rfl⟩
  · rw [if_neg hc, if_neg hc]
    by_cases hra : (gen_ainput H h ainput).1 ≠ 0
    · rw [if_pos hra, if_pos hra]
      exact ⟨rfl, ha2, rfl, rfl⟩
    · rw [if_neg hra, if_neg hra]
      rw [← fhl, ← fsl] at hfit
      generalize (gen_ainput H h ainput).2 = g at ha2 hfit fhl
      generalize (gen_ainput H h' ainput).2 = g' at ha2
      obtain ⟨v, c, t, cnt, hash, hl, sl⟩ := g
      obtain ⟨v', c', t', cnt', hash', hl', sl'⟩ := g'
      obtain ⟨e1, e2, e3, e4, hvl, htl, hv, hcc⟩ := ha2
      simp only [] at e1 e2 e3 e4 hvl htl hv hcc hfit fhl
      subst e1 e2 e3 e4
      simp only []
      rw [tail_bytes_same sl v v' hv]
      have ht2 : EqUpTo sl (writeAt t 0 (bytesOf v' 1 sl)) (writeAt t' 0 (bytesOf v' 1 sl)) := by
        apply writeAt_same _ _ _ _ _ htl
        intro j hj hout
        rw [bytesOf_length] at hout
        omega
      have hg := hashgen_loop_same H (hl % 2 ^ 16) sl fuel hash _ _
        (List.replicate HASH_MAX_DIGEST_LEN 0) mem out
        ((if olen > 2 ^ 16 then 2 ^ 16 else olen : Nat) : Int) ht2
      unfold hashgen
      cases hgA : hashgen_loop H (hl % 2 ^ 16) sl fuel hash (writeAt t 0 (bytesOf v' 1 sl))
          (List.replicate HASH_MAX_DIGEST_LEN 0) mem out
          ((if olen > 2 ^ 16 then 2 ^ 16 else olen : Nat) : Int) with
      | none =>
        cases hgB : hashgen_loop H (hl % 2 ^ 16) sl fuel hash (writeAt t' 0 (bytesOf v' 1 sl))
            (List.replicate HASH_MAX_DIGEST_LEN 0) mem out
            ((if olen > 2 ^ 16 then 2 ^ 16 else olen : Nat) : Int) with
        | none => exact trivial
        | some rB => rw [hgA, hgB] at hg; exact hg.elim
      | some rA =>
        cases hgB : hashgen_loop H (hl % 2 ^ 16) sl fuel hash (writeAt t' 0 (bytesOf v' 1 sl))
            (List.replicate HASH_MAX_DIGEST_LEN 0) mem out
            ((if olen > 2 ^ 16 then 2 ^ 16 else olen : Nat) : Int) with
        | none => rw [hgA, hgB] at hg; exact hg.elim
        | some rB =>
          rw [hgA, hgB] at hg
          obtain ⟨sA, hashA, tA, mA⟩ := rA
          obtain ⟨sB, hashB, tB, mB⟩ := rB
          obtain ⟨g1, g2, g3, g4⟩ := hg
          simp only [] at g1 g2 g3 g4
          subst g1 g2 g4
          simp only []
          have hset := set_tag_same sl v v' hvl hv 3
          by_cases hsA : sA ≠ 0
          · rw [if_pos hsA, if_pos hsA]
            exact ⟨rfl, ⟨rfl, rfl, rfl, rfl, hvl, g3.1, hv, hcc⟩, rfl, rfl⟩
          · rw [if_neg hsA, if_neg hsA, hset.bytesOf 0 (sl + 1) (by omega)]
            generalize hr0 : hash_data H hashA none (bytesOf (v'.set 0 3) 0 (sl + 1)) none none
              = r
            by_cases hr : r.1 ≠ 0
            · rw [if_pos hr, if_pos hr]
              refine ⟨rfl, SameState.of_fields _ _ _ _ _ _ _ _ _ _ hset hcc ?_, rfl, rfl⟩
              cases r.2.2 <;> simp [zeroAt_length, writeAt_length, g3.1]
            · rw [if_neg hr, if_neg hr]
              cases hd : r.2.2 with
              | none =>
                rw [← hr0] at hd hr
                exact absurd (hash_data_none H _ _ _ _ _ hd) hr
              | some d =>
                obtain ⟨s, hs'⟩ := hash_data_digest H hashA none _ none none d
                  (by rw [hr0]; exact hd)
                have hsc := scratch_same sl h.hash_len tA tB g3.1 d
                  (by rw [hs']; rw [← fhl]; exact hfit s)
                simp only []
                obtain ⟨k1, k2⟩ := gen_add_cnt_same (sl + 1) sl cnt c c' _ _ 4 sl _ _ 0 hset
                  (Nat.lt_succ_self _) hcc.2 hsc.2
                have hidx := gen_add_cnt_idx sl cnt c
                  (writeAt (zeroAt tA 0 (sl - h.hash_len)) (sl - h.hash_len) d) 4 sl
                  (v.set 0 3) 0
                rw [← k2]
                refine ⟨rfl, SameState.of_fields _ _ _ _ _ _ _ _ _ _ ?_ hcc hsc.1, rfl, rfl⟩
                exact gen_add_rest_same (sl + 1) c c' _ _ _ _ _ _ k1 (by omega)
                  (fun j hj => hcc.2 j (by omega)) (fun j hj => hsc.2 j (by omega))

theorem EqUpTo.writeAt {n : Nat} {a b : List Nat} (h : EqUpTo n a b) (off : Nat)
    (d : List Nat) : EqUpTo n (writeAt a off d) (writeAt b off d) :=
  writeAt_same n d a b off h.1 (fun j hj _ => h.2 j hj)

theorem getD_writeAt_below :
    ∀ (d a : List Nat) (off j : Nat), j < off → (writeAt a off d).getD j 0 = a.getD j 0 := by
  intro d
  induction d with
  | nil => intro a off j _; rfl
  | cons x xs ih =>
    intro a off j hj
    rw [writeAt, ih _ _ _ (by omega), getD_set_eq, if_neg (by omega)]

/-- Inside the stored range, two buffers of the same size hold the same bytes
after the same store. -/
theorem writeAt_cover :
    ∀ (d a b : List Nat) (off j : Nat), a.length = b.length → off ≤ j → j < off + d.length →
      (writeAt a off d).getD j 0 = (writeAt b off d).getD j 0 := by
  intro d
  induction d with
  | nil => intro a b off j _ h1 h2; simp only [List.length_nil] at h2; omega
  | cons x xs ih =>
    intro a b off j hl h1 h2
    rw [writeAt, writeAt]
    by_cases hj : j = off
    · subst hj
      rw [getD_writeAt_below _ _ _ _ (Nat.lt_succ_self _),
        getD_writeAt_below _ _ _ _ (Nat.lt_succ_self _), getD_set_eq, getD_set_eq, hl]
      by_cases hlt : j < b.length
      · simp [hlt]
      · simp only [hlt, and_false, if_false]
        rw [List.getD_eq_default _ _ (by omega), List.getD_eq_default _ _ (by omega)]
    · apply ih
      · simp [hl]
      · omega
      · simp only [List.length_cons] at h2
        omega

/-- `RANDOM_HASH_reseed` on two contexts in the same state: both calls return
alike, with the same status and contexts in the same state. -/
theorem RANDOM_HASH_reseed_same (H : HashCap σ) (fuel : Nat) (h h' : RANDOM_HASH σ)
    (hs : SameState h h') (entropy : List Nat) (ainput : Option (List Nat)) :
    SameOpt (fun x y : Int × RANDOM_HASH σ => x.1 = y.1 ∧ SameState x.2 y.2)
      (RANDOM_HASH_reseed H fuel h entropy ainput)
      (RANDOM_HASH_reseed H fuel h' entropy ainput) := by
  obtain ⟨v, c, t, cnt, hash, hl, sl⟩ := h
  obtain ⟨v', c', t', cnt', hash', hl', sl'⟩ := h'
  obtain ⟨e1, e2, e3, e4, hvl, htl, hv, hcc⟩ := hs
  simp only [] at e1 e2 e3 e4 hvl htl hv hcc
  subst e1 e2 e3 e4
  have hset := set_tag_same sl v v' hvl hv 1
  unfold RANDOM_HASH_reseed
  simp only []
  rw [hset.bytesOf 0 (sl + 1) (by omega)]
  cases h1 : hash_df H fuel hash (hl % 2 ^ 16) (bytesOf (v'.set 0 1) 0 (sl + 1)) (some entropy)
      ainput sl with
  | none => exact trivial
  | some r1 =>
    simp only []
    by_cases hr1 : r1.1 ≠ 0
    · rw [if_pos hr1, if_pos hr1]
      exact ⟨rfl, SameState.of_fields _ _ _ _ _ _ _ _ _ _ hset hcc
        (by rw [writeAt_length, writeAt_length, htl])⟩
    · rw [if_neg hr1, if_neg hr1]
      have hlen := hash_df_length H fuel _ _ _ _ _ _ r1 h1 (by simpa using hr1)
      have ht2 : EqUpTo sl (writeAt t 0 r1.2.2) (writeAt t' 0 r1.2.2) := by
        apply writeAt_same _ _ _ _ _ htl
        intro j hj hout
        omega
      have hv4 : EqUpTo (sl + 1)
          ((writeAt (v.set 0 1) 1 (bytesOf (writeAt t 0 r1.2.2) 0 sl)).set 0 0)
          ((writeAt (v'.set 0 1) 1 (bytesOf (writeAt t' 0 r1.2.2) 0 sl)).set 0 0) := by
        rw [ht2.bytesOf 0 sl (by omega)]
        exact (hset.writeAt _ _).set _ _
      rw [hv4.bytesOf 0 (sl + 1) (by omega)]
      cases h2 : hash_df H fuel r1.2.1 (hl % 2 ^ 16)
          (bytesOf ((writeAt (v'.set 0 1) 1 (bytesOf (writeAt t' 0 r1.2.2) 0 sl)).set 0 0) 0
            (sl + 1)) none none sl with
      | none => exact trivial
      | some r2 =>
        simp only []
        by_cases hr2 : r2.1 ≠ 0
        · rw [if_pos hr2, if_pos hr2]
          exact ⟨rfl, SameState.of_fields _ _ _ _ _ _ _ _ _ _ hv4 (hcc.writeAt _ _) ht2.1⟩
        · rw [if_neg hr2, if_neg hr2]
          exact ⟨rfl, SameState.of_fields _ _ _ _ _ _ _ _ _ _ hv4 (hcc.writeAt _ _) ht2.1⟩

/-- `random_hash_init` on two contexts that hold the same hash pointer and
`hash_len` (and have buffers of the same sizes), whatever else they hold: both
calls return alike, with the same status, and when the status is 0 the
contexts are in the same state, with the given seed length and counter 1. -/
theorem random_hash_init_same (H : HashCap σ) (fuel : Nat) (id : HASH_ID) (seed_len : Nat)
    (E : List Nat) (P : Option (List Nat)) (h h' : RANDOM_HASH σ) (hh : h.hash = h'.hash)
    (hhl : h.hash_len = h'.hash_len) (hvl : h.v.length = h'.v.length)
    (hcl : h.c.length = h'.c.length) (htl : h.t.length = h'.t.length) :
    SameOpt (fun x y : Int × RANDOM_HASH σ =>
        x.1 = y.1 ∧ (x.1 = 0 → SameState x.2 y.2 ∧ x.2.seed_len = seed_len ∧
          x.2.reseed_cnt = 1))
      (random_hash_init H fuel h id seed_len E P)
      (random_hash_init H fuel h' id seed_len E P) := by
  obtain ⟨v, c, t, cnt, hash, hl, sl⟩ := h
  obtain ⟨v', c', t', cnt', hash', hl', sl'⟩ := h'
  simp only [] at hh hhl hvl hcl htl
  subst hh hhl
  unfold random_hash_init
  simp only []
  generalize (random_hash_init.match_1 (fun _ => Int × Option σ) hash
    (fun _ => H.new id 0 hash) (fun _ => ((0 : Int), hash))) = rn
  by_cases hrn : rn.1 ≠ 0
  · rw [if_pos hrn, if_pos hrn]
    exact ⟨rfl, fun h0 => absurd h0 hrn⟩
  · rw [if_neg hrn, if_neg hrn]
    by_cases hrl : (H.get_len rn.2 hl).1 ≠ 0
    · rw [if_pos hrl, if_pos hrl]
      exact ⟨rfl, fun h0 => absurd h0 hrl⟩
    · rw [if_neg hrl, if_neg hrl]
      cases h1 : hash_df H fuel rn.2 ((H.get_len rn.2 hl).2 % 2 ^ 16) E P none seed_len with
      | none => exact trivial
      | some r1 =>
        simp only []
        by_cases hr1 : r1.1 ≠ 0
        · rw [if_pos hr1, if_pos hr1]
          exact ⟨rfl, fun h0 => absurd h0 hr1⟩
        · rw [if_neg hr1, if_neg hr1]
          have hlen := hash_df_length H fuel _ _ _ _ _ _ r1 h1 (by simpa using hr1)
          have hv4 : EqUpTo (seed_len + 1) ((writeAt v 1 r1.2.2).set 0 0)
              ((writeAt v' 1 r1.2.2).set 0 0) := by
            apply set_tag_same
            · rw [writeAt_length, writeAt_length, hvl]
            · intro j hj1 hj2
              exact writeAt_cover _ _ _ _ _ hvl hj1 (by omega)
          rw [hv4.bytesOf 0 (seed_len + 1) (by omega)]
          cases h2 : hash_df H fuel r1.2.1 ((H.get_len rn.2 hl).2 % 2 ^ 16)
              (bytesOf ((writeAt v' 1 r1.2.2).set 0 0) 0 (seed_len + 1)) none none seed_len with
          | none => exact trivial
          | some r2 =>
            simp only []
            by_cases hr2 : r2.1 ≠ 0
            · rw [if_pos hr2, if_pos hr2]
              exact ⟨rfl, fun h0 => absurd h0 hr2⟩
            · rw [if_neg hr2, if_neg hr2]
              have hlen2 := hash_df_length H fuel _ _ _ _ _ _ r2 h2 (by simpa using hr2)
              refine ⟨rfl, fun _ => ⟨SameState.of_fields _ _ _ _ _ _ _ _ _ _ hv4 ?_ htl, rfl,
                rfl⟩⟩
              apply writeAt_same _ _ _ _ _ hcl
              intro j hj hout
              omega

/-- `RANDOM_HASH_gen` keeps `hash_len` and `seed_len`. -/
theorem RANDOM_HASH_gen_lens (H : HashCap σ) (fuel : Nat) (h : RANDOM_HASH σ)
    (ainput : Option (List Nat)) (mem : Mem) (out olen glen : Nat)
    (x : Int × RANDOM_HASH σ × Mem × Nat)
    (hx : RANDOM_HASH_gen H fuel h ainput mem out olen glen = some x) :
    x.2.1.hash_len = h.hash_len ∧ x.2.1.seed_len = h.seed_len := by
  obtain ⟨fhl, fsl, -, -⟩ := gen_ainput_fields H h ainput
  unfold RANDOM_HASH_gen at hx
  simp only [] at hx
  by_cases hc : h.reseed_cnt ≥ 2 ^ 48
  · rw [if_pos hc] at hx
    simp only [Option.some.injEq] at hx
    rw [← hx]
    exact ⟨rfl, rfl⟩
  · rw [if_neg hc] at hx
    by_cases hra : (gen_ainput H h ainput).1 ≠ 0
    · rw [if_pos hra] at hx
      simp only [Option.some.injEq] at hx
      rw [← hx]
      exact ⟨fhl, fsl⟩
    · rw [if_neg hra] at hx
      split at hx
      · simp at hx
      · split_ifs at hx <;> simp only [Option.some.injEq] at hx <;> rw [← hx] <;>
          exact ⟨fhl, fsl⟩

/-- Two contexts in the same state give the same output stream. -/
theorem gen_stream_same (H : HashCap σ) (fuel out : Nat) :
    ∀ (reqs : List (Option (List Nat) × Nat)) (h h' : RANDOM_HASH σ), SameState h h' →
      H.Fits h.hash_len h.seed_len →
      gen_stream H fuel out h reqs = gen_stream H fuel out h' reqs := by
  intro reqs
  induction reqs with
  | nil => intro h h' _ _; rfl
  | cons q rest ih =>
    intro h h' hs hfit
    obtain ⟨a, n⟩ := q
    have hg := RANDOM_HASH_gen_same H fuel h h' hs hfit a (fun _ => 0) out n 0
    rw [gen_stream, gen_stream]
    cases hA : RANDOM_HASH_gen H fuel h a (fun _ => 0) out n 0 with
    | none =>
      cases hB : RANDOM_HASH_gen H fuel h' a (fun _ => 0) out n 0 with
      | none => rfl
      | some y => rw [hA, hB] at hg; exact hg.elim
    | some x =>
      cases hB : RANDOM_HASH_gen H fuel h' a (fun _ => 0) out n 0 with
      | none => rw [hA, hB] at hg; exact hg.elim
      | some y =>
        rw [hA, hB] at hg
        obtain ⟨g1, g2, g3, g4⟩ := hg
        obtain ⟨l1, l2⟩ := RANDOM_HASH_gen_lens H fuel h a _ out n 0 x hA
        simp only []
        rw [ih x.2.1 y.2.1 g2 (by rw [l1, l2]; exact hfit), g1, g3, g4]

/-- C19: for a fixed variant (hash identifier and seed length), entropy E and
personalization P, `random_hash_init` run on two contexts that hold the same
hash pointer and `hash_len`, whatever they hold in `v`, `c`, `t`, the counter
and the seed length, returns alike; when the status is 0 the two contexts
agree on `v[1..seed_len]`, on C, on the counter (1) and on the seed length,
and, the digests filling the `hash_len` bytes reserved for them, the same
sequence of requests then produces the same output stream from both.  From
two contexts in the same state, whatever their tag bytes `v[0]` and scratch
buffers `t` hold, `RANDOM_HASH_reseed` and `RANDOM_HASH_gen` return the same
status, the same output and contexts in the same state. -/
theorem RANDOM_HASH_determinism (H : HashCap σ) (fuel : Nat) :
    (∀ (id : HASH_ID) (seed_len : Nat) (E : List Nat) (P : Option (List Nat))
      (h h' : RANDOM_HASH σ), h.hash = h'.hash → h.hash_len = h'.hash_len →
      h.v.length = h'.v.length → h.c.length = h'.c.length → h.t.length = h'.t.length →
      SameOpt (fun x y : Int × RANDOM_HASH σ =>
          x.1 = y.1 ∧ (x.1 = 0 → SameState x.2 y.2 ∧ x.2.seed_len = seed_len ∧
            x.2.reseed_cnt = 1))
        (random_hash_init H fuel h id seed_len E P)
        (random_hash_init H fuel h' id seed_len E P) ∧
      ∀ x x', random_hash_init H fuel h id seed_len E P = some x →
        random_hash_init H fuel h' id seed_len E P = some x' → x.1 = 0 →
        H.Fits x.2.hash_len seed_len →
        ∀ out reqs, gen_stream H fuel out x.2 reqs = gen_stream H fuel out x'.2 reqs) ∧
    (∀ (h h' : RANDOM_HASH σ), SameState h h' →
      (∀ entropy ainput,
        SameOpt (fun x y : Int × RANDOM_HASH σ => x.1 = y.1 ∧ SameState x.2 y.2)
          (RANDOM_HASH_reseed H fuel h entropy ainput)
          (RANDOM_HASH_reseed H fuel h' entropy ainput)) ∧
      (H.Fits h.hash_len h.seed_len → ∀ ainput mem out olen glen,
        SameOpt (fun x y : Int × RANDOM_HASH σ × Mem × Nat =>
            x.1 = y.1 ∧ SameState x.2.1 y.2.1 ∧ x.2.2.1 = y.2.2.1 ∧ x.2.2.2 = y.2.2.2)
          (RANDOM_HASH_gen H fuel h ainput mem out olen glen)
          (RANDOM_HASH_gen H fuel h' ainput mem out olen glen))) := by
  constructor
  · intro id seed_len E P h h' hh hhl hvl hcl htl
    have hi := random_hash_init_same H fuel id seed_len E P h h' hh hhl hvl hcl htl
    refine ⟨hi, fun x x' hx hx' h0 hfit out reqs => ?_⟩
    rw [hx, hx'] at hi
    obtain ⟨hsame, hsl, -⟩ := hi.2 h0
    exact gen_stream_same H fuel out reqs x.2 x'.2 hsame (by rw [hsl]; exact hfit)
  · intro h h' hs
    exact ⟨fun entropy ainput => RANDOM_HASH_reseed_same H fuel h h' hs entropy ainput,
      fun hfit ainput mem out olen glen =>
        RANDOM_HASH_gen_same H fuel h h' hs hfit ainput mem out olen glen⟩

theorem sumHash_fits : sumHash.Fits 32 55 := fun _ => by
  simp [sumHash]

set_option maxRecDepth 8000 in
/-- Instance of C19: Hash_DRBG SHA256 over the hash whose digest repeats the byte
sum of its input, instantiated with the same entropy and personalization once
on a zeroed context and once on a context full of leftovers; the two
contexts end in the same state and serve two requests (one with additional
input) with the same output stream. -/
theorem RANDOM_HASH_determinism_witness :
    ∃ x x' ys,
      random_hash_init sumHash 60 (RANDOM_HASH_zero Nat) HASH_ID.SHA256 55 [1, 2, 3, 4]
        (some [84, 76, 83]) = some x ∧
      random_hash_init sumHash 60 staleCtx HASH_ID.SHA256 55 [1, 2, 3, 4]
        (some [84, 76, 83]) = some x' ∧
      x.1 = 0 ∧ x'.1 = 0 ∧ SameState x.2 x'.2 ∧
      gen_stream sumHash 60 1000 x.2 [(none, 4), (some [9], 3)] = some ys ∧
      gen_stream sumHash 60 1000 x'.2 [(none, 4), (some [9], 3)] = some ys ∧
      ys.map (fun y => (y.1, y.2.length)) = [(0, 4), (0, 3)] := by
  have T := (RANDOM_HASH_determinism sumHash 60).1 HASH_ID.SHA256 55 [1, 2, 3, 4]
    (some [84, 76, 83]) (RANDOM_HASH_zero Nat) staleCtx rfl rfl rfl rfl rfl
  have hx : ∃ x, random_hash_init sumHash 60 (RANDOM_HASH_zero Nat) HASH_ID.SHA256 55
      [1, 2, 3, 4] (some [84, 76, 83]) = some x ∧ x.1 = 0 ∧ x.2.hash_len = 32 ∧
      ∃ ys, gen_stream sumHash 60 1000 x.2 [(none, 4), (some [9], 3)] = some ys ∧
        ys.map (fun y => (y.1, y.2.length)) = [(0, 4), (0, 3)] :=
    ⟨_, rfl, rfl, rfl, _, rfl, rfl⟩
  have hx' : ∃ x', random_hash_init sumHash 60 staleCtx HASH_ID.SHA256 55
      [1, 2, 3, 4] (some [84, 76, 83]) = some x' ∧ x'.1 = 0 := ⟨_, rfl, rfl⟩
  obtain ⟨x, ex, h0, hl, ys, eys, hys⟩ := hx
  obtain ⟨x', ex', h0'⟩ := hx'
  have hsame := T.1
  rw [ex, ex'] at hsame
  have hst := T.2 x x' ex ex' h0 (by rw [hl]; exact sumHash_fits) 1000
    [(none, 4), (some [9], 3)]
  exact ⟨x, x', ys, ex, ex', h0, h0', (hsame.2 h0).1, eys, by rw [← hst]; exact eys, hys⟩

/-! ## The reseed limit of `RANDOM_HASH_gen` -/

/-- Below the reseed limit every status of `RANDOM_HASH_gen` comes from the hash
capability, or is 0. -/
theorem RANDOM_HASH_gen_status_below (H : HashCap σ) (P : Int → Prop) (hP : H.Statuses P)
    (h0 : P 0) (fuel : Nat) (h : RANDOM_HASH σ) (ainput : Option (List Nat)) (mem : Mem)
    (out olen glen : Nat) (r : Int × RANDOM_HASH σ × Mem × Nat)
    (hc : h.reseed_cnt < 2 ^ 48)
    (hr : RANDOM_HASH_gen H fuel h ainput mem out olen glen = some r) : P r.1 := by
  unfold RANDOM_HASH_gen at hr
  simp only [] at hr
  rw [if_neg (by omega)] at hr
  split at hr
  · simp only [Option.some.injEq] at hr
    rw [← hr]; exact gen_ainput_status H P hP h0 _ _
  · split at hr
    · simp at hr
    · rename_i rg heq
      split at hr
      · simp only [Option.some.injEq] at hr
        rw [← hr]; exact hashgen_status H P hP h0 _ _ _ _ _ _ _ _ _ heq
      · split at hr
        · simp only [Option.some.injEq] at hr
          rw [← hr]; exact hash_data_status H P hP _ _ _ _ _
        · simp only [Option.some.injEq] at hr
          rw [← hr]; exact h0

/-- C30: with a hash that never fails, a call of `RANDOM_HASH_gen` returns
RANDOM_ERR_RESEED (31) if and only if the reseed counter is at least 2^48 at
entry.  In that case the call returns whatever the fuel, reports the produced
length 0, and leaves the output memory and the whole context (V, C, the counter
and the rest) unchanged; below 2^48 the call returns with status 0. -/
theorem RANDOM_HASH_gen_reseed_iff (H : HashCap σ) (hnf : H.NeverFails) (fuel : Nat)
    (h : RANDOM_HASH σ) (ainput : Option (List Nat)) (mem : Mem) (out olen glen : Nat) :
    RANDOM_ERR_RESEED = 31 ∧
    (∀ x, RANDOM_HASH_gen H fuel h ainput mem out olen glen = some x →
      (x.1 = RANDOM_ERR_RESEED ↔ 2 ^ 48 ≤ h.reseed_cnt)) ∧
    (2 ^ 48 ≤ h.reseed_cnt →
      RANDOM_HASH_gen H fuel h ainput mem out olen glen = some (RANDOM_ERR_RESEED, h, mem, 0)) ∧
    (h.reseed_cnt < 2 ^ 48 → 1 ≤ h.hash_len % 2 ^ 16 → min olen (2 ^ 16) < fuel →
      ∃ h' mem', RANDOM_HASH_gen H fuel h ainput mem out olen glen
        = some (0, h', mem', min olen (2 ^ 16))) := by
  refine ⟨rfl, ?_, RANDOM_HASH_gen_reseed H fuel h ainput mem out olen glen, ?_⟩
  · intro x hx
    constructor
    · intro h31
      by_contra hlt
      have h0 := RANDOM_HASH_gen_status_below H (fun s => s = 0) hnf rfl fuel h ainput mem
        out olen glen x (by omega) hx
      simp only [] at h0
      rw [h0] at h31
      exact absurd h31 (by decide)
    · intro hc
      rw [RANDOM_HASH_gen_reseed H fuel h ainput mem out olen glen hc] at hx
      simp only [Option.some.injEq] at hx
      rw [← hx]
  · intro hc hl hf
    obtain ⟨h', mem', e, -⟩ := RANDOM_HASH_gen_ok H hnf fuel h ainput mem out olen glen hc hl hf
    exact ⟨h', mem', e⟩

/-- Instance of C30: a SHA-256 context whose counter is 2^48 is refused, with
nothing written and nothing changed; with counter 5 the call succeeds. -/
theorem RANDOM_HASH_gen_reseed_iff_witness :
    RANDOM_HASH_gen constHash 10 (sampleCtx (2 ^ 48)) none (fun _ => 7) 0 16 9
      = some (31, sampleCtx (2 ^ 48), fun _ => 7, 0) ∧
    ∃ h' mem', RANDOM_HASH_gen constHash 100 (sampleCtx 5) none (fun _ => 7) 0 16 9
      = some (0, h', mem', min 16 (2 ^ 16)) :=
  ⟨(RANDOM_HASH_gen_reseed_iff constHash constHash_neverFails 10 (sampleCtx (2 ^ 48)) none
      (fun _ => 7) 0 16 9).2.2.1 (by decide),
   (RANDOM_HASH_gen_reseed_iff constHash constHash_neverFails 100 (sampleCtx 5) none
      (fun _ => 7) 0 16 9).2.2.2 (by decide) (by decide) (by decide)⟩

/-! ## The variant table -/

/-- A successful `random_hash_init` leaves the seed length it was given. -/
theorem random_hash_init_seed_len (H : HashCap σ) (fuel : Nat) (h : RANDOM_HASH σ)
    (id : HASH_ID) (sl : Nat) (e : List Nat) (p : Option (List Nat)) (x : Int × RANDOM_HASH σ)
    (hx : random_hash_init H fuel h id sl e p = some x) (h0 : x.1 = 0) : x.2.seed_len = sl := by
  unfold random_hash_init at hx
  simp only [] at hx
  split_ifs at hx with c1 c2
  · simp only [Option.some.injEq] at hx
    rw [← hx] at h0
    exact absurd h0 c1
  · simp only [Option.some.injEq] at hx
    rw [← hx] at h0
    exact absurd h0 c2
  · split at hx
    · simp at hx
    · split_ifs at hx with c3
      · simp only [Option.some.injEq] at hx
        rw [← hx] at h0
        exact absurd h0 c3
      · split at hx
        · simp at hx
        · split_ifs at hx with c4
          · simp only [Option.some.injEq] at hx
            rw [← hx] at h0
            exact absurd h0 c4
          · simp only [Option.some.injEq] at hx
            rw [← hx]

/-- `RANDOM_HASH_reseed` never changes `seed_len` or `hash_len`. -/
theorem RANDOM_HASH_reseed_lens (H : HashCap σ) (fuel : Nat) (h : RANDOM_HASH σ)
    (e : List Nat) (a : Option (List Nat)) (x : Int × RANDOM_HASH σ)
    (hx : RANDOM_HASH_reseed H fuel h e a = some x) :
    x.2.seed_len = h.seed_len ∧ x.2.hash_len = h.hash_len := by
  unfold RANDOM_HASH_reseed at hx
  simp only [] at hx
  split at hx
  · simp at hx
  · split_ifs at hx with c1
    · simp only [Option.some.injEq] at hx
      rw [← hx]
      exact ⟨rfl, rfl⟩
    · split at hx
      · simp at hx
      · split_ifs at hx with c2 <;> simp only [Option.some.injEq] at hx <;> rw [← hx] <;>
          exact ⟨rfl, rfl⟩

/-- C22: the registry and the per-variant init functions realise the variant
table: the registry has one entry per row, the lookup by id of each row's id
finds an entry with that row's security strength whose init function is
`random_hash_init` with that row's hash and seed length (55 or 111), every
entry realises a row, a successful init of an entry leaves the row's seed length
in the state, and neither `RANDOM_HASH_reseed` nor `RANDOM_HASH_gen` changes
`seed_len`. -/
theorem variant_table_realised (H : HashCap σ) :
    (random_meth H).length = variant_table.length ∧
    (∀ row ∈ variant_table, ∃ m, m ∈ random_meth H ∧
      random_meth_get_by_id H row.1 0 = (0, some m) ∧ variant_row H row m) ∧
    (∀ m ∈ random_meth H, ∃ row ∈ variant_table, variant_row H row m) ∧
    (∀ row ∈ variant_table, (row.2.2.2 = 55 ∨ row.2.2.2 = 111) ∧
      ∀ m, variant_row H row m → ∀ fuel h e p x, m.init fuel h e p = some x → x.1 = 0 →
        x.2.seed_len = row.2.2.2) ∧
    (∀ fuel h e a x, RANDOM_HASH_reseed H fuel h e a = some x → x.2.seed_len = h.seed_len) ∧
    (∀ fuel h a mem out olen glen x,
      RANDOM_HASH_gen H fuel h a mem out olen glen = some x → x.2.1.seed_len = h.seed_len) := by
  refine ⟨rfl, ?_, ?_, ?_, ?_, ?_⟩
  · intro row hrow
    simp only [variant_table, List.mem_cons, List.mem_singleton, List.not_mem_nil,
      or_false] at hrow
    rcases hrow with rfl | rfl | rfl | rfl | rfl | rfl | rfl <;> (
      simp [random_meth_get_by_id, random_meth_get_by_id_loop, random_meth, variant_row,
        RANDOM_ID_HASH_DRBG_SHA1, RANDOM_ID_HASH_DRBG_SHA224, RANDOM_ID_HASH_DRBG_SHA256,
        RANDOM_ID_HASH_DRBG_SHA384, RANDOM_ID_HASH_DRBG_SHA512,
        RANDOM_ID_HASH_DRBG_SHA512_224, RANDOM_ID_HASH_DRBG_SHA512_256]
      rfl)
  · intro m hm
    simp only [random_meth, List.mem_cons, List.mem_singleton, List.not_mem_nil,
      or_false] at hm
    rcases hm with rfl | rfl | rfl | rfl | rfl | rfl | rfl <;> (
      simp [variant_table, variant_row, RANDOM_ID_HASH_DRBG_SHA1, RANDOM_ID_HASH_DRBG_SHA224,
        RANDOM_ID_HASH_DRBG_SHA256, RANDOM_ID_HASH_DRBG_SHA384, RANDOM_ID_HASH_DRBG_SHA512,
        RANDOM_ID_HASH_DRBG_SHA512_224, RANDOM_ID_HASH_DRBG_SHA512_256]
      rfl)
  · intro row hrow
    refine ⟨?_, ?_⟩
    · simp only [variant_table, List.mem_cons, List.mem_singleton, List.not_mem_nil,
        or_false] at hrow
      rcases hrow with rfl | rfl | rfl | rfl | rfl | rfl | rfl <;> simp
    · intro m hm fuel h e p x hx h0
      rw [hm.2.2.1] at hx
      exact random_hash_init_seed_len H fuel h _ _ e p x hx h0
  · intro fuel h e a x hx
    exact (RANDOM_HASH_reseed_lens H fuel h e a x hx).1
  · intro fuel h a mem out olen glen x hx
    exact (RANDOM_HASH_gen_lens H fuel h a mem out olen glen x hx).2

/-! ## Big-endian values -/

theorem beNat_append_one (l : List Nat) (b : Nat) : beNat (l ++ [b]) = beNat l * 256 + b := by
  simp [beNat, List.foldl_append]

theorem beBytes_length : ∀ (n x : Nat), (beBytes n x).length = n := by
  intro n
  induction n with
  | zero => intro x; rfl
  | succ k ih => intro x; simp [beBytes, ih]

theorem beBytes_lt : ∀ (n x b : Nat), b ∈ beBytes n x → b < 256 := by
  intro n
  induction n with
  | zero => intro x b hb; simp [beBytes] at hb
  | succ k ih =>
    intro x b hb
    simp only [beBytes, List.mem_append, List.mem_singleton] at hb
    rcases hb with hb | hb
    · exact ih _ _ hb
    · omega

/-- The bytes `pre[1..4]` of `hash_df` are the big-endian 32-bit value of `8 * olen`. -/
theorem hash_df_len_bytes_eq (olen : Nat) : hash_df_len_bytes olen = beBytes 4 (8 * olen) := by
  simp only [hash_df_len_bytes, beBytes, List.range_succ, List.range_zero, List.nil_append,
    List.map_append, List.map_cons, List.map_nil, Nat.shiftRight_eq_div_pow,
    List.cons_append, List.cons.injEq, and_true]
  refine ⟨?_, ?_, ?_, ?_⟩ <;> omega

/-! ## The hash calls of the engine in terms of `Hash` -/

/-- With a streaming hash that never fails, `hash_data` computes the digest of
the concatenation of the leading block and of the slots present. -/
theorem hash_data_spec (H : HashCap σ) (hnf : H.NeverFails) (hst : H.Streaming)
    (hash : Option σ) (pre : Option (List Nat)) (d0 : List Nat) (d1 d2 : Option (List Nat)) :
    hash_data H hash pre d0 d1 d2 =
      (0, (spec_Hash H hash (pre.getD [] ++ d0 ++ d1.getD [] ++ d2.getD [])).1,
        some (spec_Hash H hash (pre.getD [] ++ d0 ++ d1.getD [] ++ d2.getD [])).2) := by
  obtain ⟨-, -, hi, hu, hf⟩ := hnf
  have hst' : ∀ s a b, (H.update (H.update s a).2 b).2 = (H.update s (a ++ b)).2 := hst
  cases pre <;> cases d1 <;> cases d2 <;>
    simp [hash_data, spec_Hash, hi, hu, hf, hst']

theorem getD_writeAt_inside :
    ∀ (d a : List Nat) (off j : Nat), off ≤ j → j < off + d.length →
      off + d.length ≤ a.length → (writeAt a off d).getD j 0 = d.getD (j - off) 0 := by
  intro d
  induction d with
  | nil => intro a off j h1 h2 _; simp only [List.length_nil] at h2; omega
  | cons x xs ih =>
    intro a off j h1 h2 h3
    simp only [List.length_cons] at h2 h3
    rw [writeAt]
    by_cases hj : j = off
    · subst hj
      rw [getD_writeAt_below _ _ _ _ (Nat.lt_succ_self _), getD_set_eq,
        if_pos ⟨rfl, by omega⟩]
      simp
    · rw [ih _ _ _ (by omega) (by omega) (by simp; omega)]
      have : j - off = (j - (off + 1)) + 1 := by omega
      rw [this, List.getD_cons_succ]

theorem getD_writeAt_above :
    ∀ (d a : List Nat) (off j : Nat), off + d.length ≤ j →
      (writeAt a off d).getD j 0 = a.getD j 0 := by
  intro d
  induction d with
  | nil => intro a off j _; rfl
  | cons x xs ih =>
    intro a off j hj
    simp only [List.length_cons] at hj
    rw [writeAt, ih _ _ _ (by omega), getD_set_eq, if_neg (by omega)]

/-- Reading back the start of a store that fits the buffer. -/
theorem bytesOf_writeAt (d a : List Nat) (off n : Nat) (hfit : off + d.length ≤ a.length)
    (hn : n ≤ d.length) : bytesOf (writeAt a off d) off n = d.take n := by
  apply List.ext_getElem
  · simp [bytesOf_length, hn]
  · intro i h1 h2
    rw [bytesOf_length] at h1
    simp only [bytesOf, List.getElem_map, List.getElem_range, List.getElem_take]
    rw [getD_writeAt_inside _ _ _ _ (by omega) (by omega) hfit]
    have : off + i - off = i := by omega
    rw [this, List.getD_eq_getElem _ _ (by omega)]

/-! ## `hash_df` computes Hash_df -/

theorem spec_Hash_df_blocks_ctr (H : HashCap σ) (L : Nat) (input : List Nat) (n ctr : Nat)
    (hash : Option σ) (hc : ctr + 1 + n ≤ 256 ∨ n = 0) :
    spec_Hash_df_blocks H L input n ((ctr + 1) % 256) hash
      = spec_Hash_df_blocks H L input n (ctr + 1) hash := by
  cases n with
  | zero => rfl
  | succ k => rw [Nat.mod_eq_of_lt (by omega)]

/-- The loop of `hash_df` with `n` blocks to go (`(n-1) * hlen < i ≤ n * hlen`)
and the counter byte at `ctr`: it returns, with status 0, having appended the
first `i` bytes of the blocks `T_ctr ‖ T_(ctr+1) ‖ ...`. -/
theorem hash_df_loop_spec (H : HashCap σ) (hnf : H.NeverFails) (hst : H.Streaming)
    (hlen : Nat) (hd : H.Digest hlen) (h64 : hlen ≤ HASH_MAX_DIGEST_LEN) (L : Nat)
    (d0 : List Nat) (d1 d2 : Option (List Nat)) :
    ∀ (n fuel : Nat) (hash : Option σ) (ctr : Nat) (t : List Nat) (i : Int) (out : List Nat),
      i.toNat ≤ n * hlen → n * hlen < i.toNat + hlen → ctr + n ≤ 256 → n < fuel →
      t.length = HASH_MAX_DIGEST_LEN →
      hash_df_loop H hlen (hash_df_len_bytes L) d0 d1 d2 fuel hash ctr t i out =
        some (0, (spec_Hash_df_blocks H L (d0 ++ d1.getD [] ++ d2.getD []) n ctr hash).1,
          out ++ (spec_Hash_df_blocks H L (d0 ++ d1.getD [] ++ d2.getD []) n ctr hash).2.take
            i.toNat) := by
  intro n
  induction n with
  | zero =>
    intro fuel hash ctr t i out h1 _ _ hf _
    obtain ⟨f, rfl⟩ : ∃ f, fuel = f + 1 := ⟨fuel - 1, by omega⟩
    rw [hash_df_loop, if_neg (by omega)]
    simp [spec_Hash_df_blocks]
  | succ k ih =>
    intro fuel hash ctr t i out h1 h2 hc hf ht
    obtain ⟨f, rfl⟩ : ∃ f, fuel = f + 1 := ⟨fuel - 1, by omega⟩
    rw [Nat.succ_mul] at h1 h2
    have hi : i > 0 := by omega
    have hdl := (hd (H.update (H.init hash).2
      (ctr :: hash_df_len_bytes L ++ d0 ++ d1.getD [] ++ d2.getD [])).2).1
    rw [hash_df_loop, if_pos hi, hash_data_spec H hnf hst]
    simp only [ne_eq, not_true_eq_false, if_false, Option.getD_some]
    rw [ih f _ _ _ _ _ (by omega) (by omega) (by omega) (by omega)
      (by rw [writeAt_length]; exact ht),
      spec_Hash_df_blocks_ctr H L _ k ctr _ (by omega)]
    simp only [spec_Hash_df_blocks, hash_df_len_bytes_eq, List.cons_append, List.append_assoc,
      Option.some.injEq, Prod.mk.injEq, true_and]
    simp only [spec_Hash, hash_df_len_bytes_eq, List.cons_append, List.append_assoc] at hdl ⊢
    rw [List.take_append_eq_append_take, hdl, bytesOf_writeAt _ _ _ _ (by simp; omega)
      (by rw [hdl]; split <;> omega)]
    have e1 : (i - (hlen : Int)).toNat = i.toNat - hlen := by omega
    rw [e1]
    congr 1
    congr 1
    by_cases hlt : (hlen : Int) < i
    · rw [if_pos hlt, List.take_of_length_le (by omega), List.take_of_length_le (by omega)]
    · rw [if_neg hlt]

/-- The number of blocks `ceil(L / hlen)` lies within one block of `L`. -/
theorem ceil_blocks (L hlen : Nat) (h1 : 1 ≤ hlen) :
    L ≤ (L + hlen - 1) / hlen * hlen ∧ (L + hlen - 1) / hlen * hlen < L + hlen ∧
    (L + hlen - 1) / hlen ≤ L := by
  have hm := Nat.div_add_mod (L + hlen - 1) hlen
  have hr := Nat.mod_lt (L + hlen - 1) (by omega : hlen > 0)
  rw [Nat.mul_comm] at hm
  refine ⟨by omega, by omega, ?_⟩
  by_contra hgt
  have hle : (L + 1) * hlen ≤ (L + hlen - 1) / hlen * hlen :=
    Nat.mul_le_mul_right _ (by omega)
  have hL : L * 1 ≤ L * hlen := Nat.mul_le_mul_left _ h1
  rw [Nat.succ_mul] at hle
  omega

/-- With a streaming hash that never fails and has digests of `hlen` bytes,
`hash_df` returns, with status 0, the value Hash_df of the concatenation of its
slots. -/
theorem hash_df_spec (H : HashCap σ) (hnf : H.NeverFails) (hst : H.Streaming)
    (hlen : Nat) (hd : H.Digest hlen) (h1 : 1 ≤ hlen) (h64 : hlen ≤ HASH_MAX_DIGEST_LEN)
    (fuel : Nat) (hash : Option σ) (d0 : List Nat) (d1 d2 : Option (List Nat)) (L : Nat)
    (hL : L ≤ 222) (hf : L < fuel) :
    hash_df H fuel hash hlen d0 d1 d2 L =
      some (0, (spec_Hash_df H hash hlen (d0 ++ d1.getD [] ++ d2.getD []) L).1,
        (spec_Hash_df H hash hlen (d0 ++ d1.getD [] ++ d2.getD []) L).2) := by
  obtain ⟨c1, c2, c3⟩ := ceil_blocks L hlen h1
  unfold hash_df
  rw [hash_df_loop_spec H hnf hst hlen hd h64 L d0 d1 d2 ((L + hlen - 1) / hlen) fuel hash 1 _
    (L : Int) [] (by simpa using c1) (by simpa using c2) (by omega) (by omega) (by simp)]
  simp [spec_Hash_df]

theorem sumHash_streaming : sumHash.Streaming := by
  intro s a b
  cases s <;> simp [sumHash, List.sum_append, Nat.add_assoc]

theorem sumHash_digest : sumHash.Digest 32 := by
  intro s
  refine ⟨by simp [sumHash], ?_⟩
  intro b hb
  simp only [sumHash, List.mem_replicate] at hb
  omega

/-- C27: for a streaming hash that never fails, with digests of `hlen` bytes,
`1 ≤ hlen ≤ 64`, for every content of the three slots (slots 1 and 2 possibly
null) and every output length `1 ≤ L ≤ 222`, `hash_df` returns with status 0 and
stores exactly `L` bytes: the first `L` bytes of `T_1 ‖ T_2 ‖ ...`, where
`T_k = Hash(byte(k) ‖ be32(8*L) ‖ slot0 ‖ slot1 ‖ slot2)` with the null slots
left out, the counter starting at 1 and increasing by one per block. -/
theorem hash_df_first_bytes (H : HashCap σ) (hnf : H.NeverFails) (hst : H.Streaming)
    (hlen : Nat) (hd : H.Digest hlen) (h1 : 1 ≤ hlen) (h64 : hlen ≤ HASH_MAX_DIGEST_LEN)
    (fuel : Nat) (hash : Option σ) (d0 : List Nat) (d1 d2 : Option (List Nat)) (L : Nat)
    (hL1 : 1 ≤ L) (hL : L ≤ 222) (hf : L < fuel) :
    ∃ hash' out, hash_df H fuel hash hlen d0 d1 d2 L = some (0, hash', out) ∧
      out.length = L ∧
      out = (spec_Hash_df_blocks H L (d0 ++ d1.getD [] ++ d2.getD [])
        ((L + hlen - 1) / hlen) 1 hash).2.take L ∧
      1 ≤ (L + hlen - 1) / hlen := by
  have e := hash_df_spec H hnf hst hlen hd h1 h64 fuel hash d0 d1 d2 L hL hf
  refine ⟨_, _, e, hash_df_length H fuel hash hlen d0 d1 d2 L _ e rfl, rfl, ?_⟩
  exact (Nat.le_div_iff_mul_le (by omega)).2 (by omega)

/-- Instance of C27: 55 bytes derived with a 32-byte digest from two slots, the
third being null. -/
theorem hash_df_first_bytes_witness :
    ∃ hash' out, hash_df sumHash 100 (some 0) 32 [1, 2, 3] (some [4]) none 55
        = some (0, hash', out) ∧
      out.length = 55 ∧
      out = (spec_Hash_df_blocks sumHash 55 ([1, 2, 3] ++ (some [4]).getD [] ++ none.getD [])
        ((55 + 32 - 1) / 32) 1 (some 0)).2.take 55 ∧
      1 ≤ (55 + 32 - 1) / 32 :=
  hash_df_first_bytes sumHash sumHash_neverFails sumHash_streaming 32 sumHash_digest
    (by decide) (by decide) 100 (some 0) [1, 2, 3] (some [4]) none 55 (by decide) (by decide)
    (by decide)

/-! ## Instantiate and reseed in terms of Hash_df -/

theorem spec_Hash_df_length (H : HashCap σ) (hnf : H.NeverFails) (hst : H.Streaming)
    (hlen : Nat) (hd : H.Digest hlen) (h1 : 1 ≤ hlen) (h64 : hlen ≤ HASH_MAX_DIGEST_LEN)
    (hash : Option σ) (input : List Nat) (L : Nat) (hL : L ≤ 222) :
    (spec_Hash_df H hash hlen input L).2.length = L := by
  have e := hash_df_spec H hnf hst hlen hd h1 h64 (L + 1) hash input none none L hL
    (Nat.lt_succ_self _)
  simp only [Option.getD_none, List.append_nil] at e
  exact hash_df_length H _ hash hlen input none none L _ e rfl

/-- The first `n + 1` bytes of `v` once the tag byte `v[0]` is set. -/
theorem bytesOf_tag (v : List Nat) (x n : Nat) (hv : 1 ≤ v.length) :
    bytesOf (v.set 0 x) 0 (n + 1) = x :: bytesOf v 1 n := by
  apply List.ext_getElem
  · simp [bytesOf_length]
  · intro i h1 h2
    simp only [bytesOf, List.getElem_map, List.getElem_range]
    cases i with
    | zero => rw [getD_set_eq, if_pos ⟨rfl, by omega⟩]; rfl
    | succ j =>
      rw [getD_set_eq, if_neg (by omega)]
      simp only [List.getElem_cons_succ, List.getElem_map, List.getElem_range]
      congr 1
      omega

theorem bytesOf_set_tag (v : List Nat) (x n : Nat) :
    bytesOf (v.set 0 x) 1 n = bytesOf v 1 n := by
  simp only [bytesOf]
  apply List.map_congr_left
  intro j _
  rw [getD_set_eq, if_neg (by omega)]

/-- Reading back a whole store that fits the buffer. -/
theorem bytesOf_writeAt_all (d a : List Nat) (off : Nat) (hfit : off + d.length ≤ a.length) :
    bytesOf (writeAt a off d) off d.length = d := by
  rw [bytesOf_writeAt d a off d.length hfit (Nat.le_refl _), List.take_length]

/-- C28: with a streaming hash that never fails and has digests of `hl` bytes
(`1 ≤ hl ≤ 64`, the length `HASH_get_len` reports), `random_hash_init` with a
seed length `sl ≤ 111`, entropy `E` and personalization `P` (possibly null)
succeeds and leaves `V[1..1+sl] = Hash_df(E ‖ P, sl)`, `V[0] = 0x00`,
`C = Hash_df(0x00 ‖ V[1..1+sl], sl)` and `reseed_cnt = 1`. -/
theorem random_hash_init_state (H : HashCap σ) (hnf : H.NeverFails) (hst : H.Streaming)
    (hl : Nat) (hd : H.Digest hl) (hgl : ∀ s n, (H.get_len s n).2 = hl)
    (h1 : 1 ≤ hl) (h64 : hl ≤ HASH_MAX_DIGEST_LEN)
    (fuel : Nat) (h : RANDOM_HASH σ) (id : HASH_ID) (sl : Nat) (E : List Nat)
    (P : Option (List Nat)) (hsl : sl ≤ RANDOM_HASH_MAX_SEED_LEN) (hf : sl < fuel)
    (hv : h.v.length = 1 + RANDOM_HASH_MAX_SEED_LEN)
    (hc : h.c.length = RANDOM_HASH_MAX_SEED_LEN) :
    ∃ h', random_hash_init H fuel h id sl E P = some (0, h') ∧
      bytesOf h'.v 1 sl = (spec_Hash_df H
        (match h.hash with
          | none => (H.new id 0 h.hash).2
          | some _ => h.hash) hl (E ++ P.getD []) sl).2 ∧
      h'.v.getD 0 0 = 0 ∧
      bytesOf h'.c 0 sl = (spec_Hash_df H
        (spec_Hash_df H
          (match h.hash with
            | none => (H.new id 0 h.hash).2
            | some _ => h.hash) hl (E ++ P.getD []) sl).1
        hl (0 :: bytesOf h'.v 1 sl) sl).2 ∧
      h'.reseed_cnt = 1 ∧ h'.seed_len = sl := by
  have hnew : ∀ i f s, (H.new i f s).1 = 0 := hnf.1
  have hlen : ∀ s n, (H.get_len s n).1 = 0 := hnf.2.1
  have hmod : hl % 2 ^ 16 = hl := Nat.mod_eq_of_lt (by unfold HASH_MAX_DIGEST_LEN at h64; omega)
  have h222 : sl ≤ 222 := by unfold RANDOM_HASH_MAX_SEED_LEN at hsl; omega
  obtain ⟨v, c, t, cnt, hash, hl0, sl0⟩ := h
  simp only [] at hv hc
  have key : ∀ hash0 : Option σ, ∃ h' : RANDOM_HASH σ,
      (match hash_df H fuel hash0 hl E P none sl with
        | none => none
        | some r1 =>
          if r1.1 ≠ 0 then
            some (r1.1, (⟨writeAt v 1 r1.2.2, c, t, cnt, r1.2.1, hl, sl0⟩ : RANDOM_HASH σ))
          else
            match hash_df H fuel r1.2.1 hl (bytesOf ((writeAt v 1 r1.2.2).set 0 0) 0 (sl + 1))
              none none sl with
            | none => none
            | some r2 =>
              if r2.1 ≠ 0 then
                some (r2.1, ⟨(writeAt v 1 r1.2.2).set 0 0, writeAt c 0 r2.2.2, t, cnt, r2.2.1,
                  hl, sl0⟩)
              else
                some (0, ⟨(writeAt v 1 r1.2.2).set 0 0, writeAt c 0 r2.2.2, t, 1, r2.2.1,
                  hl, sl⟩)) = some (0, h') ∧
      bytesOf h'.v 1 sl = (spec_Hash_df H hash0 hl (E ++ P.getD []) sl).2 ∧
      h'.v.getD 0 0 = 0 ∧
      bytesOf h'.c 0 sl = (spec_Hash_df H (spec_Hash_df H hash0 hl (E ++ P.getD []) sl).1 hl
        (0 :: bytesOf h'.v 1 sl) sl).2 ∧
      h'.reseed_cnt = 1 ∧ h'.seed_len = sl := by
    intro hash0
    have e1 := hash_df_spec H hnf hst hl hd h1 h64 fuel hash0 E P none sl h222 hf
    simp only [Option.getD_none, List.append_nil] at e1
    have l1 := spec_Hash_df_length H hnf hst hl hd h1 h64 hash0 (E ++ P.getD []) sl h222
    have ev : bytesOf ((writeAt v 1 (spec_Hash_df H hash0 hl (E ++ P.getD []) sl).2).set 0 0) 1
        sl = (spec_Hash_df H hash0 hl (E ++ P.getD []) sl).2 := by
      have := bytesOf_writeAt_all (spec_Hash_df H hash0 hl (E ++ P.getD []) sl).2 v 1
        (by rw [l1, hv]; omega)
      rw [l1] at this
      rw [bytesOf_set_tag, this]
    have eb : bytesOf ((writeAt v 1 (spec_Hash_df H hash0 hl (E ++ P.getD []) sl).2).set 0 0) 0
        (sl + 1) = 0 :: (spec_Hash_df H hash0 hl (E ++ P.getD []) sl).2 := by
      rw [bytesOf_tag _ _ _ (by rw [writeAt_length]; omega), ← bytesOf_set_tag _ 0, ev]
    have e2 := hash_df_spec H hnf hst hl hd h1 h64 fuel
      (spec_Hash_df H hash0 hl (E ++ P.getD []) sl).1
      (0 :: (spec_Hash_df H hash0 hl (E ++ P.getD []) sl).2) none none sl h222 hf
    simp only [Option.getD_none, List.append_nil] at e2
    have l2 := spec_Hash_df_length H hnf hst hl hd h1 h64
      (spec_Hash_df H hash0 hl (E ++ P.getD []) sl).1
      (0 :: (spec_Hash_df H hash0 hl (E ++ P.getD []) sl).2) sl h222
    rw [e1]
    simp only [ne_eq, not_true_eq_false, if_false]
    rw [eb, e2]
    simp only [ne_eq, not_true_eq_false, if_false]
    refine ⟨_, rfl, ev, ?_, ?_, rfl, rfl⟩
    · rw [getD_set_eq, if_pos ⟨rfl, by rw [writeAt_length]; omega⟩]
    · simp only []
      rw [ev]
      have := bytesOf_writeAt_all (spec_Hash_df H (spec_Hash_df H hash0 hl (E ++ P.getD []) sl).1
        hl (0 :: (spec_Hash_df H hash0 hl (E ++ P.getD []) sl).2) sl).2 c 0
        (by rw [l2, hc]; omega)
      rw [l2] at this
      exact this
  cases hash with
  | none =>
    obtain ⟨h', e, props⟩ := key (H.new id 0 none).2
    refine ⟨h', ?_, props⟩
    unfold random_hash_init
    simp only [hnew, hlen, hgl, hmod, ne_eq, not_true_eq_false, if_false]
    exact e
  | some s0 =>
    obtain ⟨h', e, props⟩ := key (some s0)
    refine ⟨h', ?_, props⟩
    unfold random_hash_init
    simp only [hnew, hlen, hgl, hmod, ne_eq, not_true_eq_false, if_false]
    exact e
/-- Instance of C28: a SHA-256 style init (32-byte digests, seed length 55) of a
context not yet bound to a hash, with a 3-byte entropy and a 1-byte
personalization. -/
theorem random_hash_init_state_witness :
    ∃ h', random_hash_init sumHash 100 staleCtx HASH_ID.SHA256 55 [1, 2, 3] (some [9])
        = some (0, h') ∧
      bytesOf h'.v 1 55 = (spec_Hash_df sumHash (some 0) 32 ([1, 2, 3] ++ [9]) 55).2 ∧
      h'.v.getD 0 0 = 0 ∧
      bytesOf h'.c 0 55 = (spec_Hash_df sumHash
        (spec_Hash_df sumHash (some 0) 32 ([1, 2, 3] ++ [9]) 55).1
        32 (0 :: bytesOf h'.v 1 55) 55).2 ∧
      h'.reseed_cnt = 1 ∧ h'.seed_len = 55 :=
  random_hash_init_state sumHash sumHash_neverFails sumHash_streaming 32 sumHash_digest
    (fun _ _ => rfl) (by decide) (by decide) 100 staleCtx HASH_ID.SHA256 55 [1, 2, 3]
    (some [9]) (by decide) (by decide) rfl rfl

/-- C29: with a streaming hash that never fails and has digests of `hash_len`
bytes, `RANDOM_HASH_reseed` with entropy `E` and additional input `A` (possibly
null) succeeds, whatever the counter was, and leaves
`V[1..1+seed_len] = Hash_df(0x01 ‖ V_old[1..1+seed_len] ‖ E ‖ A, seed_len)`,
`C = Hash_df(0x00 ‖ V_new[1..1+seed_len], seed_len)` and `reseed_cnt = 1`. -/
theorem RANDOM_HASH_reseed_state (H : HashCap σ) (hnf : H.NeverFails) (hst : H.Streaming)
    (fuel : Nat) (h : RANDOM_HASH σ) (E : List Nat) (A : Option (List Nat))
    (hd : H.Digest h.hash_len) (h1 : 1 ≤ h.hash_len) (h64 : h.hash_len ≤ HASH_MAX_DIGEST_LEN)
    (hsl : h.seed_len ≤ RANDOM_HASH_MAX_SEED_LEN) (hf : h.seed_len < fuel)
    (hv : h.v.length = 1 + RANDOM_HASH_MAX_SEED_LEN)
    (hc : h.c.length = RANDOM_HASH_MAX_SEED_LEN)
    (ht : h.t.length = RANDOM_HASH_MAX_SEED_LEN) :
    ∃ h', RANDOM_HASH_reseed H fuel h E A = some (0, h') ∧
      bytesOf h'.v 1 h.seed_len = (spec_Hash_df H h.hash h.hash_len
        (1 :: bytesOf h.v 1 h.seed_len ++ E ++ A.getD []) h.seed_len).2 ∧
      h'.v.getD 0 0 = 0 ∧
      bytesOf h'.c 0 h.seed_len = (spec_Hash_df H
        (spec_Hash_df H h.hash h.hash_len
          (1 :: bytesOf h.v 1 h.seed_len ++ E ++ A.getD []) h.seed_len).1
        h.hash_len (0 :: bytesOf h'.v 1 h.seed_len) h.seed_len).2 ∧
      h'.reseed_cnt = 1 ∧ h'.seed_len = h.seed_len ∧ h'.hash_len = h.hash_len := by
  have hmod : h.hash_len % 2 ^ 16 = h.hash_len :=
    Nat.mod_eq_of_lt (by unfold HASH_MAX_DIGEST_LEN at h64; omega)
  have h222 : h.seed_len ≤ 222 := by unfold RANDOM_HASH_MAX_SEED_LEN at hsl; omega
  obtain ⟨v, c, t, cnt, hash, hl, sl⟩ := h
  simp only [] at hv hc ht hd h1 h64 hsl hf hmod h222 ⊢
  have e1 := hash_df_spec H hnf hst hl hd h1 h64 fuel hash (bytesOf (v.set 0 1) 0 (sl + 1))
    (some E) A sl h222 hf
  rw [bytesOf_tag _ _ _ (by omega)] at e1
  simp only [Option.getD_some] at e1
  have l1 := spec_Hash_df_length H hnf hst hl hd h1 h64 hash
    (1 :: bytesOf v 1 sl ++ E ++ A.getD []) sl h222
  have et : bytesOf (writeAt t 0
      (spec_Hash_df H hash hl (1 :: bytesOf v 1 sl ++ E ++ A.getD []) sl).2) 0 sl =
      (spec_Hash_df H hash hl (1 :: bytesOf v 1 sl ++ E ++ A.getD []) sl).2 := by
    have := bytesOf_writeAt_all
      (spec_Hash_df H hash hl (1 :: bytesOf v 1 sl ++ E ++ A.getD []) sl).2 t 0
      (by rw [l1, ht]; omega)
    rw [l1] at this
    exact this
  have ev : bytesOf ((writeAt (v.set 0 1) 1
      (spec_Hash_df H hash hl (1 :: bytesOf v 1 sl ++ E ++ A.getD []) sl).2).set 0 0) 1 sl =
      (spec_Hash_df H hash hl (1 :: bytesOf v 1 sl ++ E ++ A.getD []) sl).2 := by
    have := bytesOf_writeAt_all
      (spec_Hash_df H hash hl (1 :: bytesOf v 1 sl ++ E ++ A.getD []) sl).2 (v.set 0 1) 1
      (by rw [l1, List.length_set, hv]; omega)
    rw [l1] at this
    rw [bytesOf_set_tag, this]
  have eb : bytesOf ((writeAt (v.set 0 1) 1
      (spec_Hash_df H hash hl (1 :: bytesOf v 1 sl ++ E ++ A.getD []) sl).2).set 0 0) 0
      (sl + 1) = 0 :: (spec_Hash_df H hash hl (1 :: bytesOf v 1 sl ++ E ++ A.getD []) sl).2 := by
    rw [bytesOf_tag _ _ _ (by rw [writeAt_length, List.length_set]; omega),
      ← bytesOf_set_tag _ 0, ev]
  have e2 := hash_df_spec H hnf hst hl hd h1 h64 fuel
    (spec_Hash_df H hash hl (1 :: bytesOf v 1 sl ++ E ++ A.getD []) sl).1
    (0 :: (spec_Hash_df H hash hl (1 :: bytesOf v 1 sl ++ E ++ A.getD []) sl).2) none none sl
    h222 hf
  simp only [Option.getD_none, List.append_nil] at e2
  have l2 := spec_Hash_df_length H hnf hst hl hd h1 h64
    (spec_Hash_df H hash hl (1 :: bytesOf v 1 sl ++ E ++ A.getD []) sl).1
    (0 :: (spec_Hash_df H hash hl (1 :: bytesOf v 1 sl ++ E ++ A.getD []) sl).2) sl h222
  unfold RANDOM_HASH_reseed
  simp only [hmod]
  rw [bytesOf_tag _ _ _ (by omega), e1]
  simp only [ne_eq, not_true_eq_false, if_false]
  rw [et, eb, e2]
  simp only [ne_eq, not_true_eq_false, if_false]
  refine ⟨_, rfl, ev, ?_, ?_, rfl, rfl, rfl⟩
  · rw [getD_set_eq, if_pos ⟨rfl, by rw [writeAt_length, List.length_set]; omega⟩]
  · simp only []
    rw [ev]
    have := bytesOf_writeAt_all (spec_Hash_df H
      (spec_Hash_df H hash hl (1 :: bytesOf v 1 sl ++ E ++ A.getD []) sl).1 hl
      (0 :: (spec_Hash_df H hash hl (1 :: bytesOf v 1 sl ++ E ++ A.getD []) sl).2) sl).2 c 0
      (by rw [l2, hc]; omega)
    rw [l2] at this
    exact this

/-- Instance of C29: a reseed of a SHA-256 style context whose counter is at the
limit 2^48, with a 2-byte entropy and a null additional input. -/
theorem RANDOM_HASH_reseed_state_witness :
    ∃ h', RANDOM_HASH_reseed sumHash 100 (sumCtx (2 ^ 48)) [5, 6] none = some (0, h') ∧
      bytesOf h'.v 1 55 = (spec_Hash_df sumHash (some 0) 32
        (1 :: bytesOf (sumCtx (2 ^ 48)).v 1 55 ++ [5, 6] ++ []) 55).2 ∧
      h'.v.getD 0 0 = 0 ∧
      bytesOf h'.c 0 55 = (spec_Hash_df sumHash
        (spec_Hash_df sumHash (some 0) 32
          (1 :: bytesOf (sumCtx (2 ^ 48)).v 1 55 ++ [5, 6] ++ []) 55).1
        32 (0 :: bytesOf h'.v 1 55) 55).2 ∧
      h'.reseed_cnt = 1 ∧ h'.seed_len = 55 ∧ h'.hash_len = 32 :=
  RANDOM_HASH_reseed_state sumHash sumHash_neverFails sumHash_streaming 100 (sumCtx (2 ^ 48))
    [5, 6] none sumHash_digest (by decide) (by decide) (by decide) (by decide) rfl rfl rfl

/-! ## Null and empty inputs of instantiate and reseed -/

/-- When an update with zero bytes is the identity, a non-null empty slot 2 is
hashed as a null slot 2. -/
theorem hash_data_slot2_empty (H : HashCap σ) (hid : ∀ s, H.update s [] = (0, s))
    (hash : Option σ) (pre : Option (List Nat)) (d0 : List Nat) (d1 : Option (List Nat)) :
    hash_data H hash pre d0 d1 (some []) = hash_data H hash pre d0 d1 none := by
  unfold hash_data
  simp only [hid]
  split_ifs <;> simp_all

/-- When an update with zero bytes is the identity and the update with slot 0
reports no error, a non-null empty slot 1 is hashed as a null slot 1. -/
theorem hash_data_slot1_empty (H : HashCap σ) (hid : ∀ s, H.update s [] = (0, s))
    (d0 : List Nat) (hu : ∀ s, (H.update s d0).1 = 0)
    (hash : Option σ) (pre : Option (List Nat)) (d2 : Option (List Nat)) :
    hash_data H hash pre d0 (some []) d2 = hash_data H hash pre d0 none d2 := by
  have key : ∀ s, ((0 : Int), (H.update s d0).2) = H.update s d0 :=
    fun s => Prod.ext (hu s).symm rfl
  unfold hash_data
  simp only [hid, key]

theorem hash_df_loop_congr (H : HashCap σ) (hlen : Nat) (lenb d0 : List Nat)
    (d1 d2 e1 e2 : Option (List Nat))
    (hd : ∀ hash pre, hash_data H hash pre d0 d1 d2 = hash_data H hash pre d0 e1 e2) :
    ∀ (fuel : Nat) (hash : Option σ) (ctr : Nat) (t : List Nat) (i : Int) (out : List Nat),
      hash_df_loop H hlen lenb d0 d1 d2 fuel hash ctr t i out
        = hash_df_loop H hlen lenb d0 e1 e2 fuel hash ctr t i out := by
  intro fuel
  induction fuel with
  | zero => intro hash ctr t i out; rfl
  | succ n ih =>
    intro hash ctr t i out
    rw [hash_df_loop, hash_df_loop]
    simp only [hd, ih]

/-- C21 (the code departs from the claim for the personalization): for a hash
whose update with zero bytes is the identity, `RANDOM_HASH_reseed` with a
non-null additional input of length 0 returns exactly what it returns with a
null additional input; `random_hash_init` with a non-null personalization of
length 0 returns what it returns with a null personalization whenever
`HASH_update` reports no error on the entropy.  When it does report one, the
non-null empty personalization hides it. -/
theorem init_reseed_empty_input (H : HashCap σ) (hid : ∀ s, H.update s [] = (0, s))
    (fuel : Nat) (h : RANDOM_HASH σ) (id : HASH_ID) (sl : Nat) (E : List Nat) :
    RANDOM_HASH_reseed H fuel h E (some []) = RANDOM_HASH_reseed H fuel h E none ∧
    ((∀ s, (H.update s E).1 = 0) →
      random_hash_init H fuel h id sl E (some []) = random_hash_init H fuel h id sl E none) := by
  constructor
  · unfold RANDOM_HASH_reseed hash_df
    simp only [hash_df_loop_congr H _ _ _ (some E) (some []) (some E) none
      (fun hash pre => hash_data_slot2_empty H hid hash pre _ _)]
  · intro hu
    unfold random_hash_init hash_df
    simp only [hash_df_loop_congr H _ _ E (some []) none none none
      (fun hash pre => hash_data_slot1_empty H hid E hu hash pre _)]

set_option maxRecDepth 8000 in
/-- Instance of C21, with the failing input: over a hash whose update rejects the
byte 0xFF (status 5) and is the identity on zero bytes, reseeding agrees for the
null and the empty additional input, but `random_hash_init` with the entropy
`[0xFF]` returns 5 and leaves V and the counter alone for a null personalization,
while for a non-null empty one it returns 0 with V derived and the counter 1. -/
theorem init_reseed_empty_input_witness :
    RANDOM_HASH_reseed pickyHash 100 (sampleCtx 7) [1] (some [])
      = RANDOM_HASH_reseed pickyHash 100 (sampleCtx 7) [1] none ∧
    (random_hash_init pickyHash 100 (RANDOM_HASH_zero Unit) HASH_ID.SHA256 55 [255] none).map
        (fun x => (x.1, x.2.reseed_cnt, bytesOf x.2.v 1 55))
      = some (5, 0, List.replicate 55 0) ∧
    (random_hash_init pickyHash 100 (RANDOM_HASH_zero Unit) HASH_ID.SHA256 55 [255]
        (some [])).map (fun x => (x.1, x.2.reseed_cnt, bytesOf x.2.v 1 55))
      = some (0, 1, List.replicate 55 0xAB) :=
  ⟨(init_reseed_empty_input pickyHash (fun _ => rfl) 100 (sampleCtx 7) HASH_ID.SHA256 55
      [1]).1, by decide, by decide⟩

/-! ## The additional-input step as a big-endian addition -/

theorem bytesOf_succ (buf : List Nat) (off n : Nat) :
    bytesOf buf off (n + 1) = bytesOf buf off n ++ [buf.getD (off + n) 0] := by
  simp [bytesOf, List.range_succ]

theorem bytesOf_add (buf : List Nat) (off n m : Nat) :
    bytesOf buf off (n + m) = bytesOf buf off n ++ bytesOf buf (off + n) m := by
  induction m with
  | zero => simp [bytesOf]
  | succ k ih => rw [← Nat.add_assoc, bytesOf_succ, ih, bytesOf_succ, List.append_assoc,
      Nat.add_assoc]

theorem bytesOf_congr (a b : List Nat) (off n : Nat)
    (h : ∀ j, off ≤ j → j < off + n → a.getD j 0 = b.getD j 0) :
    bytesOf a off n = bytesOf b off n := by
  simp only [bytesOf]
  apply List.map_congr_left
  intro j hj
  rw [List.mem_range] at hj
  exact h _ (by omega) (by omega)

theorem beNat_append (a b : List Nat) :
    beNat (a ++ b) = b.foldl (fun acc x => acc * 256 + x) (beNat a) := by
  simp [beNat, List.foldl_append]

theorem beNat_zeros (k : Nat) (d : List Nat) : beNat (List.replicate k 0 ++ d) = beNat d := by
  rw [beNat_append]
  have : beNat (List.replicate k 0) = 0 := by
    induction k with
    | zero => rfl
    | succ n ih => rw [List.replicate_succ', beNat_append_one, ih]
  rw [this]
  rfl

/-- The bytes of a big-endian representation hold its value modulo `256^n`. -/
theorem beNat_beBytes : ∀ (n x : Nat), beNat (beBytes n x) = x % 256 ^ n := by
  intro n
  induction n with
  | zero => intro x; simp [beBytes, beNat, Nat.mod_one]
  | succ k ih =>
    intro x
    rw [beBytes, beNat_append_one, ih, Nat.pow_succ, Nat.mul_comm (256 ^ k) 256,
      Nat.mod_mul, Nat.mul_comm]
    omega

/-- The loop adding the hashed additional input: with bytes in `v[1..i]` and
`ht[0..i)` and a carry below 256, it stores in `v[1..i]` the `i`-byte big-endian
sum of the two values and the carry, and touches nothing else. -/
theorem gen_add_input_value (ht : List Nat) :
    ∀ (i : Nat) (v : List Nat) (t : Nat), i + 1 ≤ v.length → t < 256 →
      (∀ j, j < i → ht.getD j 0 < 256) → (∀ j, 1 ≤ j → j ≤ i → v.getD j 0 < 256) →
      (gen_add_input ht i v t).length = v.length ∧
      (∀ j, j = 0 ∨ i < j → (gen_add_input ht i v t).getD j 0 = v.getD j 0) ∧
      bytesOf (gen_add_input ht i v t) 1 i
        = beBytes i (beNat (bytesOf v 1 i) + beNat (bytesOf ht 0 i) + t) := by
  intro i
  induction i with
  | zero => intro v t _ _ _ _; exact ⟨rfl, fun _ _ => rfl, rfl⟩
  | succ k ih =>
    intro v t hv ht256 hht hvb
    have hb1 := hht k (Nat.lt_succ_self _)
    have hb2 := hvb (k + 1) (by omega) (Nat.le_refl _)
    have e1 : (t + v.getD (k + 1) 0) % 2 ^ 16 = t + v.getD (k + 1) 0 :=
      Nat.mod_eq_of_lt (by omega)
    have e2 : (t + v.getD (k + 1) 0 + ht.getD k 0) % 2 ^ 16
        = t + v.getD (k + 1) 0 + ht.getD k 0 := Nat.mod_eq_of_lt (by omega)
    rw [gen_add_input]
    simp only [e1, e2, Nat.shiftRight_eq_div_pow]
    obtain ⟨r1, r2, r3⟩ := ih (v.set (k + 1) ((t + v.getD (k + 1) 0 + ht.getD k 0) % 256))
      ((t + v.getD (k + 1) 0 + ht.getD k 0) / 2 ^ 8) (by rw [List.length_set]; omega)
      (by omega) (fun j hj => hht j (by omega))
      (fun j h1 h2 => by rw [getD_set_eq, if_neg (by omega)]; exact hvb j h1 (by omega))
    refine ⟨by rw [r1, List.length_set], ?_, ?_⟩
    · intro j hj
      rw [r2 j (by omega), getD_set_eq, if_neg (by omega)]
    · rw [bytesOf_succ, r3, r2 (1 + k) (by omega), getD_set_eq,
        if_pos ⟨by omega, by omega⟩, bytesOf_succ, bytesOf_succ, beNat_append_one,
        beNat_append_one, beBytes,
        bytesOf_congr (v.set (k + 1) ((t + v.getD (k + 1) 0 + ht.getD k 0) % 256)) v 1 k
          (fun j _ h2 => by rw [getD_set_eq, if_neg (by omega)])]
      have hk : 1 + k = k + 1 := Nat.add_comm _ _
      simp only [hk, Nat.zero_add]
      congr 2 <;> omega

/-- The scratch buffer after the digest was stored behind the zeroed lead: its
first `sl` bytes are the digest left-padded with zeros. -/
theorem scratch_padded (t d : List Nat) (sl hl : Nat) (hdl : d.length = hl) (hle : hl ≤ sl)
    (ht : sl ≤ t.length) :
    bytesOf (writeAt (zeroAt t 0 (sl - hl)) (sl - hl) d) 0 sl
      = List.replicate (sl - hl) 0 ++ d := by
  have hz : (zeroAt t 0 (sl - hl)).length = t.length := zeroAt_length _ _ _
  have hsplit : bytesOf (writeAt (zeroAt t 0 (sl - hl)) (sl - hl) d) 0 sl
      = bytesOf (writeAt (zeroAt t 0 (sl - hl)) (sl - hl) d) 0 ((sl - hl) + d.length) := by
    congr 1
    omega
  rw [hsplit, bytesOf_add, Nat.zero_add, bytesOf_writeAt_all _ _ _ (by rw [hz]; omega)]
  congr 1
  apply List.ext_getElem
  · simp [bytesOf_length]
  · intro i h1 h2
    rw [bytesOf_length] at h1
    simp only [bytesOf, List.getElem_map, List.getElem_range, List.getElem_replicate,
      Nat.zero_add]
    rw [getD_writeAt_below _ _ _ _ h1]
    unfold zeroAt
    rw [getD_writeAt_inside _ _ _ _ (Nat.zero_le _) (by simp; omega) (by simp; omega)]
    simp [List.getD_eq_getElem?_getD, List.getElem?_replicate, h1]

/-- After a successful additional-input step, `RANDOM_HASH_gen` goes on as a call
with a null additional input from the state the step left. -/
theorem RANDOM_HASH_gen_after_ainput (H : HashCap σ) (fuel : Nat) (h : RANDOM_HASH σ)
    (a : Option (List Nat)) (mem : Mem) (out olen glen : Nat)
    (hc : h.reseed_cnt < 2 ^ 48) (hst : (gen_ainput H h a).1 = 0) :
    RANDOM_HASH_gen H fuel h a mem out olen glen
      = RANDOM_HASH_gen H fuel (gen_ainput H h a).2 none mem out olen glen := by
  obtain ⟨hfl, -, hcnt, -⟩ := gen_ainput_fields H h a
  unfold RANDOM_HASH_gen
  generalize gen_ainput H h a = ra at hst hfl hcnt
  have hc' : ¬ h.reseed_cnt ≥ 2 ^ 48 := by omega
  simp only [gen_ainput, hst, hfl, hcnt, if_neg hc', ne_eq, not_true_eq_false, if_false]

/-- C25: for an engine state with `hash_len ≤ seed_len ≤ 111` whose buffers have
their declared sizes and hold bytes, over a streaming hash that never fails and
has digests of `hash_len` bytes, the additional-input step of `RANDOM_HASH_gen`
with a non-null input `A` replaces `V[1..1+seed_len]` by the `seed_len`-byte
big-endian representation of `(V + w) mod 2^(8*seed_len)`, where
`w = Hash(0x02 ‖ V ‖ A)` is read big-endian; `RANDOM_HASH_gen` then goes on as
with a null input from that state.  With a null input the step leaves the state
as it is. -/
theorem gen_ainput_adds (H : HashCap σ) (hnf : H.NeverFails) (hst : H.Streaming)
    (h : RANDOM_HASH σ) (A : List Nat) (hd : H.Digest h.hash_len)
    (hle : h.hash_len ≤ h.seed_len) (hsl : h.seed_len ≤ RANDOM_HASH_MAX_SEED_LEN)
    (hv : h.v.length = 1 + RANDOM_HASH_MAX_SEED_LEN)
    (ht : h.t.length = RANDOM_HASH_MAX_SEED_LEN) (hvb : ∀ j, h.v.getD j 0 < 256) :
    ∃ h', gen_ainput H h (some A) = (0, h') ∧
      bytesOf h'.v 1 h.seed_len = beBytes h.seed_len (beNat (bytesOf h.v 1 h.seed_len) +
        beNat (spec_Hash H h.hash (2 :: bytesOf h.v 1 h.seed_len ++ A)).2) ∧
      beNat (bytesOf h'.v 1 h.seed_len) = (beNat (bytesOf h.v 1 h.seed_len) +
        beNat (spec_Hash H h.hash (2 :: bytesOf h.v 1 h.seed_len ++ A)).2)
          % 2 ^ (8 * h.seed_len) ∧
      gen_ainput H h none = (0, h) ∧
      (h.reseed_cnt < 2 ^ 48 → ∀ fuel mem out olen glen,
        RANDOM_HASH_gen H fuel h (some A) mem out olen glen
          = RANDOM_HASH_gen H fuel h' none mem out olen glen) := by
  have hstat : (gen_ainput H h (some A)).1 = 0 := gen_ainput_status H _ hnf rfl h _
  have hd' : (spec_Hash H h.hash (2 :: bytesOf h.v 1 h.seed_len ++ A)).2.length = h.hash_len ∧
      ∀ b ∈ (spec_Hash H h.hash (2 :: bytesOf h.v 1 h.seed_len ++ A)).2, b < 256 :=
    hd (H.update (H.init h.hash).2 (2 :: bytesOf h.v 1 h.seed_len ++ A)).2
  have hv1 : 1 ≤ h.v.length := by omega
  have hval : bytesOf (gen_ainput H h (some A)).2.v 1 h.seed_len
      = beBytes h.seed_len (beNat (bytesOf h.v 1 h.seed_len) +
        beNat (spec_Hash H h.hash (2 :: bytesOf h.v 1 h.seed_len ++ A)).2) := by
    unfold gen_ainput
    simp only [hash_data_spec H hnf hst, ne_eq, not_true_eq_false, if_false,
      Option.getD_none, Option.getD_some, List.nil_append, List.append_nil,
      bytesOf_tag _ _ _ hv1]
    have hg := (gen_add_input_value
      (writeAt (zeroAt h.t 0 (h.seed_len - h.hash_len)) (h.seed_len - h.hash_len)
        (spec_Hash H h.hash (2 :: bytesOf h.v 1 h.seed_len ++ A)).2)
      h.seed_len (h.v.set 0 2) 0 (by rw [List.length_set]; omega) (by decide)
      (fun j hj => ?_) (fun j h1 _ => by rw [getD_set_eq, if_neg (by omega)]; exact hvb j)).2.2
    · rw [hg, bytesOf_set_tag, scratch_padded h.t _ _ _ hd'.1 hle (by omega), beNat_zeros,
        Nat.add_zero]
    · have hpad := scratch_padded h.t (spec_Hash H h.hash (2 :: bytesOf h.v 1 h.seed_len ++ A)).2
        h.seed_len h.hash_len hd'.1 hle (by omega)
      have hmem : (bytesOf (writeAt (zeroAt h.t 0 (h.seed_len - h.hash_len))
          (h.seed_len - h.hash_len)
          (spec_Hash H h.hash (2 :: bytesOf h.v 1 h.seed_len ++ A)).2) 0 h.seed_len).getD j 0
          < 256 := by
        rw [hpad, List.getD_eq_getElem?_getD]
        cases hx : (List.replicate (h.seed_len - h.hash_len) 0 ++
          (spec_Hash H h.hash (2 :: bytesOf h.v 1 h.seed_len ++ A)).2)[j]? with
        | none => simp
        | some x =>
          have hin := List.getElem?_mem hx
          simp only [List.mem_append, List.mem_replicate] at hin
          rcases hin with hin | hin
          · simp [hin.2]
          · exact hd'.2 x hin
      simpa [bytesOf, List.getD_eq_getElem?_getD, List.getElem?_map, List.getElem?_range hj]
        using hmem
  refine ⟨(gen_ainput H h (some A)).2, Prod.ext hstat rfl, hval, ?_, rfl, ?_⟩
  · rw [hval, beNat_beBytes, Nat.pow_mul]
  · intro hc fuel mem out olen glen
    exact RANDOM_HASH_gen_after_ainput H fuel h (some A) mem out olen glen hc hstat

theorem sumCtx_bytes (cnt j : Nat) : (sumCtx cnt).v.getD j 0 < 256 := by
  simp only [sumCtx, RANDOM_HASH_zero, List.getD_eq_getElem?_getD, List.getElem?_replicate]
  split <;> simp

/-- Instance of C25: the step on the context with V = 0 over the hash whose digest
repeats the byte sum of its input, with the additional input `[1, 2, 3]`. -/
theorem gen_ainput_adds_witness :
    ∃ h', gen_ainput sumHash (sumCtx 1) (some [1, 2, 3]) = (0, h') ∧
      bytesOf h'.v 1 55 = beBytes 55 (beNat (bytesOf (sumCtx 1).v 1 55) +
        beNat (spec_Hash sumHash (some 0) (2 :: bytesOf (sumCtx 1).v 1 55 ++ [1, 2, 3])).2) ∧
      beNat (bytesOf h'.v 1 55) = (beNat (bytesOf (sumCtx 1).v 1 55) +
        beNat (spec_Hash sumHash (some 0) (2 :: bytesOf (sumCtx 1).v 1 55 ++ [1, 2, 3])).2)
          % 2 ^ (8 * 55) ∧
      gen_ainput sumHash (sumCtx 1) none = (0, sumCtx 1) ∧
      ((sumCtx 1).reseed_cnt < 2 ^ 48 → ∀ fuel mem out olen glen,
        RANDOM_HASH_gen sumHash fuel (sumCtx 1) (some [1, 2, 3]) mem out olen glen
          = RANDOM_HASH_gen sumHash fuel h' none mem out olen glen) :=
  gen_ainput_adds sumHash sumHash_neverFails sumHash_streaming (sumCtx 1) [1, 2, 3]
    sumHash_digest (by decide) (by decide) rfl rfl (sumCtx_bytes 1)

/-! ## The output stage `hashgen` -/

/-- A byte string is the big-endian representation of its value. -/
theorem beBytes_beNat (l : List Nat) (hl : ∀ b ∈ l, b < 256) :
    beBytes l.length (beNat l) = l := by
  induction l using List.reverseRecOn with
  | nil => rfl
  | append_singleton xs x ih =>
    have hx : x < 256 := hl x (by simp)
    have e1 : (beNat xs * 256 + x) / 256 = beNat xs := by omega
    have e2 : (beNat xs * 256 + x) % 256 = x := by omega
    rw [List.length_append, List.length_singleton, beBytes, beNat_append_one, e1, e2,
      ih (fun b hb => hl b (by simp [hb]))]

theorem beBytes_congr_mod : ∀ (n x y : Nat), x % 256 ^ n = y % 256 ^ n →
    beBytes n x = beBytes n y := by
  intro n
  induction n with
  | zero => intro x y _; rfl
  | succ k ih =>
    intro x y h
    rw [Nat.pow_succ, Nat.mul_comm] at h
    have h1 : x % 256 = y % 256 := by
      have := congrArg (fun z => z % 256) h
      simpa [Nat.mod_mul_right_mod] using this
    have h2 : (x / 256) % 256 ^ k = (y / 256) % 256 ^ k := by
      have := congrArg (fun z => z / 256) h
      simpa [Nat.mod_mul_right_div_self] using this
    rw [beBytes, beBytes, h1, ih _ _ h2]

theorem bytesOf_lt (v : List Nat) (off n : Nat)
    (hv : ∀ j, off ≤ j → j < off + n → v.getD j 0 < 256) : ∀ b ∈ bytesOf v off n, b < 256 := by
  intro b hb
  simp only [bytesOf, List.mem_map, List.mem_range] at hb
  obtain ⟨j, hj, rfl⟩ := hb
  exact hv _ (by omega) (by omega)

/-- The increment loop of `hashgen` on the first `n` bytes of `v`: the big-endian
increment modulo `2^(8n)`; nothing else is touched. -/
theorem hashgen_incr_value :
    ∀ (n : Nat) (v : List Nat), n ≤ v.length → (∀ j, j < n → v.getD j 0 < 256) →
      (hashgen_incr v n).length = v.length ∧
      (∀ j, (hashgen_incr v n).getD j 0 < 256 ∨ (hashgen_incr v n).getD j 0 = v.getD j 0) ∧
      (∀ j, n ≤ j → (hashgen_incr v n).getD j 0 = v.getD j 0) ∧
      bytesOf (hashgen_incr v n) 0 n = beBytes n (beNat (bytesOf v 0 n) + 1) := by
  intro n
  induction n with
  | zero => intro v _ _; exact ⟨rfl, fun _ => Or.inr rfl, fun _ _ => rfl, rfl⟩
  | succ k ih =>
    intro v hlen hv
    have hpre : ∀ x, bytesOf (v.set k x) 0 k = bytesOf v 0 k := fun x =>
      bytesOf_congr _ _ 0 k (fun j _ h2 => by rw [getD_set_eq, if_neg (by omega)])
    have hvk := hv k (Nat.lt_succ_self _)
    rw [hashgen_incr]
    by_cases hb : (v.getD k 0 + 1) % 256 = 0
    · simp only [hb, if_true]
      obtain ⟨r1, r2, r3, r4⟩ := ih (v.set k 0) (by rw [List.length_set]; omega)
        (fun j hj => by rw [getD_set_eq, if_neg (by omega)]; exact hv j (by omega))
      refine ⟨by rw [r1, List.length_set], ?_, ?_, ?_⟩
      · intro j
        rcases r2 j with h1 | h1
        · exact Or.inl h1
        · rw [h1, getD_set_eq]
          split
          · exact Or.inl (by decide)
          · exact Or.inr rfl
      · intro j hj
        rw [r3 j (by omega), getD_set_eq, if_neg (by omega)]
      · rw [bytesOf_succ, r4, r3 (0 + k) (by omega), getD_set_eq, if_pos ⟨by omega, by omega⟩,
          hpre, bytesOf_succ, beNat_append_one, beBytes, Nat.zero_add]
        congr 2 <;> omega
    · simp only [hb, if_false]
      refine ⟨by rw [List.length_set], ?_, ?_, ?_⟩
      · intro j
        rw [getD_set_eq]
        split
        · exact Or.inl (Nat.mod_lt _ (by decide))
        · exact Or.inr rfl
      · intro j hj
        rw [getD_set_eq, if_neg (by omega)]
      · have hrt := beBytes_beNat (bytesOf v 0 k)
          (bytesOf_lt v 0 k (fun j _ h2 => hv j (by omega)))
        rw [bytesOf_length] at hrt
        rw [bytesOf_succ, hpre, getD_set_eq, if_pos ⟨by omega, by omega⟩, bytesOf_succ,
          beNat_append_one, beBytes, Nat.zero_add]
        have e1 : (beNat (bytesOf v 0 k) * 256 + v.getD k 0 + 1) / 256
            = beNat (bytesOf v 0 k) := by omega
        have e2 : (beNat (bytesOf v 0 k) * 256 + v.getD k 0 + 1) % 256
            = (v.getD k 0 + 1) % 256 := by omega
        rw [e1, e2, hrt]

/-- The loop of `hashgen` with `n` blocks to go and the working value holding the
big-endian integer `w`: it returns, with status 0, having hashed the `n` values
`w, w+1, ...` and stored the first `i` bytes of their digests from `data` on. -/
theorem hashgen_loop_spec (H : HashCap σ) (hnf : H.NeverFails) (hlen vlen : Nat)
    (hd : H.Digest hlen) (h64 : hlen ≤ HASH_MAX_DIGEST_LEN) :
    ∀ (n fuel : Nat) (hash : Option σ) (v t : List Nat) (mem : Mem) (data : Nat) (i : Int)
      (w : Nat),
      i.toNat ≤ n * hlen → n * hlen < i.toNat + hlen → n < fuel →
      t.length = HASH_MAX_DIGEST_LEN → vlen ≤ v.length → (∀ j, j < vlen → v.getD j 0 < 256) →
      bytesOf v 0 vlen = beBytes vlen w →
      ∃ v' mem', hashgen_loop H hlen vlen fuel hash v t mem data i
          = some (0, (spec_Hashgen_blocks H vlen n w hash).1, v', mem') ∧
        readMem mem' data i.toNat = (spec_Hashgen_blocks H vlen n w hash).2.take i.toNat := by
  obtain ⟨-, -, hi0, hu0, hf0⟩ := hnf
  intro n
  induction n with
  | zero =>
    intro fuel hash v t mem data i w h1 _ hf _ _ _ _
    obtain ⟨f, rfl⟩ : ∃ f, fuel = f + 1 := ⟨fuel - 1, by omega⟩
    refine ⟨v, mem, ?_, ?_⟩
    · rw [hashgen_loop, if_neg (by omega)]
      rfl
    · have : i.toNat = 0 := by omega
      rw [this]
      rfl
  | succ k ih =>
    intro fuel hash v t mem data i w h1 h2 hf ht hvl hvb hw
    obtain ⟨f, rfl⟩ : ∃ f, fuel = f + 1 := ⟨fuel - 1, by omega⟩
    rw [Nat.succ_mul] at h1 h2
    have hi : i > 0 := by omega
    obtain ⟨q1, q2, -, q4⟩ := hashgen_incr_value vlen v hvl hvb
    have hw' : bytesOf (hashgen_incr v vlen) 0 vlen = beBytes vlen (w + 1) := by
      rw [q4, hw]
      apply beBytes_congr_mod
      rw [beNat_beBytes, Nat.mod_add_mod]
    have hdl : (spec_Hash H hash (beBytes vlen w)).2.length = hlen ∧
        ∀ b ∈ (spec_Hash H hash (beBytes vlen w)).2, b < 256 :=
      hd (H.update (H.init hash).2 (beBytes vlen w)).2
    have hfit : 0 + (spec_Hash H hash (beBytes vlen w)).2.length ≤ t.length := by
      rw [hdl.1, ht]; omega
    obtain ⟨v', mem', e, hr⟩ := ih f (spec_Hash H hash (beBytes vlen w)).1
      (hashgen_incr v vlen) (writeAt t 0 (spec_Hash H hash (beBytes vlen w)).2)
      (memcpy mem data (bytesOf (writeAt t 0 (spec_Hash H hash (beBytes vlen w)).2) 0
        (if (hlen : Int) < i then hlen else i.toNat)))
      (data + hlen) (i - hlen) (w + 1) (by omega) (by omega) (by omega)
      (by rw [writeAt_length]; exact ht) (by rw [q1]; exact hvl)
      (fun j hj => by
        rcases q2 j with h3 | h3
        · exact h3
        · rw [h3]; exact hvb j hj) hw'
    have hfr := hashgen_loop_frame H hlen vlen f _ _ _ _ _ _ _ e
    refine ⟨v', mem', ?_, ?_⟩
    · rw [hashgen_loop, if_pos hi]
      simp only [hi0, hu0, hf0, ne_eq, not_true_eq_false, if_false, hw]
      exact e
    · simp only [] at hfr
      have hol : (if (hlen : Int) < i then hlen else i.toNat)
          ≤ (spec_Hash H hash (beBytes vlen w)).2.length := by
        rw [hdl.1]; split <;> omega
      rw [bytesOf_writeAt _ _ _ _ hfit hol] at hfr
      simp only [spec_Hashgen_blocks]
      rw [List.take_append_eq_append_take, hdl.1]
      by_cases hlt : (hlen : Int) < i
      · rw [if_pos hlt] at hfr
        have hm : i.toNat = hlen + (i - (hlen : Int)).toNat := by omega
        have e2 : i.toNat - hlen = (i - (hlen : Int)).toNat := by omega
        rw [e2, ← hr]
        conv_lhs => rw [hm]
        rw [readMem_add, List.take_of_length_le (by omega)]
        congr 1
        rw [readMem_congr mem' _ data hlen (fun a _ h4 => hfr a (Or.inl h4))]
        have := readMem_memcpy mem data (List.take hlen (spec_Hash H hash (beBytes vlen w)).2)
        rw [List.length_take, hdl.1, Nat.min_self, List.take_of_length_le (by omega)] at this
        rw [List.take_of_length_le (by omega)]
        exact this
      · rw [if_neg hlt] at hfr
        have e2 : i.toNat - hlen = 0 := by omega
        rw [e2, List.take_zero, List.append_nil,
          readMem_congr mem' _ data i.toNat (fun a _ h4 => hfr a (Or.inl (by omega)))]
        have := readMem_memcpy mem data (List.take i.toNat (spec_Hash H hash (beBytes vlen w)).2)
        rw [List.length_take, hdl.1, Nat.min_eq_left (by omega)] at this
        exact this

theorem gen_add_input_keeps (ht : List Nat) :
    ∀ (i : Nat) (v : List Nat) (t : Nat), (gen_add_input ht i v t).length = v.length ∧
      ((∀ j, v.getD j 0 < 256) → ∀ j, (gen_add_input ht i v t).getD j 0 < 256) := by
  intro i
  induction i with
  | zero => intro v t; exact ⟨rfl, fun h => h⟩
  | succ k ih =>
    intro v t
    rw [gen_add_input]
    refine ⟨by rw [(ih _ _).1, List.length_set], fun hv => (ih _ _).2 (fun j => ?_)⟩
    rw [getD_set_eq]
    split
    · exact Nat.mod_lt _ (by decide)
    · exact hv j

/-- The additional-input step keeps the sizes of `v` and `t`, and `v` a byte
array. -/
theorem gen_ainput_keeps (H : HashCap σ) (h : RANDOM_HASH σ) (a : Option (List Nat)) :
    (gen_ainput H h a).2.v.length = h.v.length ∧ (gen_ainput H h a).2.t.length = h.t.length ∧
    ((∀ j, h.v.getD j 0 < 256) → ∀ j, (gen_ainput H h a).2.v.getD j 0 < 256) := by
  cases a with
  | none => exact ⟨rfl, rfl, fun hv => hv⟩
  | some A =>
    have htag : (∀ j, h.v.getD j 0 < 256) → ∀ j, (h.v.set 0 2).getD j 0 < 256 := by
      intro hv j
      rw [getD_set_eq]
      split
      · decide
      · exact hv j
    have htl : ∀ o : Option (List Nat), (match o with
        | some d => writeAt (zeroAt h.t 0 (h.seed_len - h.hash_len))
            (h.seed_len - h.hash_len) d
        | none => zeroAt h.t 0 (h.seed_len - h.hash_len)).length = h.t.length := by
      intro o
      cases o with
      | none => exact zeroAt_length _ _ _
      | some d => simp only []; rw [writeAt_length, zeroAt_length]
    unfold gen_ainput
    simp only []
    split_ifs
    · exact ⟨List.length_set _ _ _, htl _, htag⟩
    · exact ⟨by rw [(gen_add_input_keeps _ _ _ _).1, List.length_set], htl _,
        fun hv => (gen_add_input_keeps _ _ _ _).2 (htag hv)⟩

/-- With a hash that never fails, `hash_data` without leading block and with
slot 0 only computes the digest of slot 0. -/
theorem hash_data_single (H : HashCap σ) (hnf : H.NeverFails) (hash : Option σ)
    (d0 : List Nat) :
    hash_data H hash none d0 none none
      = (0, (spec_Hash H hash d0).1, some (spec_Hash H hash d0).2) := by
  obtain ⟨-, -, hi, hu, hf⟩ := hnf
  simp [hash_data, spec_Hash, hi, hu, hf]

/-- The working value after the loop of `hashgen`: with `n` blocks to go from the
big-endian integer `w`, the scratch copy ends as `w + n` modulo `2^(8*vlen)`. -/
theorem hashgen_loop_work (H : HashCap σ) (hnf : H.NeverFails) (hlen vlen : Nat) :
    ∀ (n fuel : Nat) (hash : Option σ) (v t : List Nat) (mem : Mem) (data : Nat) (i : Int)
      (w : Nat) (r : Int × Option σ × List Nat × Mem),
      i.toNat ≤ n * hlen → n * hlen < i.toNat + hlen → vlen ≤ v.length →
      (∀ j, j < vlen → v.getD j 0 < 256) → bytesOf v 0 vlen = beBytes vlen w →
      hashgen_loop H hlen vlen fuel hash v t mem data i = some r →
      bytesOf r.2.2.1 0 vlen = beBytes vlen (w + n) := by
  obtain ⟨-, -, hi0, hu0, hf0⟩ := hnf
  intro n
  induction n with
  | zero =>
    intro fuel hash v t mem data i w r h1 _ _ _ hw hr
    cases fuel with
    | zero => simp [hashgen_loop] at hr
    | succ f =>
      rw [hashgen_loop, if_neg (by omega)] at hr
      simp only [Option.some.injEq] at hr
      rw [← hr]
      exact hw
  | succ k ih =>
    intro fuel hash v t mem data i w r h1 h2 hvl hvb hw hr
    cases fuel with
    | zero => simp [hashgen_loop] at hr
    | succ f =>
      rw [Nat.succ_mul] at h1 h2
      have hi : i > 0 := by omega
      obtain ⟨q1, q2, -, q4⟩ := hashgen_incr_value vlen v hvl hvb
      have hw' : bytesOf (hashgen_incr v vlen) 0 vlen = beBytes vlen (w + 1) := by
        rw [q4, hw]
        apply beBytes_congr_mod
        rw [beNat_beBytes, Nat.mod_add_mod]
      rw [hashgen_loop, if_pos hi] at hr
      simp only [hi0, hu0, hf0, ne_eq, not_true_eq_false, if_false] at hr
      have := ih f _ _ _ _ _ _ (w + 1) r (by omega) (by omega) (by rw [q1]; exact hvl)
        (fun j hj => by
          rcases q2 j with h3 | h3
          · exact h3
          · rw [h3]; exact hvb j hj) hw' hr
      rw [this]
      congr 1
      omega

/-- C26: for an engine state below the reseed limit whose buffers have their
declared sizes and hold bytes, over a hash that never fails and has digests of
`hash_len` bytes (`1 ≤ hash_len ≤ 64`), a call of `RANDOM_HASH_gen` with requested
length `n` succeeds with produced length `m = min(n, 2^16)`.  With `g` the state
after the additional-input step and `W = g.V[1..1+seed_len]`, the output stage is
`hashgen` run on a copy of `W`: it computes exactly `ceil(m / hash_len)` hashes,
of `W, W+1, ...` (big-endian increments modulo `2^(8*seed_len)`), the `m` bytes at
`out` are the first `m` bytes of `Hash(W) ‖ Hash(W+1) ‖ ...`, nothing is stored
outside these `m` bytes.  The output stage has not modified V: the hash computed
after it is `Hash(0x03 ‖ W)` with the same `W`, its digest is stored in the
scratch buffer `t'` that `hashgen` left (the increments went to `t'`, which ends as
`W + ceil(m / hash_len)`), and the final update computes the new V
from `g.V` (with the tag byte 3), that digest, `C` and the counter. -/
theorem RANDOM_HASH_gen_output (H : HashCap σ) (hnf : H.NeverFails) (fuel : Nat)
    (h g : RANDOM_HASH σ) (ainput : Option (List Nat)) (mem : Mem) (out n glen : Nat)
    (hg : gen_ainput H h ainput = (0, g))
    (hd : H.Digest h.hash_len) (h1 : 1 ≤ h.hash_len) (h64 : h.hash_len ≤ HASH_MAX_DIGEST_LEN)
    (hsl : h.seed_len ≤ RANDOM_HASH_MAX_SEED_LEN)
    (hv : h.v.length = 1 + RANDOM_HASH_MAX_SEED_LEN)
    (ht : h.t.length = RANDOM_HASH_MAX_SEED_LEN)
    (hvb : ∀ j, h.v.getD j 0 < 256) (hc : h.reseed_cnt < 2 ^ 48)
    (hf : min n (2 ^ 16) < fuel) :
    ∃ h' mem' t' hashG tH,
      RANDOM_HASH_gen H fuel h ainput mem out n glen = some (0, h', mem', min n (2 ^ 16)) ∧
      hashG = (spec_Hashgen_blocks H h.seed_len
        ((min n (2 ^ 16) + h.hash_len - 1) / h.hash_len)
        (beNat (bytesOf g.v 1 h.seed_len)) g.hash).1 ∧
      hashgen H fuel g.hash h.hash_len (writeAt g.t 0 (bytesOf g.v 1 h.seed_len)) h.seed_len
          mem out (min n (2 ^ 16))
        = some (0, hashG, t', mem') ∧
      readMem mem' out (min n (2 ^ 16)) = (spec_Hashgen_blocks H h.seed_len
        ((min n (2 ^ 16) + h.hash_len - 1) / h.hash_len)
        (beNat (bytesOf g.v 1 h.seed_len)) g.hash).2.take (min n (2 ^ 16)) ∧
      (∀ a, a < out ∨ out + min n (2 ^ 16) ≤ a → mem' a = mem a) ∧
      bytesOf t' 0 h.seed_len = beBytes h.seed_len (beNat (bytesOf g.v 1 h.seed_len)
        + (min n (2 ^ 16) + h.hash_len - 1) / h.hash_len) ∧
      hash_data H hashG none (bytesOf (g.v.set 0 3) 0 (h.seed_len + 1)) none none
        = (0, (spec_Hash H hashG (3 :: bytesOf g.v 1 h.seed_len)).1,
            some (spec_Hash H hashG (3 :: bytesOf g.v 1 h.seed_len)).2) ∧
      tH = writeAt (zeroAt t' 0 (h.seed_len - h.hash_len)) (h.seed_len - h.hash_len)
        (spec_Hash H hashG (3 :: bytesOf g.v 1 h.seed_len)).2 ∧
      h'.c = h.c ∧ h'.hash_len = h.hash_len ∧ h'.seed_len = h.seed_len ∧
      h'.v = gen_add_rest h.c tH
        (gen_add_cnt h.seed_len h.reseed_cnt h.c tH 4 h.seed_len (g.v.set 0 3) 0).2.2
        (gen_add_cnt h.seed_len h.reseed_cnt h.c tH 4 h.seed_len (g.v.set 0 3) 0).1
        (gen_add_cnt h.seed_len h.reseed_cnt h.c tH 4 h.seed_len (g.v.set 0 3) 0).2.1 := by
  have hg2 : (gen_ainput H h ainput).2 = g := by rw [hg]
  obtain ⟨f1, f2, f3, f4⟩ := gen_ainput_fields H h ainput
  obtain ⟨k1, k2, k3⟩ := gen_ainput_keeps H h ainput
  rw [hg2] at f1 f2 f3 f4 k1 k2 k3
  have hgb := k3 hvb
  have hmin : (if n > 2 ^ 16 then 2 ^ 16 else n) = min n (2 ^ 16) := by
    split_ifs <;> omega
  have hmod : h.hash_len % 2 ^ 16 = h.hash_len :=
    Nat.mod_eq_of_lt (by unfold HASH_MAX_DIGEST_LEN at h64; omega)
  have hWl : (bytesOf g.v 1 h.seed_len).length = h.seed_len := bytesOf_length _ _ _
  have hcopy : bytesOf (writeAt g.t 0 (bytesOf g.v 1 h.seed_len)) 0 h.seed_len
      = bytesOf g.v 1 h.seed_len := by
    have := bytesOf_writeAt_all (bytesOf g.v 1 h.seed_len) g.t 0 (by rw [hWl, k2, ht]; omega)
    rw [hWl] at this
    exact this
  have hrt : bytesOf g.v 1 h.seed_len
      = beBytes h.seed_len (beNat (bytesOf g.v 1 h.seed_len)) := by
    have := beBytes_beNat (bytesOf g.v 1 h.seed_len) (bytesOf_lt _ _ _ (fun j _ _ => hgb j))
    rw [hWl] at this
    exact this.symm
  have hcb : ∀ j, j < h.seed_len →
      (writeAt g.t 0 (bytesOf g.v 1 h.seed_len)).getD j 0 < 256 := by
    intro j hj
    rw [getD_writeAt_inside _ _ _ _ (Nat.zero_le _) (by rw [hWl]; omega)
      (by rw [hWl, k2, ht]; omega)]
    simp only [bytesOf, List.getD_eq_getElem?_getD, List.getElem?_map, Nat.sub_zero,
      List.getElem?_range hj, Option.map_some', Option.getD_some]
    have := hgb (1 + j)
    rwa [List.getD_eq_getElem?_getD] at this
  obtain ⟨c1, c2, c3⟩ := ceil_blocks (min n (2 ^ 16)) h.hash_len h1
  obtain ⟨v', mem', e, hr⟩ := hashgen_loop_spec H hnf h.hash_len h.seed_len hd h64
    ((min n (2 ^ 16) + h.hash_len - 1) / h.hash_len) fuel g.hash
    (writeAt g.t 0 (bytesOf g.v 1 h.seed_len)) (List.replicate HASH_MAX_DIGEST_LEN 0) mem out
    (Int.ofNat (min n (2 ^ 16))) (beNat (bytesOf g.v 1 h.seed_len))
    c1 c2 (by omega) (by simp)
    (by rw [writeAt_length, k2, ht]; exact hsl) hcb (by rw [hcopy]; exact hrt)
  have eh : hashgen H fuel g.hash h.hash_len (writeAt g.t 0 (bytesOf g.v 1 h.seed_len))
      h.seed_len mem out (min n (2 ^ 16))
      = some (0, (spec_Hashgen_blocks H h.seed_len
          ((min n (2 ^ 16) + h.hash_len - 1) / h.hash_len)
          (beNat (bytesOf g.v 1 h.seed_len)) g.hash).1, v', mem') := e
  have hfr := hashgen_frame H _ _ _ _ _ _ _ _ _ eh
  have hwork := hashgen_loop_work H hnf h.hash_len h.seed_len
    ((min n (2 ^ 16) + h.hash_len - 1) / h.hash_len) fuel g.hash
    (writeAt g.t 0 (bytesOf g.v 1 h.seed_len)) (List.replicate HASH_MAX_DIGEST_LEN 0) mem out
    (Int.ofNat (min n (2 ^ 16))) (beNat (bytesOf g.v 1 h.seed_len)) _
    c1 c2 (by rw [writeAt_length, k2, ht]; exact hsl) hcb (by rw [hcopy]; exact hrt) e
  have htag := bytesOf_tag g.v 3 h.seed_len (show 1 ≤ g.v.length by rw [k1, hv]; omega)
  have hgen : ∃ h' tH, RANDOM_HASH_gen H fuel h ainput mem out n glen
        = some (0, h', mem', min n (2 ^ 16)) ∧
      tH = writeAt (zeroAt v' 0 (h.seed_len - h.hash_len)) (h.seed_len - h.hash_len)
        (spec_Hash H (spec_Hashgen_blocks H h.seed_len
          ((min n (2 ^ 16) + h.hash_len - 1) / h.hash_len)
          (beNat (bytesOf g.v 1 h.seed_len)) g.hash).1 (3 :: bytesOf g.v 1 h.seed_len)).2 ∧
      h'.c = h.c ∧ h'.hash_len = h.hash_len ∧ h'.seed_len = h.seed_len ∧
      h'.v = gen_add_rest h.c tH
        (gen_add_cnt h.seed_len h.reseed_cnt h.c tH 4 h.seed_len (g.v.set 0 3) 0).2.2
        (gen_add_cnt h.seed_len h.reseed_cnt h.c tH 4 h.seed_len (g.v.set 0 3) 0).1
        (gen_add_cnt h.seed_len h.reseed_cnt h.c tH 4 h.seed_len (g.v.set 0 3) 0).2.1 := by
    unfold RANDOM_HASH_gen
    simp only [hg, ge_iff_le, not_le.mpr hc, if_false, ne_eq, not_true_eq_false, hmin, f1, f2,
      f3, f4, hmod, eh, hash_data_single H hnf, htag]
    exact ⟨_, _, rfl, rfl, rfl, rfl, rfl, rfl⟩
  obtain ⟨h', tH, e1, e2, e3, e4, e5, e6⟩ := hgen
  refine ⟨h', mem', v', _, tH, e1, rfl, eh, hr, hfr, hwork, ?_, e2, e3, e4, e5, e6⟩
  rw [htag]
  exact hash_data_single H hnf _ _

/-- Instance of C26: 40 bytes requested from the context with V = 0 over the hash
whose digest repeats the byte sum of its input, with a null additional input:
two hashes are computed and the second block is cut to 8 bytes. -/
theorem RANDOM_HASH_gen_output_witness :
    ∃ h' mem' t' hashG tH,
      RANDOM_HASH_gen sumHash 100 (sumCtx 1) none (fun _ => 0) 0 40 0
        = some (0, h', mem', min 40 (2 ^ 16)) ∧
      hashG = (spec_Hashgen_blocks sumHash 55 ((min 40 (2 ^ 16) + 32 - 1) / 32)
        (beNat (bytesOf (sumCtx 1).v 1 55)) (some 0)).1 ∧
      hashgen sumHash 100 (some 0) 32 (writeAt (sumCtx 1).t 0 (bytesOf (sumCtx 1).v 1 55)) 55
          (fun _ => 0) 0 (min 40 (2 ^ 16))
        = some (0, hashG, t', mem') ∧
      readMem mem' 0 (min 40 (2 ^ 16)) = (spec_Hashgen_blocks sumHash 55
        ((min 40 (2 ^ 16) + 32 - 1) / 32)
        (beNat (bytesOf (sumCtx 1).v 1 55)) (some 0)).2.take (min 40 (2 ^ 16)) ∧
      (∀ a, a < 0 ∨ 0 + min 40 (2 ^ 16) ≤ a → mem' a = 0) ∧
      bytesOf t' 0 55 = beBytes 55 (beNat (bytesOf (sumCtx 1).v 1 55)
        + (min 40 (2 ^ 16) + 32 - 1) / 32) ∧
      hash_data sumHash hashG none (bytesOf ((sumCtx 1).v.set 0 3) 0 (55 + 1)) none none
        = (0, (spec_Hash sumHash hashG (3 :: bytesOf (sumCtx 1).v 1 55)).1,
            some (spec_Hash sumHash hashG (3 :: bytesOf (sumCtx 1).v 1 55)).2) ∧
      tH = writeAt (zeroAt t' 0 (55 - 32)) (55 - 32)
        (spec_Hash sumHash hashG (3 :: bytesOf (sumCtx 1).v 1 55)).2 ∧
      h'.c = (sumCtx 1).c ∧ h'.hash_len = 32 ∧ h'.seed_len = 55 ∧
      h'.v = gen_add_rest (sumCtx 1).c tH
        (gen_add_cnt 55 1 (sumCtx 1).c tH 4 55 ((sumCtx 1).v.set 0 3) 0).2.2
        (gen_add_cnt 55 1 (sumCtx 1).c tH 4 55 ((sumCtx 1).v.set 0 3) 0).1
        (gen_add_cnt 55 1 (sumCtx 1).c tH 4 55 ((sumCtx 1).v.set 0 3) 0).2.1 :=
  RANDOM_HASH_gen_output sumHash sumHash_neverFails 100 (sumCtx 1) (sumCtx 1) none (fun _ => 0)
    0 40 0 rfl sumHash_digest (by decide) (by decide) (by decide) rfl rfl (sumCtx_bytes 1)
    (by decide) (by decide)

/-! ## The final update of V and the reseed counter -/

set_option maxRecDepth 8000 in
/-- C23 (the code departs from the claim): on the context with V = C = 0 and
reseed counter 256, over the hash whose digest repeats the byte sum of its
input, a call of `RANDOM_HASH_gen` with a null additional input succeeds and
leaves `V_new = (V' + C + H + 2 * 256) mod 2^(8*seed_len)`, `H = Hash(0x03 ‖ V')`:
the second counter byte is added twice, so `V_new` is not
`(V' + C + H + rc) mod 2^(8*seed_len)`. -/
theorem RANDOM_HASH_gen_counter_full :
    ∃ h', RANDOM_HASH_gen sumHash 1 (sumCtx 256) none (fun _ => 0) 0 0 0
        = some (0, h', fun _ => 0, 0) ∧
      h'.reseed_cnt = 257 ∧
      beNat (bytesOf h'.v 1 55)
        = (beNat (bytesOf (sumCtx 256).v 1 55) + beNat (bytesOf (sumCtx 256).c 0 55)
            + beNat (spec_Hash sumHash (some 0) (3 :: bytesOf (sumCtx 256).v 1 55)).2
            + 2 * 256) % 2 ^ (8 * 55) ∧
      beNat (bytesOf h'.v 1 55)
        ≠ (beNat (bytesOf (sumCtx 256).v 1 55) + beNat (bytesOf (sumCtx 256).c 0 55)
            + beNat (spec_Hash sumHash (some 0) (3 :: bytesOf (sumCtx 256).v 1 55)).2
            + 256) % 2 ^ (8 * 55) :=
  ⟨_, rfl, rfl, by decide, by decide⟩

set_option maxRecDepth 8000 in
/-- C24 (the code departs from the claim): on the context with V = C = 0, over
the hash whose digest repeats the byte sum of its input, with a null additional
input.  With reseed counter 2^16 the call leaves
`V_new = (V' + C + H + 2 * 2^16) mod 2^(8*seed_len)`, the third counter byte being
added twice, not `(V' + C + H + rc mod 2^32) mod 2^(8*seed_len)`; with reseed
counter 2^32 it leaves `V_new = (V' + C + H + 2^32) mod 2^(8*seed_len)`, the fifth
counter byte reaching V, although `rc mod 2^32 = 0`. -/
theorem RANDOM_HASH_gen_counter_low_bytes :
    (∃ h', RANDOM_HASH_gen sumHash 1 (sumCtx (2 ^ 16)) none (fun _ => 0) 0 0 0
        = some (0, h', fun _ => 0, 0) ∧
      beNat (bytesOf h'.v 1 55)
        = (beNat (bytesOf (sumCtx (2 ^ 16)).v 1 55) + beNat (bytesOf (sumCtx (2 ^ 16)).c 0 55)
            + beNat (spec_Hash sumHash (some 0) (3 :: bytesOf (sumCtx (2 ^ 16)).v 1 55)).2
            + 2 * 2 ^ 16) % 2 ^ (8 * 55) ∧
      beNat (bytesOf h'.v 1 55)
        ≠ (beNat (bytesOf (sumCtx (2 ^ 16)).v 1 55) + beNat (bytesOf (sumCtx (2 ^ 16)).c 0 55)
            + beNat (spec_Hash sumHash (some 0) (3 :: bytesOf (sumCtx (2 ^ 16)).v 1 55)).2
            + 2 ^ 16 % 2 ^ 32) % 2 ^ (8 * 55)) ∧
    (∃ h', RANDOM_HASH_gen sumHash 1 (sumCtx (2 ^ 32)) none (fun _ => 0) 0 0 0
        = some (0, h', fun _ => 0, 0) ∧
      beNat (bytesOf h'.v 1 55)
        = (beNat (bytesOf (sumCtx (2 ^ 32)).v 1 55) + beNat (bytesOf (sumCtx (2 ^ 32)).c 0 55)
            + beNat (spec_Hash sumHash (some 0) (3 :: bytesOf (sumCtx (2 ^ 32)).v 1 55)).2
            + 2 ^ 32) % 2 ^ (8 * 55) ∧
      beNat (bytesOf h'.v 1 55)
        ≠ (beNat (bytesOf (sumCtx (2 ^ 32)).v 1 55) + beNat (bytesOf (sumCtx (2 ^ 32)).c 0 55)
            + beNat (spec_Hash sumHash (some 0) (3 :: bytesOf (sumCtx (2 ^ 32)).v 1 55)).2
            + 2 ^ 32 % 2 ^ 32) % 2 ^ (8 * 55)) :=
  ⟨⟨_, rfl, by decide, by decide⟩, ⟨_, rfl, by decide, by decide⟩⟩

/-! ## What `RANDOM_HASH_gen` leaves alone -/

/-- C32: `RANDOM_HASH_gen` never modifies `c`, `seed_len` or `hash_len`: whatever
the state, the additional input, the request and the outcome of the hash calls,
the context a call returns holds the same `c` (hence the same `C[0..seed_len)`),
`seed_len` and `hash_len`; and with `hash_len ≥ 1` and more fuel than the
capped request the call does return. -/
theorem RANDOM_HASH_gen_keeps_c (H : HashCap σ) (fuel : Nat) (h : RANDOM_HASH σ)
    (ainput : Option (List Nat)) (mem : Mem) (out olen glen : Nat) :
    (∀ x, RANDOM_HASH_gen H fuel h ainput mem out olen glen = some x →
      x.2.1.c = h.c ∧ bytesOf x.2.1.c 0 h.seed_len = bytesOf h.c 0 h.seed_len ∧
      x.2.1.seed_len = h.seed_len ∧ x.2.1.hash_len = h.hash_len) ∧
    (1 ≤ h.hash_len % 2 ^ 16 → min olen (2 ^ 16) < fuel →
      ∃ x, RANDOM_HASH_gen H fuel h ainput mem out olen glen = some x) := by
  obtain ⟨fhl, fsl, -, fc⟩ := gen_ainput_fields H h ainput
  constructor
  · intro x hx
    have hl := RANDOM_HASH_gen_lens H fuel h ainput mem out olen glen x hx
    have hc : x.2.1.c = h.c := by
      unfold RANDOM_HASH_gen at hx
      simp only [] at hx
      by_cases hcnt : h.reseed_cnt ≥ 2 ^ 48
      · rw [if_pos hcnt] at hx
        simp only [Option.some.injEq] at hx
        rw [← hx]
      · rw [if_neg hcnt] at hx
        by_cases hra : (gen_ainput H h ainput).1 ≠ 0
        · rw [if_pos hra] at hx
          simp only [Option.some.injEq] at hx
          rw [← hx]
          exact fc
        · rw [if_neg hra] at hx
          split at hx
          · simp at hx
          · split_ifs at hx <;> simp only [Option.some.injEq] at hx <;> rw [← hx] <;>
              exact fc
    exact ⟨hc, by rw [hc], hl.2, hl.1⟩
  · intro h1 hf
    have hmin : (if olen > 2 ^ 16 then 2 ^ 16 else olen) = min olen (2 ^ 16) := by
      split_ifs <;> omega
    unfold RANDOM_HASH_gen
    simp only [hmin]
    by_cases hcnt : h.reseed_cnt ≥ 2 ^ 48
    · rw [if_pos hcnt]
      exact ⟨_, rfl⟩
    · rw [if_neg hcnt]
      by_cases hra : (gen_ainput H h ainput).1 ≠ 0
      · rw [if_pos hra]
        exact ⟨_, rfl⟩
      · rw [if_neg hra]
        split
        · rename_i heq
          exact absurd heq (hashgen_ne_none H _ _ _ _ _ _ _ _ (by rw [fhl]; exact h1) hf)
        · split_ifs <;> exact ⟨_, rfl⟩

/-! ## The status of `hash_data` -/

set_option maxHeartbeats 1000000 in
/-- C39 (the code departs from the claim): `hash_data` returns a non-zero status
only when one of the hash calls it made returned non-zero, and with a null slot 1
it returns non-zero whenever one of them did.  With a non-null slot 1 a status 0
only shows that every call other than the update with slot 0 returned 0: over a
hash whose update rejects the byte 0xFF with status 5, with slot 0 = `[0xFF]` and
an empty non-null slot 1, the calls return 0, 0, 5, 0, 0 and `hash_data`
returns 0. -/
theorem hash_data_status_calls (H : HashCap σ) (hash : Option σ) (pre : Option (List Nat))
    (d0 : List Nat) (d1 d2 : Option (List Nat)) :
    ((hash_data H hash pre d0 d1 d2).1 ≠ 0 →
      ∃ s ∈ hash_data_calls H hash pre d0 d1 d2, s ≠ 0) ∧
    (d1 = none → (∃ s ∈ hash_data_calls H hash pre d0 d1 d2, s ≠ 0) →
      (hash_data H hash pre d0 d1 d2).1 ≠ 0) ∧
    ((hash_data H hash pre d0 d1 d2).1 = 0 →
      ∀ s ∈ hash_data_calls H hash pre d0 d1 d2,
        s = 0 ∨ (d1 ≠ none ∧ s = (H.update (match pre with
          | some p => (H.update (H.init hash).2 p).2
          | none => (H.init hash).2) d0).1)) ∧
    (hash_data_calls pickyHash (some ()) (some [1]) [255] (some []) none = [0, 0, 5, 0, 0] ∧
      (hash_data pickyHash (some ()) (some [1]) [255] (some []) none).1 = 0) := by
  refine ⟨?_, ?_, ?_, by decide, by decide⟩
  · unfold hash_data hash_data_calls
    cases pre <;> cases d1 <;> cases d2 <;> simp only [] <;> split_ifs <;> simp_all
  · intro h1
    subst h1
    unfold hash_data hash_data_calls
    cases pre <;> cases d2 <;> simp only [] <;> split_ifs <;> simp_all
  · unfold hash_data hash_data_calls
    cases pre <;> cases d1 <;> cases d2 <;> simp only [] <;> split_ifs <;> simp_all

/-! ## The size of the entropy scratch buffer -/

/-- C33 (amended): for every registry variant, the entropy scratch buffer that
`random_new` leaves in the object is the block returned by the call
`malloc(bits * 32 / 8)`, that is `bits * 4` bytes: 512, 768 and 1024 bytes for
128, 192 and 256 security bits. -/
theorem random_new_entropy_size (H : HashCap σ) (malloc : Nat → Option Mem)
    (src : List (ENTROPY_METH ε)) (m : RANDOM_METH σ) (slot : Option (RANDOM σ ε))
    (r : RANDOM σ ε) (hm : m ∈ random_meth H)
    (hr : random_new malloc src m slot = (0, some r)) :
    malloc (m.bits * 32 / 8) = some r.entropy ∧ m.bits * 32 / 8 = m.bits * 4 ∧
    ((m.bits = 128 ∧ m.bits * 32 / 8 = 512) ∨ (m.bits = 192 ∧ m.bits * 32 / 8 = 768) ∨
      (m.bits = 256 ∧ m.bits * 32 / 8 = 1024)) := by
  refine ⟨?_, by omega, ?_⟩
  · unfold random_new at hr
    split at hr
    · simp [RANDOM_ERR_ALLOC] at hr
    · split at hr
      · rename_i e h1 h2
        simp only [Prod.mk.injEq, Option.some.injEq, true_and] at hr
        rw [h2, ← hr]
      · simp [RANDOM_ERR_ALLOC] at hr
  · rcases (random_meth_engine H m hm).2.2.2.2.1 with hb | hb | hb <;> rw [hb] <;> simp

/-- C33 (counterexample): with an allocator that fills each block with the size
asked for, the generator created for Hash_DRBG SHA1 (128 security bits) holds a
scratch buffer of 512 bytes, not the `128 / 8 * 4 = 64` bytes of the claim. -/
theorem random_new_entropy_size_counterexample :
    ∃ r, RANDOM_new_by_id constHash sizeMalloc (some [goodSource]) 1 0 (some none)
        = (0, some (some r)) ∧
      r.meth.bits = 128 ∧ r.entropy 0 = 512 ∧ r.meth.bits / 8 * 4 = 64 :=
  ⟨_, rfl, rfl, rfl, rfl⟩

/-- Instance of C33: the generator created for Hash_DRBG SHA256 by an allocator
that fills each block with the size asked for. -/
theorem random_new_entropy_size_witness :
    sizeMalloc ((sampleMeth constHash).bits * 32 / 8)
      = some (fun _ => 1024) ∧
    (sampleMeth constHash).bits * 32 / 8 = (sampleMeth constHash).bits * 4 ∧
    (((sampleMeth constHash).bits = 128 ∧ (sampleMeth constHash).bits * 32 / 8 = 512) ∨
      ((sampleMeth constHash).bits = 192 ∧ (sampleMeth constHash).bits * 32 / 8 = 768) ∨
      ((sampleMeth constHash).bits = 256 ∧ (sampleMeth constHash).bits * 32 / 8 = 1024)) :=
  random_new_entropy_size constHash sizeMalloc [goodSource] (sampleMeth constHash) none
    { meth := sampleMeth constHash, ctx := RANDOM_HASH_zero Unit, entropy_src := [goodSource],
      entropy := fun _ => 1024, elen := 0 }
    (sampleMeth_mem constHash) rfl

/-! ## The variant selected by `RANDOM_new` -/

/-- C38: with flags 0 and non-null arguments, `RANDOM_new` hands to `random_new`
the entry Hash_DRBG SHA1 (id 1) for `bits ≤ 128`, Hash_DRBG SHA224 (id 2) for
`129 ≤ bits ≤ 192`, Hash_DRBG SHA512 (id 5) for `193 ≤ bits ≤ 256`, and the
object created is bound to that entry; for `bits > 256` it returns
RANDOM_ERR_NOT_FOUND.  With non-zero required flags `RANDOM_new` and
`RANDOM_new_by_id` return RANDOM_ERR_NOT_FOUND for every `bits` and `id`. -/
theorem RANDOM_new_selection_table (H : HashCap σ) (malloc : Nat → Option Mem)
    (src : List (ENTROPY_METH ε)) (bits flags : Nat) (id : Int)
    (slot : Option (RANDOM σ ε)) :
    (bits ≤ 128 → ∃ m, (random_meth H)[0]? = some m ∧ m.id = 1 ∧
      m.name = "Hash_DRBG SHA1" ∧
      RANDOM_new H malloc (some src) bits 0 (some slot)
        = ((random_new malloc src m slot).1, some (random_new malloc src m slot).2)) ∧
    (128 < bits → bits ≤ 192 → ∃ m, (random_meth H)[1]? = some m ∧ m.id = 2 ∧
      m.name = "Hash_DRBG SHA224" ∧
      RANDOM_new H malloc (some src) bits 0 (some slot)
        = ((random_new malloc src m slot).1, some (random_new malloc src m slot).2)) ∧
    (192 < bits → bits ≤ 256 → ∃ m, (random_meth H)[2]? = some m ∧ m.id = 5 ∧
      m.name = "Hash_DRBG SHA512" ∧
      RANDOM_new H malloc (some src) bits 0 (some slot)
        = ((random_new malloc src m slot).1, some (random_new malloc src m slot).2)) ∧
    (256 < bits →
      RANDOM_new H malloc (some src) bits 0 (some slot) = (RANDOM_ERR_NOT_FOUND, some slot)) ∧
    (flags ≠ 0 →
      RANDOM_new H malloc (some src) bits flags (some slot)
        = (RANDOM_ERR_NOT_FOUND, some slot) ∧
      RANDOM_new_by_id H malloc (some src) id flags (some slot)
        = (RANDOM_ERR_NOT_FOUND, some slot)) ∧
    (∀ m, (random_new malloc src m slot).1 = 0 →
      ∃ r, (random_new malloc src m slot).2 = some r ∧ r.meth = m) ∧
    RANDOM_ERR_NOT_FOUND = 1 := by
  refine ⟨?_, ?_, ?_, ?_, ?_, ?_, rfl⟩
  · intro hb
    refine ⟨_, rfl, rfl, rfl, ?_⟩
    simp [RANDOM_new, random_meth_get, random_meth, random_meth_get_loop, hb]
  · intro h1 h2
    refine ⟨_, rfl, rfl, rfl, ?_⟩
    have h3 : ¬ bits ≤ 128 := by omega
    simp [RANDOM_new, random_meth_get, random_meth, random_meth_get_loop, h2, h3]
  · intro h1 h2
    refine ⟨_, rfl, rfl, rfl, ?_⟩
    have h3 : ¬ bits ≤ 128 := by omega
    have h4 : ¬ bits ≤ 192 := by omega
    simp [RANDOM_new, random_meth_get, random_meth, random_meth_get_loop, h2, h3, h4]
  · intro h1
    have h2 : ¬ bits ≤ 128 := by omega
    have h3 : ¬ bits ≤ 192 := by omega
    have h4 : ¬ bits ≤ 256 := by omega
    simp [RANDOM_new, random_meth_get, random_meth, random_meth_get_loop, h2, h3, h4,
      RANDOM_ERR_NOT_FOUND]
  · intro hf
    have hf' : ¬ 0 = flags := fun h => hf h.symm
    constructor
    · simp [RANDOM_new, random_meth_get, random_meth, random_meth_get_loop, hf',
        RANDOM_ERR_NOT_FOUND]
    · simp [RANDOM_new_by_id, random_meth_get_by_id, random_meth, random_meth_get_by_id_loop,
        hf', RANDOM_ERR_NOT_FOUND]
  · intro m h0
    rcases random_new_cases malloc src m slot with ⟨h1, -⟩ | ⟨-, h2⟩
    · rw [h1] at h0
      exact absurd h0 (by decide)
    · exact h2

/-! ## The reseed counter along runs of the engine -/

/-- One call of `RANDOM_HASH_gen` and the counter: a call that returns 0 started
below the reseed limit and adds one; any other call leaves the counter. -/
theorem RANDOM_HASH_gen_counter (H : HashCap σ) (fuel : Nat) (h : RANDOM_HASH σ)
    (ainput : Option (List Nat)) (mem : Mem) (out olen glen : Nat)
    (x : Int × RANDOM_HASH σ × Mem × Nat)
    (hx : RANDOM_HASH_gen H fuel h ainput mem out olen glen = some x) :
    (x.1 = 0 → h.reseed_cnt < 2 ^ 48 ∧ x.2.1.reseed_cnt = h.reseed_cnt + 1) ∧
    (x.1 ≠ 0 → x.2.1.reseed_cnt = h.reseed_cnt) := by
  obtain ⟨-, -, fcnt, -⟩ := gen_ainput_fields H h ainput
  unfold RANDOM_HASH_gen at hx
  simp only [] at hx
  by_cases hcnt : h.reseed_cnt ≥ 2 ^ 48
  · rw [if_pos hcnt] at hx
    simp only [Option.some.injEq] at hx
    rw [← hx]
    exact ⟨fun h0 => absurd h0 (by simp [RANDOM_ERR_RESEED]), fun _ => rfl⟩
  · rw [if_neg hcnt] at hx
    generalize (if olen > 2 ^ 16 then 2 ^ 16 else olen) = m at hx
    by_cases hra : (gen_ainput H h ainput).1 ≠ 0
    · rw [if_pos hra] at hx
      simp only [Option.some.injEq] at hx
      rw [← hx]
      exact ⟨fun h0 => absurd h0 hra, fun _ => fcnt⟩
    · rw [if_neg hra] at hx
      split at hx
      · simp at hx
      · split_ifs at hx with c1 c2 <;> simp only [Option.some.injEq] at hx <;> rw [← hx]
        · exact ⟨fun h0 => absurd h0 c1, fun _ => fcnt⟩
        · exact ⟨fun h0 => absurd h0 c2, fun _ => fcnt⟩
        · refine ⟨fun _ => ⟨by omega, ?_⟩, fun h0 => absurd rfl h0⟩
          simp only [fcnt]
          exact Nat.mod_eq_of_lt (by omega)

theorem gen_run_counter (H : HashCap σ) (fuel : Nat) :
    ∀ (reqs : List (Option (List Nat) × Nat × Nat)) (h : RANDOM_HASH σ) (mem : Mem)
      (sts : List Int) (h' : RANDOM_HASH σ),
      gen_run H fuel h mem reqs = some (sts, h') → h.reseed_cnt ≤ 2 ^ 48 →
      h'.reseed_cnt = h.reseed_cnt + sts.count 0 ∧ h'.reseed_cnt ≤ 2 ^ 48 ∧
      sts.length = reqs.length := by
  intro reqs
  induction reqs with
  | nil =>
    intro h mem sts h' hrun hle
    simp only [gen_run, Option.some.injEq, Prod.mk.injEq] at hrun
    obtain ⟨rfl, rfl⟩ := hrun
    exact ⟨rfl, hle, rfl⟩
  | cons q rest ih =>
    intro h mem sts h' hrun hle
    obtain ⟨a, out, n⟩ := q
    rw [gen_run] at hrun
    cases hx : RANDOM_HASH_gen H fuel h a mem out n 0 with
    | none => simp [hx] at hrun
    | some x =>
      simp only [hx] at hrun
      cases hy : gen_run H fuel x.2.1 x.2.2.1 rest with
      | none => simp [hy] at hrun
      | some y =>
        simp only [hy, Option.some.injEq, Prod.mk.injEq] at hrun
        obtain ⟨rfl, rfl⟩ := hrun
        obtain ⟨g1, g2⟩ := RANDOM_HASH_gen_counter H fuel h a mem out n 0 x hx
        by_cases h0 : x.1 = 0
        · obtain ⟨g3, g4⟩ := g1 h0
          obtain ⟨i1, i2, i3⟩ := ih x.2.1 x.2.2.1 y.1 y.2 (by rw [hy]) (by omega)
          refine ⟨?_, i2, by simp [i3]⟩
          rw [i1, g4, h0, List.count_cons_self]
          omega
        · obtain ⟨i1, i2, i3⟩ := ih x.2.1 x.2.2.1 y.1 y.2 (by rw [hy]) (by rw [g2 h0]; exact hle)
          refine ⟨?_, i2, by simp [i3]⟩
          rw [i1, g2 h0, List.count_cons_of_ne (fun e => h0 e.symm)]

/-- A successful `random_hash_init` or `RANDOM_HASH_reseed` leaves the counter 1. -/
theorem init_reseed_counter (H : HashCap σ) (fuel : Nat) (h : RANDOM_HASH σ) :
    (∀ id sl e p x, random_hash_init H fuel h id sl e p = some x → x.1 = 0 →
      x.2.reseed_cnt = 1) ∧
    (∀ e a x, RANDOM_HASH_reseed H fuel h e a = some x → x.1 = 0 → x.2.reseed_cnt = 1) := by
  constructor
  · intro id sl e p x hx h0
    unfold random_hash_init at hx
    simp only [] at hx
    split_ifs at hx with c1 c2
    · simp only [Option.some.injEq] at hx
      rw [← hx] at h0
      exact absurd h0 c1
    · simp only [Option.some.injEq] at hx
      rw [← hx] at h0
      exact absurd h0 c2
    · split at hx
      · simp at hx
      · split_ifs at hx with c3
        · simp only [Option.some.injEq] at hx
          rw [← hx] at h0
          exact absurd h0 c3
        · split at hx
          · simp at hx
          · split_ifs at hx with c4
            · simp only [Option.some.injEq] at hx
              rw [← hx] at h0
              exact absurd h0 c4
            · simp only [Option.some.injEq] at hx
              rw [← hx]
  · intro e a x hx h0
    unfold RANDOM_HASH_reseed at hx
    simp only [] at hx
    split at hx
    · simp at hx
    · split_ifs at hx with c1
      · simp only [Option.some.injEq] at hx
        rw [← hx] at h0
        exact absurd h0 c1
      · split at hx
        · simp at hx
        · split_ifs at hx with c2
          · simp only [Option.some.injEq] at hx
            rw [← hx] at h0
            exact absurd h0 c2
          · simp only [Option.some.injEq] at hx
            rw [← hx]

/-- C31: a successful init or reseed leaves `reseed_cnt = 1`, and in the state
reached from a state with `reseed_cnt = 1` by any sequence of `RANDOM_HASH_gen`
calls the counter is 1 plus the number of those calls that returned 0 (calls
that return RANDOM_ERR_RESEED, or a hash error, leave it); hence
`1 ≤ reseed_cnt ≤ 2^48`, a call from the state reached returns 0 only when
`reseed_cnt < 2^48`, and with `reseed_cnt = 2^48` it is refused with
RANDOM_ERR_RESEED and the counter unchanged. -/
theorem reseed_counter_invariant (H : HashCap σ) (fuel : Nat) (h : RANDOM_HASH σ) (mem : Mem)
    (reqs : List (Option (List Nat) × Nat × Nat)) (sts : List Int) (h' : RANDOM_HASH σ)
    (hstart : h.reseed_cnt = 1) (hrun : gen_run H fuel h mem reqs = some (sts, h')) :
    h'.reseed_cnt = 1 + sts.count 0 ∧ sts.length = reqs.length ∧
    1 ≤ h'.reseed_cnt ∧ h'.reseed_cnt ≤ 2 ^ 48 ∧
    (∀ F a m out n glen x, RANDOM_HASH_gen H F h' a m out n glen = some x →
      (x.1 = 0 → h'.reseed_cnt < 2 ^ 48 ∧ x.2.1.reseed_cnt = h'.reseed_cnt + 1) ∧
      (x.1 ≠ 0 → x.2.1.reseed_cnt = h'.reseed_cnt)) ∧
    (h'.reseed_cnt = 2 ^ 48 → ∀ F a m out n glen,
      RANDOM_HASH_gen H F h' a m out n glen = some (RANDOM_ERR_RESEED, h', m, 0)) ∧
    (∀ F g id sl e p x, random_hash_init H F g id sl e p = some x → x.1 = 0 →
      x.2.reseed_cnt = 1) ∧
    (∀ F g e a x, RANDOM_HASH_reseed H F g e a = some x → x.1 = 0 → x.2.reseed_cnt = 1) := by
  obtain ⟨i1, i2, i3⟩ := gen_run_counter H fuel reqs h mem sts h' hrun (by rw [hstart]; decide)
  rw [hstart] at i1
  refine ⟨i1, i3, by omega, i2, ?_, ?_, ?_, ?_⟩
  · intro F a m out n glen x hx
    exact RANDOM_HASH_gen_counter H F h' a m out n glen x hx
  · intro hc F a m out n glen
    exact RANDOM_HASH_gen_reseed H F h' a m out n glen (by omega)
  · intro F g id sl e p x hx h0
    exact (init_reseed_counter H F g).1 id sl e p x hx h0
  · intro F g e a x hx h0
    exact (init_reseed_counter H F g).2 e a x hx h0

set_option maxRecDepth 8000 in
/-- Instance of C31: three calls from the SHA-256 context with counter 1, the
second with an additional input. -/
theorem reseed_counter_invariant_witness :
    ∃ sts h', gen_run constHash 100 (sampleCtx 1) (fun _ => 0)
        [(none, 0, 16), (some [1], 100, 8), (none, 200, 0)] = some (sts, h') ∧
      sts = [0, 0, 0] ∧ h'.reseed_cnt = 1 + sts.count 0 ∧ sts.length = 3 ∧
      1 ≤ h'.reseed_cnt ∧ h'.reseed_cnt ≤ 2 ^ 48 := by
  have hrun : ∃ sts h', gen_run constHash 100 (sampleCtx 1) (fun _ => 0)
      [(none, 0, 16), (some [1], 100, 8), (none, 200, 0)] = some (sts, h') ∧
      sts = [0, 0, 0] := ⟨_, _, rfl, rfl⟩
  obtain ⟨sts, h', e, hs⟩ := hrun
  obtain ⟨r1, r2, r3, r4, -⟩ := reseed_counter_invariant constHash 100 (sampleCtx 1)
    (fun _ => 0) _ sts h' rfl e
  exact ⟨sts, h', e, hs, r1, r2, r3, r4⟩

/-! ## The final update of V for counters below 256 -/

/-- The loop adding `c` and the hashed V: with bytes in `v[1..i]`, `c[0..i)` and
`ht[0..i)` and a carry below 256, it stores in `v[1..i]` the `i`-byte big-endian
sum of the three values and the carry, and touches nothing else. -/
theorem gen_add_rest_value (c ht : List Nat) :
    ∀ (i : Nat) (v : List Nat) (t : Nat), i + 1 ≤ v.length → t < 256 →
      (∀ j, j < i → c.getD j 0 < 256) → (∀ j, j < i → ht.getD j 0 < 256) →
      (∀ j, 1 ≤ j → j ≤ i → v.getD j 0 < 256) →
      (gen_add_rest c ht i v t).length = v.length ∧
      (∀ j, j = 0 ∨ i < j → (gen_add_rest c ht i v t).getD j 0 = v.getD j 0) ∧
      bytesOf (gen_add_rest c ht i v t) 1 i
        = beBytes i (beNat (bytesOf v 1 i) + beNat (bytesOf c 0 i) + beNat (bytesOf ht 0 i)
            + t) := by
  intro i
  induction i with
  | zero => intro v t _ _ _ _ _; exact ⟨rfl, fun _ _ => rfl, rfl⟩
  | succ k ih =>
    intro v t hv ht256 hcb hht hvb
    have hb0 := hcb k (Nat.lt_succ_self _)
    have hb1 := hht k (Nat.lt_succ_self _)
    have hb2 := hvb (k + 1) (by omega) (Nat.le_refl _)
    have e1 : (t + v.getD (k + 1) 0) % 2 ^ 16 = t + v.getD (k + 1) 0 :=
      Nat.mod_eq_of_lt (by omega)
    have e2 : (t + v.getD (k + 1) 0 + c.getD k 0) % 2 ^ 16
        = t + v.getD (k + 1) 0 + c.getD k 0 := Nat.mod_eq_of_lt (by omega)
    have e3 : (t + v.getD (k + 1) 0 + c.getD k 0 + ht.getD k 0) % 2 ^ 16
        = t + v.getD (k + 1) 0 + c.getD k 0 + ht.getD k 0 := Nat.mod_eq_of_lt (by omega)
    rw [gen_add_rest]
    simp only [e1, e2, e3, Nat.shiftRight_eq_div_pow]
    obtain ⟨r1, r2, r3⟩ := ih
      (v.set (k + 1) ((t + v.getD (k + 1) 0 + c.getD k 0 + ht.getD k 0) % 256))
      ((t + v.getD (k + 1) 0 + c.getD k 0 + ht.getD k 0) / 2 ^ 8)
      (by rw [List.length_set]; omega) (by omega) (fun j hj => hcb j (by omega))
      (fun j hj => hht j (by omega))
      (fun j h1 h2 => by rw [getD_set_eq, if_neg (by omega)]; exact hvb j h1 (by omega))
    refine ⟨by rw [r1, List.length_set], ?_, ?_⟩
    · intro j hj
      rw [r2 j (by omega), getD_set_eq, if_neg (by omega)]
    · rw [bytesOf_succ, r3, r2 (1 + k) (by omega), getD_set_eq,
        if_pos ⟨by omega, by omega⟩, bytesOf_succ, bytesOf_succ, bytesOf_succ,
        beNat_append_one, beNat_append_one, beNat_append_one, beBytes,
        bytesOf_congr
          (v.set (k + 1) ((t + v.getD (k + 1) 0 + c.getD k 0 + ht.getD k 0) % 256)) v 1 k
          (fun j _ h2 => by rw [getD_set_eq, if_neg (by omega)])]
      have hk : 1 + k = k + 1 := Nat.add_comm _ _
      simp only [hk, Nat.zero_add]
      congr 2 <;> omega

/-- Iterations of the counter loop at bytes above the lowest add nothing from a
counter below 256: followed by the remaining loop, they are that loop. -/
theorem gen_add_cnt_high (seed_len cnt : Nat) (c ht : List Nat) (hcnt : cnt < 256) :
    ∀ (n i : Nat) (v : List Nat) (t : Nat), i < seed_len →
      gen_add_rest c ht (gen_add_cnt seed_len cnt c ht n i v t).2.2
        (gen_add_cnt seed_len cnt c ht n i v t).1 (gen_add_cnt seed_len cnt c ht n i v t).2.1
      = gen_add_rest c ht i v t := by
  intro n
  induction n with
  | zero => intro i v t _; rfl
  | succ m ih =>
    intro i v t hi
    cases i with
    | zero => rfl
    | succ j =>
      have hsh : cnt >>> ((seed_len - 1) * 8 - j * 8) = 0 := by
        rw [Nat.shiftRight_eq_div_pow]
        apply Nat.div_eq_of_lt
        have h8 : 8 ≤ (seed_len - 1) * 8 - j * 8 := by omega
        calc cnt < 2 ^ 8 := hcnt
          _ ≤ 2 ^ ((seed_len - 1) * 8 - j * 8) := Nat.pow_le_pow_right (by decide) h8
      rw [gen_add_cnt, gen_add_rest]
      simp only [hsh, Nat.add_zero, Nat.mod_mod]
      exact ih j _ _ (by omega)

/-- With a counter below 256 the two loops of the final update are the loop adding
`c` and the hashed V started with the counter in the carry register. -/
theorem gen_add_cnt_small (seed_len cnt : Nat) (c ht v : List Nat) (hcnt : cnt < 256)
    (hs : 1 ≤ seed_len) :
    gen_add_rest c ht (gen_add_cnt seed_len cnt c ht 4 seed_len v 0).2.2
      (gen_add_cnt seed_len cnt c ht 4 seed_len v 0).1
      (gen_add_cnt seed_len cnt c ht 4 seed_len v 0).2.1
    = gen_add_rest c ht seed_len v cnt := by
  obtain ⟨j, rfl⟩ : ∃ j, seed_len = j + 1 := ⟨seed_len - 1, by omega⟩
  have hsh : cnt >>> ((j + 1 - 1) * 8 - j * 8) = cnt := by
    have : (j + 1 - 1) * 8 - j * 8 = 0 := by simp
    rw [this]
    rfl
  rw [gen_add_cnt, gen_add_rest]
  simp only [hsh]
  have e : ((((0 + v.getD (j + 1) 0) % 2 ^ 16 + c.getD j 0) % 2 ^ 16 + ht.getD j 0) % 2 ^ 16
      + cnt) % 2 ^ 16
      = (((cnt + v.getD (j + 1) 0) % 2 ^ 16 + c.getD j 0) % 2 ^ 16 + ht.getD j 0) % 2 ^ 16 := by
    omega
  rw [e]
  exact gen_add_cnt_high (j + 1) cnt c ht hcnt 3 j _ _ (Nat.lt_succ_self _)

theorem hashgen_incr_length (n : Nat) : ∀ v : List Nat, (hashgen_incr v n).length = v.length := by
  induction n with
  | zero => intro v; rfl
  | succ k ih =>
    intro v
    rw [hashgen_incr]
    split
    · rw [ih, List.length_set]
    · rw [List.length_set]

/-- The working buffer keeps its size through `hashgen`. -/
theorem hashgen_loop_length (H : HashCap σ) (hlen vlen : Nat) :
    ∀ (fuel : Nat) (hash : Option σ) (v t : List Nat) (mem : Mem) (data : Nat) (i : Int)
      (r : Int × Option σ × List Nat × Mem),
      hashgen_loop H hlen vlen fuel hash v t mem data i = some r →
      r.2.2.1.length = v.length := by
  intro fuel
  induction fuel with
  | zero => intro hash v t mem data i r h; simp [hashgen_loop] at h
  | succ n ih =>
    intro hash v t mem data i r h
    rw [hashgen_loop] at h
    by_cases hi : i > 0
    · rw [if_pos hi] at h
      simp only [] at h
      split_ifs at h <;>
        first
          | (simp only [Option.some.injEq] at h; rw [← h])
          | rw [ih _ _ _ _ _ _ _ h, hashgen_incr_length]
    · rw [if_neg hi] at h
      simp only [Option.some.injEq] at h
      rw [← h]

/-- C34: for an engine state with `reseed_cnt = rc < 256` and
`hash_len ≤ seed_len`, `4 ≤ seed_len ≤ 111`, whose buffers have their declared
sizes and hold bytes, over a hash that never fails and has digests of `hash_len`
bytes, a call of `RANDOM_HASH_gen` succeeds and leaves in `V[1..1+seed_len]` the
`seed_len`-byte big-endian representation of `V' + C + H + rc`, that is
`V_new = (V' + C + H + rc) mod 2^(8*seed_len)`, where `V'` is V after the
additional-input step and `H = Hash(0x03 ‖ V')`; the counter becomes `rc + 1`. -/
theorem RANDOM_HASH_gen_final_update (H : HashCap σ) (hnf : H.NeverFails) (fuel : Nat)
    (h g : RANDOM_HASH σ) (ainput : Option (List Nat)) (mem : Mem) (out n glen : Nat)
    (hg : gen_ainput H h ainput = (0, g))
    (hd : H.Digest h.hash_len) (h1 : 1 ≤ h.hash_len) (h64 : h.hash_len ≤ HASH_MAX_DIGEST_LEN)
    (hle : h.hash_len ≤ h.seed_len) (h4 : 4 ≤ h.seed_len)
    (hsl : h.seed_len ≤ RANDOM_HASH_MAX_SEED_LEN)
    (hv : h.v.length = 1 + RANDOM_HASH_MAX_SEED_LEN)
    (hc : h.c.length = RANDOM_HASH_MAX_SEED_LEN)
    (ht : h.t.length = RANDOM_HASH_MAX_SEED_LEN)
    (hvb : ∀ j, h.v.getD j 0 < 256) (hcb : ∀ j, h.c.getD j 0 < 256)
    (hrc : h.reseed_cnt < 256) (hf : min n (2 ^ 16) < fuel) :
    ∃ h' mem' hashG,
      RANDOM_HASH_gen H fuel h ainput mem out n glen = some (0, h', mem', min n (2 ^ 16)) ∧
      hashG = (spec_Hashgen_blocks H h.seed_len
        ((min n (2 ^ 16) + h.hash_len - 1) / h.hash_len)
        (beNat (bytesOf g.v 1 h.seed_len)) g.hash).1 ∧
      bytesOf h'.v 1 h.seed_len = beBytes h.seed_len
        (beNat (bytesOf g.v 1 h.seed_len) + beNat (bytesOf h.c 0 h.seed_len)
          + beNat (spec_Hash H hashG (3 :: bytesOf g.v 1 h.seed_len)).2 + h.reseed_cnt) ∧
      beNat (bytesOf h'.v 1 h.seed_len)
        = (beNat (bytesOf g.v 1 h.seed_len) + beNat (bytesOf h.c 0 h.seed_len)
          + beNat (spec_Hash H hashG (3 :: bytesOf g.v 1 h.seed_len)).2 + h.reseed_cnt)
          % 2 ^ (8 * h.seed_len) ∧
      h'.reseed_cnt = h.reseed_cnt + 1 := by
  have hg2 : (gen_ainput H h ainput).2 = g := by rw [hg]
  obtain ⟨f1, f2, f3, f4⟩ := gen_ainput_fields H h ainput
  obtain ⟨k1, k2, k3⟩ := gen_ainput_keeps H h ainput
  rw [hg2] at f1 f2 f3 f4 k1 k2 k3
  have hgb := k3 hvb
  have hmin : (if n > 2 ^ 16 then 2 ^ 16 else n) = min n (2 ^ 16) := by
    split_ifs <;> omega
  have hmod : h.hash_len % 2 ^ 16 = h.hash_len :=
    Nat.mod_eq_of_lt (by unfold HASH_MAX_DIGEST_LEN at h64; omega)
  have hWl : (bytesOf g.v 1 h.seed_len).length = h.seed_len := bytesOf_length _ _ _
  have hcopy : bytesOf (writeAt g.t 0 (bytesOf g.v 1 h.seed_len)) 0 h.seed_len
      = bytesOf g.v 1 h.seed_len := by
    have := bytesOf_writeAt_all (bytesOf g.v 1 h.seed_len) g.t 0 (by rw [hWl, k2, ht]; omega)
    rw [hWl] at this
    exact this
  have hrt : bytesOf g.v 1 h.seed_len
      = beBytes h.seed_len (beNat (bytesOf g.v 1 h.seed_len)) := by
    have := beBytes_beNat (bytesOf g.v 1 h.seed_len) (bytesOf_lt _ _ _ (fun j _ _ => hgb j))
    rw [hWl] at this
    exact this.symm
  have hcb' : ∀ j, j < h.seed_len →
      (writeAt g.t 0 (bytesOf g.v 1 h.seed_len)).getD j 0 < 256 := by
    intro j hj
    rw [getD_writeAt_inside _ _ _ _ (Nat.zero_le _) (by rw [hWl]; omega)
      (by rw [hWl, k2, ht]; omega)]
    simp only [bytesOf, List.getD_eq_getElem?_getD, List.getElem?_map, Nat.sub_zero,
      List.getElem?_range hj, Option.map_some', Option.getD_some]
    have := hgb (1 + j)
    rwa [List.getD_eq_getElem?_getD] at this
  obtain ⟨c1, c2, c3⟩ := ceil_blocks (min n (2 ^ 16)) h.hash_len h1
  obtain ⟨t', mem', e, -⟩ := hashgen_loop_spec H hnf h.hash_len h.seed_len hd h64
    ((min n (2 ^ 16) + h.hash_len - 1) / h.hash_len) fuel g.hash
    (writeAt g.t 0 (bytesOf g.v 1 h.seed_len)) (List.replicate HASH_MAX_DIGEST_LEN 0) mem out
    (Int.ofNat (min n (2 ^ 16))) (beNat (bytesOf g.v 1 h.seed_len))
    c1 c2 (by omega) (by simp)
    (by rw [writeAt_length, k2, ht]; exact hsl) hcb' (by rw [hcopy]; exact hrt)
  have htl : t'.length = RANDOM_HASH_MAX_SEED_LEN := by
    have := hashgen_loop_length H _ _ _ _ _ _ _ _ _ _ e
    simp only [] at this
    rw [this, writeAt_length, k2, ht]
  have eh : hashgen H fuel g.hash h.hash_len (writeAt g.t 0 (bytesOf g.v 1 h.seed_len))
      h.seed_len mem out (min n (2 ^ 16))
      = some (0, (spec_Hashgen_blocks H h.seed_len
          ((min n (2 ^ 16) + h.hash_len - 1) / h.hash_len)
          (beNat (bytesOf g.v 1 h.seed_len)) g.hash).1, t', mem') := e
  generalize hG : (spec_Hashgen_blocks H h.seed_len
    ((min n (2 ^ 16) + h.hash_len - 1) / h.hash_len)
    (beNat (bytesOf g.v 1 h.seed_len)) g.hash).1 = hashG at eh
  have hdl : (spec_Hash H hashG (3 :: bytesOf g.v 1 h.seed_len)).2.length = h.hash_len ∧
      ∀ b ∈ (spec_Hash H hashG (3 :: bytesOf g.v 1 h.seed_len)).2, b < 256 :=
    hd (H.update (H.init hashG).2 (3 :: bytesOf g.v 1 h.seed_len)).2
  have hpad := scratch_padded t' (spec_Hash H hashG (3 :: bytesOf g.v 1 h.seed_len)).2
    h.seed_len h.hash_len hdl.1 hle (by omega)
  have htb : ∀ j, j < h.seed_len →
      (writeAt (zeroAt t' 0 (h.seed_len - h.hash_len)) (h.seed_len - h.hash_len)
        (spec_Hash H hashG (3 :: bytesOf g.v 1 h.seed_len)).2).getD j 0 < 256 := by
    intro j hj
    have hmem : (bytesOf (writeAt (zeroAt t' 0 (h.seed_len - h.hash_len))
        (h.seed_len - h.hash_len)
        (spec_Hash H hashG (3 :: bytesOf g.v 1 h.seed_len)).2) 0 h.seed_len).getD j 0
        < 256 := by
      rw [hpad, List.getD_eq_getElem?_getD]
      cases hx : (List.replicate (h.seed_len - h.hash_len) 0 ++
        (spec_Hash H hashG (3 :: bytesOf g.v 1 h.seed_len)).2)[j]? with
      | none => simp
      | some x =>
        have hin := List.getElem?_mem hx
        simp only [List.mem_append, List.mem_replicate] at hin
        rcases hin with hin | hin
        · simp [hin.2]
        · exact hdl.2 x hin
    simpa [bytesOf, List.getD_eq_getElem?_getD, List.getElem?_map, List.getElem?_range hj]
      using hmem
  have hval := (gen_add_rest_value h.c
    (writeAt (zeroAt t' 0 (h.seed_len - h.hash_len)) (h.seed_len - h.hash_len)
      (spec_Hash H hashG (3 :: bytesOf g.v 1 h.seed_len)).2)
    h.seed_len (g.v.set 0 3) h.reseed_cnt (by rw [List.length_set, k1, hv]; omega) hrc
    (fun j _ => hcb j) htb
    (fun j h1 _ => by rw [getD_set_eq, if_neg (by omega)]; exact hgb j)).2.2
  rw [bytesOf_set_tag, hpad, beNat_zeros] at hval
  have hgen : ∃ h', RANDOM_HASH_gen H fuel h ainput mem out n glen
        = some (0, h', mem', min n (2 ^ 16)) ∧
      h'.v = gen_add_rest h.c
        (writeAt (zeroAt t' 0 (h.seed_len - h.hash_len)) (h.seed_len - h.hash_len)
          (spec_Hash H hashG (3 :: bytesOf g.v 1 h.seed_len)).2)
        h.seed_len (g.v.set 0 3) h.reseed_cnt ∧
      h'.reseed_cnt = h.reseed_cnt + 1 := by
    unfold RANDOM_HASH_gen
    simp only [hg, ge_iff_le, not_le.mpr (show h.reseed_cnt < 2 ^ 48 by omega), if_false,
      ne_eq, not_true_eq_false, hmin, f1, f2, f3, f4, hmod, eh, hash_data_single H hnf,
      bytesOf_tag _ _ _ (show 1 ≤ g.v.length by rw [k1, hv]; omega),
      gen_add_cnt_small _ _ _ _ _ hrc (show 1 ≤ h.seed_len by omega)]
    exact ⟨_, rfl, rfl, Nat.mod_eq_of_lt (by omega)⟩
  obtain ⟨h', e1, e2, e3⟩ := hgen
  refine ⟨h', mem', hashG, e1, rfl, ?_, ?_, e3⟩
  · rw [e2]; exact hval
  · rw [e2, hval, beNat_beBytes, Nat.pow_mul]

theorem sumCtx_c_bytes (cnt j : Nat) : (sumCtx cnt).c.getD j 0 < 256 := by
  simp only [sumCtx, RANDOM_HASH_zero, List.getD_eq_getElem?_getD, List.getElem?_replicate]
  split <;> simp

/-- Instance of C34: 16 bytes requested from the context with V = C = 0 and
counter 200 over the hash whose digest repeats the byte sum of its input. -/
theorem RANDOM_HASH_gen_final_update_witness :
    ∃ h' mem' hashG,
      RANDOM_HASH_gen sumHash 100 (sumCtx 200) none (fun _ => 0) 0 16 0
        = some (0, h', mem', min 16 (2 ^ 16)) ∧
      hashG = (spec_Hashgen_blocks sumHash 55 ((min 16 (2 ^ 16) + 32 - 1) / 32)
        (beNat (bytesOf (sumCtx 200).v 1 55)) (some 0)).1 ∧
      bytesOf h'.v 1 55 = beBytes 55
        (beNat (bytesOf (sumCtx 200).v 1 55) + beNat (bytesOf (sumCtx 200).c 0 55)
          + beNat (spec_Hash sumHash hashG (3 :: bytesOf (sumCtx 200).v 1 55)).2 + 200) ∧
      beNat (bytesOf h'.v 1 55)
        = (beNat (bytesOf (sumCtx 200).v 1 55) + beNat (bytesOf (sumCtx 200).c 0 55)
          + beNat (spec_Hash sumHash hashG (3 :: bytesOf (sumCtx 200).v 1 55)).2 + 200)
          % 2 ^ (8 * 55) ∧
      h'.reseed_cnt = 200 + 1 :=
  RANDOM_HASH_gen_final_update sumHash sumHash_neverFails 100 (sumCtx 200) (sumCtx 200) none
    (fun _ => 0) 0 16 0 rfl sumHash_digest (by decide) (by decide) (by decide) (by decide)
    (by decide) rfl rfl rfl (sumCtx_bytes 200) (sumCtx_c_bytes 200) (by decide) (by decide)

/-! ## The number of passes of `ENTROPY_generate` -/

/-- The outer loop makes fewer passes than the fuel it was given. -/
theorem ENTROPY_loop_passes_lt (meth : List (ENTROPY_METH ε)) (bits : Nat) :
    ∀ (fuel : Nat) (s : EntropyVars ε) (r : EntropyVars ε × List (List SrcCall)),
      ENTROPY_loop meth bits fuel s = some r → r.2.length < fuel := by
  intro fuel
  induction fuel with
  | zero => intro s r h; simp [ENTROPY_loop] at h
  | succ n ih =>
    intro s r h
    rw [ENTROPY_loop] at h
    by_cases hc : s.b < bits ∧ s.gathered ≠ 0
    · rw [if_pos hc] at h
      by_cases h256 : 256 ≤ meth.length
      · rw [if_pos h256] at h
        simp at h
      · rw [if_neg h256] at h
        simp only [] at h
        cases hr : ENTROPY_loop meth bits n (ENTROPY_pass meth 0 { s with gathered := 0 }).1 with
        | none => simp [hr] at h
        | some r1 =>
          simp only [hr, Option.some.injEq] at h
          rw [← h]
          have := ih _ _ hr
          simp only [List.length_cons]
          omega
    · rw [if_neg hc] at h
      simp only [Option.some.injEq] at h
      rw [← h]
      simp

/-- More fuel does not change what the outer loop returns. -/
theorem ENTROPY_loop_mono (meth : List (ENTROPY_METH ε)) (bits : Nat) :
    ∀ (fuel : Nat) (s : EntropyVars ε) (r : EntropyVars ε × List (List SrcCall)),
      ENTROPY_loop meth bits fuel s = some r → ∀ fuel', fuel ≤ fuel' →
      ENTROPY_loop meth bits fuel' s = some r := by
  intro fuel
  induction fuel with
  | zero => intro s r h; simp [ENTROPY_loop] at h
  | succ n ih =>
    intro s r h fuel' hle
    obtain ⟨f, rfl⟩ : ∃ f, fuel' = f + 1 := ⟨fuel' - 1, by omega⟩
    rw [ENTROPY_loop] at h ⊢
    by_cases hc : s.b < bits ∧ s.gathered ≠ 0
    · rw [if_pos hc] at h ⊢
      by_cases h256 : 256 ≤ meth.length
      · rw [if_pos h256] at h
        simp at h
      · rw [if_neg h256] at h ⊢
        simp only [] at h ⊢
        cases hr : ENTROPY_loop meth bits n (ENTROPY_pass meth 0 { s with gathered := 0 }).1 with
        | none => simp [hr] at h
        | some r1 =>
          simp only [hr, Option.some.injEq] at h
          rw [ih _ _ hr f (by omega)]
          simp only [Option.some.injEq]
          exact h
    · rw [if_neg hc] at h ⊢
      exact h

/-- C36: for a list of fewer than 32 sources whose successful calls credit between
1 and `c` bits (failed calls credit nothing), and a target with
`bits + n*c ≤ 65535`, `ENTROPY_generate` returns as soon as the fuel exceeds
`bits`, after at most `bits` passes over the source list; with `bits = 0` it
makes no pass and no source call and returns success with length 0. -/
theorem ENTROPY_generate_passes (c : Nat) (meth : List (ENTROPY_METH ε)) (bits : Nat)
    (data : Mem) (env : ε) (hn : meth.length < 32) (hsrc : SourcesCredit meth c)
    (hp : SourcesProgress meth) (hw : bits + meth.length * c ≤ 65535) (fuel : Nat)
    (hf : bits < fuel) :
    ∃ e, ENTROPY_generate fuel meth bits data env = some e ∧ e.passes.length ≤ bits ∧
      (bits = 0 → e.passes = [] ∧ e.ret = 1 ∧ e.olen = 0 ∧ e.p = 0 ∧ e.data = data ∧
        e.env = env) := by
  obtain ⟨r, hr⟩ := ENTROPY_loop_terminates c meth bits hsrc (by omega) (by omega) hp
    (bits + 1) { gathered := 1, b := 0, l := 0, p := 0, len := 0, once := 0, data := data,
                 env := env } (by simp)
  have hlen := ENTROPY_loop_passes_lt meth bits _ _ _ hr
  have hr' := ENTROPY_loop_mono meth bits _ _ _ hr fuel (by omega)
  refine ⟨_, by unfold ENTROPY_generate; rw [hr'], by simp only []; omega, ?_⟩
  intro h0
  subst h0
  rw [ENTROPY_loop, if_neg (by simp)] at hr
  simp only [Option.some.injEq] at hr
  rw [← hr]
  exact ⟨rfl, rfl, rfl, rfl, rfl, rfl⟩

/-- Instance of C36: one source that always succeeds with 12 bits and the target
24 bits; the run takes at most 24 passes. -/
theorem ENTROPY_generate_passes_witness :
    ∃ e, ENTROPY_generate 25 [goodSource] 24 (fun _ => 0) () = some e ∧
      e.passes.length ≤ 24 ∧
      (24 = 0 → e.passes = [] ∧ e.ret = 1 ∧ e.olen = 0 ∧ e.p = 0 ∧ e.data = (fun _ => 0) ∧
        e.env = ()) :=
  ENTROPY_generate_passes 12 [goodSource] 24 (fun _ => 0) () (by decide) goodSource_credit
    goodSource_progress (by decide) 25 (by decide)

/-! ## The bytes drawn from sources of two bytes -/

theorem SourcesPairs.tail {m : ENTROPY_METH ε} {ms : List (ENTROPY_METH ε)}
    (h : SourcesPairs (m :: ms)) : SourcesPairs ms :=
  fun x hx => h x (List.mem_cons_of_mem _ hx)

/-- One source of a list of two-byte sources: the cursor moves by 0 or 2, the bits
credited are at least twice the bytes gathered, the 8-bit count follows the
cursor, and nothing is stored outside the two bytes at the cursor. -/
theorem ENTROPY_step_pairs (m : ENTROPY_METH ε) (i : Nat) (s : EntropyVars ε)
    (hm : ∀ (env : ε) (b : Nat),
      ((m.func env b).ret ≠ 0 → (m.func env b).data.length = 2 ∧ (m.func env b).len = 2 ∧
        4 ≤ (m.func env b).credit ∧ (m.func env b).credit ≤ 12) ∧
      ((m.func env b).ret = 0 → (m.func env b).credit = 0 ∧ (m.func env b).data.length ≤ 2))
    (hb : s.b + 12 < 2 ^ 16) :
    ∃ k, k ≤ 1 ∧ (ENTROPY_step m i s).1.p = s.p + 2 * k ∧
      s.b + 4 * k ≤ (ENTROPY_step m i s).1.b ∧ (ENTROPY_step m i s).1.b ≤ s.b + 12 * k ∧
      (s.l = s.p % 2 ^ 8 → (ENTROPY_step m i s).1.l = (ENTROPY_step m i s).1.p % 2 ^ 8) ∧
      ∀ a, a < s.p ∨ s.p + 2 ≤ a → (ENTROPY_step m i s).1.data a = s.data a := by
  unfold ENTROPY_step
  by_cases h1 : (s.once &&& ((1 <<< (i % 32)) % 2 ^ 32)) ≠ 0
  · rw [if_pos h1]
    exact ⟨0, by omega, rfl, Nat.le_refl _, Nat.le_refl _, fun h => h, fun _ _ => rfl⟩
  · rw [if_neg h1]
    by_cases h2 : (m.flags &&& ENTROPY_FLAG_NO_PREV) ≠ 0 ∧ s.gathered ≠ 0
    · rw [if_pos h2]
      exact ⟨0, by omega, rfl, Nat.le_refl _, Nat.le_refl _, fun h => h, fun _ _ => rfl⟩
    · rw [if_neg h2]
      obtain ⟨hs, hfail⟩ := hm s.env s.b
      by_cases h3 : (m.func s.env s.b).ret ≠ 0
      · obtain ⟨d1, d2, d3, d4⟩ := hs h3
        simp only [if_pos h3, d2]
        refine ⟨1, Nat.le_refl _, rfl, ?_, ?_, ?_, ?_⟩
        · rw [Nat.mod_eq_of_lt (by omega)]; omega
        · rw [Nat.mod_eq_of_lt (by omega)]; omega
        · intro hl
          rw [hl]
          omega
        · intro a ha
          exact memcpy_outside _ _ _ _ (by rw [d1]; omega)
      · have h3' : (m.func s.env s.b).ret = 0 := by simpa using h3
        obtain ⟨d3, d1⟩ := hfail h3'
        simp only [if_neg h3, d3]
        refine ⟨0, by omega, rfl, ?_, ?_, fun h => h, ?_⟩
        · rw [Nat.mod_eq_of_lt (by omega)]
        · rw [Nat.mod_eq_of_lt (by omega)]
        · intro a ha
          exact memcpy_outside _ _ _ _ (by omega)

/-- One pass over a list of two-byte sources. -/
theorem ENTROPY_pass_pairs :
    ∀ (ms : List (ENTROPY_METH ε)) (i : Nat) (s : EntropyVars ε), SourcesPairs ms →
      s.b + 12 * ms.length < 2 ^ 16 →
      ∃ k, k ≤ ms.length ∧ (ENTROPY_pass ms i s).1.p = s.p + 2 * k ∧
        s.b + 4 * k ≤ (ENTROPY_pass ms i s).1.b ∧
        (ENTROPY_pass ms i s).1.b ≤ s.b + 12 * k ∧
        (s.l = s.p % 2 ^ 8 → (ENTROPY_pass ms i s).1.l = (ENTROPY_pass ms i s).1.p % 2 ^ 8) ∧
        ∀ a, a < s.p ∨ (ENTROPY_pass ms i s).1.p + 2 ≤ a →
          (ENTROPY_pass ms i s).1.data a = s.data a := by
  intro ms
  induction ms with
  | nil =>
    intro i s _ _
    exact ⟨0, Nat.le_refl _, rfl, by simp [ENTROPY_pass], by simp [ENTROPY_pass],
      fun h => h, fun _ _ => rfl⟩
  | cons m ms ih =>
    intro i s hsrc hb
    simp only [List.length_cons] at hb
    obtain ⟨k1, a1, a2, a3, a4, a5, a6⟩ := ENTROPY_step_pairs m i s
      (hsrc m (List.mem_cons_self _ _)) (by omega)
    obtain ⟨k2, b1, b2, b3, b4, b5, b6⟩ := ih (i + 1) (ENTROPY_step m i s).1 hsrc.tail
      (by omega)
    rw [ENTROPY_pass_cons]
    simp only [List.length_cons]
    refine ⟨k1 + k2, by omega, by omega, by omega, by omega, fun hl => b5 (a5 hl), ?_⟩
    intro a ha
    rw [b6 a (by omega), a6 a (by omega)]

/-- The outer loop over at most 4 two-byte sources with a target of at most 384
bits, from a head of the loop where the bits credited cover the bytes gathered:
the cursor stays within `2 * ((bits - 1) / 4 + n)`. -/
theorem ENTROPY_loop_pairs (meth : List (ENTROPY_METH ε)) (bits : Nat)
    (hsrc : SourcesPairs meth) (hn : meth.length ≤ 4) (hbits : bits ≤ 384) :
    ∀ (fuel : Nat) (s : EntropyVars ε) (r : EntropyVars ε × List (List SrcCall)),
      ENTROPY_loop meth bits fuel s = some r → s.p % 2 = 0 → 2 * s.p ≤ s.b →
      s.p ≤ 2 * ((bits - 1) / 4 + meth.length) →
      r.1.p ≤ 2 * ((bits - 1) / 4 + meth.length) ∧ s.p ≤ r.1.p ∧
      (s.l = s.p % 2 ^ 8 → r.1.l = r.1.p % 2 ^ 8) ∧
      ∀ a, a < s.p ∨ r.1.p + 2 ≤ a → r.1.data a = s.data a := by
  intro fuel
  induction fuel with
  | zero => intro s r h; simp [ENTROPY_loop] at h
  | succ n ih =>
    intro s r h he hcov hle
    rw [ENTROPY_loop] at h
    by_cases hc : s.b < bits ∧ s.gathered ≠ 0
    · rw [if_pos hc] at h
      by_cases h256 : 256 ≤ meth.length
      · rw [if_pos h256] at h
        simp at h
      · rw [if_neg h256] at h
        simp only [] at h
        obtain ⟨k, p1, p2, p3, -, p5, p6⟩ := ENTROPY_pass_pairs meth 0
          { s with gathered := 0 } hsrc (by simp only []; omega)
        simp only [] at p2 p3 p5 p6
        cases hr : ENTROPY_loop meth bits n (ENTROPY_pass meth 0 { s with gathered := 0 }).1 with
        | none => simp [hr] at h
        | some r1 =>
          simp only [hr, Option.some.injEq] at h
          obtain ⟨q1, q2, q3, q4⟩ := ih _ _ hr (by omega) (by omega) (by omega)
          rw [← h]
          have hmono : s.p ≤ r1.1.p := by omega
          refine ⟨q1, hmono, fun hl => q3 (p5 hl), ?_⟩
          intro a ha
          have ha' : a < s.p ∨ r1.1.p + 2 ≤ a := ha
          rw [show (r1.1, (ENTROPY_pass meth 0 { s with gathered := 0 }).2 :: r1.2).1.data a
            = r1.1.data a from rfl, q4 a (by omega), p6 a (by omega)]
    · rw [if_neg hc] at h
      simp only [Option.some.injEq] at h
      rw [← h]
      exact ⟨hle, Nat.le_refl _, fun hl => hl, fun _ _ => rfl⟩

theorem SourcesPairs.credit {meth : List (ENTROPY_METH ε)} (h : SourcesPairs meth) :
    SourcesCredit meth 12 ∧ SourcesProgress meth ∧ SourcesStore meth := by
  refine ⟨?_, ?_, ?_⟩
  · intro m hm env b
    obtain ⟨h1, h2⟩ := h m hm env b
    refine ⟨fun h0 => (h2 h0).1, ?_⟩
    by_cases hr : (m.func env b).ret = 0
    · rw [(h2 hr).1]; omega
    · exact (h1 hr).2.2.2
  · intro m hm env b hr
    have := (h m hm env b).1 hr
    omega
  · intro m hm env b hr
    obtain ⟨d1, d2, -, -⟩ := (h m hm env b).1 hr
    rw [d1, d2]
    exact ⟨rfl, by decide⟩

/-- C35: for a list of `n ≤ 4` sources whose successful calls store exactly 2
bytes and credit between 4 and 12 bits (failed calls credit nothing and store
at most 2 bytes at the cursor), and a target `bits ≤ 384`, `ENTROPY_generate`
returns, having gathered at most `2 * ((bits - 1) / 4 + n) ≤ 198` bytes; the
8-bit count does not wrap, so the length it reports is the number of bytes
gathered, and nothing is stored from 2 bytes past them on: the draw stays inside
a buffer of 256 bytes and inside the `bits * 32 / 8` bytes that `random_new`
allocates for every registry variant. -/
theorem ENTROPY_generate_pairs_bound (meth : List (ENTROPY_METH ε)) (bits : Nat)
    (data : Mem) (env : ε) (hsrc : SourcesPairs meth) (hn : meth.length ≤ 4)
    (hb1 : 1 ≤ bits) (hb2 : bits ≤ 384) (fuel : Nat) (hf : bits < fuel) :
    ∃ e, ENTROPY_generate fuel meth bits data env = some e ∧
      e.p = bytesOfSuccesses e.passes.flatten ∧
      e.p ≤ 2 * ((bits - 1) / 4 + meth.length) ∧
      2 * ((bits - 1) / 4 + meth.length) ≤ 198 ∧ e.olen = e.p ∧
      (∀ a, e.p + 2 ≤ a → e.data a = data a) ∧ e.p + 2 ≤ 256 ∧
      ∀ (H : HashCap σ) (m : RANDOM_METH σ), m ∈ random_meth H → e.p + 2 ≤ m.bits * 32 / 8 := by
  obtain ⟨hcr, hpr, hst⟩ := hsrc.credit
  obtain ⟨r, hr⟩ := ENTROPY_loop_terminates 12 meth bits hcr (by omega) (by omega) hpr
    fuel { gathered := 1, b := 0, l := 0, p := 0, len := 0, once := 0, data := data,
           env := env } (by simpa using hf)
  obtain ⟨q1, -, q3, q4⟩ := ENTROPY_loop_pairs meth bits hsrc hn hb2 fuel _ r hr rfl
    (Nat.le_refl _) (Nat.zero_le _)
  have hgen : ENTROPY_generate fuel meth bits data env
      = some { ret := if r.1.b ≥ bits then 1 else 0, olen := r.1.l, data := r.1.data,
               env := r.1.env, p := r.1.p, passes := r.2 } := by
    unfold ENTROPY_generate
    rw [hr]
  have hcur := (ENTROPY_generate_cursor meth hst bits data env fuel _ hgen).1
  have hB : 2 * ((bits - 1) / 4 + meth.length) ≤ 198 := by omega
  simp only [] at q3 q4 hcur
  refine ⟨_, hgen, hcur, q1, hB, ?_, fun a ha => q4 a (Or.inr ha), by simp only []; omega, ?_⟩
  · simp only []
    rw [q3 rfl]
    exact Nat.mod_eq_of_lt (by omega)
  · intro H m hm
    simp only []
    rcases (random_meth_engine H m hm).2.2.2.2.1 with hb | hb | hb <;> rw [hb] <;> omega

theorem pairSources : SourcesPairs [goodSource, plainSource] := by
  intro m hm env b
  simp only [List.mem_cons, List.mem_singleton, List.not_mem_nil, or_false] at hm
  rcases hm with rfl | rfl <;> simp [goodSource, plainSource]

/-- Instance of C35: a source of 12 bits and a source of 4 bits per 2 bytes, and
the target 24 bits. -/
theorem ENTROPY_generate_pairs_bound_witness :
    ∃ e, ENTROPY_generate 25 [goodSource, plainSource] 24 (fun _ => 0) () = some e ∧
      e.p = bytesOfSuccesses e.passes.flatten ∧
      e.p ≤ 2 * ((24 - 1) / 4 + [goodSource, plainSource].length) ∧
      2 * ((24 - 1) / 4 + [goodSource, plainSource].length) ≤ 198 ∧ e.olen = e.p ∧
      (∀ a, e.p + 2 ≤ a → e.data a = 0) ∧ e.p + 2 ≤ 256 ∧
      ∀ (H : HashCap Unit) (m : RANDOM_METH Unit), m ∈ random_meth H →
        e.p + 2 ≤ m.bits * 32 / 8 :=
  ENTROPY_generate_pairs_bound [goodSource, plainSource] 24 (fun _ => 0) () pairSources
    (by decide) (by decide) (by decide) 25 (by decide)

/-! ### The number of engine calls of one facade call -/

/-- The loop with its trace returns what the loop returns. -/
theorem RANDOM_generate_trace_fst (F : Nat) (ainput : Option (List Nat)) :
    ∀ (fuel : Nat) (r : RANDOM σ ε) (mem : Mem) (data len olen : Nat) (env : ε),
      (RANDOM_generate_trace F ainput fuel r mem data len olen env).map Prod.fst
        = RANDOM_generate_loop F ainput fuel r mem data len olen env := by
  intro fuel
  induction fuel with
  | zero => intro r mem data len olen env; rfl
  | succ n ih =>
    intro r mem data len olen env
    rw [RANDOM_generate_trace, RANDOM_generate_loop]
    by_cases hlen : len > 0
    · rw [if_pos hlen, if_pos hlen]
      cases hg : r.meth.gen F r.ctx ainput mem data len olen with
      | none => rfl
      | some g =>
        simp only []
        generalize (if g.1 = RANDOM_ERR_RESEED then
          RANDOM_seed F (some { r with ctx := g.2.1 }) none env
          else some (g.1, some { r with ctx := g.2.1 }, env)) = sr
        rcases sr with _ | ⟨ret, _ | r2, env2⟩
        · rfl
        · rfl
        · simp only []
          by_cases hret : ret ≠ 0
          · rw [if_pos hret, if_pos hret]; rfl
          · rw [if_neg hret, if_neg hret, ← ih]
            cases RANDOM_generate_trace F ainput n r2 g.2.2.1 (data + len)
              ((len + 2 ^ 32 - g.2.2.2 % 2 ^ 32) % 2 ^ 32) g.2.2.2 env2 <;> rfl
    · rw [if_neg hlen, if_neg hlen]; rfl

/-- One iteration of the traced loop in which the engine returned 0. -/
theorem RANDOM_generate_trace_step (F : Nat) (ainput : Option (List Nat)) (fuel : Nat)
    (r : RANDOM σ ε) (mem : Mem) (data len olen : Nat) (env : ε) (h' : RANDOM_HASH σ)
    (mem' : Mem) (g : Nat) (hlen : 0 < len)
    (hgen : r.meth.gen F r.ctx ainput mem data len olen = some (0, h', mem', g))
    (y : (Int × RANDOM σ ε × Mem × ε) × List Int)
    (hy : RANDOM_generate_trace F ainput fuel { r with ctx := h' } mem' (data + len)
          ((len + 2 ^ 32 - g % 2 ^ 32) % 2 ^ 32) g env = some y) :
    RANDOM_generate_trace F ainput (fuel + 1) r mem data len olen env
      = some (y.1, 0 :: y.2) := by
  rw [RANDOM_generate_trace, if_pos hlen, hgen]
  have h0 : ¬ ((0 : Int) = RANDOM_ERR_RESEED) := by simp [RANDOM_ERR_RESEED]
  simp only [h0, if_false, ne_eq, not_true_eq_false, hy]

/-- From any point of the loop on, with the hash never failing and the counter
far enough from the reseed limit, every engine call returns 0 and there are
`ceil(len / 65536)` of them. -/
theorem RANDOM_generate_trace_below (H : HashCap σ) (hnf : H.NeverFails) (F : Nat)
    (ainput : Option (List Nat)) :
    ∀ (fuel : Nat) (r : RANDOM σ ε) (mem : Mem) (data len olen : Nat) (env : ε),
      r.meth ∈ random_meth H → 1 ≤ r.ctx.hash_len % 2 ^ 16 → len < 2 ^ 32 →
      min len (2 ^ 16) < F → (len + 65535) / 65536 < fuel →
      r.ctx.reseed_cnt + (len + 65535) / 65536 ≤ 2 ^ 48 →
      ∃ x, RANDOM_generate_trace F ainput fuel r mem data len olen env
          = some (x, List.replicate ((len + 65535) / 65536) 0) ∧ x.1 = 0 := by
  intro fuel
  induction fuel with
  | zero => intro r mem data len olen env _ _ _ _ hk; omega
  | succ n ih =>
    intro r mem data len olen env hm hl hlen hF hkf hc
    by_cases h0 : len = 0
    · subst h0
      rw [RANDOM_generate_trace, if_neg (by omega)]
      exact ⟨_, rfl, rfl⟩
    · have hpos : 0 < len := Nat.pos_of_ne_zero h0
      have hk : (len + 65535) / 65536
          = (len - min len (2 ^ 16) + 65535) / 65536 + 1 := by omega
      obtain ⟨h', mem1, hgen, hcnt, hhl, _, _, _⟩ :=
        RANDOM_HASH_gen_ok H hnf F r.ctx ainput mem data len olen (by omega) hl hF
      have hgen' : r.meth.gen F r.ctx ainput mem data len olen
          = some (0, h', mem1, min len (2 ^ 16)) := by
        rw [(random_meth_engine H r.meth hm).1]; exact hgen
      obtain ⟨x, hres, hx⟩ := ih { r with ctx := h' } mem1 (data + len)
        (len - min len (2 ^ 16)) (min len (2 ^ 16)) env hm (by simp only []; rw [hhl]; exact hl)
        (by omega) (by omega) (by omega) (by simp only []; omega)
      rw [← sub32_of_le len _ (Nat.min_le_left _ _) hlen] at hres
      refine ⟨x, ?_, hx⟩
      rw [RANDOM_generate_trace_step F ainput n r mem data len olen env h' mem1 _ hpos hgen' _
        hres]
      rw [sub32_of_le len _ (Nat.min_le_left _ _) hlen, hk]
      rfl

theorem count_replicate_zero (k : Nat) :
    (List.replicate k (0 : Int)).count 0 = k ∧
      (List.replicate k (0 : Int)).count RANDOM_ERR_RESEED = 0 ∧
      (List.replicate k (0 : Int)).length = k ∧
      ∀ s ∈ List.replicate k (0 : Int), s = 0 ∨ s = RANDOM_ERR_RESEED := by
  refine ⟨List.count_replicate_self _ _, ?_, List.length_replicate _ _, ?_⟩
  · rw [List.count_replicate]; simp [RANDOM_ERR_RESEED]
  · intro s hs
    exact Or.inl (List.eq_of_mem_replicate hs)

/-- The calls of `gen` made by the loop, from any point of the loop on, for a
generator of the registry whose counter is at most 2^48. -/
theorem RANDOM_generate_trace_calls (H : HashCap σ) (hnf : H.NeverFails) (F : Nat)
    (ainput : Option (List Nat)) :
    ∀ (fuel : Nat) (r : RANDOM σ ε) (mem : Mem) (data len olen : Nat) (env : ε)
      (e : EntropyOut ε),
      r.meth ∈ random_meth H → 1 ≤ r.ctx.hash_len % 2 ^ 16 → r.ctx.reseed_cnt ≤ 2 ^ 48 →
      len < 2 ^ 32 → min len (2 ^ 16) < F → r.ctx.seed_len < F →
      (len + 65535) / 65536 + 1 < fuel →
      ENTROPY_generate F r.entropy_src r.meth.bits r.entropy env = some e → e.ret ≠ 0 →
      ∃ x calls, RANDOM_generate_trace F ainput fuel r mem data len olen env
          = some (x, calls) ∧ x.1 = 0 ∧
        calls.length ≤ (len + 65535) / 65536 + 1 ∧ calls.count RANDOM_ERR_RESEED ≤ 1 ∧
        calls.count 0 = (len + 65535) / 65536 ∧
        ∀ s ∈ calls, s = 0 ∨ s = RANDOM_ERR_RESEED := by
  intro fuel
  induction fuel with
  | zero => intro r mem data len olen env e _ _ _ _ _ _ hk; omega
  | succ n ih =>
    intro r mem data len olen env e hm hl hc hlen hF hsl hkf hdraw hok
    by_cases h0 : len = 0
    · subst h0
      rw [RANDOM_generate_trace, if_neg (by omega)]
      exact ⟨_, [], rfl, rfl, by simp, by simp, by simp, by simp⟩
    · have hpos : 0 < len := Nat.pos_of_ne_zero h0
      have hk : (len + 65535) / 65536
          = (len - min len (2 ^ 16) + 65535) / 65536 + 1 := by omega
      have hk2 : (len + 65535) / 65536 ≤ 2 ^ 16 := by omega
      by_cases hlim : r.ctx.reseed_cnt < 2 ^ 48
      · obtain ⟨h', mem1, hgen, hcnt, hhl, hsl', _, _⟩ :=
          RANDOM_HASH_gen_ok H hnf F r.ctx ainput mem data len olen hlim hl hF
        have hgen' : r.meth.gen F r.ctx ainput mem data len olen
            = some (0, h', mem1, min len (2 ^ 16)) := by
          rw [(random_meth_engine H r.meth hm).1]; exact hgen
        obtain ⟨x, calls, hres, hx, c1, c2, c3, c4⟩ := ih { r with ctx := h' } mem1 (data + len)
          (len - min len (2 ^ 16)) (min len (2 ^ 16)) env e hm
          (by simp only []; rw [hhl]; exact hl) (by simp only []; omega) (by omega) (by omega)
          (by simp only []; omega) (by omega) hdraw hok
        rw [← sub32_of_le len _ (Nat.min_le_left _ _) hlen] at hres
        refine ⟨x, 0 :: calls, ?_, hx, ?_, ?_, ?_, ?_⟩
        · exact RANDOM_generate_trace_step F ainput n r mem data len olen env h' mem1 _ hpos
            hgen' _ hres
        · rw [List.length_cons]; omega
        · rw [List.count_cons_of_ne (by simp [RANDOM_ERR_RESEED])]; exact c2
        · rw [List.count_cons_self]; omega
        · intro s hs
          rcases List.mem_cons.mp hs with rfl | hs
          · exact Or.inl rfl
          · exact c4 s hs
      · have hgen1 := RANDOM_HASH_gen_reseed H F r.ctx ainput mem data len olen
          (Nat.le_of_not_lt hlim)
        have hgen1' : r.meth.gen F r.ctx ainput mem data len olen
            = some (RANDOM_ERR_RESEED, r.ctx, mem, 0) := by
          rw [(random_meth_engine H r.meth hm).1]; exact hgen1
        obtain ⟨h2, hseed, hcnt, hhl, _⟩ := RANDOM_seed_ok H hnf r hm hl none env F hsl e
          hdraw hok
        obtain ⟨x, hres, hx⟩ := RANDOM_generate_trace_below H hnf F ainput n
          { r with ctx := h2, entropy := memzero e.data 0 e.olen } mem (data + len) len 0 e.env
          hm (by simp only []; rw [hhl]; exact hl) hlen hF (by omega)
          (by simp only []; rw [hcnt]; omega)
        obtain ⟨k1, k2, k3, k4⟩ := count_replicate_zero ((len + 65535) / 65536)
        refine ⟨x, RANDOM_ERR_RESEED :: List.replicate ((len + 65535) / 65536) 0, ?_, hx,
          ?_, ?_, ?_, ?_⟩
        · rw [RANDOM_generate_trace, if_pos hpos, hgen1']
          simp only [if_true]
          have hr : ({ r with ctx := r.ctx } : RANDOM σ ε) = r := rfl
          rw [hr, hseed]
          simp only [ne_eq, not_true_eq_false, if_false, Nat.mod_self, Nat.zero_mod,
            Nat.sub_zero, Nat.add_mod_right]
          rw [Nat.mod_eq_of_lt hlen, hres]
        · rw [List.length_cons, k3]
        · rw [List.count_cons_self, k2]
        · rw [List.count_cons_of_ne (by simp [RANDOM_ERR_RESEED]), k1]
        · intro s hs
          rcases List.mem_cons.mp hs with rfl | hs
          · exact Or.inr rfl
          · exact k4 s hs

/-- C37: for an instantiated generator of the registry (reseed counter at most
2^48), a request of `len < 2^32` bytes, a hash that never fails and an entropy
draw that succeeds, `RANDOM_generate_with_input` returns, with status 0, after
at most `ceil(len / 65536) + 1` calls of `gen`: `ceil(len / 65536)` of them return
0, at most one returns RESEED_REQUIRED, and none returns anything else. -/
theorem RANDOM_generate_call_bound (H : HashCap σ) (hnf : H.NeverFails) (r : RANDOM σ ε)
    (hm : r.meth ∈ random_meth H) (hl : 1 ≤ r.ctx.hash_len % 2 ^ 16)
    (hc : r.ctx.reseed_cnt ≤ 2 ^ 48) (ainput : Option (List Nat)) (mem : Mem) (data : Nat)
    (hd : data ≠ 0) (len : Nat) (hlen : len < 2 ^ 32) (olen0 : Nat) (env : ε) (fuel : Nat)
    (hf1 : min len (2 ^ 16) < fuel) (hf2 : r.ctx.seed_len < fuel)
    (hf3 : (len + 65535) / 65536 + 1 < fuel) (e : EntropyOut ε)
    (hdraw : ENTROPY_generate fuel r.entropy_src r.meth.bits r.entropy env = some e)
    (hok : e.ret ≠ 0) :
    ∃ x calls, RANDOM_generate_trace fuel ainput fuel r mem data len olen0 env
        = some (x, calls) ∧
      RANDOM_generate_with_input fuel (some r) ainput mem data len olen0 env
        = some (x.1, some x.2.1, x.2.2.1, x.2.2.2) ∧ x.1 = 0 ∧
      calls.length ≤ (len + 65535) / 65536 + 1 ∧ calls.count RANDOM_ERR_RESEED ≤ 1 ∧
      calls.count 0 = (len + 65535) / 65536 ∧
      (∀ s ∈ calls, s = 0 ∨ s = RANDOM_ERR_RESEED) ∧
      (len + 65535) / 65536 * 65536 < len + 65536 ∧ len ≤ (len + 65535) / 65536 * 65536 := by
  obtain ⟨x, calls, hres, hx, c1, c2, c3, c4⟩ := RANDOM_generate_trace_calls H hnf fuel ainput
    fuel r mem data len olen0 env e hm hl hc hlen hf1 hf2 hf3 hdraw hok
  have hloop : RANDOM_generate_loop fuel ainput fuel r mem data len olen0 env = some x := by
    rw [← RANDOM_generate_trace_fst, hres]; rfl
  exact ⟨x, calls, hres, RANDOM_generate_eq_loop fuel r ainput mem data len olen0 env hd x hloop,
    hx, c1, c2, c3, c4, by omega, by omega⟩

/-- Instance of C37: a request of 10 bytes to a generator whose counter is 2^48;
the loop makes two engine calls, the first of which asks for the reseed. -/
theorem RANDOM_generate_call_bound_witness :
    ∃ x calls, RANDOM_generate_trace 100 none 100
        (sampleRandom constHash (2 ^ 48) [goodSource]) (fun _ => 0) 1000 10 0 ()
        = some (x, calls) ∧
      RANDOM_generate_with_input 100 (some (sampleRandom constHash (2 ^ 48) [goodSource]))
        none (fun _ => 0) 1000 10 0 () = some (x.1, some x.2.1, x.2.2.1, x.2.2.2) ∧ x.1 = 0 ∧
      calls.length ≤ (10 + 65535) / 65536 + 1 ∧ calls.count RANDOM_ERR_RESEED ≤ 1 ∧
      calls.count 0 = (10 + 65535) / 65536 ∧
      (∀ s ∈ calls, s = 0 ∨ s = RANDOM_ERR_RESEED) ∧
      (10 + 65535) / 65536 * 65536 < 10 + 65536 ∧ 10 ≤ (10 + 65535) / 65536 * 65536 :=
  RANDOM_generate_call_bound constHash constHash_neverFails
    (sampleRandom constHash (2 ^ 48) [goodSource]) (sampleMeth_mem constHash) (by decide)
    (by decide) none (fun _ => 0) 1000 (by decide) 10 (by decide) 0 () 100
    (by decide) (by decide) (by decide) _ rfl (by decide)

end Properties

end Drbg
